import Mathlib

/-!
# Codex supervisor: a shallow embedding of the coordinator core

The JavaScript sources are embedded function by function.  JavaScript strings are
lists of characters, objects are structures, mutable session state is passed
explicitly, and every call that leaves the program (terminal runtime, clock,
`JSON.parse`, hashing) is a parameter of the embedded function.
-/

namespace CodexSupervisor

/-! ## JavaScript string primitives -/

/-- JavaScript string, as the list of its characters. -/
abbrev Str := List Char

/-- White space and line terminators: the class `\s` of a regular expression, which is
also what `String.prototype.trim` removes. -/
def isJsSpace (c : Char) : Bool :=
  let n := c.toNat
  n == 9 || n == 10 || n == 11 || n == 12 || n == 13 || n == 32 || n == 0xA0 || n == 0x1680
    || (0x2000 ≤ n && n ≤ 0x200A) || n == 0x2028 || n == 0x2029 || n == 0x202F
    || n == 0x205F || n == 0x3000 || n == 0xFEFF

/-- `s.trimStart()`. -/
def trimStart (s : Str) : Str := s.dropWhile isJsSpace

/-- `s.trimEnd()`. -/
def trimEnd (s : Str) : Str := (s.reverse.dropWhile isJsSpace).reverse

/-- `s.trim()`. -/
def trim (s : Str) : Str := trimEnd (trimStart s)

/-- `s.toLowerCase()` on the ASCII letters; every other character is kept as it is.  This
is `String.prototype.toLowerCase` for a text whose letters are ASCII; the mapping with the
Unicode data is `toLowerCaseFull`. -/
def toLowerCase (s : Str) : Str := s.map Char.toLower

/-- The Unicode data that `String.prototype.toLowerCase` reads: the lower-case mapping of
a character (one character or more) and the properties Cased and Case_Ignorable. -/
structure CaseData where
  lower : Char → Str
  cased : Char → Bool
  caseIgnorable : Char → Bool

/-- The condition Final_Sigma of the Unicode special casing, the only one that
`toLowerCase` applies whatever the language: the character is preceded by a cased letter,
with nothing but case-ignorable characters in between, and no cased letter follows it after
case-ignorable characters.  `before` is the text before the character, the nearest
character first. -/
def isFinalSigma (data : CaseData) (before after : Str) : Bool :=
  (match before.dropWhile data.caseIgnorable with
    | c :: _ => data.cased c
    | [] => false)
  && (match after.dropWhile data.caseIgnorable with
    | c :: _ => !data.cased c
    | [] => true)

/-- The loop of `toLowerCaseFull`; `before` is the text already read, the nearest character
first. -/
def toLowerCaseFrom (data : CaseData) : Str → Str → Str
  | _, [] => []
  | before, c :: cs =>
    (if c = 'Σ' ∧ isFinalSigma data before cs = true then ['ς'] else data.lower c)
      ++ toLowerCaseFrom data (c :: before) cs

/-- `s.toLowerCase()`: every character is replaced by its lower-case mapping, except that
a capital sigma in final position becomes the final small sigma. -/
def toLowerCaseFull (data : CaseData) (s : Str) : Str := toLowerCaseFrom data [] s

/-- The loop of `hasFinalSigma`; `before` is the text already read, the nearest character
first. -/
def finalSigmaFrom (data : CaseData) : Str → Str → Bool
  | _, [] => false
  | before, c :: cs =>
    (decide (c = 'Σ') && isFinalSigma data before cs) || finalSigmaFrom data (c :: before) cs

/-- Whether the text holds a capital sigma in final position. -/
def hasFinalSigma (data : CaseData) (s : Str) : Bool := finalSigmaFrom data [] s

/-- `s.length`: the number of UTF-16 code units. -/
def jsLength (s : Str) : Nat := (s.map fun c => if 0x10000 ≤ c.toNat then 2 else 1).sum

/-- Scanner behind `s.replace(/\s+/g, ' ')`; `inWs` tells that the previous character
belonged to the white-space run that has already been replaced. -/
def collapseWsAux : Bool → Str → Str
  | _, [] => []
  | inWs, c :: cs =>
    if isJsSpace c then
      if inWs then collapseWsAux true cs else ' ' :: collapseWsAux true cs
    else c :: collapseWsAux false cs

/-- `s.replace(/\s+/g, ' ')`. -/
def collapseWs (s : Str) : Str := collapseWsAux false s

/-- `s.replace(/\s+/g, '')`. -/
def removeWs (s : Str) : Str := s.filter fun c => !isJsSpace c

/-- Case-insensitive comparison of one text character with one pattern character under
the `i` flag (no `u` flag): both are canonicalised by upper-casing, and a non-ASCII
character is never identified with an ASCII one, so for the patterns of this program
(ASCII letters, blanks, CJK) the test is equality of the ASCII upper-casings. -/
def ciEq (c p : Char) : Bool := c.toUpper == p.toUpper

/-- Whether `pat` matches at the very start of `s`, characters compared with `eq`. -/
def startsWithBy (eq : Char → Char → Bool) : Str → Str → Bool
  | _, [] => true
  | [], _ :: _ => false
  | c :: cs, p :: ps => eq c p && startsWithBy eq cs ps

/-- Whether `pat` occurs somewhere in `s` (`/pat/.test(s)` for a literal pattern). -/
def containsBy (eq : Char → Char → Bool) : Str → Str → Bool
  | [], pat => startsWithBy eq [] pat
  | c :: cs, pat => startsWithBy eq (c :: cs) pat || containsBy eq cs pat

/-- `/pat/.test(s)` for a literal pattern. -/
def contains (s pat : Str) : Bool := containsBy (fun a b => a == b) s pat

/-- `/pat/i.test(s)` for a literal pattern. -/
def containsCI (s pat : Str) : Bool := containsBy ciEq s pat

/-! ## Session data model -/

/-- One terminal-attached executor (`session.workers[i]`). -/
structure Worker where
  workerId : Str
  status : Str
  lastLine : Str
  lastLines : List Str
  deriving DecidableEq, Repr

/-- The planning agent's record (`session.supervisor`). -/
structure Supervisor where
  workerId : Str
  mode : Str
  status : Str
  lastLine : Str
  lastLines : List Str
  /-- the dedup ledger; a missing field is the empty list -/
  processedDispatchKeys : List Str
  deriving DecidableEq, Repr

/-- The record both `setTargetStatus` and `applySupervisorDispatchActions` create when
`session.supervisor` is missing. -/
def defaultSupervisor : Supervisor :=
  { workerId := "supervisor".toList, mode := "supervisor_plan".toList,
    status := "running".toList, lastLine := [], lastLines := [], processedDispatchKeys := [] }

/-- A detected question (`session.approvals[i]`).  Absent string fields are `""`, which
JavaScript treats as falsy exactly like `undefined`. -/
structure Approval where
  id : Str
  sessionId : Str
  workerId : Str
  sourceText : Str
  fingerprint : Str
  kind : Str
  options : List Nat
  status : Str
  createdAt : Str
  resolvedAt : Str
  resolvedChoice : Option Nat
  instruction : Str
  deriving DecidableEq, Repr

/-- A standing suppression (`session.dontAskRules[i]`); an absent `kind` is `""`. -/
structure DontAskRule where
  workerId : Str
  fingerprint : Str
  kind : Str
  createdAt : Str
  deriving DecidableEq, Repr

/-- One entry of `session.autoContinueHistory`. -/
structure AutoContinueEntry where
  workerId : Str
  fingerprint : Str
  kind : Str
  atIso : Str
  deriving DecidableEq, Repr

/-- The two configurable fields of `session.approvalPolicy`; an unset field is `""`. -/
structure ApprovalPolicy where
  supervisorContinueSuggestion : Str
  workerContinueSuggestion : Str
  deriving DecidableEq, Repr

/-- The part of a session record that the coordinator and the approval broker touch. -/
structure Session where
  sessionId : Str
  supervisor : Option Supervisor
  workers : List Worker
  approvals : List Approval
  dontAskRules : List DontAskRule
  approvalPolicy : ApprovalPolicy
  autoContinueHistory : List AutoContinueEntry
  deriving DecidableEq, Repr

/-- Argument of `runtime.sendInput`. -/
structure SendCall where
  sessionId : Str
  targetId : Str
  text : Str
  pressEnter : Bool
  deriving DecidableEq, Repr

/-- Result of `runtime.sendInput`. -/
structure SendResult where
  ok : Bool
  stderr : Str
  error : Str
  deriving DecidableEq, Repr

/-- `a || b` on strings. -/
def strOr (a b : Str) : Str := if a.isEmpty then b else a

/-! ## Coordinator: applying supervisor-issued directives (`session-orchestrator.js`) -/

/-- `normalizeDispatchInstruction(text)`. -/
def normalizeDispatchInstruction (text : Str) : Str := trim (collapseWs text)

/-- The set `exactPlaceholders` of `detectExampleDispatchReason`. -/
def exactPlaceholders : List Str :=
  ["具体执行指令".toList, "新的执行指令".toList, "示例指令".toList, "example instruction".toList,
   "placeholder".toList, "your instruction here".toList, "待填写".toList]

/-- `detectExampleDispatchReason(instruction)`: the reason why an instruction is taken for a
placeholder or an example, `""` when it is not. -/
def detectExampleDispatchReason (instruction : Str) : Str :=
  let clean := trim instruction
  let compact := removeWs clean
  if clean.isEmpty then "空指令".toList
  else if exactPlaceholders.contains (toLowerCase clean) || exactPlaceholders.contains clean then
    "命中占位词".toList
  else if containsCI clean "具体执行指令".toList || containsCI clean "新的执行指令".toList
      || containsCI clean "your instruction here".toList || containsCI clean "placeholder".toList
      || containsCI clean "待填写".toList then
    "命中占位词".toList
  else if containsCI clean "示例".toList || containsCI clean "example".toList
      || containsCI clean "模板".toList || containsCI clean "样例".toList then
    "命中示例语义".toList
  else if decide (jsLength compact ≤ 18) && contains clean "指令".toList then
    "疑似示例短语".toList
  else []

/-- A directive `{ workerId, instruction }`. -/
structure Action where
  workerId : Str
  instruction : Str
  deriving DecidableEq, Repr

/-- `buildDispatchActionKey(action)`. -/
def buildDispatchActionKey (action : Action) : Str :=
  let workerId := toLowerCase (trim action.workerId)
  let instruction := normalizeDispatchInstruction action.instruction
  if workerId.isEmpty || instruction.isEmpty then []
  else workerId ++ "::".toList ++ instruction

/-- `set.add(key)` on an insertion-ordered `Set`, kept as the list of its members. -/
def jsSetAdd (set : List Str) (key : Str) : List Str :=
  if key ∈ set then set else set ++ [key]

/-- `new Set(list)`. -/
def jsSetOfList (list : List Str) : List Str := list.foldl jsSetAdd []

/-- `list.slice(-n)`. -/
def sliceLast {α : Type} (n : Nat) (list : List α) : List α := list.drop (list.length - n)

/-- Payload of the events `supervisor_dispatch_*` / `supervisor-dispatch-*`. -/
structure DispatchEvent where
  type : Str
  workerId : Str
  instruction : Str
  ok : Bool
  reason : Str
  error : Str
  source : Str
  deriving DecidableEq, Repr

/-- `worker = workers.find(item => item.workerId === id); if (worker) worker.status = status`. -/
def setWorkerStatus : List Worker → Str → Str → List Worker
  | [], _, _ => []
  | w :: ws, id, status =>
    if w.workerId = id then { w with status := status } :: ws
    else w :: setWorkerStatus ws id status

/-- The terminal runtime's `sendInput`, as seen by one run of a coordinator function: the
answer may depend on how many inputs the run has sent before. -/
abbrev SendOracle := Nat → SendCall → SendResult

/-- Local variables and effects of the `for` loop of `applySupervisorDispatchActions`. -/
structure DispatchLoop where
  processedSet : List Str
  appliedAny : Bool
  workers : List Worker
  sent : List SendCall
  stored : List DispatchEvent
  pushed : List DispatchEvent
  deriving DecidableEq, Repr

/-- The constant `actionKey` of the loop body of `applySupervisorDispatchActions`: the key
of the directive after its worker id was trimmed and its instruction normalised. -/
def actionKeyOf (action : Action) : Str :=
  buildDispatchActionKey { workerId := trim action.workerId,
                           instruction := normalizeDispatchInstruction action.instruction }

/-- The payload shared by the stored and the pushed event of one directive. -/
def dispatchEvent (type workerId instruction : Str) (ok : Bool) (reason error : Str) :
    DispatchEvent :=
  { type := type, workerId := workerId, instruction := instruction, ok := ok, reason := reason,
    error := error, source := "supervisor-structured-output".toList }

/-- One iteration of the `for (const action of list)` loop. -/
def applyDispatchAction (sendInput : SendOracle) (sessionId : Str) (st : DispatchLoop)
    (action : Action) : DispatchLoop :=
  let workerId := trim action.workerId
  let instruction := normalizeDispatchInstruction action.instruction
  let actionKey := actionKeyOf action
  if workerId.isEmpty || instruction.isEmpty || actionKey.isEmpty then st
  else if actionKey ∈ st.processedSet then st
  else
    let exampleReason := detectExampleDispatchReason instruction
    if !exampleReason.isEmpty then
      { st with
        processedSet := jsSetAdd st.processedSet actionKey
        appliedAny := true
        stored := st.stored ++ [dispatchEvent "supervisor_dispatch_rejected_as_example".toList
          workerId instruction false exampleReason []]
        pushed := st.pushed ++ [dispatchEvent "supervisor-dispatch-rejected-as-example".toList
          workerId instruction false exampleReason []] }
    else
      let call : SendCall :=
        { sessionId := sessionId, targetId := workerId, text := instruction, pressEnter := true }
      let sent := sendInput st.sent.length call
      let ok := sent.ok
      let error := if ok then [] else strOr sent.stderr (strOr sent.error "下发失败".toList)
      { processedSet := jsSetAdd st.processedSet actionKey
        appliedAny := true
        workers := if ok then setWorkerStatus st.workers workerId "running".toList else st.workers
        sent := st.sent ++ [call]
        stored := st.stored ++ [dispatchEvent
          (if ok then "supervisor_dispatch_applied" else "supervisor_dispatch_failed").toList
          workerId instruction ok [] error]
        pushed := st.pushed ++ [dispatchEvent
          (if ok then "supervisor-dispatch-applied" else "supervisor-dispatch-failed").toList
          workerId instruction ok [] error] }

/-- What one call of `applySupervisorDispatchActions` returns and does. -/
structure ApplyResult where
  /-- the return value -/
  changed : Bool
  /-- the session after the call -/
  session : Session
  /-- the `runtime.sendInput` calls, in order -/
  sent : List SendCall
  /-- the `store.appendEvent` calls -/
  stored : List DispatchEvent
  /-- the `pushEvent` calls -/
  pushed : List DispatchEvent
  deriving DecidableEq, Repr

/-- The locals of `applySupervisorDispatchActions` when its loop starts: `processedSet` is
read back from the stored ledger (`String(item || '').trim()`, blanks dropped). -/
def dispatchLoopStart (session : Session) (supervisor : Supervisor) : DispatchLoop :=
  { processedSet :=
      jsSetOfList ((supervisor.processedDispatchKeys.map trim).filter fun k => !k.isEmpty)
    appliedAny := false, workers := session.workers, sent := [], stored := [], pushed := [] }

/-- The end of `applySupervisorDispatchActions`, after the loop: nothing is written back
unless `appliedAny`, else the ledger is stored, cut to its last 360 keys. -/
def dispatchLoopEnd (session : Session) (supervisor : Supervisor) (fin : DispatchLoop) :
    ApplyResult :=
  if !fin.appliedAny then
    { changed := false
      session := { session with supervisor := some supervisor, workers := fin.workers }
      sent := fin.sent, stored := fin.stored, pushed := fin.pushed }
  else
    { changed := true
      session := { session with
        supervisor := some { supervisor with
          processedDispatchKeys := sliceLast 360 fin.processedSet }
        workers := fin.workers }
      sent := fin.sent, stored := fin.stored, pushed := fin.pushed }

/-- `applySupervisorDispatchActions({ session, actions })`. -/
def applySupervisorDispatchActions (sendInput : SendOracle) (session : Session)
    (actions : List Action) : ApplyResult :=
  if actions.length = 0 then
    { changed := false, session := session, sent := [], stored := [], pushed := [] }
  else
    let supervisor := session.supervisor.getD defaultSupervisor
    dispatchLoopEnd session supervisor
      (actions.foldl (applyDispatchAction sendInput session.sessionId)
        (dispatchLoopStart session supervisor))

/-! ## Approval broker (`approval-broker-service.js`) -/

/-- `APPROVAL_REARM_MS`. -/
def APPROVAL_REARM_MS : Int := 90 * 1000

/-- `AUTO_CONTINUE_HISTORY_MAX`. -/
def AUTO_CONTINUE_HISTORY_MAX : Nat := 240

/-- `buildContinueExecutionInstruction()`. -/
def buildContinueExecutionInstruction : Str :=
  "继续执行你刚才提出的下一步，不要停在建议阶段。请直接推进改动或命令，并同步结果与阻塞点。".toList

/-- `list.filter(Boolean).join(' ')` on strings. -/
def joinNonEmpty (parts : List Str) : Str :=
  List.intercalate " ".toList (parts.filter fun p => !p.isEmpty)

/-- `text.slice(0, n)`: the first `n` UTF-16 code units of the text.  A character outside
the Basic Multilingual Plane takes two units; when the cut falls between the two, the
JavaScript string ends with the first of them alone, a lone surrogate, which `Char` cannot
hold: it is written U+FFFD here, as it is when the text is encoded for the terminal. -/
def jsSlice : Nat → Str → Str
  | 0, _ => []
  | _, [] => []
  | n + 1, c :: cs =>
    if 0x10000 ≤ c.toNat then
      match n with
      | 0 => ['\uFFFD']
      | m + 1 => c :: jsSlice m cs
    else c :: jsSlice n cs

/-- `buildSupervisorInstructionForContinueSuggestion({ workerId, instruction, sourceText })`. -/
def buildSupervisorInstructionForContinueSuggestion (workerId instruction sourceText : Str) :
    Str :=
  let cleanWorkerId := trim workerId
  let cleanInstruction := trim instruction
  let cleanSource := jsSlice 240 (trim (collapseWs sourceText))
  joinNonEmpty
    [ "执行窗口 ".toList ++ cleanWorkerId ++ " 当前停在“如需我继续”的建议阶段。".toList,
      if cleanSource.isEmpty then [] else "窗口原话摘要：".toList ++ cleanSource,
      "用户新要求：".toList ++ cleanInstruction,
      "请先判断应直接答复，还是下发给执行窗口。".toList,
      "如果需要下发，必须输出结构化标签；不要只说“已通知”。".toList,
      "<dispatch_json>\x7b\"workerId\":\"".toList ++ cleanWorkerId
        ++ "\",\"instruction\":\"新的执行指令\"\x7d</dispatch_json>".toList ]

/-- `buildSupervisorNoChoiceInstruction({ sourceTargetId, instruction })`. -/
def buildSupervisorNoChoiceInstruction (sourceTargetId instruction : Str) : Str :=
  let cleanInstruction := trim instruction
  joinNonEmpty
    [ "用户拒绝了 ".toList ++ sourceTargetId ++ " 当前执行路径。".toList,
      if cleanInstruction.isEmpty then [] else "用户补充要求：".toList ++ cleanInstruction,
      "请按用户补充要求调整后继续执行，并明确下一步动作。".toList ]

/-- `setTargetStatus(session, targetId, status)`. -/
def setTargetStatus (session : Session) (targetId status : Str) : Session :=
  if targetId = "supervisor".toList then
    let supervisor := session.supervisor.getD defaultSupervisor
    { session with supervisor := some { supervisor with status := status } }
  else
    { session with workers := setWorkerStatus session.workers targetId status }

/-- `appendDontAskRule(session, { workerId, fingerprint, kind })`; `createdAt` is the clock
reading `nowIso`. -/
def appendDontAskRule (nowIso : Str) (session : Session) (workerId fingerprint kind : Str) :
    Session :=
  let rule : DontAskRule :=
    { workerId := workerId, fingerprint := fingerprint, kind := kind, createdAt := nowIso }
  { session with dontAskRules := session.dontAskRules ++ [rule] }

/-- `parseTimestamp(value)`, over the builtin `Date.parse` (`none` is `NaN`). -/
def parseTimestamp (dateParse : Str → Option Int) (value : Str) : Int :=
  match dateParse value with
  | some ts => if ts ≤ 0 then 0 else ts
  | none => 0

/-- `getApprovalRearmMs(kind)`. -/
def getApprovalRearmMs (kind : Str) : Int :=
  if kind = "continue_suggestion".toList then APPROVAL_REARM_MS else APPROVAL_REARM_MS

/-- `getContinueSuggestionPolicy(session, targetId)`. -/
def getContinueSuggestionPolicy (session : Session) (targetId : Str) : Str :=
  if targetId = "supervisor".toList then
    let configured := trim session.approvalPolicy.supervisorContinueSuggestion
    if !configured.isEmpty then configured else "auto_continue".toList
  else
    let configured := trim session.approvalPolicy.workerContinueSuggestion
    if !configured.isEmpty then configured else "queue".toList

/-- `recordAutoContinueHistory(session, { workerId, fingerprint, kind })`. -/
def recordAutoContinueHistory (nowIso : Str) (session : Session)
    (workerId fingerprint kind : Str) : Session :=
  let entry : AutoContinueEntry :=
    { workerId := workerId, fingerprint := fingerprint, kind := kind, atIso := nowIso }
  { session with
    autoContinueHistory :=
      sliceLast AUTO_CONTINUE_HISTORY_MAX (session.autoContinueHistory ++ [entry]) }

/-- `a.resolvedAt || a.createdAt`, parsed. -/
def approvalTimestamp (dateParse : Str → Option Int) (a : Approval) : Int :=
  parseTimestamp dateParse (strOr a.resolvedAt a.createdAt)

/-- The test of both `historyList.some(...)` calls of `hasRecentlyHandledSameApproval`. -/
def historyHasRecent (dateParse : Str → Option Int) (now : Int) (rearmMs : Int)
    (session : Session) (workerId fingerprint kind : Str) : Bool :=
  session.autoContinueHistory.any fun item =>
    decide (item.workerId = workerId) && decide (item.fingerprint = fingerprint)
      && decide (item.kind = kind) && decide (now - parseTimestamp dateParse item.atIso < rearmMs)

/-- `hasRecentlyHandledSameApproval({ session, workerId, fingerprint, kind })`; `now` is the
value of `Date.now()`.  The stable sort that puts the greatest timestamp first is an
insertion sort. -/
def hasRecentlyHandledSameApproval (dateParse : Str → Option Int) (now : Int)
    (session : Session) (workerId fingerprint kind : Str) : Bool :=
  let rearmMs := getApprovalRearmMs kind
  if rearmMs ≤ 0 then false
  else
    let matching := session.approvals.filter fun item =>
      decide (item.workerId = workerId) && decide (item.fingerprint = fingerprint)
        && decide (item.kind = kind) && decide (item.status = "resolved".toList)
    let sorted := matching.insertionSort
      fun a b => approvalTimestamp dateParse b ≤ approvalTimestamp dateParse a
    match sorted.head? with
    | none => false
    | some latest =>
      let latestTs := approvalTimestamp dateParse latest
      if latestTs = 0 then
        historyHasRecent dateParse now rearmMs session workerId fingerprint kind
      else if now - latestTs < rearmMs then true
      else historyHasRecent dateParse now rearmMs session workerId fingerprint kind

/-- Result of `runtime.readRecentLines`. -/
structure Capture where
  ok : Bool
  lines : List Str
  lastLine : Str
  deriving DecidableEq, Repr

/-- Result of `detectApprovalPrompt`. -/
structure Detection where
  hit : Bool
  kind : Str
  promptText : Str
  fingerprint : Str
  options : List Nat
  deriving DecidableEq, Repr

/-- Result of `plannerService.requestReplanForNoChoice` and the `replan` value of `resolve`. -/
structure Replan where
  ok : Bool
  mode : Str
  dispatch : Action
  error : Str
  deriving DecidableEq, Repr

/-- Payload of the events the broker stores (`store.appendEvent`) and emits (`onEvent`);
fields an event does not carry are left at their default. -/
structure BrokerEvent where
  type : Str
  workerId : Str
  fingerprint : Str := []
  kind : Str := []
  policy : Str := []
  ok : Bool := false
  error : Str := []
  count : Nat := 0
  approvalIds : List Str := []
  source : Str := []
  approval : Option Approval := none
  approvalId : Str := []
  choice : Nat := 0
  instruction : Str := []
  replan : Option Replan := none
  deriving DecidableEq, Repr

/-- Everything outside the broker that one call of it consults.  `dateNow i` is the clock
during the `i`-th step of the call (step 0 is the sweep of `scanAndQueue`, step `i + 1`
its `i`-th target; `resolve` has the single step 0); `uuidv4 n` is the id drawn when the
session holds `n` approvals; `sendInput n` answers the `n`-th input of the call. -/
structure BrokerEnv where
  readRecentLines : Str → Capture
  detectApprovalPrompt : List Str → Detection
  sendInput : SendOracle
  dateNow : Nat → Int
  dateParse : Str → Option Int
  toISOString : Int → Str
  uuidv4 : Nat → Str
  requestReplanForNoChoice : Str → Str → Replan

/-- State of one call of the broker: the session and the effects so far. -/
structure BrokerState where
  session : Session
  changed : Bool
  sent : List SendCall
  stored : List BrokerEvent
  emitted : List BrokerEvent
  replanCalls : List (Str × Str)
  deriving DecidableEq, Repr

/-- The state in which a call of the broker starts. -/
def brokerStart (session : Session) : BrokerState :=
  { session := session, changed := false, sent := [], stored := [], emitted := [],
    replanCalls := [] }

/-- `this.runtime.sendInput({ sessionId, targetId, text, pressEnter: true })`, logged. -/
def brokerSend (env : BrokerEnv) (st : BrokerState) (targetId text : Str) :
    SendResult × BrokerState :=
  let call : SendCall :=
    { sessionId := st.session.sessionId, targetId := targetId, text := text, pressEnter := true }
  (env.sendInput st.sent.length call, { st with sent := st.sent ++ [call] })

/-- `store.appendEvent` with `stored`, then `onEvent` with `emitted`. -/
def brokerEmit (st : BrokerState) (stored emitted : BrokerEvent) : BrokerState :=
  { st with stored := st.stored ++ [stored], emitted := st.emitted ++ [emitted] }

/-- One entry of the `targets` array of `scanAndQueue`: the target id and, for a worker, its
position in `session.workers` (the object `updateCapture` writes to). -/
structure TargetRef where
  targetId : Str
  slot : Option Nat
  deriving DecidableEq, Repr

/-- Worker entries of `targets`, positions counted from `i`. -/
def workerTargets : Nat → List Worker → List TargetRef
  | _, [] => []
  | i, w :: ws => { targetId := w.workerId, slot := some i } :: workerTargets (i + 1) ws

/-- The `targets` array of `scanAndQueue`: the supervisor, then every worker. -/
def scanTargets (session : Session) : List TargetRef :=
  { targetId := "supervisor".toList, slot := none } :: workerTargets 0 session.workers

/-- `worker.lastLines = lines; worker.lastLine = lastLine` on the worker at position `i`. -/
def setWorkerCapture : List Worker → Nat → List Str → Str → List Worker
  | [], _, _, _ => []
  | w :: ws, 0, lines, lastLine => { w with lastLines := lines, lastLine := lastLine } :: ws
  | w :: ws, i + 1, lines, lastLine => w :: setWorkerCapture ws i lines lastLine

/-- `target.updateCapture({ lines, lastLine })`. -/
def updateCapture (session : Session) (slot : Option Nat) (lines : List Str) (lastLine : Str) :
    Session :=
  match slot with
  | none =>
    let supervisor := session.supervisor.getD defaultSupervisor
    { session with
      supervisor := some { supervisor with lastLines := lines, lastLine := lastLine } }
  | some i => { session with workers := setWorkerCapture session.workers i lines lastLine }

/-- The test of `pendingSame`: a pending approval of the same target, fingerprint and kind. -/
def isPendingSame (targetId fingerprint kind : Str) (item : Approval) : Bool :=
  decide (item.status = "pending".toList) && decide (item.workerId = targetId)
    && decide (item.fingerprint = fingerprint) && decide (item.kind = kind)

/-- The test of `matchedRule`. -/
def ruleMatches (targetId fingerprint kind : Str) (rule : DontAskRule) : Bool :=
  decide (rule.workerId = targetId) && decide (rule.fingerprint = fingerprint)
    && (rule.kind.isEmpty || decide (rule.kind = kind))

/-- The `error` field of the auto-continue events:
`ok ? '' : (result.stderr || result.error || '自动继续发送失败')`. -/
def autoContinueError (result : SendResult) : Str :=
  if result.ok then [] else strOr result.stderr (strOr result.error "自动继续发送失败".toList)

/-- The approval record `scanAndQueue` creates. -/
def newApproval (env : BrokerEnv) (now : Int) (session : Session) (targetId : Str)
    (detection : Detection) : Approval :=
  { id := env.uuidv4 session.approvals.length
    sessionId := session.sessionId
    workerId := targetId
    sourceText := detection.promptText
    fingerprint := detection.fingerprint
    kind := detection.kind
    options := detection.options
    status := "pending".toList
    createdAt := env.toISOString now
    resolvedAt := []
    resolvedChoice := none
    instruction := [] }

/-- The auto-continue branch of the loop body (policy `auto_continue`). -/
def scanAutoContinue (env : BrokerEnv) (now : Int) (st : BrokerState) (targetId : Str)
    (detection : Detection) (continuePolicy : Str) : BrokerState :=
  let r := brokerSend env st targetId buildContinueExecutionInstruction
  let ok := r.1.ok
  let session :=
    if ok then
      recordAutoContinueHistory (env.toISOString now)
        (setTargetStatus r.2.session targetId "running".toList)
        targetId detection.fingerprint detection.kind
    else r.2.session
  let event (type : Str) : BrokerEvent :=
    { type := type, workerId := targetId, fingerprint := detection.fingerprint,
      kind := detection.kind, policy := continuePolicy, ok := ok,
      error := autoContinueError r.1 }
  { brokerEmit { r.2 with session := session }
      (event (if ok then "approval_auto_continued" else "approval_auto_continue_failed").toList)
      (event (if ok then "approval-auto-continued" else "approval-auto-continue-failed").toList)
    with changed := true }

/-- The branch of the loop body taken when a `DontAskRule` matches. -/
def scanAutoResolve (env : BrokerEnv) (st : BrokerState) (targetId : Str)
    (detection : Detection) : BrokerState :=
  let autoInstruction :=
    if detection.kind = "continue_suggestion".toList then buildContinueExecutionInstruction
    else "2".toList
  let r := brokerSend env st targetId autoInstruction
  let event (type : Str) : BrokerEvent :=
    { type := type, workerId := targetId, fingerprint := detection.fingerprint,
      kind := detection.kind, ok := r.1.ok }
  brokerEmit r.2 (event "approval_auto_resolved".toList) (event "approval-auto-resolved".toList)

/-- The last branch of the loop body: a new pending approval is queued. -/
def scanCreateApproval (env : BrokerEnv) (now : Int) (st : BrokerState) (targetId : Str)
    (detection : Detection) : BrokerState :=
  let approval := newApproval env now st.session targetId detection
  let pushed := { st.session with approvals := st.session.approvals ++ [approval] }
  let session := setTargetStatus pushed targetId "waiting_user_input".toList
  let event (type : Str) : BrokerEvent :=
    { type := type, workerId := targetId, approval := some approval }
  { brokerEmit { st with session := session }
      (event "approval_created".toList) (event "approval-created".toList)
    with changed := true }

/-- `lines` of the loop body: `capture.ok ? capture.lines : []`. -/
def capturedLines (env : BrokerEnv) (targetId : Str) : List Str :=
  if (env.readRecentLines targetId).ok then (env.readRecentLines targetId).lines else []

/-- `lastLine` of the loop body: `capture.ok ? capture.lastLine : ''`. -/
def capturedLastLine (env : BrokerEnv) (targetId : Str) : Str :=
  if (env.readRecentLines targetId).ok then (env.readRecentLines targetId).lastLine else []

/-- `detection` of the loop body. -/
def detectionOf (env : BrokerEnv) (targetId : Str) : Detection :=
  env.detectApprovalPrompt (capturedLines env targetId)

/-- The state after `target.updateCapture({ lines, lastLine })`. -/
def afterCapture (env : BrokerEnv) (st : BrokerState) (target : TargetRef) : BrokerState :=
  { st with
    session := updateCapture st.session target.slot (capturedLines env target.targetId)
      (capturedLastLine env target.targetId) }

/-- The body of the loop `for (const target of targets)` of `scanAndQueue`; `now` is the
clock during this iteration. -/
def scanTarget (env : BrokerEnv) (now : Int) (st0 : BrokerState) (target : TargetRef) :
    BrokerState :=
  let st := afterCapture env st0 target
  let detection := detectionOf env target.targetId
  if !detection.hit then st
  else
    let continuePolicy :=
      if detection.kind = "continue_suggestion".toList then
        getContinueSuggestionPolicy st.session target.targetId
      else "queue".toList
    if st.session.approvals.any
        (isPendingSame target.targetId detection.fingerprint detection.kind) then st
    else if hasRecentlyHandledSameApproval env.dateParse now st.session target.targetId
        detection.fingerprint detection.kind then st
    else if detection.kind = "continue_suggestion".toList
        ∧ continuePolicy = "auto_continue".toList then
      scanAutoContinue env now st target.targetId detection continuePolicy
    else if st.session.dontAskRules.any
        (ruleMatches target.targetId detection.fingerprint detection.kind) then
      scanAutoResolve env st target.targetId detection
    else scanCreateApproval env now st target.targetId detection

/-- The test that selects `pendingList` in `autoContinuePendingSupervisorSuggestions`. -/
def isPendingSupervisorSuggestion (item : Approval) : Bool :=
  decide (item.status = "pending".toList) && decide (item.workerId = "supervisor".toList)
    && decide (item.kind = "continue_suggestion".toList)

/-- What the sweep writes into one item of `pendingList`. -/
def autoResolved (resolvedAt : Str) (item : Approval) : Approval :=
  { item with status := "resolved".toList, resolvedAt := resolvedAt, resolvedChoice := some 1,
              instruction := [] }

/-- The history entries the sweep records, one for each item of `pendingList`. -/
def recordSwept (resolvedAt : Str) : List Approval → Session → Session
  | [], s => s
  | item :: rest, s =>
    recordSwept resolvedAt rest
      (recordAutoContinueHistory resolvedAt s "supervisor".toList item.fingerprint item.kind)

/-- The successful end of the sweep: every item of `pendingList` is marked resolved with
choice 1 and recorded in the history, and the supervisor is set to `running`. -/
def sweepResolve (resolvedAt : Str) (session : Session) (pendingList : List Approval) :
    Session :=
  let marked := { session with
    approvals := session.approvals.map fun item =>
      if isPendingSupervisorSuggestion item then autoResolved resolvedAt item else item }
  setTargetStatus (recordSwept resolvedAt pendingList marked) "supervisor".toList
    "running".toList

/-- `autoContinuePendingSupervisorSuggestions({ session })`: the return value and the state
after it; `now` is the clock during the sweep. -/
def autoContinuePendingSupervisorSuggestions (env : BrokerEnv) (now : Int) (st : BrokerState) :
    Bool × BrokerState :=
  let pendingList := st.session.approvals.filter isPendingSupervisorSuggestion
  if pendingList.length = 0 then (false, st)
  else
    let continuePolicy := getContinueSuggestionPolicy st.session "supervisor".toList
    if continuePolicy ≠ "auto_continue".toList then (false, st)
    else
      let r := brokerSend env st "supervisor".toList buildContinueExecutionInstruction
      let event (type : Str) (ok : Bool) (error : Str) : BrokerEvent :=
        { type := type, workerId := "supervisor".toList, count := pendingList.length,
          approvalIds := pendingList.map fun item => item.id, policy := continuePolicy,
          ok := ok, error := error, source := "pending-recovery".toList }
      if !r.1.ok then
        let error := strOr r.1.stderr (strOr r.1.error "自动继续发送失败".toList)
        (false, brokerEmit r.2 (event "approval_auto_continue_failed".toList false error)
          (event "approval-auto-continue-failed".toList false error))
      else
        let session := sweepResolve (env.toISOString now) r.2.session pendingList
        (true, brokerEmit { r.2 with session := session }
          (event "approval_auto_continued".toList true [])
          (event "approval-auto-continued".toList true []))

/-- The loop `for (const target of targets)`; `i` counts the iterations for the clock. -/
def scanLoop (env : BrokerEnv) : Nat → BrokerState → List TargetRef → BrokerState
  | _, st, [] => st
  | i, st, t :: ts => scanLoop env (i + 1) (scanTarget env (env.dateNow (i + 1)) st t) ts

/-- `scanAndQueue({ session })`: the session and effects after the call; the return value
is the field `changed`. -/
def scanAndQueue (env : BrokerEnv) (session : Session) : BrokerState :=
  let swept := autoContinuePendingSupervisorSuggestions env (env.dateNow 0) (brokerStart session)
  let st := { swept.2 with changed := swept.1 }
  scanLoop env 0 st (scanTargets st.session)

/-- `String(n)` for a natural number. -/
def natToStr (n : Nat) : Str := Nat.toDigits 10 n

/-- What `resolve` returns (`ok`, `error`, `replan`) and the state after it. -/
structure ResolveResult where
  ok : Bool
  error : Str
  replan : Option Replan
  state : BrokerState
  deriving DecidableEq, Repr

/-- `targetExists` of `resolve`. -/
def targetExists (session : Session) (workerId : Str) : Bool :=
  if workerId = "supervisor".toList then session.supervisor.isSome
  else session.workers.any fun item => decide (item.workerId = workerId)

/-- The first input `resolve` sends (`finalApplyResult`); for a continue suggestion and a
choice other than 1, 2 or 3 nothing is sent and the preset failure stays. -/
def resolveApply (env : BrokerEnv) (st : BrokerState) (approval : Approval) (choice : Nat)
    (instruction : Str) : SendResult × BrokerState :=
  if approval.kind = "continue_suggestion".toList then
    let continueChoiceText :=
      if choice = 2 then
        buildContinueExecutionInstruction ++ " 后续同类确认将自动继续执行。".toList
      else buildContinueExecutionInstruction
    if choice = 1 ∨ choice = 2 then brokerSend env st approval.workerId continueChoiceText
    else if choice = 3 then
      brokerSend env st "supervisor".toList
        (buildSupervisorInstructionForContinueSuggestion approval.workerId instruction
          approval.sourceText)
    else ({ ok := false, stderr := "发送确认结果失败".toList, error := [] }, st)
  else brokerSend env st approval.workerId (natToStr choice)

/-- The block `if (choice === 3) { ... }` of `resolve`: the value of `replan` and the state. -/
def resolveReplan (env : BrokerEnv) (st : BrokerState) (approval : Approval)
    (instruction : Str) : Replan × BrokerState :=
  if approval.kind ≠ "continue_suggestion".toList then
    if approval.workerId = "supervisor".toList then
      let r := brokerSend env st "supervisor".toList
        (buildSupervisorNoChoiceInstruction approval.workerId instruction)
      ({ ok := r.1.ok, mode := "supervisor_direct_instruction".toList,
         dispatch := { workerId := "supervisor".toList, instruction := trim instruction },
         error := if r.1.ok then [] else strOr r.1.stderr (strOr r.1.error "发送失败".toList) },
       r.2)
    else
      let replan := env.requestReplanForNoChoice approval.workerId (trim instruction)
      let called := { st with
        replanCalls := st.replanCalls ++ [(approval.workerId, trim instruction)] }
      if replan.ok then
        (replan, (brokerSend env called replan.dispatch.workerId replan.dispatch.instruction).2)
      else (replan, called)
  else
    ({ ok := true, mode := "supervisor_manual_dispatch".toList,
       dispatch := { workerId := approval.workerId, instruction := trim instruction },
       error := [] }, st)

/-- The fields `resolve` writes into the approval object it found. -/
def resolvedCopy (resolvedAt : Str) (choice : Nat) (instruction : Str) (a : Approval) :
    Approval :=
  { a with status := "resolved".toList, resolvedAt := resolvedAt,
           resolvedChoice := some choice, instruction := trim instruction }

/-- The mutation of the approval object found by `resolve` (the first one with the id). -/
def markResolved (resolvedAt : Str) (choice : Nat) (instruction : Str) :
    List Approval → Str → List Approval
  | [], _ => []
  | a :: rest, id =>
    if a.id = id then resolvedCopy resolvedAt choice instruction a :: rest
    else a :: markResolved resolvedAt choice instruction rest id

/-- A failing return of `resolve`. -/
def resolveFail (st : BrokerState) (error : Str) : ResolveResult :=
  { ok := false, error := error, replan := none, state := st }

/-- The state of `resolve` after `if (choice === 2) appendDontAskRule(...)`. -/
def resolveRule (env : BrokerEnv) (st : BrokerState) (approval : Approval) (choice : Nat) :
    BrokerState :=
  if choice = 2 then
    { st with
      session := appendDontAskRule (env.toISOString (env.dateNow 0)) st.session
        approval.workerId approval.fingerprint approval.kind }
  else st

/-- The value of `replan` and the state of `resolve` after the block `if (choice === 3)`. -/
def resolvePlanned (env : BrokerEnv) (st : BrokerState) (approval : Approval) (choice : Nat)
    (instruction : Str) : Option Replan × BrokerState :=
  if choice = 3 then
    (some (resolveReplan env st approval instruction).1,
      (resolveReplan env st approval instruction).2)
  else (none, st)

/-- The part of `resolve` that follows a successful first send: rule, re-plan, mutation of
the approval, status of the target, events and the successful return. -/
def resolveCommit (env : BrokerEnv) (applied : BrokerState) (approval : Approval)
    (approvalId : Str) (choice : Nat) (instruction : Str) : ResolveResult :=
  let nowIso := env.toISOString (env.dateNow 0)
  let planned := resolvePlanned env (resolveRule env applied approval choice) approval choice
    instruction
  let st2 := planned.2
  let marked := { st2.session with
    approvals := markResolved nowIso choice instruction st2.session.approvals approvalId }
  let session := setTargetStatus marked approval.workerId "running".toList
  let event (type : Str) : BrokerEvent :=
    { type := type, workerId := approval.workerId, approvalId := approvalId,
      choice := choice, instruction := trim instruction, replan := planned.1 }
  { ok := true, error := [], replan := planned.1
    state := brokerEmit { st2 with session := session }
      (event "approval_resolved".toList) (event "approval-resolved".toList) }

/-- `resolve({ session, approvalId, choice, instruction })`, the choice being a natural
number. -/
def resolve (env : BrokerEnv) (session : Session) (approvalId : Str) (choice : Nat)
    (instruction : Str) : ResolveResult :=
  let st0 := brokerStart session
  match session.approvals.find? fun item => decide (item.id = approvalId) with
  | none => resolveFail st0 "待处理项不存在".toList
  | some approval =>
    if approval.status ≠ "pending".toList then resolveFail st0 "该待处理项已处理".toList
    else if choice = 3 ∧ (trim instruction).isEmpty then
      resolveFail st0 "选择 3 时必须填写替代指令".toList
    else if !targetExists session approval.workerId then
      resolveFail st0 ("关联窗口不存在: ".toList ++ approval.workerId)
    else
      let applied := resolveApply env st0 approval choice instruction
      if !applied.1.ok then
        resolveFail applied.2 (strOr applied.1.stderr "发送确认结果失败".toList)
      else resolveCommit env applied.2 approval approvalId choice instruction

/-! ## Properties of sessions that the claims speak about -/

/-- The (target id, fingerprint, kind) triples of the pending approvals, in order. -/
def pendingTriples (approvals : List Approval) : List (Str × Str × Str) :=
  (approvals.filter fun a => decide (a.status = "pending".toList)).map
    fun a => (a.workerId, a.fingerprint, a.kind)

/-- The invariant of the data model: no two pending approvals share the same
(target id, fingerprint, kind). -/
def PendingUnique (session : Session) : Prop := (pendingTriples session.approvals).Nodup

instance (session : Session) : Decidable (PendingUnique session) := by
  unfold PendingUnique
  infer_instance

/-- The prompt that target `t` shows, if any, is unresolved: a pending approval of that
target with the prompt's fingerprint and kind is in the session. -/
def promptUnresolved (env : BrokerEnv) (session : Session) (t : TargetRef) : Bool :=
  !(detectionOf env t.targetId).hit
    || session.approvals.any (isPendingSame t.targetId (detectionOf env t.targetId).fingerprint
        (detectionOf env t.targetId).kind)

/-- Either `promptUnresolved`, or the prompt is a continue suggestion of the supervisor
under the policy `auto_continue`, which the loop body never queues. -/
def promptCovered (env : BrokerEnv) (session : Session) (t : TargetRef) : Bool :=
  promptUnresolved env session t
    || (decide (t.targetId = "supervisor".toList)
        && decide ((detectionOf env t.targetId).kind = "continue_suggestion".toList)
        && decide (getContinueSuggestionPolicy session "supervisor".toList
            = "auto_continue".toList))

/-- The input by which the broker tells `targetId` to keep going:
`{ sessionId, targetId, text: buildContinueExecutionInstruction(), pressEnter: true }`. -/
def continueCall (sessionId targetId : Str) : SendCall :=
  { sessionId := sessionId, targetId := targetId, text := buildContinueExecutionInstruction,
    pressEnter := true }


/-! ## Structured payloads (`src/shared/parsers.js`) -/

/-- A value produced by `JSON.parse`.  A number without fraction is `num` and holds the
value of the double, any other number is `real` and carries the text that `String(value)`
gives for it.  The fields of an object stand in the enumeration order of its properties,
each key once. -/
inductive Json where
  | null
  | bool (b : Bool)
  | num (n : Int)
  | real (text : Str)
  | str (s : Str)
  | arr (items : List Json)
  | obj (fields : List (Str × Json))
  deriving Repr, Inhabited

mutual
/-- Structural equality of two parsed values: they have the same `JSON.stringify` text. -/
def Json.beq : Json → Json → Bool
  | .null, .null => true
  | .bool a, .bool b => a == b
  | .num a, .num b => a == b
  | .real a, .real b => a == b
  | .str a, .str b => a == b
  | .arr a, .arr b => Json.beqList a b
  | .obj a, .obj b => Json.beqFields a b
  | _, _ => false
/-- Equality of two arrays. -/
def Json.beqList : List Json → List Json → Bool
  | [], [] => true
  | a :: as, b :: bs => Json.beq a b && Json.beqList as bs
  | _, _ => false
/-- Equality of two property lists. -/
def Json.beqFields : List (Str × Json) → List (Str × Json) → Bool
  | [], [] => true
  | (k, a) :: as, (l, b) :: bs => k == l && Json.beq a b && Json.beqFields as bs
  | _, _ => false
end

/-- The builtins the parsers call: `JSON.parse` (`none` when it throws) and `Number(text)`
on a string (`some n` when the result is the positive integer `n`, `none` otherwise). -/
structure ParserEnv where
  jsonParse : Str → Option Json
  numberOfString : Str → Option Nat

/-- The double nearest to the natural number `n`, ties going to the even significand, and
`none` when that is `Infinity` (it has more than 1024 binary digits): the value of
`Number(text)` for a text of decimal digits that write `n`.  Below `2^53` every natural
number is a double. -/
def toDouble (n : Nat) : Option Nat :=
  if n < 2 ^ 53 then some n
  else
    let unit := 2 ^ ((Nat.toDigits 2 n).length - 53)
    let q := n / unit
    let r := n % unit
    let rounded := if unit < 2 * r ∨ (2 * r = unit ∧ q % 2 = 1) then (q + 1) * unit else q * unit
    if 1024 < (Nat.toDigits 2 rounded).length then none else some rounded

/-- The decimal with `k` significant digits that is nearest to the double `x` among those
that `Number` reads back as `x`, if there is one; `len` is the number of digits of `x`. -/
def roundTrip (x len k : Nat) : Option Nat :=
  let unit := 10 ^ (len - k)
  let lo := x / unit * unit
  let hi := lo + unit
  let okLo := toDouble lo == some x
  let okHi := toDouble hi == some x
  if okLo && okHi then
    if x - lo < hi - x then some lo
    else if hi - x < x - lo then some hi
    else if lo / unit % 2 = 0 then some lo else some hi
  else if okLo then some lo
  else if okHi then some hi
  else none

/-- The decimal with the fewest significant digits that `Number` reads back as the double
`x` (it gives the digits `s` and the exponent `n` of `Number::toString`). -/
def shortestDecimal (x : Nat) : Nat :=
  ((List.range (natToStr x).length).findSome? fun i =>
    roundTrip x (natToStr x).length (i + 1)).getD x

/-- A digit string without the zeros that end it. -/
def dropTrailingZeros (digits : Str) : Str :=
  (digits.reverse.dropWhile fun c => c == '0').reverse

/-- `String(x)` for a double `x` that is a natural number: its decimal digits below `2^53`;
from there on the shortest decimal that reads back as `x`, written in full when it has at
most 21 digits and with an exponent otherwise (`1e+21`). -/
def numberToString (x : Nat) : Str :=
  if x < 2 ^ 53 then natToStr x
  else
    let digits := natToStr (shortestDecimal x)
    if digits.length ≤ 21 then digits
    else
      match dropTrailingZeros digits with
      | [] => digits
      | [d] => d :: 'e' :: '+' :: natToStr (digits.length - 1)
      | d :: more => d :: '.' :: more ++ 'e' :: '+' :: natToStr (digits.length - 1)

/-- `String(n)` for a double that is an integer. -/
def intToStr (n : Int) : Str :=
  if n < 0 then '-' :: numberToString n.natAbs else numberToString n.toNat

/-- Truthiness of a value (`undefined` is `none`). -/
def truthy : Option Json → Bool
  | none => false
  | some .null => false
  | some (.bool b) => b
  | some (.num n) => n != 0
  | some (.real _) => true
  | some (.str s) => !s.isEmpty
  | some (.arr _) => true
  | some (.obj _) => true

mutual
/-- `String(v)`. -/
def Json.toJsString : Json → Str
  | .null => "null".toList
  | .bool b => if b then "true".toList else "false".toList
  | .num n => intToStr n
  | .real text => text
  | .str s => s
  | .arr items => Json.joinItems items
  | .obj _ => "[object Object]".toList
/-- `items.join(',')`, in which `null` gives the empty string. -/
def Json.joinItems : List Json → Str
  | [] => []
  | [.null] => []
  | [a] => Json.toJsString a
  | .null :: rest => ',' :: Json.joinItems rest
  | a :: rest => Json.toJsString a ++ ',' :: Json.joinItems rest
end

/-- `payload && typeof payload === 'object'`. -/
def isObject : Option Json → Bool
  | some (.arr _) => true
  | some (.obj _) => true
  | _ => false

/-- `Array.isArray(v)`. -/
def isArray : Option Json → Bool
  | some (.arr _) => true
  | _ => false

/-- Property access `v.key` on a parsed value (`undefined` is `none`); the keys read by the
parsers are not properties of arrays. -/
def Json.field (v : Json) (key : String) : Option Json :=
  match v with
  | .obj fields => fields.lookup key.toList
  | _ => none

/-- The chain `a || b || ... || ''`: the first truthy operand, `none` standing for `''`. -/
def firstTruthy (operands : List (Option Json)) : Option Json :=
  (operands.find? truthy).join

/-- `String(a || b || ... || '')`. -/
def stringOfFirstTruthy (operands : List (Option Json)) : Str :=
  match firstTruthy operands with
  | some v => v.toJsString
  | none => []

/-- The chain `a ?? b ?? ...`: the first operand that is neither `undefined` nor `null`. -/
def firstDefined : List (Option Json) → Option Json
  | [] => none
  | none :: rest => firstDefined rest
  | some .null :: rest => firstDefined rest
  | some v :: _ => some v

/-- `pickFirstArray(list)`. -/
def pickFirstArray : List (Option Json) → Option (List Json)
  | [] => none
  | some (.arr items) :: _ => some items
  | _ :: rest => pickFirstArray rest

/-- `looksLikePlan(payload)`. -/
def looksLikePlan (payload : Json) : Bool :=
  (pickFirstArray [payload.field "tasks", payload.field "subtasks", payload.field "items",
    payload.field "workers"]).isSome

/-- The text matched by `/(\d+)$/`: the longest run of digits that ends the string. -/
def digitSuffix (text : Str) : Str := (text.reverse.takeWhile Char.isDigit).reverse

/-- The natural number that a string of decimal digits writes. -/
def digitsValue (digits : Str) : Nat := digits.foldl (fun n c => 10 * n + (c.toNat - 48)) 0

/-- `Number(digits)` for a string of decimal digits when it passes the test
`Number.isInteger(number) && number > 0`: the double nearest to the number written, unless
that is 0 or `Infinity`. -/
def positiveNumber (digits : Str) : Option Nat :=
  match toDouble (digitsValue digits) with
  | some number => if 0 < number then some number else none
  | none => none

/-- `parseWorkerIndex(value, fallback)`; `none` is `NaN`. -/
def parseWorkerIndex (env : ParserEnv) (value : Option Json) (fallback : Option Nat) :
    Option Nat :=
  match value with
  | some (.num n) => if 0 < n then some n.toNat else parseText (intToStr n)
  | some .null => fallback
  | none => fallback
  | some v => parseText v.toJsString
where
  /-- The part of `parseWorkerIndex` that works on `String(value ?? '')`. -/
  parseText (raw : Str) : Option Nat :=
    let text := trim raw
    if text.isEmpty then fallback
    else
      match (if (digitSuffix text).isEmpty then none else positiveNumber (digitSuffix text)) with
      | some number => some number
      | none =>
        match env.numberOfString text with
        | some n => if 0 < n then some n else fallback
        | none => fallback

/-- `/^worker-\d+$/i.test(text)`. -/
def isWorkerIdLike (text : Str) : Bool :=
  (text.take 7).length == 7 && startsWithBy ciEq (text.take 7) "worker-".toList
    && !(text.drop 7).isEmpty && (text.drop 7).all Char.isDigit

/-- `normalizeWorkerId(value)`. -/
def normalizeWorkerId (env : ParserEnv) (value : Option Json) : Str :=
  let text := trim (stringOfFirstTruthy [value])
  if text.isEmpty then []
  else if isWorkerIdLike text then toLowerCase text
  else
    match parseWorkerIndex env (some (.str text)) none with
    | some parsed => if 0 < parsed then "worker-".toList ++ numberToString parsed else []
    | none => []

/-- The maximal runs of digits of a string (`raw.match(/\d+/g) || []`); `run` is the run
being read. -/
def digitRuns : Str → Str → List Str
  | run, [] => if run.isEmpty then [] else [run]
  | run, c :: cs =>
    if c.isDigit then digitRuns (run ++ [c]) cs
    else if run.isEmpty then digitRuns [] cs
    else run :: digitRuns [] cs

/-- `normalizeDepends(raw)`. -/
def normalizeDepends (env : ParserEnv) (raw : Option Json) : List Nat :=
  match raw with
  | some (.arr items) =>
    (items.filterMap fun item => parseWorkerIndex env (some item) none).filter fun n => 0 < n
  | some (.str s) => (digitRuns [] s).filterMap positiveNumber
  | _ => []

/-- One task of a parsed plan. -/
structure ParsedTask where
  workerIndex : Nat
  title : Str
  instruction : Str
  dependsOn : List Nat
  deriving DecidableEq, Repr

/-- `normalizeTask(task, index)`. -/
def normalizeTask (env : ParserEnv) (task : Json) (index : Nat) : Option ParsedTask :=
  if !isObject (some task) then none
  else
    let workerIndex :=
      (parseWorkerIndex env
        (firstDefined [task.field "workerIndex", task.field "index", task.field "worker",
          task.field "workerId"])
        (some (index + 1))).getD (index + 1)
    let title :=
      match firstTruthy [task.field "title", task.field "name"] with
      | some v => trim v.toJsString
      | none => trim ("子任务 ".toList ++ natToStr (index + 1))
    let instruction :=
      trim (stringOfFirstTruthy [task.field "instruction", task.field "prompt",
        task.field "task", task.field "description"])
    if instruction.isEmpty then none
    else
      let dependsOnRaw :=
        match firstDefined [task.field "dependsOn", task.field "depends", task.field "deps"] with
        | some v => some v
        | none => some (.arr [])
      some { workerIndex := workerIndex, title := title, instruction := instruction,
             dependsOn := normalizeDepends env dependsOnRaw }

/-- What `normalizePlanCandidate` returns. -/
structure ScoredPlan where
  planSummary : Str
  tasks : List ParsedTask
  score : Nat
  deriving DecidableEq, Repr

/-- `tasksRaw.map((task, index) => normalizeTask(task, index)).filter(Boolean)`, the index
counting from `index`. -/
def normalizeTasksFrom (env : ParserEnv) : Nat → List Json → List ParsedTask
  | _, [] => []
  | index, task :: rest =>
    match normalizeTask env task index with
    | some t => t :: normalizeTasksFrom env (index + 1) rest
    | none => normalizeTasksFrom env (index + 1) rest

/-- `normalizePlanCandidate(candidate)`; the sort is stable. -/
def normalizePlanCandidate (env : ParserEnv) (candidate : Json) : Option ScoredPlan :=
  match pickFirstArray [candidate.field "tasks", candidate.field "subtasks",
      candidate.field "items", candidate.field "workers"] with
  | none => none
  | some tasksRaw =>
    let tasks := (normalizeTasksFrom env 0 tasksRaw).insertionSort
      fun a b => a.workerIndex ≤ b.workerIndex
    if tasks.length = 0 then none
    else
      let planSummary :=
        trim (stringOfFirstTruthy [candidate.field "planSummary", candidate.field "summary",
          candidate.field "overview", candidate.field "plan"])
      some { planSummary := planSummary, tasks := tasks,
             score := tasks.length * 10 + (if planSummary.isEmpty then 0 else 3)
               + (if isArray (candidate.field "tasks") then 2 else 0) }

/-- The loop of `pickBestPlanCandidate`, `best` being the best candidate so far. -/
def pickBestLoop (env : ParserEnv) : Option ScoredPlan → List Json → Option ScoredPlan
  | best, [] => best
  | best, candidate :: rest =>
    match normalizePlanCandidate env candidate with
    | none => pickBestLoop env best rest
    | some normalized =>
      match best with
      | none => pickBestLoop env (some normalized) rest
      | some b =>
        if normalized.score > b.score then pickBestLoop env (some normalized) rest
        else pickBestLoop env (some b) rest

/-- A plan as the parser returns it: `{ planSummary, tasks }`. -/
structure ParsedPlan where
  planSummary : Str
  tasks : List ParsedTask
  deriving DecidableEq, Repr

/-- `pickBestPlanCandidate(candidates)`. -/
def pickBestPlanCandidate (env : ParserEnv) (candidates : List Json) : Option ParsedPlan :=
  (pickBestLoop env none candidates).map fun best =>
    { planSummary := best.planSummary, tasks := best.tasks }

/-- `normalizeDispatchCandidate(candidate)`. -/
def normalizeDispatchCandidate (env : ParserEnv) (candidate : Json) : Option Action :=
  if !isObject (some candidate) then none
  else
    let workerId := normalizeWorkerId env
      (firstTruthy [candidate.field "workerId", candidate.field "worker",
        candidate.field "target", candidate.field "targetWorker"])
    let instruction :=
      trim (stringOfFirstTruthy [candidate.field "instruction", candidate.field "prompt",
        candidate.field "message", candidate.field "task"])
    if workerId.isEmpty || instruction.isEmpty then none
    else some { workerId := workerId, instruction := instruction }

/-- Scanner behind `s.replace(/\n\s*/g, '')`; `skipping` tells that the previous characters
were a line feed and white space after it. -/
def removeBreaksAux : Bool → Str → Str
  | _, [] => []
  | skipping, c :: cs =>
    if c = '\n' then removeBreaksAux true cs
    else if skipping && isJsSpace c then removeBreaksAux true cs
    else c :: removeBreaksAux false cs

/-- The repair of `safeParseJson`:
`source.replace(/\r/g, '').replace(/\n\s*/g, '').trim()`. -/
def repairLineBreaks (source : Str) : Str :=
  trim (removeBreaksAux false (source.filter fun c => c != '\r'))

/-- `safeParseJson(raw)`; `none` is the `null` returned when nothing parses. -/
def safeParseJson (env : ParserEnv) (raw : Str) : Option Json :=
  let source := trim raw
  match env.jsonParse source with
  | some v => some v
  | none =>
    let repaired := repairLineBreaks source
    if repaired.isEmpty then none else env.jsonParse repaired

/-- Scanner behind the second `replace` of `normalizeInputText`, which deletes the control
sequences: the escape character, `[`, parameter bytes (`0` to `?`), intermediate bytes
(blank to `/`) and one final byte (`@` to `~`). -/
def stripCsi : Nat → Str → Str
  | 0, s => s
  | _, [] => []
  | fuel + 1, c :: cs =>
    if c = '\x1b' then
      match cs with
      | '[' :: rest =>
        let afterParams := rest.dropWhile fun x => 0x30 ≤ x.toNat ∧ x.toNat ≤ 0x3F
        let afterInter := afterParams.dropWhile fun x => 0x20 ≤ x.toNat ∧ x.toNat ≤ 0x2F
        match afterInter with
        | final :: tail =>
          if 0x40 ≤ final.toNat ∧ final.toNat ≤ 0x7E then stripCsi fuel tail
          else c :: stripCsi fuel cs
        | [] => c :: stripCsi fuel cs
      | _ => c :: stripCsi fuel cs
    else c :: stripCsi fuel cs

/-- The text after the last occurrence of `ESC \` in `s`, if there is one. -/
def afterLastStringTerminator : Str → Option Str
  | [] => none
  | c :: cs =>
    match afterLastStringTerminator cs with
    | some rest => some rest
    | none =>
      if c = '\x1b' then
        match cs with
        | '\\' :: rest => some rest
        | _ => none
      else none

/-- Where a match of `[^\u0007]*(?:\u0007|\u001b\\)` that starts at the head of `s` ends:
the greedy class runs to the first BEL (or to the end of the text); a BEL there ends the
match, otherwise the match backtracks to the last `ESC \`. -/
def oscRest (s : Str) : Option Str :=
  match s.dropWhile (fun x => x != '\x07') with
  | _ :: rest => some rest
  | [] => afterLastStringTerminator s

/-- Scanner behind `.replace(/\u001b\][^\u0007]*(?:\u0007|\u001b\\)/g, '')`. -/
def stripOsc : Nat → Str → Str
  | 0, s => s
  | _, [] => []
  | fuel + 1, c :: cs =>
    if c = '\x1b' then
      match cs with
      | ']' :: rest =>
        match oscRest rest with
        | some tail => stripOsc fuel tail
        | none => c :: stripOsc fuel cs
      | _ => c :: stripOsc fuel cs
    else c :: stripOsc fuel cs

/-- `normalizeInputText(text)`. -/
def normalizeInputText (text : Str) : Str :=
  let step1 := text.map fun c => if c = '\r' then '\n' else c
  let step2 := stripCsi step1.length step1
  let step3 := stripOsc step2.length step2
  step3.filter fun c => c != '\x00'

/-- The text before and the text after the first occurrence of `pat` in `s`
(`s.indexOf(pat)`), if there is one. -/
def splitAtFirst (pat : Str) : Str → Option (Str × Str)
  | [] => if pat.isEmpty then some ([], []) else none
  | c :: cs =>
    if pat.isPrefixOf (c :: cs) then some ([], (c :: cs).drop pat.length)
    else (splitAtFirst pat cs).map fun r => (c :: r.1, r.2)

/-- The `while` loop of `extractAllTaggedJson` on the text from `cursor` on; every round
moves the cursor past a closing tag, so `source.length` rounds are enough. -/
def extractTaggedLoop (env : ParserEnv) (openTag closeTag : Str) : Nat → Str → List Json
  | 0, _ => []
  | fuel + 1, source =>
    if source.isEmpty then []
    else
      match splitAtFirst openTag source with
      | none => []
      | some (_, afterOpen) =>
        match splitAtFirst closeTag afterOpen with
        | none => []
        | some (body, rest) =>
          let payload := safeParseJson env (trim body)
          if isObject payload then
            payload.toList ++ extractTaggedLoop env openTag closeTag fuel rest
          else extractTaggedLoop env openTag closeTag fuel rest

/-- `extractAllTaggedJson(text, tagName)`. -/
def extractAllTaggedJson (env : ParserEnv) (text : Str) (tagName : String) : List Json :=
  let source := normalizeInputText text
  extractTaggedLoop env ('<' :: tagName.toList ++ ['>'])
    ('<' :: '/' :: tagName.toList ++ ['>']) source.length source

/-- `extractTaggedJson(text, tagName)`. -/
def extractTaggedJson (env : ParserEnv) (text : Str) (tagName : String) : Option Json :=
  (extractAllTaggedJson env text tagName).getLast?

/-- The loop of `extractJsonFromFencedBlocks`: the expression
``/```(?:json)?\s*([\s\S]*?)```/gi`` matches at the first fence that has a later fence
after its optional `json` and white space, and captures the text up to that later fence. -/
def fencedLoop : Nat → Str → List Str
  | 0, _ => []
  | fuel + 1, source =>
    match splitAtFirst "```".toList source with
    | none => []
    | some (_, afterFence) =>
      let afterJson :=
        if (afterFence.take 4).length == 4 && startsWithBy ciEq (afterFence.take 4) "json".toList
        then afterFence.drop 4 else afterFence
      match splitAtFirst "```".toList (afterJson.dropWhile isJsSpace) with
      | none => []
      | some (captured, rest) =>
        let body := trim captured
        if body.isEmpty then fencedLoop fuel rest else body :: fencedLoop fuel rest

/-- `extractJsonFromFencedBlocks(source)`. -/
def extractJsonFromFencedBlocks (source : Str) : List Str := fencedLoop source.length source

/-- Local variables of the loop of `extractBalancedJsonObjects`; `current` is
`source.slice(start, i)` while `start >= 0`. -/
structure BalancedScan where
  list : List Str
  depth : Nat
  current : Option Str
  inString : Bool
  escaped : Bool
  deriving DecidableEq, Repr

/-- One round of the loop of `extractBalancedJsonObjects`, for the character `ch`. -/
def balancedStep (st : BalancedScan) (ch : Char) : BalancedScan :=
  let grown := st.current.map fun text => text ++ [ch]
  if st.inString then
    if st.escaped then { st with current := grown, escaped := false }
    else if ch = '\\' then { st with current := grown, escaped := true }
    else if ch = '"' then { st with current := grown, inString := false }
    else { st with current := grown }
  else if ch = '"' then { st with current := grown, inString := true }
  else if ch = '\x7b' then
    if st.depth = 0 then { st with current := some [ch], depth := 1 }
    else { st with current := grown, depth := st.depth + 1 }
  else if ch = '\x7d' then
    if st.depth = 0 then { st with current := none }
    else if st.depth = 1 then
      match grown with
      | some text => { st with list := st.list ++ [text], depth := 0, current := none }
      | none => { st with depth := 0, current := none }
    else { st with current := grown, depth := st.depth - 1 }
  else { st with current := grown }

/-- `extractBalancedJsonObjects(source)`. -/
def extractBalancedJsonObjects (source : Str) : List Str :=
  (source.foldl balancedStep
    { list := [], depth := 0, current := none, inString := false, escaped := false }).list

/-- `tryPush(payload)` of `collectJsonCandidates`: the set `seen` holds the `JSON.stringify`
texts of the members of `parsed`, so a payload is new when it equals none of them. -/
def tryPush (parsed : List Json) (payload : Option Json) : List Json :=
  match payload with
  | some v =>
    if !isObject (some v) then parsed
    else if parsed.any fun p => Json.beq p v then parsed
    else parsed ++ [v]
  | none => parsed

/-- `collectJsonCandidates(text, { tags, preferPlanLike })`. -/
def collectJsonCandidates (env : ParserEnv) (text : Str) (tags : List String)
    (preferPlanLike : Bool) : List Json :=
  let source := normalizeInputText text
  let tagged := tags.foldl
    (fun parsed tag =>
      (extractAllTaggedJson env source tag).foldl (fun p payload => tryPush p (some payload))
        parsed)
    []
  let fenced := (extractJsonFromFencedBlocks source).foldl
    (fun parsed raw => tryPush parsed (safeParseJson env raw)) tagged
  (extractBalancedJsonObjects source).foldl
    (fun parsed raw =>
      match safeParseJson env raw with
      | some payload =>
        if !isObject (some payload) then parsed
        else if !preferPlanLike || looksLikePlan payload then tryPush parsed (some payload)
        else parsed
      | none => parsed)
    fenced

/-- `parseSupervisorPlanFromText(text)`; `none` is `{ ok: false }`. -/
def parseSupervisorPlanFromText (env : ParserEnv) (text : Str) : Option ParsedPlan :=
  pickBestPlanCandidate env (collectJsonCandidates env text ["task_plan_json"] true)

/-- `parseDispatchInstructionFromText(text)`; `none` is `{ ok: false }`. -/
def parseDispatchInstructionFromText (env : ParserEnv) (text : Str) : Option Action :=
  (collectJsonCandidates env text ["dispatch_json"] false).findSome?
    (normalizeDispatchCandidate env)

/-- `pushAction(workerId, instruction)` of `parseSupervisorDispatchActionsFromText`; the
state is the array `actions` and the set `seen`. -/
def pushAction (env : ParserEnv) (state : List Action × List Str)
    (workerId instruction : Str) : List Action × List Str :=
  let normalizedWorkerId := normalizeWorkerId env (some (.str workerId))
  let normalizedInstruction := trim instruction
  if normalizedWorkerId.isEmpty || normalizedInstruction.isEmpty then state
  else
    let key := normalizedWorkerId ++ "::".toList ++ normalizedInstruction
    if key ∈ state.2 then state
    else
      (state.1 ++ [{ workerId := normalizedWorkerId, instruction := normalizedInstruction }],
        jsSetAdd state.2 key)

/-- The body of the loop over `dispatch_json` payloads, also used for the items of a batch:
`normalizeDispatchCandidate`, then `pushAction`. -/
def pushCandidate (env : ParserEnv) (state : List Action × List Str) (payload : Json) :
    List Action × List Str :=
  match normalizeDispatchCandidate env payload with
  | some dispatch => pushAction env state dispatch.workerId dispatch.instruction
  | none => state

/-- The body of the loop over `dispatch_batch_json` payloads. -/
def pushBatch (env : ParserEnv) (state : List Action × List Str) (payload : Json) :
    List Action × List Str :=
  match pickFirstArray [payload.field "tasks", payload.field "dispatches",
      payload.field "items", payload.field "workers"] with
  | some list => list.foldl (pushCandidate env) state
  | none => state

/-- The body of the loop over `dispatch_all_json` payloads. -/
def pushBroadcast (env : ParserEnv) (knownWorkers : List Str)
    (state : List Action × List Str) (payload : Json) : List Action × List Str :=
  let instruction :=
    trim (stringOfFirstTruthy [payload.field "instruction", payload.field "message",
      payload.field "task"])
  if instruction.isEmpty then state
  else
    let targetWorkerIds :=
      match payload.field "workerIds" with
      | some (.arr items) =>
        (items.map fun item => normalizeWorkerId env (some item)).filter
          fun (w : Str) => !w.isEmpty
      | _ => knownWorkers
    targetWorkerIds.foldl (fun st workerId => pushAction env st workerId instruction) state

/-- The array `actions` of `parseSupervisorDispatchActionsFromText` before the final test. -/
def collectDispatchActions (env : ParserEnv) (text : Str) (workerIds : List Str) :
    List Action × List Str :=
  let knownWorkers :=
    (workerIds.map fun item => normalizeWorkerId env (some (.str item))).filter
      fun (w : Str) => !w.isEmpty
  let single := (extractAllTaggedJson env text "dispatch_json").foldl (pushCandidate env)
    ([], [])
  let batch := (extractAllTaggedJson env text "dispatch_batch_json").foldl (pushBatch env)
    single
  (extractAllTaggedJson env text "dispatch_all_json").foldl (pushBroadcast env knownWorkers)
    batch

/-- `parseSupervisorDispatchActionsFromText(text, { workerIds })`; `none` is
`{ ok: false }`. -/
def parseSupervisorDispatchActionsFromText (env : ParserEnv) (text : Str)
    (workerIds : List Str) : Option (List Action) :=
  let actions := (collectDispatchActions env text workerIds).1
  if actions.length = 0 then none else some actions


/-- The text `first ++ seg₁ ++ seg₂ ++ ...` after a terminal wrapped it: before every
further segment a line feed and that segment's number of indentation blanks are inserted. -/
def insertBreaks (first : Str) (rest : List (Nat × Str)) : Str :=
  first ++ (rest.map fun p => '\n' :: List.replicate p.1 ' ' ++ p.2).flatten


/-! ## Planner and dispatcher (`supervisor-planner-service.js`, `task-dispatch-service.js`) -/

/-- Scanner that rewrites the maximal white-space runs of a text: `run` is the run being
read, and a finished run `r` is replaced by `f r`. -/
def mapWsRuns (f : Str → Str) : Str → Str → Str
  | run, [] => if run.isEmpty then [] else f run
  | run, c :: cs =>
    if isJsSpace c then mapWsRuns f (run ++ [c]) cs
    else (if run.isEmpty then [] else f run) ++ c :: mapWsRuns f [] cs

/-- `toSingleLine(text)`, the same function in both services:
`text.replace(/\s*\n+\s*/g, ' ').replace(/\s{2,}/g, ' ').trim()`.  The first expression
matches exactly the maximal white-space runs that hold a line feed (its greedy `\s*` gives
back characters until `\n+` finds the last line feed of the run), the second the maximal
runs of two or more white-space characters. -/
def toSingleLine (text : Str) : Str :=
  let step1 := mapWsRuns (fun run => if '\n' ∈ run then [' '] else run) [] text
  let step2 := mapWsRuns (fun run => if 2 ≤ run.length then [' '] else run) [] step1
  trim step2

/-- `lines.join('\n')`. -/
def joinLines (lines : List Str) : Str := List.intercalate ['\n'] lines

/-- `buildNonParsableJsonExample()`. -/
def buildNonParsableJsonExample : Str :=
  ("\x7b\"planSummary\":\"一句话总结\",\"tasks\":[\x7b\"workerIndex\":<number>,"
    ++ "\"title\":\"子任务标题\",\"instruction\":\"可直接发送给执行窗口的完整指令\","
    ++ "\"dependsOn\":[<number>]\x7d]\x7d").toList

/-- `buildPlanPrompt({ objective, workerCount, previousError, attempt, totalAttempts })`. -/
def buildPlanPrompt (objective : Str) (workerCount : Nat) (previousError : Str)
    (attempt totalAttempts : Nat) : Str :=
  let retrySuffix :=
    if previousError.isEmpty then []
    else "上一轮失败原因：".toList ++ previousError ++ "。请修正格式并重新输出完整 JSON。".toList
  toSingleLine (joinLines
    [ "你现在是任务主管窗口。".toList,
      "要求：仅做规划，不执行命令，不改文件。".toList,
      "总目标：".toList ++ objective,
      "执行窗口数量：".toList ++ natToStr workerCount,
      "当前尝试：第 ".toList ++ natToStr attempt ++ " / ".toList ++ natToStr totalAttempts
        ++ " 轮".toList,
      "请输出一个结构化计划，必须严格使用以下格式：".toList,
      "<task_plan_json>".toList ++ buildNonParsableJsonExample ++ "</task_plan_json>".toList,
      "注意：".toList,
      "1) tasks 数量必须等于 ".toList ++ natToStr workerCount ++ "；".toList,
      "2) workerIndex 必须覆盖 1 到 ".toList ++ natToStr workerCount ++ "；".toList,
      "3) 每条 instruction 必须为非空字符串，且可直接执行；".toList,
      "4) 输出内容里只有 JSON 标签块，不要额外说明；".toList,
      retrySuffix ])

/-- `buildFormatRepairPrompt({ workerCount, reason })`. -/
def buildFormatRepairPrompt (workerCount : Nat) (reason : Str) : Str :=
  let reasonText := if reason.isEmpty then [] else "上一轮解析失败原因：".toList ++ reason
  toSingleLine (joinLines
    [ "你上一条回复已收到，但系统无法解析。".toList,
      reasonText,
      "不要重新分析目标，不要补充解释。".toList,
      "请把你刚才给出的分工内容，改写成严格 JSON 标签块并立即输出：".toList,
      "<task_plan_json>".toList ++ buildNonParsableJsonExample ++ "</task_plan_json>".toList,
      "强约束：".toList,
      "1) tasks 必须正好 ".toList ++ natToStr workerCount ++ " 条；".toList,
      "2) workerIndex 必须覆盖 1 到 ".toList ++ natToStr workerCount ++ "；".toList,
      "3) instruction 必须是非空字符串；".toList,
      "4) 禁止输出任何额外文字。".toList ])

/-- One task of an accepted plan. -/
structure PlanTask where
  workerId : Str
  workerIndex : Nat
  title : Str
  instruction : Str
  dependsOn : List Nat
  deriving DecidableEq, Repr

/-- An accepted plan: `{ planSummary, tasks }`. -/
structure Plan where
  planSummary : Str
  tasks : List PlanTask
  deriving DecidableEq, Repr

/-- The task `buildFallbackPlan` pushes for `i`. -/
def fallbackTask (objective : Str) (i : Nat) : PlanTask :=
  { workerId := "worker-".toList ++ natToStr i
    workerIndex := i
    title := "子任务 ".toList ++ natToStr i
    dependsOn := if i = 1 then [] else [i - 1]
    instruction := joinLines
      [ "目标：".toList ++ objective,
        "你是执行窗口 worker-".toList ++ natToStr i ++ "。".toList,
        "请先说明你将完成的子范围，再开始执行。".toList,
        "在本窗口内只处理你负责的内容，完成后给出阶段结果。".toList ] }

/-- `buildFallbackPlan({ objective, workerCount })`. -/
def buildFallbackPlan (objective : Str) (workerCount : Nat) : Plan :=
  { planSummary := "主管规划未返回有效结构化结果，已使用本地兜底分解。".toList
    tasks := (List.range workerCount).map fun k => fallbackTask objective (k + 1) }

/-- What `normalizePlan`, `waitForPlanResult` and `tryRecoverPlanFormat` return:
`{ ok, retryable, error, plan }`, absent fields being `false`, `''` and `none`. -/
structure PlanResult where
  ok : Bool
  retryable : Bool
  error : Str
  plan : Option Plan
  deriving DecidableEq, Repr

/-- The `map` of `normalizePlan` on the sorted and cut task list, `index` counting from
the given number. -/
def assignWorkers : Nat → List ParsedTask → List PlanTask
  | _, [] => []
  | index, task :: rest =>
    { workerId := "worker-".toList ++ natToStr (index + 1)
      workerIndex := index + 1
      title := strOr task.title ("子任务 ".toList ++ natToStr (index + 1))
      instruction := trim task.instruction
      dependsOn := task.dependsOn } :: assignWorkers (index + 1) rest

/-- `normalizePlan(plan, workerCount)` on a plan returned by the parser; the sort is
stable. -/
def normalizePlan (plan : ParsedPlan) (workerCount : Nat) : PlanResult :=
  if plan.tasks.length < workerCount then
    { ok := false, retryable := true, plan := none
      error := "tasks 数量不足，期望 ".toList ++ natToStr workerCount ++ "，收到 ".toList
        ++ natToStr plan.tasks.length }
  else
    let sorted := plan.tasks.insertionSort fun a b => a.workerIndex ≤ b.workerIndex
    let mapped := assignWorkers 0 (sorted.take workerCount)
    if mapped.any fun task => task.instruction.isEmpty then
      { ok := false, retryable := true, plan := none, error := "存在空 instruction".toList }
    else
      { ok := true, retryable := false, error := []
        plan := some { planSummary := trim plan.planSummary, tasks := mapped } }

/-- The field `plan` of a result; every result with `ok` carries one. -/
def planOf (result : PlanResult) : Plan :=
  result.plan.getD { planSummary := [], tasks := [] }

/-- Local variables of the loop of `waitForPlanResult`. -/
structure WaitState where
  lastText : Str
  parseSignalCount : Nat
  lastRetryableReason : Str
  deriving DecidableEq, Repr

/-- The loop of `waitForPlanResult` over the captures that `readRecentLines` returns in
its successive rounds until the time is up. -/
def waitForPlanLoop (env : ParserEnv) (workerCount : Nat) :
    WaitState → List Capture → PlanResult
  | st, [] =>
    { ok := false, retryable := false, plan := none
      error := strOr st.lastRetryableReason
        (if st.parseSignalCount > 0 then
          "主管已输出内容，但结构化格式不完整或字段不匹配".toList
        else "等待主管规划超时".toList) }
  | st, capture :: rest =>
    if !capture.ok then waitForPlanLoop env workerCount st rest
    else
      let text := joinLines capture.lines
      if text.isEmpty || text = st.lastText then waitForPlanLoop env workerCount st rest
      else
        match parseSupervisorPlanFromText env text with
        | none =>
          waitForPlanLoop env workerCount
            { st with lastText := text, parseSignalCount := st.parseSignalCount + 1 } rest
        | some parsed =>
          let normalized := normalizePlan parsed workerCount
          if !normalized.ok then
            if normalized.retryable then
              waitForPlanLoop env workerCount
                { lastText := text, parseSignalCount := st.parseSignalCount + 1,
                  lastRetryableReason := normalized.error } rest
            else normalized
          else { ok := true, retryable := false, error := [], plan := normalized.plan }

/-- `waitForPlanResult({ sessionId, workerCount, timeoutMs })`, given the captures of its
rounds. -/
def waitForPlanResult (env : ParserEnv) (workerCount : Nat) (polls : List Capture) :
    PlanResult :=
  waitForPlanLoop env workerCount
    { lastText := [], parseSignalCount := 0, lastRetryableReason := [] } polls

/-- Whether `/pre\s+post/i` matches at the head of `s`, for a `post` that does not start
with white space. -/
def matchSpacedAt (pre post s : Str) : Bool :=
  (s.take pre.length).length == pre.length && startsWithBy ciEq s pre
    && !((s.drop pre.length).takeWhile isJsSpace).isEmpty
    && startsWithBy ciEq ((s.drop pre.length).dropWhile isJsSpace) post
    && ((s.drop pre.length).dropWhile isJsSpace).length ≥ post.length

/-- `/pre\s+post/i.test(s)`. -/
def containsSpaced (pre post : Str) : Str → Bool
  | [] => false
  | c :: cs => matchSpacedAt pre post (c :: cs) || containsSpaced pre post cs

/-- `text.split('\n')`; `line` is the line being read. -/
def splitLinesAux : Str → Str → List Str
  | line, [] => [line]
  | line, c :: cs => if c = '\n' then line :: splitLinesAux [] cs else splitLinesAux (line ++ [c]) cs

/-- `text.split('\n')`. -/
def splitLines (text : Str) : List Str := splitLinesAux [] text

/-- `/pat/i.test(s)` for a literal pattern that is not empty. -/
def includesCI (s pat : Str) : Bool :=
  (List.range (s.length + 1)).any fun k =>
    ((s.drop k).take pat.length).length == pat.length && startsWithBy ciEq (s.drop k) pat

/-- `probeSupervisorReady(text)`. -/
def probeSupervisorReady (text : Str) : Bool :=
  let lines := splitLines (text.filter fun c => c != '\r')
  let recentLines := sliceLast 120 lines
  let source := joinLines recentLines
  if source.isEmpty then false
  else
    let hasShellPrompt := containsSpaced "?".toList "for shortcuts".toList source
      || containsSpaced "/".toList "for commands".toList source
    let lastModelLine := (recentLines.reverse.find? fun line => includesCI line "model:".toList)
    let modelReady :=
      match lastModelLine with
      | some line => !containsSpaced "model:".toList "loading".toList line
      | none => true
    let hasCodexBanner := containsSpaced ">_".toList "OpenAI Codex".toList source
    hasShellPrompt && modelReady && hasCodexBanner

/-- The loop of `waitSupervisorReady` over the captures of its rounds; `lastLinesHash` is
the text seen last. -/
def waitSupervisorReadyLoop : Str → List Capture → Bool
  | _, [] => false
  | lastLinesHash, capture :: rest =>
    if !capture.ok then waitSupervisorReadyLoop lastLinesHash rest
    else
      let text := joinLines capture.lines
      if text.isEmpty then waitSupervisorReadyLoop lastLinesHash rest
      else if text = lastLinesHash then waitSupervisorReadyLoop lastLinesHash rest
      else if probeSupervisorReady text then true
      else waitSupervisorReadyLoop text rest

/-- `waitSupervisorReady({ sessionId, timeoutMs })`: `{ ok: true }`, or
`{ ok: false, error: '等待主管窗口就绪超时' }`. -/
def waitSupervisorReady (polls : List Capture) : Bool := waitSupervisorReadyLoop [] polls

/-- What the planner sees of the world during one `requestPlan`: the builtins of the
parser, the runtime's `sendInput`, the captures read by `waitSupervisorReady`, and the
captures read by each call of `waitForPlanResult` (numbered from 0). -/
structure PlannerEnv where
  parser : ParserEnv
  sendInput : SendOracle
  readyPolls : List Capture
  planPolls : Nat → List Capture

/-- The argument of `onProgress`. -/
structure Progress where
  state : Str
  phase : Str
  attempt : Nat
  maxAttempts : Nat
  message : Str
  lastError : Str
  errors : List Str
  deriving DecidableEq, Repr

/-- Payload of the events `supervisor_plan_*` and `supervisor-plan`. -/
structure PlannerEvent where
  type : Str
  plan : Option Plan := none
  attempt : Nat := 0
  reason : Str := []
  error : Str := []
  deriving DecidableEq, Repr

/-- Effects of one `requestPlan` so far: inputs sent, number of calls of
`waitForPlanResult`, progress reports, stored and emitted events. -/
structure PlannerState where
  sent : List SendCall
  waits : Nat
  progress : List Progress
  stored : List PlannerEvent
  emitted : List PlannerEvent
  deriving DecidableEq, Repr

/-- How `requestPlan` ends: `return parsed.plan` or `return repair.plan` (`planned`),
`return fallbackPlan` (`fallback`), or `throw new Error(message)` (`thrown`). -/
inductive PlanOutcome where
  | planned (plan : Plan)
  | fallback (plan : Plan)
  | thrown (message : Str)
  deriving DecidableEq, Repr

/-- `this.runtime.sendInput({ sessionId, targetId: 'supervisor', text, pressEnter: true })`
of the planner, logged. -/
def plannerSend (env : PlannerEnv) (st : PlannerState) (sessionId text : Str) :
    SendResult × PlannerState :=
  let call : SendCall :=
    { sessionId := sessionId, targetId := "supervisor".toList, text := text, pressEnter := true }
  (env.sendInput st.sent.length call, { st with sent := st.sent ++ [call] })

/-- A call of `waitForPlanResult` by the planner, counted. -/
def plannerWait (env : PlannerEnv) (st : PlannerState) (workerCount : Nat) :
    PlanResult × PlannerState :=
  (waitForPlanResult env.parser workerCount (env.planPolls st.waits),
    { st with waits := st.waits + 1 })

/-- `onProgress?.(progress)`. -/
def report (st : PlannerState) (progress : Progress) : PlannerState :=
  { st with progress := st.progress ++ [progress] }

/-- `tryRecoverPlanFormat({ sessionId, workerCount, reason })`. -/
def tryRecoverPlanFormat (env : PlannerEnv) (st : PlannerState) (sessionId : Str)
    (workerCount : Nat) (reason : Str) : PlanResult × PlannerState :=
  let sendResult := plannerSend env st sessionId (buildFormatRepairPrompt workerCount reason)
  if !sendResult.1.ok then
    ({ ok := false, retryable := false, plan := none
       error := strOr sendResult.1.stderr (strOr sendResult.1.error "发送格式修复指令失败".toList) },
     sendResult.2)
  else
    let parsed := plannerWait env sendResult.2 workerCount
    if parsed.1.ok then parsed
    else
      ({ ok := false, retryable := false, plan := none
         error := strOr parsed.1.error "格式修复未得到可解析结果".toList }, parsed.2)

/-- The end of `requestPlan` after the loop has used up its attempts. -/
def requestPlanExhausted (objective : Str) (workerCount totalAttempts : Nat)
    (allowFallback : Bool) (errors : List Str) (st : PlannerState) :
    PlanOutcome × PlannerState :=
  let latestError := errors.getLast?.getD "主管规划失败".toList
  if !allowFallback then
    (.thrown ("主管规划失败（严格模式）：".toList ++ latestError),
      report st
        { state := "failed".toList, phase := "strict-failed".toList, attempt := totalAttempts,
          maxAttempts := totalAttempts, message := "主管未给出可解析计划，严格模式终止".toList,
          lastError := latestError, errors := errors })
  else
    let fallbackPlan := buildFallbackPlan objective workerCount
    let stored := { st with
      stored := st.stored ++ [{ type := "supervisor_plan_fallback".toList,
                                plan := some fallbackPlan }] }
    (.fallback fallbackPlan,
      report stored
        { state := "fallback".toList, phase := "fallback".toList, attempt := totalAttempts,
          maxAttempts := totalAttempts, message := "已启用本地兜底分解".toList,
          lastError := latestError, errors := errors })

/-- The successful end of an attempt of `requestPlan`: the events, the report and the
return of `plan`; `repairedFor` is the reason when the plan comes from the repair round. -/
def requestPlanSucceed (attempt totalAttempts : Nat) (errors : List Str)
    (repairedFor : Option Str) (plan : Plan) (st : PlannerState) :
    PlanOutcome × PlannerState :=
  let storedEvent : PlannerEvent :=
    match repairedFor with
    | some reason =>
      { type := "supervisor_plan_repaired".toList, plan := some plan, attempt := attempt,
        reason := reason }
    | none => { type := "supervisor_plan_received".toList, plan := some plan }
  let st1 := { st with
    stored := st.stored ++ [storedEvent]
    emitted := st.emitted ++ [{ type := "supervisor-plan".toList, plan := some plan }] }
  (.planned plan,
    report st1
      { state := "succeeded".toList, phase := "succeeded".toList, attempt := attempt,
        maxAttempts := totalAttempts
        message :=
          if repairedFor.isSome then "主管输出已自动修复为结构化格式，准备下发任务".toList
          else "主管规划成功，准备下发任务".toList
        lastError := [], errors := errors })

/-- The head of a round of `requestPlan`: the report of the phase `attempt` and the send of
the planning prompt built from the last error. -/
def planAttemptSend (env : PlannerEnv) (sessionId objective : Str)
    (workerCount totalAttempts attempt : Nat) (errors : List Str) (st : PlannerState) :
    SendResult × PlannerState :=
  let lastError := errors.getLast?.getD []
  plannerSend env
    (report st
      { state := "running".toList, phase := "attempt".toList, attempt := attempt,
        maxAttempts := totalAttempts
        message := "主管第 ".toList ++ natToStr attempt ++ " 轮拆解中".toList
        lastError := lastError, errors := errors })
    sessionId (buildPlanPrompt objective workerCount lastError attempt totalAttempts)

/-- The branch `if (!sendResult.ok)` of a round of `requestPlan`. -/
def planAttemptSendFailed (totalAttempts attempt : Nat) (errors : List Str)
    (sendResult : SendResult × PlannerState) : PlanOutcome × PlannerState :=
  let sendError := "主管窗口发送规划指令失败: ".toList ++ strOr sendResult.1.stderr "unknown".toList
  (.thrown sendError,
    report sendResult.2
      { state := "failed".toList, phase := "send-failed".toList, attempt := attempt,
        maxAttempts := totalAttempts, message := sendError, lastError := sendError,
        errors := errors ++ [sendError] })

/-- `repairReason` of a round of `requestPlan`. -/
def repairReasonOf (parsed : PlanResult) : Str := strOr parsed.error "未解析到有效计划".toList

/-- The repair step of a round of `requestPlan`: the report of the phase `repair-attempt`
and the call of `tryRecoverPlanFormat`. -/
def planAttemptRepair (env : PlannerEnv) (sessionId : Str)
    (workerCount totalAttempts attempt : Nat) (errors : List Str)
    (parsed : PlanResult × PlannerState) : PlanResult × PlannerState :=
  tryRecoverPlanFormat env
    (report parsed.2
      { state := "running".toList, phase := "repair-attempt".toList, attempt := attempt,
        maxAttempts := totalAttempts
        message := "主管输出未通过解析，尝试自动格式修复".toList
        lastError := repairReasonOf parsed.1, errors := errors })
    sessionId workerCount (repairReasonOf parsed.1)

/-- The end of a failed round of `requestPlan`: `combinedError`, the event
`supervisor_plan_retry` and the report of the phase `retry`. -/
def planAttemptRetry (allowFallback : Bool) (totalAttempts attempt : Nat) (errors : List Str)
    (repairReason : Str) (repair : PlanResult × PlannerState) : Str × PlannerState :=
  let combinedError := "规划失败: ".toList ++ repairReason ++ "; 格式修复失败: ".toList
    ++ strOr repair.1.error "unknown".toList
  let retryEvent : PlannerEvent :=
    { type := "supervisor_plan_retry".toList, attempt := attempt, error := combinedError }
  let st3 := { repair.2 with stored := repair.2.stored ++ [retryEvent] }
  (combinedError,
    report st3
      { state := if attempt < totalAttempts then "retrying".toList else "failed".toList
        phase := "retry".toList, attempt := attempt, maxAttempts := totalAttempts
        message :=
          if attempt < totalAttempts then
            "第 ".toList ++ natToStr attempt ++ " 轮失败，准备重试".toList
          else if allowFallback then "主管规划重试结束，转入兜底方案".toList
          else "主管规划重试结束，严格模式终止".toList
        lastError := combinedError, errors := errors ++ [combinedError] })

/-- The `for` loop of `requestPlan` from round `attempt` on, `remaining` being the number
of rounds left (`totalAttempts - attempt + 1`), followed by the end of the function. -/
def requestPlanLoop (env : PlannerEnv) (sessionId objective : Str)
    (workerCount totalAttempts : Nat) (allowFallback : Bool) :
    Nat → Nat → List Str → PlannerState → PlanOutcome × PlannerState
  | 0, _, errors, st =>
    requestPlanExhausted objective workerCount totalAttempts allowFallback errors st
  | remaining + 1, attempt, errors, st =>
    let sendResult :=
      planAttemptSend env sessionId objective workerCount totalAttempts attempt errors st
    if !sendResult.1.ok then planAttemptSendFailed totalAttempts attempt errors sendResult
    else
      let parsed := plannerWait env sendResult.2 workerCount
      if parsed.1.ok then
        requestPlanSucceed attempt totalAttempts errors none (planOf parsed.1) parsed.2
      else
        let repair :=
          planAttemptRepair env sessionId workerCount totalAttempts attempt errors parsed
        if repair.1.ok then
          requestPlanSucceed attempt totalAttempts errors (some (repairReasonOf parsed.1))
            (planOf repair.1) repair.2
        else
          let retry := planAttemptRetry allowFallback totalAttempts attempt errors
            (repairReasonOf parsed.1) repair
          requestPlanLoop env sessionId objective workerCount totalAttempts allowFallback
            remaining (attempt + 1) (errors ++ [retry.1]) retry.2

/-- `requestPlan({ sessionId, objective, workerCount, maxRetries, onProgress,
allowFallback })`. -/
def requestPlan (env : PlannerEnv) (sessionId objective : Str) (workerCount maxRetries : Nat)
    (allowFallback : Bool) : PlanOutcome × PlannerState :=
  let totalAttempts := maxRetries + 1
  let st0 : PlannerState :=
    { sent := [], waits := 0, stored := [], emitted := []
      progress :=
        [ { state := "running".toList, phase := "start".toList, attempt := 0,
            maxAttempts := totalAttempts, message := "主管开始拆解任务".toList, lastError := [],
            errors := [] },
          { state := "running".toList, phase := "supervisor-wait-ready".toList, attempt := 0,
            maxAttempts := totalAttempts, message := "等待主管窗口就绪".toList, lastError := [],
            errors := [] } ] }
  if !waitSupervisorReady env.readyPolls then
    let readyError := "等待主管窗口就绪超时".toList
    if allowFallback then
      let fallbackPlan := buildFallbackPlan objective workerCount
      let stored := { st0 with
        stored := [{ type := "supervisor_plan_fallback".toList, plan := some fallbackPlan }] }
      (.fallback fallbackPlan,
        report stored
          { state := "fallback".toList, phase := "fallback".toList, attempt := 0,
            maxAttempts := totalAttempts
            message := "主管窗口未就绪，已启用本地兜底分解".toList
            lastError := readyError, errors := [readyError] })
    else
      (.thrown ("主管规划失败（严格模式）：".toList ++ readyError),
        report st0
          { state := "failed".toList, phase := "strict-failed".toList, attempt := 0,
            maxAttempts := totalAttempts
            message := "主管窗口未就绪，严格模式已终止本次规划".toList
            lastError := readyError, errors := [readyError] })
  else
    requestPlanLoop env sessionId objective workerCount totalAttempts allowFallback
      totalAttempts 1 [] st0

/-- The call `this.planner.requestPlan({ sessionId, objective, workerCount,
allowFallback: false, onProgress })` of `bootstrapSession`; `maxRetries` has its default. -/
def bootstrapRequestPlan (env : PlannerEnv) (sessionId objective : Str) (workerCount : Nat) :
    PlanOutcome × PlannerState :=
  requestPlan env sessionId objective workerCount 2 false

/-- What `dispatchPlan` pushes to `results` for one task. -/
structure DispatchItem where
  workerId : Str
  ok : Bool
  error : Str
  deriving DecidableEq, Repr

/-- Payload of the events `worker_task_dispatched` and `task-dispatched`. -/
structure TaskEvent where
  type : Str
  workerId : Str
  title : Str
  ok : Bool
  error : Str
  deriving DecidableEq, Repr

/-- Effects and result of `dispatchPlan` so far. -/
structure DispatchState where
  results : List DispatchItem
  sent : List SendCall
  stored : List TaskEvent
  emitted : List TaskEvent
  deriving DecidableEq, Repr

/-- The text `dispatchPlan` sends for a task. -/
def dispatchContent (task : PlanTask) : Str :=
  toSingleLine (joinLines
    [ "你是 ".toList ++ task.workerId ++ "。".toList,
      "子任务标题：".toList ++ task.title ++ "。".toList,
      "依赖：".toList
        ++ (if task.dependsOn.isEmpty then "无".toList
            else List.intercalate [','] (task.dependsOn.map natToStr))
        ++ "。".toList,
      task.instruction,
      "收到后请直接开始执行，并持续输出进展。".toList ])

/-- One round of the loop of `dispatchPlan`. -/
def dispatchTask (send : SendOracle) (sessionId : Str) (st : DispatchState) (task : PlanTask) :
    DispatchState :=
  let call : SendCall :=
    { sessionId := sessionId, targetId := task.workerId, text := dispatchContent task,
      pressEnter := true }
  let sent := send st.sent.length call
  let item : DispatchItem :=
    { workerId := task.workerId, ok := sent.ok
      error := if sent.ok then [] else strOr sent.stderr (strOr sent.error "下发失败".toList) }
  { results := st.results ++ [item]
    sent := st.sent ++ [call]
    stored := st.stored ++ [{ type := "worker_task_dispatched".toList, workerId := task.workerId,
                              title := task.title, ok := item.ok, error := item.error }]
    emitted := st.emitted ++ [{ type := "task-dispatched".toList, workerId := task.workerId,
                                title := task.title, ok := item.ok, error := item.error }] }

/-- `dispatchPlan({ sessionId, plan })`. -/
def dispatchPlan (send : SendOracle) (sessionId : Str) (plan : Plan) : DispatchState :=
  plan.tasks.foldl (dispatchTask send sessionId)
    { results := [], sent := [], stored := [], emitted := [] }


/-! ## Prompt classifier (`prompt-detector.js`) -/

/-- The regular expressions of the classifier, as far as their syntax is used: literal
characters, character classes, `\b`, concatenation, alternation, greedy `*` and greedy
`?`. -/
inductive Rx where
  | eps
  | chr (c : Char)
  | cls (p : Char → Bool)
  | wordBoundary
  | seq (a b : Rx)
  | alt (a b : Rx)
  | star (a : Rx)
  | opt (a : Rx)

/-- Where a match attempt stands: the character before the position and the text after
it. -/
abbrev RxState := Option Char × Str

/-- The class `\w` that `\b` refers to. -/
def isWordChar (c : Char) : Bool := c.isAlphanum || c == '_'

/-- Whether a position is a word boundary. -/
def atWordBoundary (st : RxState) : Bool :=
  (st.1.map isWordChar).getD false != (st.2.head?.map isWordChar).getD false

/-- The iterations of a greedy `*`, in the order of backtracking: first one more iteration
(an iteration that consumes nothing is not taken), then stopping here. -/
def starLoop (step : RxState → List RxState) : Nat → RxState → List RxState
  | 0, st => [st]
  | fuel + 1, st =>
    (((step st).filter fun next => next.2.length < st.2.length).flatMap (starLoop step fuel))
      ++ [st]

/-- All ways in which `r` matches at a position, in the order in which a backtracking
matcher tries them; `ci` is the flag `i`. -/
def Rx.run (ci : Bool) : Rx → RxState → List RxState
  | .eps, st => [st]
  | .chr c, st =>
    match st.2 with
    | x :: xs => if (if ci then ciEq x c else x == c) then [(some x, xs)] else []
    | [] => []
  | .cls p, st =>
    match st.2 with
    | x :: xs => if p x then [(some x, xs)] else []
    | [] => []
  | .wordBoundary, st => if atWordBoundary st then [st] else []
  | .seq a b, st => (Rx.run ci a st).flatMap fun mid => Rx.run ci b mid
  | .alt a b, st => Rx.run ci a st ++ Rx.run ci b st
  | .star a, st => starLoop (fun s => Rx.run ci a s) (st.2.length + 1) st
  | .opt a, st => Rx.run ci a st ++ [st]

/-- The expression that matches the characters of `text` one after the other. -/
def Rx.lit (text : String) : Rx := text.toList.foldr (fun c r => .seq (.chr c) r) .eps

/-- Concatenation of a list of expressions. -/
def Rx.cat (parts : List Rx) : Rx := parts.foldr .seq .eps

/-- The expression `a+`. -/
def Rx.plus (a : Rx) : Rx := .seq a (.star a)

/-- The class `\s`. -/
def Rx.space : Rx := .cls isJsSpace

/-- The expression `.`: any character but a line terminator. -/
def Rx.dot : Rx :=
  .cls fun c => !(c == '\n' || c == '\r' || c.toNat == 0x2028 || c.toNat == 0x2029)

/-- Search of `regex.test(text)` from the position before `text`. -/
def Rx.testFrom (ci : Bool) (r : Rx) : Option Char → Str → Bool
  | prev, [] => !(Rx.run ci r (prev, [])).isEmpty
  | prev, c :: cs => !(Rx.run ci r (prev, c :: cs)).isEmpty || Rx.testFrom ci r (some c) cs

/-- `regex.test(text)`. -/
def Rx.test (ci : Bool) (r : Rx) (text : Str) : Bool := Rx.testFrom ci r none text

/-- The loop of `text.replace(regex, replacement)` for a global expression. -/
def Rx.replaceLoop (r : Rx) (replacement : Str) : Nat → Option Char → Str → Str
  | 0, _, text => text
  | fuel + 1, prev, text =>
    match (Rx.run false r (prev, text)).head? with
    | some (last, rest) =>
      if rest.length < text.length then replacement ++ Rx.replaceLoop r replacement fuel last rest
      else
        match text with
        | [] => replacement
        | c :: cs => replacement ++ c :: Rx.replaceLoop r replacement fuel (some c) cs
    | none =>
      match text with
      | [] => []
      | c :: cs => c :: Rx.replaceLoop r replacement fuel (some c) cs

/-- `text.replace(regex, replacement)` for a global expression without the flag `i`. -/
def Rx.replaceAll (r : Rx) (replacement : String) (text : Str) : Str :=
  Rx.replaceLoop r replacement.toList (text.length + 1) none text

/-- The head of the three `CONFIRM_PATTERNS`: `\b<digit>\s*[\).:-]?\s*<word>\b`. -/
def optionMarker (digit : Char) (word : String) : Rx :=
  Rx.cat [.wordBoundary, .chr digit, .star Rx.space,
    .opt (.cls fun c => c == ')' || c == '.' || c == ':' || c == '-'), .star Rx.space,
    Rx.lit word, .wordBoundary]

/-- `CONFIRM_PATTERNS`, each with the flag `i`. -/
def CONFIRM_PATTERNS : List Rx :=
  [ optionMarker '1' "yes",
    Rx.cat [optionMarker '2' "yes", .star Rx.dot, Rx.lit "don",
      .opt (.cls fun c => c == '\'' || c == '’'), .chr 't', Rx.plus Rx.space, Rx.lit "ask",
      Rx.plus Rx.space, Rx.lit "again"],
    Rx.cat [optionMarker '3' "no", .star Rx.dot, Rx.lit "tell", Rx.plus Rx.space,
      Rx.lit "codex", Rx.plus Rx.space, Rx.lit "what", Rx.plus Rx.space, Rx.lit "to",
      Rx.plus Rx.space, Rx.lit "do"] ]

/-- `YES_NO_PATTERN`, with the flag `i`. -/
def YES_NO_PATTERN : Rx :=
  Rx.cat [.wordBoundary, .alt (Rx.lit "yes") (Rx.lit "no"), .wordBoundary]

/-- `CONTINUE_SUGGESTION_PATTERNS`, each with the flag `i`. -/
def CONTINUE_SUGGESTION_PATTERNS : List Rx :=
  [ Rx.lit "如果你要", Rx.lit "如果你愿意", Rx.lit "如果需要我可以继续", Rx.lit "下一步可以继续",
    Rx.lit "要的话我可以继续", Rx.lit "if you want", Rx.lit "if you'd like",
    Rx.lit "i can continue", Rx.lit "i can proceed",
    Rx.cat [Rx.lit "next step", .star Rx.dot, .alt (Rx.lit "continue") (Rx.lit "proceed")] ]

/-- Scanner behind `.replace(/\/[^\s]+/g, '<path>')`: a slash that is followed by a
character other than white space is replaced, together with the whole run of such
characters; `inPath` tells that the run is being skipped. -/
def replacePathsAux : Bool → Str → Str
  | _, [] => []
  | inPath, c :: cs =>
    if inPath && !isJsSpace c then replacePathsAux true cs
    else if c == '/' && (cs.head?.map fun d => !isJsSpace d).getD false then
      "<path>".toList ++ replacePathsAux true cs
    else c :: replacePathsAux false cs

/-- Scanner behind `.replace(/\d+/g, '<num>')`; `inRun` tells that the previous character
was a digit of the run already replaced. -/
def replaceDigitsAux : Bool → Str → Str
  | _, [] => []
  | inRun, c :: cs =>
    if c.isDigit then
      if inRun then replaceDigitsAux true cs else "<num>".toList ++ replaceDigitsAux true cs
    else c :: replaceDigitsAux false cs

/-- The text that `buildPromptFingerprint` hashes (`clean`). -/
def fingerprintSource (data : CaseData) (text : Str) : Str :=
  let step1 := toLowerCaseFull data text
  let step2 := replacePathsAux false step1
  let step3 := replaceDigitsAux false step2
  let step4 := Rx.replaceAll
    (Rx.cat [.chr '(', .star Rx.space, Rx.lit "<num>", .star Rx.space, .chr 's',
      .star Rx.space, .chr ')']) "(<duration>)" step3
  let step5 := Rx.replaceAll
    (Rx.cat [Rx.lit "<num>", .star Rx.space, .chr '%', .star Rx.space, Rx.lit "context",
      .star Rx.space, Rx.lit "left"]) "<context-left>" step4
  let step6 := Rx.replaceAll
    (Rx.cat [Rx.lit "context", .star Rx.space, Rx.lit "left"]) "<context-left>" step5
  let step7 := Rx.replaceAll
    (Rx.cat [.wordBoundary, Rx.lit "working", .wordBoundary]) "<working>" step6
  trim (collapseWs step7)

/-- `buildPromptFingerprint(text)`; `data` is the Unicode data of `toLowerCase` and
`sha256hex` is `crypto.createHash('sha256').update(clean).digest('hex')`. -/
def buildPromptFingerprint (data : CaseData) (sha256hex : Str → Str) (text : Str) : Str :=
  (sha256hex (fingerprintSource data text)).take 16

/-- `pickPromptText(lines)`. -/
def pickPromptText (lines : List Str) : Str :=
  joinLines (((sliceLast 12 lines).map trim).filter fun line => !line.isEmpty)

/-- Whether a line matches one of `CONTINUE_SUGGESTION_PATTERNS`. -/
def isContinueSuggestionLine (line : Str) : Bool :=
  CONTINUE_SUGGESTION_PATTERNS.any fun pattern => Rx.test true pattern line

/-- `pickContinueSuggestionText(lines)`. -/
def pickContinueSuggestionText (lines : List Str) : Str :=
  let candidates :=
    ((lines.map trim).filter fun line => !line.isEmpty).filter isContinueSuggestionLine
  if candidates.length = 0 then [] else joinLines (sliceLast 2 candidates)

/-- The test of `hasMaybeAskLine` on one line. -/
def isMaybeAskLine (line : Str) : Bool :=
  let row := toLowerCase line
  contains row "allow this action".toList || contains row "confirm".toList
    || contains row "[y/n".toList || contains row "继续".toList || contains row "确认".toList

/-- The result `{ hit: false, kind: 'none', ... }`. -/
def noDetection : Detection :=
  { hit := false, kind := "none".toList, promptText := [], fingerprint := [], options := [] }

/-- The part of `detectApprovalPrompt` that follows `const tail = normalized.slice(-30)`. -/
def classifyTail (data : CaseData) (sha256hex : Str → Str) (tail : List Str) : Detection :=
  let joined := joinLines tail
  let isThreeChoice := CONFIRM_PATTERNS.all fun pattern => Rx.test true pattern joined
  if isThreeChoice then
    { hit := true, kind := "three_choice".toList, promptText := pickPromptText tail,
      fingerprint := buildPromptFingerprint data sha256hex (pickPromptText tail),
      options := [1, 2, 3] }
  else if tail.any isMaybeAskLine && Rx.test true YES_NO_PATTERN joined then
    { hit := true, kind := "yes_no".toList, promptText := pickPromptText tail,
      fingerprint := buildPromptFingerprint data sha256hex (pickPromptText tail),
      options := [1, 3] }
  else if tail.any isContinueSuggestionLine then
    if (pickContinueSuggestionText tail).isEmpty then noDetection
    else
      { hit := true, kind := "continue_suggestion".toList,
        promptText := pickContinueSuggestionText tail,
        fingerprint := buildPromptFingerprint data sha256hex (pickContinueSuggestionText tail),
        options := [1, 2, 3] }
  else noDetection

/-- `detectApprovalPrompt(lines)` for an array of lines. -/
def detectApprovalPrompt (data : CaseData) (sha256hex : Str → Str) (lines : List Str) :
    Detection :=
  classifyTail data sha256hex (sliceLast 30 (lines.map trimEnd))


/-- The text made of `lead` and then every word followed by its gap. -/
def spacedText (lead : Str) (pieces : List (Str × Str)) : Str :=
  lead ++ (pieces.map fun p => p.1 ++ p.2).flatten

/-- The pieces are words (non-empty, free of white space), each followed by a gap of white
space that is not empty except possibly after the last word. -/
def WellSpaced : List (Str × Str) → Prop
  | [] => True
  | [p] => p.1 ≠ [] ∧ (∀ c ∈ p.1, isJsSpace c = false) ∧ (∀ c ∈ p.2, isJsSpace c = true)
  | p :: q :: rest =>
    p.1 ≠ [] ∧ (∀ c ∈ p.1, isJsSpace c = false) ∧ p.2 ≠ [] ∧ (∀ c ∈ p.2, isJsSpace c = true)
      ∧ WellSpaced (q :: rest)

instance decidableWellSpaced : (pieces : List (Str × Str)) → Decidable (WellSpaced pieces)
  | [] => isTrue trivial
  | [_] => by
    unfold WellSpaced
    infer_instance
  | _ :: q :: rest => by
    unfold WellSpaced
    have := decidableWellSpaced (q :: rest)
    infer_instance


/-- Two texts that differ only in the values of digit runs: read side by side, at each
step both have the same character, or each has a non-empty run of decimal digits (any two
runs). -/
inductive DigitVariant : Str → Str → Prop where
  | nil : DigitVariant [] []
  | same (c : Char) (a b : Str) : DigitVariant a b → DigitVariant (c :: a) (c :: b)
  | digits (d1 d2 a b : Str) : d1 ≠ [] → d2 ≠ [] →
      (∀ c ∈ d1, c.isDigit = true) → (∀ c ∈ d2, c.isDigit = true) →
      DigitVariant a b → DigitVariant (d1 ++ a) (d2 ++ b)

/-- Two texts that differ only in volatile tokens: read side by side, at each step both
have the same character, or each has a non-empty run of decimal digits (any two runs), or
each has a slash followed by a non-empty run of characters other than white space (any two
runs). -/
inductive VolatileVariant : Str → Str → Prop where
  | nil : VolatileVariant [] []
  | same (c : Char) (a b : Str) : VolatileVariant a b → VolatileVariant (c :: a) (c :: b)
  | digits (d1 d2 a b : Str) : d1 ≠ [] → d2 ≠ [] →
      (∀ c ∈ d1, c.isDigit = true) → (∀ c ∈ d2, c.isDigit = true) →
      VolatileVariant a b → VolatileVariant (d1 ++ a) (d2 ++ b)
  | path (p1 p2 a b : Str) : p1 ≠ [] → p2 ≠ [] →
      (∀ c ∈ p1, isJsSpace c = false) → (∀ c ∈ p2, isJsSpace c = false) →
      VolatileVariant a b → VolatileVariant ('/' :: (p1 ++ a)) ('/' :: (p2 ++ b))


/-- An accepted plan read back as an argument of `normalizePlan`, which reads
`planSummary` and, of each task, `workerIndex`, `title`, `instruction` and `dependsOn`. -/
def asParsedPlan (plan : Plan) : ParsedPlan :=
  { planSummary := plan.planSummary
    tasks := plan.tasks.map fun t =>
      { workerIndex := t.workerIndex, title := t.title, instruction := t.instruction,
        dependsOn := t.dependsOn } }


/-- The text `String(value ?? '').trim()` that `parseWorkerIndex` works on. -/
def slotText : Option Json → Str
  | none => []
  | some .null => []
  | some v => trim v.toJsString

/-- The slot value when it is an explicit positive integer
(`Number.isInteger(value) && value > 0`). -/
def explicitIndex : Option Json → Option Nat
  | some (.num n) => if 0 < n then some n.toNat else none
  | _ => none

/-- The worker index as the claim describes it: the explicit positive integer given, else
the positive integer formed by the trailing digits of the slot value, else the 1-based
position of the task in the raw task list. -/
def claimedWorkerIndex (slot : Option Json) (position : Nat) : Nat :=
  match explicitIndex slot with
  | some n => n
  | none =>
    if 0 < digitsValue (digitSuffix (slotText slot)) then digitsValue (digitSuffix (slotText slot))
    else position

/-- The worker index as the amended claim describes it: the explicit positive integer
given; else the number that the trailing digits of the slot text write, as `Number` reads
it (the nearest double, which is the number itself below `2^53`), unless that is 0 or
`Infinity`; else the number `Number(text)` of a non-blank slot text when that is a positive
integer; else the position. -/
def amendedWorkerIndex (env : ParserEnv) (slot : Option Json) (position : Nat) : Nat :=
  match explicitIndex slot with
  | some n => n
  | none =>
    match positiveNumber (digitSuffix (slotText slot)) with
    | some number => number
    | none =>
      if (slotText slot).isEmpty then position
      else
        match env.numberOfString (slotText slot) with
        | some n => if 0 < n then n else position
        | none => position


/-- The text `dispatchPlan` assembles for a task, before `toSingleLine`. -/
def dispatchMessage (task : PlanTask) : Str :=
  joinLines
    [ "你是 ".toList ++ task.workerId ++ "。".toList,
      "子任务标题：".toList ++ task.title ++ "。".toList,
      "依赖：".toList
        ++ (if task.dependsOn.isEmpty then "无".toList
            else List.intercalate [','] (task.dependsOn.map natToStr))
        ++ "。".toList,
      task.instruction,
      "收到后请直接开始执行，并持续输出进展。".toList ]

/-- What becomes of a white-space run between two words: one blank when the run holds a
line feed or has two or more characters, the run itself otherwise. -/
def flattenGap (gap : Str) : Str :=
  if '\n' ∈ gap ∨ 2 ≤ gap.length then [' '] else gap


/-! ## Session lifecycle (`session-orchestrator.js`, `session-store.js`) -/

/-- The record `session.planning`; an absent field is `""`, `0` or `[]`. -/
structure Planning where
  state : Str
  phase : Str
  attempt : Nat
  maxAttempts : Nat
  message : Str
  lastError : Str
  errors : List Str
  startedAt : Str
  finishedAt : Str
  deriving DecidableEq, Repr

/-- The part of a stored session record that planning, recovery and stopping touch;
`tmuxSession` is `runtimeMeta?.tmuxSession`, `""` when absent. -/
structure SessionRecord where
  sessionId : Str
  status : Str
  error : Str
  runtime : Str
  tmuxSession : Str
  planning : Planning
  workers : List Worker
  planSummary : Str
  planTasks : List PlanTask
  deriving DecidableEq, Repr

/-- An event that a lifecycle operation stores (`store.appendEvent`) or pushes
(`pushEvent`): its type, the text and the flag of its payload, and for `session-updated`
the snapshot of the session. -/
structure LifecycleEvent where
  sessionId : Str
  type : Str
  detail : Str
  flag : Bool
  snapshot : Option SessionRecord
  deriving DecidableEq, Repr

/-- What the lifecycle operations call outside the orchestrator: the clock, and the
terminal runtime's `attachTmuxSession` and `sendInput`. -/
structure LifecycleEnv where
  nowIso : Str
  attachTmuxSession : Str → Str → List Str → SendResult
  sendInput : SendOracle

/-- The session files of the store (one record per session id), the watcher registry of
the orchestrator, and the effects of the operations so far. -/
structure Lifecycle where
  store : List SessionRecord
  watchers : List Str
  stored : List LifecycleEvent
  pushed : List LifecycleEvent
  sent : List SendCall
  deriving DecidableEq, Repr

/-- `store.getSession(sessionId)`. -/
def getSession (store : List SessionRecord) (sessionId : Str) : Option SessionRecord :=
  store.find? fun s => s.sessionId == sessionId

/-- `store.updateSession(sessionId, updater)`: read, modify, write back; nothing happens
when the session does not exist. -/
def updateSession (store : List SessionRecord) (sessionId : Str)
    (updater : SessionRecord → SessionRecord) : List SessionRecord :=
  store.map fun s => if s.sessionId == sessionId then updater s else s

/-- `this.store.appendEvent(sessionId, { type, payload })`. -/
def appendEvent (st : Lifecycle) (sessionId type detail : Str) (flag : Bool) : Lifecycle :=
  { st with stored := st.stored ++ [LifecycleEvent.mk sessionId type detail flag none] }

/-- `this.pushEvent(sessionId, { type, payload })`. -/
def pushEvent (st : Lifecycle) (sessionId type detail : Str) (flag : Bool) : Lifecycle :=
  { st with pushed := st.pushed ++ [LifecycleEvent.mk sessionId type detail flag none] }

/-- `pushSnapshot(sessionId)`. -/
def pushSnapshot (st : Lifecycle) (sessionId : Str) : Lifecycle :=
  match getSession st.store sessionId with
  | none => st
  | some snapshot =>
    { st with pushed := st.pushed
        ++ [LifecycleEvent.mk sessionId "session-updated".toList [] false (some snapshot)] }

/-- `isPlanningBusy(state)`. -/
def isPlanningBusy (state : Str) : Bool :=
  state == "running".toList || state == "retrying".toList

/-- `isRecoverableStatus(status)`. -/
def isRecoverableStatus (status : Str) : Bool :=
  ["planning".toList, "running".toList, "partial_error".toList, "error".toList].contains status

/-- `startWatcher(sessionId)`, as far as the registry goes: a timer is set unless the
session has one. -/
def startWatcher (st : Lifecycle) (sessionId : Str) : Lifecycle :=
  if sessionId ∈ st.watchers then st else { st with watchers := st.watchers ++ [sessionId] }

/-- `stopWatcher(sessionId)`. -/
def stopWatcher (st : Lifecycle) (sessionId : Str) : Lifecycle :=
  { st with watchers := st.watchers.filter fun w => w != sessionId }

/-- The updater of the two failure branches and of the pending branch of
`recoverSessionsOnStartup`: status `error`, planning `failed` in the given phase. -/
def markRecoveryFailed (now phase error message : Str) (current : SessionRecord) :
    SessionRecord :=
  { current with
    status := "error".toList
    error := error
    planning := { current.planning with
      state := "failed".toList, phase := phase, message := message, lastError := error,
      finishedAt := now } }

/-- The body of the loop of `recoverSessionsOnStartup` for one session id. -/
def recoverSession (env : LifecycleEnv) (st : Lifecycle) (sessionId : Str) : Lifecycle :=
  match getSession st.store sessionId with
  | none => st
  | some session =>
    if !isRecoverableStatus session.status then st
    else
      let workerIds := (session.workers.map fun item => item.workerId).filter
        fun (w : Str) => !w.isEmpty
      let targetIds := "supervisor".toList :: workerIds
      let tmuxSession := trim session.tmuxSession
      if session.runtime != "tmux".toList || tmuxSession.isEmpty then
        let lost := "应用重启后无法恢复该会话运行时".toList
        let updated := { st with
          store := updateSession st.store sessionId
            (markRecoveryFailed env.nowIso "runtime-lost".toList lost lost) }
        pushSnapshot
          (appendEvent updated sessionId "session_recover_failed".toList
            "unsupported-runtime".toList false) sessionId
      else
        let attached := env.attachTmuxSession sessionId tmuxSession targetIds
        if !attached.ok then
          let failed := strOr attached.error "会话恢复失败".toList
          let updated := { st with
            store := updateSession st.store sessionId
              (markRecoveryFailed env.nowIso "runtime-lost".toList failed failed) }
          pushSnapshot
            (appendEvent updated sessionId "session_recover_failed".toList
              (strOr attached.error "attach-failed".toList) false) sessionId
        else
          let watched := startWatcher st sessionId
          let needManualPlanningRecovery :=
            session.status == "planning".toList || isPlanningBusy session.planning.state
          let updated :=
            if needManualPlanningRecovery then
              { watched with
                store := updateSession watched.store sessionId
                  (markRecoveryFailed env.nowIso "recovery-pending".toList
                    "应用重启后已暂停自动规划，请手动重新触发规划".toList
                    "应用已恢复连接，但未自动继续规划。请手动点击“重新触发规划”。".toList) }
            else watched
          pushSnapshot
            (pushEvent
              (appendEvent updated sessionId "session_recovered".toList tmuxSession
                needManualPlanningRecovery)
              sessionId "session-recovered".toList tmuxSession needManualPlanningRecovery)
            sessionId

/-- `recoverSessionsOnStartup()`; `sessionIds` is what `store.listSessionIds()` returns. -/
def recoverSessionsOnStartup (env : LifecycleEnv) (sessionIds : List Str) (st : Lifecycle) :
    Lifecycle :=
  sessionIds.foldl (recoverSession env) st

/-- `stopSession(sessionId)`, as far as the orchestrator's own state goes (the answer of
`runtime.stopSession` is what it returns). -/
def stopSession (st : Lifecycle) (sessionId : Str) : Lifecycle :=
  let stopped := stopWatcher st sessionId
  pushSnapshot
    { stopped with
      store := updateSession stopped.store sessionId fun session =>
        { session with status := "stopped".toList } }
    sessionId

/-- The start of `bootstrapSession`, up to the `await` of `planner.requestPlan`. -/
def bootstrapStart (env : LifecycleEnv) (st : Lifecycle) (sessionId trigger : Str) :
    Lifecycle :=
  pushSnapshot
    { st with
      store := updateSession st.store sessionId fun current =>
        { current with
          status := "planning".toList
          planning := { current.planning with
            state := "running".toList
            phase := if trigger == "manual".toList then "manual-start".toList
              else "start".toList
            attempt := 0
            maxAttempts := 3
            message := if trigger == "manual".toList then "手动重启规划流程中".toList
              else "主管准备开始拆解".toList
            lastError := []
            errors := []
            startedAt := env.nowIso
            finishedAt := [] } } }
    sessionId

/-- The updater of `bootstrapSession` after the dispatch: the status of every worker that
has a dispatch result, the status of the session and the planning phase. -/
def recordDispatch (results : List DispatchItem) (current : SessionRecord) : SessionRecord :=
  { current with
    workers := current.workers.map fun worker =>
      match results.find? fun item => item.workerId == worker.workerId with
      | some matched =>
        { worker with status := if matched.ok then "running".toList else "error".toList }
      | none => worker
    status := if results.all fun item => item.ok then "running".toList
      else "partial_error".toList
    planning := { current.planning with
      phase := "completed".toList
      message := if results.all fun item => item.ok then "任务已全部派发".toList
        else "任务已派发，但存在失败窗口".toList } }

/-- The rest of `bootstrapSession`, from the point where `planner.requestPlan` has
returned `plan`: the plan is stored, dispatched, and the outcome recorded. -/
def bootstrapApply (env : LifecycleEnv) (st : Lifecycle) (sessionId trigger : Str)
    (plan : Plan) : Lifecycle :=
  let planned := updateSession st.store sessionId fun current =>
    { current with
      planSummary := trim plan.planSummary
      planTasks := plan.tasks
      planning := { current.planning with
        state := if current.planning.state == "fallback".toList then "fallback".toList
          else "succeeded".toList
        phase := "dispatching".toList
        message := "主管规划完成，准备派发到执行窗口".toList
        finishedAt := env.nowIso } }
  let dispatched := dispatchPlan (fun n call => env.sendInput (st.sent.length + n) call)
    sessionId plan
  let recorded : Lifecycle :=
    { st with
      store := updateSession planned sessionId (recordDispatch dispatched.results)
      sent := st.sent ++ dispatched.sent }
  pushSnapshot
    (appendEvent recorded sessionId "planning_cycle_completed".toList trigger
      (dispatched.results.all fun item => item.ok))
    sessionId

/-- The `catch` of `runPlanningCycle`, for the message of the error thrown by
`bootstrapSession`. -/
def planningFailed (env : LifecycleEnv) (st : Lifecycle) (sessionId trigger failMessage : Str) :
    Lifecycle :=
  let failPhase := if contains failMessage "主管规划失败（严格模式）".toList
    then "planning-failed".toList else "bootstrap-error".toList
  let updated := { st with
    store := updateSession st.store sessionId fun current =>
      { current with
        status := "error".toList
        error := failMessage
        planning := { current.planning with
          state := "failed".toList, phase := failPhase, message := failMessage,
          lastError := failMessage, finishedAt := env.nowIso } } }
  pushSnapshot
    (pushEvent
      (appendEvent updated sessionId
        (if trigger == "manual".toList then "planning_manual_failed".toList
          else "session_bootstrap_failed".toList) failMessage false)
      sessionId "error".toList failMessage false)
    sessionId

/-- What `runPlanningCycle` does once `planner.requestPlan` has settled: the rest of
`bootstrapSession` when it returned a plan, the `catch` when it threw. -/
def completePlanningCycle (env : LifecycleEnv) (st : Lifecycle) (sessionId trigger : Str)
    (outcome : PlanOutcome) : Lifecycle :=
  match outcome with
  | .planned plan => bootstrapApply env st sessionId trigger plan
  | .fallback plan => bootstrapApply env st sessionId trigger plan
  | .thrown message => planningFailed env st sessionId trigger message


/-- The session cannot be re-attached: its runtime is not tmux, its tmux handle is blank,
or `attachTmuxSession` fails for it. -/
def recoveryLost (env : LifecycleEnv) (s : SessionRecord) : Bool :=
  s.runtime != "tmux".toList || (trim s.tmuxSession).isEmpty
    || !(env.attachTmuxSession s.sessionId (trim s.tmuxSession)
          ("supervisor".toList :: (s.workers.map fun item => item.workerId).filter
            fun (w : Str) => !w.isEmpty)).ok

/-- The session was in the middle of planning: status `planning`, or planning state
`running` or `retrying`. -/
def midPlanning (s : SessionRecord) : Bool :=
  s.status == "planning".toList || isPlanningBusy s.planning.state


/-- What a call may do to one approval: identity, target, fingerprint and kind stay; the
status stays or goes from `pending` to `resolved`; a resolved approval stays resolved
with the same choice. -/
def approvalKept (before after : Approval) : Prop :=
  after.id = before.id ∧ after.workerId = before.workerId
    ∧ after.fingerprint = before.fingerprint ∧ after.kind = before.kind
    ∧ (after.status = before.status
        ∨ (before.status = "pending".toList ∧ after.status = "resolved".toList))
    ∧ (before.status = "resolved".toList →
        after.status = "resolved".toList ∧ after.resolvedChoice = before.resolvedChoice)

/-- Every approval of the list `before` is still in the list `after`, at its place, kept in
the sense of `approvalKept`. -/
def approvalsKept (before after : List Approval) : Prop :=
  before.length ≤ after.length
    ∧ ∀ (i : Nat) (a : Approval), before[i]? = some a →
        ∃ b, after[i]? = some b ∧ approvalKept a b


/-- The known workers of a call: the normalised ids of the option `workerIds`, those that
normalise, in their order. -/
def knownWorkersOf (env : ParserEnv) (workerIds : List Str) : List Str :=
  (workerIds.map fun item => normalizeWorkerId env (some (.str item))).filter
    fun (w : Str) => !w.isEmpty

/-- The instruction of a `dispatch_all_json` payload. -/
def broadcastInstruction (payload : Json) : Str :=
  trim (stringOfFirstTruthy [payload.field "instruction", payload.field "message",
    payload.field "task"])

/-- The workers a broadcast addresses, as the claim describes them: the normalisable ids of
its `workerIds` array when it has one, the known workers otherwise. -/
def broadcastTargets (env : ParserEnv) (knownWorkers : List Str) (payload : Json) : List Str :=
  match payload.field "workerIds" with
  | some (.arr items) =>
    (items.map fun item => normalizeWorkerId env (some item)).filter fun (w : Str) => !w.isEmpty
  | _ => knownWorkers

/-- The directives of the `dispatch_json` blocks, in text order. -/
def singleDirectives (env : ParserEnv) (text : Str) : List Action :=
  (extractAllTaggedJson env text "dispatch_json").filterMap (normalizeDispatchCandidate env)

/-- The directives of the `dispatch_batch_json` blocks, in text order, the items of a
block in their order. -/
def batchDirectives (env : ParserEnv) (text : Str) : List Action :=
  (extractAllTaggedJson env text "dispatch_batch_json").flatMap fun payload =>
    match pickFirstArray [payload.field "tasks", payload.field "dispatches",
        payload.field "items", payload.field "workers"] with
    | some list => list.filterMap (normalizeDispatchCandidate env)
    | none => []

/-- The directives of the `dispatch_all_json` blocks with a non-blank instruction, in text
order, one for each worker the block addresses. -/
def broadcastDirectives (env : ParserEnv) (text : Str) (workerIds : List Str) : List Action :=
  (extractAllTaggedJson env text "dispatch_all_json").flatMap fun payload =>
    if (broadcastInstruction payload).isEmpty then []
    else
      (broadcastTargets env (knownWorkersOf env workerIds) payload).map fun w =>
        Action.mk w (broadcastInstruction payload)

/-- All directives of a text in the order the claim gives: `dispatch_json` first, then
`dispatch_batch_json`, then `dispatch_all_json`. -/
def directivesInOrder (env : ParserEnv) (text : Str) (workerIds : List Str) : List Action :=
  singleDirectives env text ++ batchDirectives env text ++ broadcastDirectives env text workerIds

/-- What `pushAction(workerId, instruction)` stores for a directive, `none` when it returns
before the test of `seen`: the worker id normalised (once more) and the instruction
trimmed. -/
def storedDirective (env : ParserEnv) (a : Action) : Option Action :=
  let normalizedWorkerId := normalizeWorkerId env (some (.str a.workerId))
  let normalizedInstruction := trim a.instruction
  if normalizedWorkerId.isEmpty || normalizedInstruction.isEmpty then none
  else some { workerId := normalizedWorkerId, instruction := normalizedInstruction }

/-- A list of directives without its later repetitions: of equal entries the first one is
kept, where it stands. -/
def keepFirst (l : List Action) : List Action :=
  l.foldl (fun kept a => if a ∈ kept then kept else kept ++ [a]) []

/-- A directive as the parser stores it: the worker id is `worker-` followed by the text of
a number (decimal digits, or digits with a point and an exponent from `10^21` on), the
instruction is trimmed and not empty. -/
def NormalDirective (a : Action) : Prop :=
  (∃ body : Str, body ≠ []
      ∧ (∀ c ∈ body, c.isDigit = true ∨ c = '.' ∨ c = 'e' ∨ c = '+')
      ∧ a.workerId = "worker-".toList ++ body)
    ∧ a.instruction ≠ [] ∧ trim a.instruction = a.instruction

/-- What the loop keeps true of `actions` and `seen` on normal directives. -/
def DispatchInv (state : List Action × List Str) : Prop :=
  (∀ a ∈ state.1, a.workerId ++ "::".toList ++ a.instruction ∈ state.2)
    ∧ (∀ k ∈ state.2, ∃ a ∈ state.1, a.workerId ++ "::".toList ++ a.instruction = k)
    ∧ ∀ a ∈ state.1, NormalDirective a


/-- Whether a text is the inside of a double-quoted string literal: it ends outside an
escape and every quotation mark in it is escaped by a backslash; `escaped` tells that the
previous character was an escaping backslash. -/
def literalEnd : Bool → Str → Bool
  | escaped, [] => !escaped
  | true, _ :: rest => literalEnd false rest
  | false, c :: rest =>
    if c = '\\' then literalEnd true rest
    else if c = '"' then false
    else literalEnd false rest

/-- The inside of a string literal, read from its opening quotation mark on. -/
def isLiteralBody (body : Str) : Bool := literalEnd false body

/-- What `JSON.stringify` writes for one character of a string: quotation mark and
backslash are escaped by a backslash, control characters are written as `\b`, `\t`, `\n`,
`\f`, `\r` or `\u00XX`, every other character stands for itself. -/
def quoteChar (c : Char) : Str :=
  if c = '"' then ['\\', '"']
  else if c = '\\' then ['\\', '\\']
  else if c = '\x08' then ['\\', 'b']
  else if c = '\t' then ['\\', 't']
  else if c = '\n' then ['\\', 'n']
  else if c = '\x0c' then ['\\', 'f']
  else if c = '\r' then ['\\', 'r']
  else if c.toNat < 0x20 then
    ['\\', 'u', '0', '0', Nat.digitChar (c.toNat / 16), Nat.digitChar (c.toNat % 16)]
  else [c]

/-- The string literal `JSON.stringify(s)` of a string. -/
def jsonQuote (s : Str) : Str := '"' :: (s.flatMap quoteChar ++ ['"'])

/-- Whether a text is written with the characters of a number only. -/
def isNumberText (text : Str) : Bool :=
  !text.isEmpty && text.all fun c => c.isDigit || c = '-' || c = '+' || c = '.' || c = 'e'
    || c = 'E'

mutual
/-- The text `JSON.stringify(v)`, without indentation. -/
def jsonStringify : Json → Str
  | .null => "null".toList
  | .bool b => if b then "true".toList else "false".toList
  | .num n => intToStr n
  | .real text => text
  | .str s => jsonQuote s
  | .arr items => '[' :: (jsonStringifyItems items ++ [']'])
  | .obj fields => '\x7b' :: (jsonStringifyFields fields ++ ['\x7d'])
/-- The elements of an array, separated by commas. -/
def jsonStringifyItems : List Json → Str
  | [] => []
  | [a] => jsonStringify a
  | a :: rest => jsonStringify a ++ ',' :: jsonStringifyItems rest
/-- The members of an object, separated by commas. -/
def jsonStringifyFields : List (Str × Json) → Str
  | [] => []
  | [(k, a)] => jsonQuote k ++ ':' :: jsonStringify a
  | (k, a) :: rest => jsonQuote k ++ ':' :: jsonStringify a ++ ',' :: jsonStringifyFields rest
end

mutual
/-- Whether every number of a value that is no integer carries a number text. -/
def plainNumbers : Json → Bool
  | .real text => isNumberText text
  | .arr items => plainNumbersList items
  | .obj fields => plainNumbersFields fields
  | _ => true
/-- The same for the elements of an array. -/
def plainNumbersList : List Json → Bool
  | [] => true
  | a :: rest => plainNumbers a && plainNumbersList rest
/-- The same for the members of an object. -/
def plainNumbersFields : List (Str × Json) → Bool
  | [] => true
  | (_, a) :: rest => plainNumbers a && plainNumbersFields rest
end

/-- A text that the scan passes at any depth inside an object without a trace: outside a
string literal and with depth at least one before it, the scan is in the same state after
it, the text being added to the candidate that is open. -/
def DepthNeutral (t : Str) : Prop :=
  ∀ st : BalancedScan, st.inString = false → st.escaped = false → 1 ≤ st.depth →
    t.foldl balancedStep st = { st with current := st.current.map fun text => text ++ t }

/-- The text `gap₁ ++ cand₁ ++ gap₂ ++ cand₂ ++ ...`. -/
def weave (gaps cands : List Str) : Str :=
  (List.zipWith (fun gap cand => gap ++ cand) gaps cands).flatten


/-- Whether an element of a raw task list survives `normalizeTask`: it is an object and the
first truthy field among `instruction`, `prompt`, `task`, `description` is not blank. -/
def survivesNormalizeTask (task : Json) : Bool :=
  isObject (some task)
    && !(trim (stringOfFirstTruthy [task.field "instruction", task.field "prompt",
      task.field "task", task.field "description"])).isEmpty

/-- The payloads gathered for a plan, family by family in the order the claim gives: those
of the `task_plan_json` blocks, then those of the fenced blocks, then the plan-like ones
that the brace-balanced scan cuts out; each family in text order. -/
def gatheredInOrder (env : ParserEnv) (text : Str) : List Json :=
  let source := normalizeInputText text
  (extractAllTaggedJson env source "task_plan_json").filter (fun v => isObject (some v))
    ++ ((extractJsonFromFencedBlocks source).filterMap (safeParseJson env)).filter
        (fun v => isObject (some v))
    ++ ((extractBalancedJsonObjects source).filterMap (safeParseJson env)).filter
        (fun v => isObject (some v) && looksLikePlan v)

/-- A list of payloads without its later repetitions (payloads with the same
`JSON.stringify` text): the first one is kept, where it stands. -/
def keepFirstPayload (l : List Json) : List Json :=
  l.foldl (fun kept v => if kept.any (fun p => Json.beq p v) then kept else kept ++ [v]) []

/-- A response that holds one `task_plan_json` block: the text `lead`, the opening tag, the
body, the closing tag and the text `tail`. -/
def planBlockAround (lead body tail : Str) : Str :=
  lead ++ "<task_plan_json>".toList ++ body ++ "</task_plan_json>".toList ++ tail

/-! ## Sample data used to evaluate the definitions -/

/-- A runtime whose every `sendInput` succeeds. -/
def sendAlwaysOk : SendOracle := fun _ _ => { ok := true, stderr := [], error := [] }

/-- A runtime whose every `sendInput` fails. -/
def sendAlwaysFails : SendOracle :=
  fun _ _ => { ok := false, stderr := "no such window".toList, error := [] }

/-- A fresh session with one worker, as `createSession` stores it. -/
def sampleSession : Session :=
  { sessionId := "session-1".toList
    supervisor := some { defaultSupervisor with processedDispatchKeys := [] }
    workers := [{ workerId := "worker-1".toList, status := "running".toList,
                  lastLine := [], lastLines := [] }]
    approvals := []
    dontAskRules := []
    approvalPolicy := { supervisorContinueSuggestion := "auto_continue".toList,
                        workerContinueSuggestion := "queue".toList }
    autoContinueHistory := [] }

/-- A stand-in for `Date.parse`: time stamps written as decimal milliseconds. -/
def sampleDateParse (s : Str) : Option Int :=
  if s.isEmpty || !s.all Char.isDigit then none
  else some (s.foldl (fun n c => 10 * n + (c.toNat - 48)) 0 : Nat)

/-- A stand-in for `toISOString`, inverse to `sampleDateParse`. -/
def sampleToISOString (t : Int) : Str := natToStr t.toNat

/-- A stand-in classifier: a line with `如果你要` is a continue suggestion, a line with
`1. yes` a three-choice prompt; the fingerprint is a fixed tag of the kind. -/
def sampleDetect (lines : List Str) : Detection :=
  if lines.any fun l => contains l "如果你要".toList then
    { hit := true, kind := "continue_suggestion".toList,
      promptText := (lines.filter fun l => contains l "如果你要".toList).getLastD [],
      fingerprint := "fp-continue".toList, options := [1, 2, 3] }
  else if lines.any fun l => contains l "1. yes".toList then
    { hit := true, kind := "three_choice".toList, promptText := lines.getLastD [],
      fingerprint := "fp-three".toList, options := [1, 2, 3] }
  else { hit := false, kind := "none".toList, promptText := [], fingerprint := [], options := [] }

/-- A capture that shows the single line `line`. -/
def captureOf (line : Str) : Capture := { ok := true, lines := [line], lastLine := line }

/-- An environment in which the target `shown` displays `line`, every other target is idle,
the clock stands at `now` and the runtime answers every input with `send`. -/
def sampleEnv (shown line : Str) (now : Int) (send : SendOracle) : BrokerEnv :=
  { readRecentLines := fun t => if t = shown then captureOf line else captureOf "idle".toList
    detectApprovalPrompt := sampleDetect
    sendInput := send
    dateNow := fun _ => now
    dateParse := sampleDateParse
    toISOString := sampleToISOString
    uuidv4 := fun n => "approval-".toList ++ natToStr n
    requestReplanForNoChoice := fun w i =>
      { ok := true, mode := [], dispatch := { workerId := w, instruction := i }, error := [] } }

/-- The continue suggestion used in the examples. -/
def samplePrompt : Str := "如果你要，我下一步可以继续。".toList

/-- An approval of `worker` for `samplePrompt`, as `scanAndQueue` creates it. -/
def sampleApproval (id worker status resolvedAt : Str) : Approval :=
  { id := id, sessionId := "session-1".toList, workerId := worker, sourceText := samplePrompt,
    fingerprint := "fp-continue".toList, kind := "continue_suggestion".toList,
    options := [1, 2, 3], status := status, createdAt := "1000".toList,
    resolvedAt := resolvedAt, resolvedChoice := if status = "resolved".toList then some 1 else none,
    instruction := [] }

/-- A session in which `worker-1` already has a pending approval for `samplePrompt`. -/
def sessionWithPending : Session :=
  { sampleSession with
    approvals := [sampleApproval "approval-0".toList "worker-1".toList "pending".toList []] }

/-- The environment of the examples: `worker-1` shows `samplePrompt` at time 1000000 and
every input is accepted. -/
def workerPromptEnv : BrokerEnv :=
  sampleEnv "worker-1".toList samplePrompt 1000000 sendAlwaysOk

/-- A session without approvals whose history says that the supervisor's `samplePrompt` was
auto-continued at time 998000. -/
def sessionWithHistory : Session :=
  let entry : AutoContinueEntry :=
    { workerId := "supervisor".toList, fingerprint := "fp-continue".toList,
      kind := "continue_suggestion".toList, atIso := "998000".toList }
  { sampleSession with autoContinueHistory := [entry] }

/-- The supervisor shows `samplePrompt` at time 1000000 and every input is accepted. -/
def supervisorPromptEnv : BrokerEnv :=
  sampleEnv "supervisor".toList samplePrompt 1000000 sendAlwaysOk

/-- `worker-1` has an approval for `samplePrompt` resolved at time `resolvedAt`. -/
def sessionResolvedAt (resolvedAt : Str) : Session :=
  { sampleSession with
    approvals := [sampleApproval "approval-0".toList "worker-1".toList "resolved".toList
      resolvedAt] }

/-- `worker-1` has an approval for `samplePrompt` resolved at time 900000 and a pending one
for the same prompt. -/
def sessionResolvedAndPending : Session :=
  { sampleSession with
    approvals := [sampleApproval "approval-0".toList "worker-1".toList "resolved".toList
        "900000".toList,
      sampleApproval "approval-1".toList "worker-1".toList "pending".toList []] }

/-- The entry of `targets` for the first worker of the sample sessions. -/
def workerOneTarget : TargetRef := { targetId := "worker-1".toList, slot := some 0 }

/-- The entry of `targets` for the supervisor. -/
def supervisorTarget : TargetRef := { targetId := "supervisor".toList, slot := none }

/-- A session in which the human chose "don't ask again" for `samplePrompt` on `worker-1`. -/
def sessionWithRule : Session :=
  let rule : DontAskRule :=
    { workerId := "worker-1".toList, fingerprint := "fp-continue".toList,
      kind := "continue_suggestion".toList, createdAt := "1000".toList }
  { sampleSession with dontAskRules := [rule] }

/-- A session that still holds a pending continue suggestion of the supervisor. -/
def sessionSupervisorPending : Session :=
  { sampleSession with
    approvals := [sampleApproval "approval-0".toList "supervisor".toList "pending".toList []] }

/-- The supervisor shows a three-choice prompt at time 1000000; every input is accepted. -/
def supervisorChoiceEnv : BrokerEnv :=
  sampleEnv "supervisor".toList "1. yes".toList 1000000 sendAlwaysOk


/-- A session in which `worker-1` has a pending three-choice approval. -/
def sessionChoicePending : Session :=
  let base := sampleApproval "approval-0".toList "worker-1".toList "pending".toList []
  { sampleSession with
    approvals := [{ base with kind := "three_choice".toList, fingerprint := "fp-three".toList }] }

/-- The environment of `sessionChoicePending` with a runtime that rejects every input. -/
def rejectingEnv : BrokerEnv :=
  sampleEnv "worker-1".toList "1. yes".toList 1000000 sendAlwaysFails


/-- White space of the JSON grammar. -/
def isJsonSpace (c : Char) : Bool := c == ' ' || c == '\n' || c == '\r' || c == '\t'

/-- The value of a hexadecimal digit. -/
def hexValue (c : Char) : Option Nat :=
  if c.isDigit then some (c.toNat - 48)
  else if 'a'.toNat ≤ c.toNat ∧ c.toNat ≤ 'f'.toNat then some (c.toNat - 87)
  else if 'A'.toNat ≤ c.toNat ∧ c.toNat ≤ 'F'.toNat then some (c.toNat - 55)
  else none

/-- The characters of a JSON string literal after its opening quote, and the text after
its closing quote; a raw control character makes the literal ill-formed. -/
def sampleStringBody : Str → Option (Str × Str)
  | [] => none
  | '"' :: rest => some ([], rest)
  | '\\' :: 'u' :: a :: b :: c :: d :: rest =>
    match hexValue a, hexValue b, hexValue c, hexValue d, sampleStringBody rest with
    | some x, some y, some z, some w, some (body, tail) =>
      some (Char.ofNat (((x * 16 + y) * 16 + z) * 16 + w) :: body, tail)
    | _, _, _, _, _ => none
  | '\\' :: e :: rest =>
    let decoded : Option Char :=
      if e = '"' then some '"' else if e = '\\' then some '\\' else if e = '/' then some '/'
      else if e = 'n' then some '\n' else if e = 'r' then some '\r'
      else if e = 't' then some '\t' else if e = 'b' then some '\x08'
      else if e = 'f' then some '\x0c' else none
    match decoded, sampleStringBody rest with
    | some ch, some (body, tail) => some (ch :: body, tail)
    | _, _ => none
  | c :: rest =>
    if c.toNat < 0x20 then none
    else (sampleStringBody rest).map fun r => (c :: r.1, r.2)

/-- An integer literal at the head of the text, read as a double; a fraction, an exponent
or a literal that overflows is refused. -/
def sampleNumber (s : Str) : Option (Json × Str) :=
  let negative := s.head? == some '-'
  let body := if negative then s.drop 1 else s
  let digits := body.takeWhile Char.isDigit
  let rest := body.dropWhile Char.isDigit
  if digits.isEmpty then none
  else if digits.length > 1 ∧ digits.head? == some '0' then none
  else if rest.head? == some '.' || rest.head? == some 'e' || rest.head? == some 'E' then none
  else
    match toDouble (digits.foldl (fun n c => 10 * n + (c.toNat - 48)) 0) with
    | some value => some (.num (if negative then -(value : Int) else (value : Int)), rest)
    | none => none

mutual
/-- A JSON value at the head of the text, and the text after it. -/
def sampleValue : Nat → Str → Option (Json × Str)
  | 0, _ => none
  | fuel + 1, s =>
    match s.dropWhile isJsonSpace with
    | '\x7b' :: rest =>
      match rest.dropWhile isJsonSpace with
      | '\x7d' :: tail => some (.obj [], tail)
      | members => (sampleMembers fuel members).map fun r => (.obj r.1, r.2)
    | '[' :: rest =>
      match rest.dropWhile isJsonSpace with
      | ']' :: tail => some (.arr [], tail)
      | elements => (sampleElements fuel elements).map fun r => (.arr r.1, r.2)
    | '"' :: rest => (sampleStringBody rest).map fun r => (.str r.1, r.2)
    | 't' :: 'r' :: 'u' :: 'e' :: tail => some (.bool true, tail)
    | 'f' :: 'a' :: 'l' :: 's' :: 'e' :: tail => some (.bool false, tail)
    | 'n' :: 'u' :: 'l' :: 'l' :: tail => some (.null, tail)
    | other => sampleNumber other
/-- The members of an object up to its closing brace. -/
def sampleMembers : Nat → Str → Option (List (Str × Json) × Str)
  | 0, _ => none
  | fuel + 1, s =>
    match s.dropWhile isJsonSpace with
    | '"' :: rest =>
      match sampleStringBody rest with
      | some (key, afterKey) =>
        match afterKey.dropWhile isJsonSpace with
        | ':' :: afterColon =>
          match sampleValue fuel afterColon with
          | some (value, afterValue) =>
            match afterValue.dropWhile isJsonSpace with
            | ',' :: more =>
              (sampleMembers fuel more).map fun r => ((key, value) :: r.1, r.2)
            | '\x7d' :: tail => some ([(key, value)], tail)
            | _ => none
          | none => none
        | _ => none
      | none => none
    | _ => none
/-- The elements of an array up to its closing bracket. -/
def sampleElements : Nat → Str → Option (List Json × Str)
  | 0, _ => none
  | fuel + 1, s =>
    match sampleValue fuel s with
    | some (value, afterValue) =>
      match afterValue.dropWhile isJsonSpace with
      | ',' :: more => (sampleElements fuel more).map fun r => (value :: r.1, r.2)
      | ']' :: tail => some ([value], tail)
      | _ => none
    | none => none
end

/-- A stand-in for `JSON.parse` on texts without duplicate keys whose numbers are finite
integers. -/
def sampleJsonParse (s : Str) : Option Json :=
  match sampleValue (s.length + 1) s with
  | some (value, rest) => if (rest.dropWhile isJsonSpace).isEmpty then some value else none
  | none => none

/-- The builtins of the examples; `Number(text)` is only needed for decimal digits there. -/
def sampleParserEnv : ParserEnv :=
  { jsonParse := sampleJsonParse
    numberOfString := fun text =>
      if !text.isEmpty && text.all Char.isDigit then positiveNumber text else none }


/-- A supervisor output with two plans: a tagged block with one task under `items`, and a
fenced block with a summary and, under `tasks`, three tasks of which one is blank. -/
def twoPlansText : Str :=
  ("<task_plan_json>\x7b\"items\":[\x7b\"task\":\"A\"\x7d]\x7d</task_plan_json> "
    ++ "```json \x7b\"planSummary\":\"s\",\"tasks\":[\x7b\"instruction\":\"B\"\x7d,"
    ++ "\x7b\"instruction\":\" \"\x7d,\x7b\"worker\":\"worker-1\",\"prompt\":\"C\"\x7d]\x7d ```").toList

/-- The plan of the fenced block of `twoPlansText`. -/
def twoPlansPlan : ParsedPlan :=
  { planSummary := "s".toList
    tasks := [{ workerIndex := 1, title := "子任务 1".toList, instruction := "B".toList,
                dependsOn := [] },
              { workerIndex := 1, title := "子任务 3".toList, instruction := "C".toList,
                dependsOn := [] }] }


/-- What the supervisor pane shows after a re-plan request: the echoed request with its
example block, then the answer of the supervisor. -/
def echoedReplanText : Str :=
  ("<dispatch_json>\x7b\"workerId\":\"worker-1\",\"instruction\":\"新的执行指令\"\x7d</dispatch_json> "
    ++ "<dispatch_json>\x7b\"workerId\":\"worker-1\",\"instruction\":\"先补测试再改代码\"\x7d"
    ++ "</dispatch_json>").toList

/-- The same directive for `worker-2` twice, once with two blanks between its words and once
with one, through two different tags. -/
def spacedDuplicatesText : Str :=
  ("<dispatch_json>\x7b\"workerId\":\"worker-2\",\"instruction\":\"run  tests\"\x7d</dispatch_json>"
    ++ "<dispatch_batch_json>\x7b\"tasks\":[\x7b\"workerId\":\"worker-2\","
    ++ "\"instruction\":\"run tests\"\x7d]\x7d</dispatch_batch_json>").toList

/-- The head of a plan block, up to the middle of the instruction `run tests`. -/
def planBlockHead : Str :=
  "<task_plan_json>\x7b\"tasks\":[\x7b\"workerIndex\":1,\"instruction\":\"run".toList

/-- The remainder of the plan block, which starts with the blank of `run tests`. -/
def planBlockTail : Str := " tests\"\x7d]\x7d</task_plan_json>".toList


/-- A plan of two tasks, as `normalizePlan` returns it. -/
def twoTaskPlan : Plan :=
  { planSummary := "拆分完成".toList
    tasks := [{ workerId := "worker-1".toList, workerIndex := 1, title := "A".toList,
                instruction := "先创建 src 目录\n再写 README".toList, dependsOn := [] },
              { workerId := "worker-2".toList, workerIndex := 2, title := "B".toList,
                instruction := "补测试".toList, dependsOn := [1] }] }

/-- A runtime that rejects the first input and accepts every later one. -/
def sendFirstFails : SendOracle :=
  fun i _ =>
    if i = 0 then { ok := false, stderr := "no such window".toList, error := [] }
    else { ok := true, stderr := [], error := [] }


/-- A capture of the supervisor pane that shows `twoPlansText`. -/
def twoPlansCapture : Capture := { ok := true, lines := [twoPlansText], lastLine := twoPlansText }


/-- A capture of the supervisor pane once Codex has started. -/
def readyCapture : Capture :=
  { ok := true
    lines := [">_ OpenAI Codex (v0.104.0)".toList, "model:     gpt-5.3-codex".toList,
      "  ? for shortcuts".toList]
    lastLine := "  ? for shortcuts".toList }

/-- A supervisor that becomes ready and then never prints anything new, with a runtime that
accepts every input. -/
def silentSupervisorEnv : PlannerEnv :=
  { parser := sampleParserEnv, sendInput := sendAlwaysOk, readyPolls := [readyCapture],
    planPolls := fun _ => [] }

/-- The error of a round of `requestPlan` under `silentSupervisorEnv`. -/
def silentRoundError : Str :=
  "规划失败: 等待主管规划超时; 格式修复失败: 等待主管规划超时".toList


/-- A stand-in for the SHA-256 digest in hexadecimal: the text itself. -/
def sampleSha256hex (text : Str) : Str := text

/-- The Unicode data of the examples, for the ASCII letters and the Greek sigma: `Σ` has
the mapping `σ`, the letters and the three sigmas are cased, and the byte order mark, the
full stop, the colon, the apostrophe and the circumflex are case-ignorable. -/
def sampleCaseData : CaseData :=
  { lower := fun c => if c = 'Σ' then ['σ'] else [c.toLower]
    cased := fun c => c.isAlpha || c == 'Σ' || c == 'σ' || c == 'ς'
    caseIgnorable := fun c =>
      c == '\uFEFF' || c == '.' || c == ':' || c == '\x27' || c == '^' }

/-- Two prompts that differ only in the character after the slash of a path; a byte order
mark, which is white space and case-ignorable, and a capital sigma follow the path. -/
def sigmaAfterLetter : Str := ['/', 'x', '\uFEFF', 'Σ']

/-- The second prompt: a digit stands where the first has a letter. -/
def sigmaAfterDigit : Str := ['/', '1', '\uFEFF', 'Σ']


/-- A tail with the three option markers, a continue-suggestion phrase and confirmation
vocabulary. -/
def mixedPromptTail : List Str :=
  ["如果你要，请 confirm".toList, "1. yes".toList, "2. yes and don't ask again".toList,
    "3. no, and tell codex what to do".toList]

/-- A tail whose confirmation vocabulary and whose yes/no token stand on different lines. -/
def splitYesNoTail : List Str := ["Please confirm the deployment".toList, "yes".toList]


/-- A stand-in for `Number(text)` on decimal literals whose fraction is zero, such as
`2.0`; only positive integers are reported. -/
def sampleNumberOfString (text : Str) : Option Nat :=
  let whole := text.takeWhile Char.isDigit
  let rest := text.dropWhile Char.isDigit
  if whole.isEmpty then none
  else if rest.isEmpty then positiveNumber whole
  else if rest.head? == some '.' && (rest.drop 1).all (fun c => c == '0') then
    positiveNumber whole
  else none

/-- The builtins with `sampleNumberOfString` for `Number(text)`. -/
def decimalParserEnv : ParserEnv :=
  { jsonParse := sampleJsonParse, numberOfString := sampleNumberOfString }

/-- A plan whose only task gives its worker index as the text `2.0`. -/
def decimalIndexText : Str :=
  ("<task_plan_json>\x7b\"tasks\":[\x7b\"workerIndex\":\"2.0\",".toList
    ++ "\"instruction\":\"run tests\"\x7d]\x7d</task_plan_json>".toList)


/-- A task whose instruction holds a CRLF break with blanks around it and two line feeds in
a row. -/
def brokenLinesTask : PlanTask :=
  { workerId := "worker-1".toList, workerIndex := 1, title := "T".toList
    instruction := "run \r\n tests\n\nnow".toList, dependsOn := [] }

/-- The message of `brokenLinesTask`, cut into its words and the white space after each. -/
def brokenLinesPieces : List (Str × Str) :=
  [("你是".toList, " ".toList), ("worker-1。".toList, "\n".toList),
   ("子任务标题：T。".toList, "\n".toList), ("依赖：无。".toList, "\n".toList),
   ("run".toList, " \r\n ".toList), ("tests".toList, "\n\n".toList), ("now".toList, "\n".toList),
   ("收到后请直接开始执行，并持续输出进展。".toList, [])]

/-- A task whose title holds a carriage return between two letters. -/
def carriageReturnTask : PlanTask :=
  { workerId := "worker-1".toList, workerIndex := 1, title := "a\rb".toList
    instruction := "run".toList, dependsOn := [] }


/-- The clock and a runtime that has lost its sessions: attaching and sending fail. -/
def lostRuntimeEnv : LifecycleEnv :=
  { nowIso := "2026-01-01T00:00:09.000Z".toList
    attachTmuxSession := fun _ _ _ =>
      { ok := false, stderr := [], error := "tmux session not found".toList }
    sendInput := fun _ _ => { ok := false, stderr := "会话不存在".toList, error := [] } }

/-- The record of a session with two workers while its first planning cycle is in
flight. -/
def planningRecord : SessionRecord :=
  { sessionId := "session-1".toList, status := "planning".toList, error := []
    runtime := "tmux".toList, tmuxSession := "codex-session-1".toList
    planning :=
      { state := "running".toList, phase := "start".toList, attempt := 1
        maxAttempts := 3, message := [], lastError := [], errors := []
        startedAt := "2026-01-01T00:00:00.000Z".toList, finishedAt := [] }
    workers :=
      [{ workerId := "worker-1".toList, status := "starting".toList, lastLine := []
         lastLines := [] },
       { workerId := "worker-2".toList, status := "starting".toList, lastLine := []
         lastLines := [] }]
    planSummary := [], planTasks := [] }

/-- The store and the watcher registry while that planning cycle is in flight. -/
def planningLifecycle : Lifecycle :=
  { store := [planningRecord]
    watchers := ["session-1".toList], stored := [], pushed := [], sent := [] }


/-- What the store holds when the application starts again while `session-1` was
planning: no watcher runs yet. -/
def persistedLifecycle : Lifecycle := { planningLifecycle with watchers := [] }


/-- Supervisor output with one block of each family: a single directive, a batch that
repeats its item, and a broadcast to two named workers. -/
def threeFamiliesText : Str :=
  ("<dispatch_json>\x7b\"workerId\":\"worker-1\",\"instruction\":\"继续任务 A\"\x7d</dispatch_json>\n"
    ++ "<dispatch_batch_json>\x7b\"tasks\":[\x7b\"workerId\":\"worker-2\",\"instruction\":\"继续任务 B\"\x7d,"
    ++ "\x7b\"workerId\":\"worker-2\",\"instruction\":\"继续任务 B\"\x7d]\x7d</dispatch_batch_json>\n"
    ++ "<dispatch_all_json>\x7b\"instruction\":\"同步日报\",\"workerIds\":[\"worker-1\",\"worker-3\"]\x7d"
    ++ "</dispatch_all_json>").toList

/-- Supervisor output with a broadcast that names no workers. -/
def broadcastText : Str :=
  "<dispatch_all_json>\x7b\"instruction\":\"同步日报\"\x7d</dispatch_all_json>".toList


/-- The inside of a string literal with braces, an escaped quotation mark and an escaped
backslash. -/
def literalBodySample : Str := "x\x7d\x7b\\\"y\\\\".toList

/-- A scan that is one brace deep, outside a string literal. -/
def openScan : BalancedScan :=
  { list := [], depth := 1, current := some ['\x7b'], inString := false, escaped := false }

/-- The members of an object whose string values hold braces, a quotation mark and a
backslash. -/
def nestedObjectFields : List (Str × Json) :=
  [("a".toList, .str "x\x7d\x7b\"y\\".toList),
   ("b".toList, .obj [("c".toList, .arr [.num 1, .null, .str "\x7d".toList])])]

/-- A reply with two objects between prose that holds braces of its own. -/
def proseWithObjects : Str :=
  "say \"\x7b\" then \x7b\"a\":1\x7d and \x7d \x7b\"b\":\x7b\"c\":\"\x7d\"\x7d\x7d \x7b".toList


/-- A plan whose only task gives its worker index as a text of digits that write
`2^53 + 1`, which is no double. -/
def roundedIndexText : Str :=
  ("<task_plan_json>\x7b\"tasks\":[\x7b\"workerIndex\":\"9007199254740993\",".toList
    ++ "\"instruction\":\"run tests\"\x7d]\x7d</task_plan_json>".toList)


/-- Supervisor output in which the directive for `worker-2` stands three times: alone,
then in a batch after a directive for `worker-1`, then in a broadcast. -/
def repeatedDirectiveText : Str :=
  ("<dispatch_json>\x7b\"workerId\":\"worker-2\",\"instruction\":\"继续任务 B\"\x7d</dispatch_json>\n"
    ++ "<dispatch_batch_json>\x7b\"tasks\":[\x7b\"workerId\":\"worker-1\",\"instruction\":\"继续任务 A\"\x7d,"
    ++ "\x7b\"workerId\":\"Worker-2\",\"instruction\":\" 继续任务 B \"\x7d]\x7d</dispatch_batch_json>\n"
    ++ "<dispatch_all_json>\x7b\"instruction\":\"继续任务 B\",\"workerIds\":[2]\x7d"
    ++ "</dispatch_all_json>").toList


/-- A fenced block and, after it, a tagged block, each with a plan of one task under
`tasks`: the two plans have the same score. -/
def tiedPlansText : Str :=
  ("```json \x7b\"tasks\":[\x7b\"instruction\":\"from the fence\"\x7d]\x7d ``` "
    ++ "<task_plan_json>\x7b\"tasks\":[\x7b\"instruction\":\"from the tag\"\x7d]\x7d</task_plan_json>").toList

/-- The plan of the tagged block of `tiedPlansText`. -/
def tiedPlansPlan : ParsedPlan :=
  { planSummary := []
    tasks := [{ workerIndex := 1, title := "子任务 1".toList, instruction := "from the tag".toList,
                dependsOn := [] }] }


/-- A prompt of 261 UTF-16 code units: the letter `a`, then 130 characters that take two
units each. -/
def emojiPrompt : Str := 'a' :: List.replicate 130 '😀'

/-- A session in which `worker-1` has a pending approval for `emojiPrompt`. -/
def sessionWithEmojiPending : Session :=
  { sampleSession with
    approvals := [{ sampleApproval "approval-0".toList "worker-1".toList "pending".toList []
                    with sourceText := emojiPrompt }] }

/-- A session whose pending approval names a worker that the session does not have. -/
def sessionWithLostTarget : Session := { sessionWithPending with workers := [] }

/-- The head of the JSON text of a plan with two tasks, up to a blank in the first
instruction; the instruction holds a code fence. -/
def wrappedFirst : Str :=
  ("\x7b\"planSummary\":\"ok\",\"tasks\":[\x7b\"workerIndex\":1,\"title\":\"A\","
    ++ "\"instruction\":\"run ```npm test``` in the ").toList

/-- The two further segments of the JSON text, each with the number of indentation blanks
that the terminal puts before it. -/
def wrappedRest : List (Nat × Str) :=
  [(2, ("repository\",\"dependsOn\":[]\x7d,\x7b\"workerIndex\":2,\"title\":\"B\","
        ++ "\"instruction\":\"then ").toList),
   (2, "report\",\"dependsOn\":[1]\x7d]\x7d".toList)]

/-- The head of a plan block, up to the backslash of the first escaped quotation mark of its
instruction. -/
def escapedHead : Str :=
  "<task_plan_json>\x7b\"tasks\":[\x7b\"instruction\":\"a\\".toList

/-- The remainder of the plan block: the instruction, which holds two escaped quotation marks
around two closing braces, goes on, and a member `backup` holds another plan of two tasks. -/
def escapedTail : Str :=
  ("\"\x7d\x7d\\\"b\"\x7d],\"backup\":\x7b\"tasks\":[\x7b\"instruction\":\"p\"\x7d,"
    ++ "\x7b\"instruction\":\"q\"\x7d]\x7d\x7d</task_plan_json>").toList

/-! ## Facts about the string primitives -/

theorem isDigit_digitChar (n : Nat) (h : n < 10) : (Nat.digitChar n).isDigit = true := by
  interval_cases n <;> decide

theorem toDigitsCore_digits (fuel : Nat) :
    ∀ (n : Nat) (acc : List Char), (∀ c ∈ acc, c.isDigit = true) →
      ∀ c ∈ Nat.toDigitsCore 10 fuel n acc, c.isDigit = true := by
  induction fuel with
  | zero =>
    intro n acc hacc c hc
    exact hacc c hc
  | succ fuel ih =>
    intro n acc hacc c hc
    unfold Nat.toDigitsCore at hc
    simp only [] at hc
    have hd : ∀ x ∈ Nat.digitChar (n % 10) :: acc, x.isDigit = true := by
      intro x hx
      rcases List.mem_cons.mp hx with hx | hx
      · rw [hx]
        exact isDigit_digitChar _ (Nat.mod_lt _ (by decide))
      · exact hacc x hx
    split at hc
    · exact hd c hc
    · exact ih _ _ hd c hc

theorem toDigitsCore_ne_nil (fuel n : Nat) (acc : List Char) :
    Nat.toDigitsCore 10 (fuel + 1) n acc ≠ [] := by
  induction fuel generalizing n acc with
  | zero =>
    unfold Nat.toDigitsCore
    simp only []
    split
    · exact List.cons_ne_nil _ _
    · unfold Nat.toDigitsCore
      exact List.cons_ne_nil _ _
  | succ fuel ih =>
    unfold Nat.toDigitsCore
    simp only []
    split
    · exact List.cons_ne_nil _ _
    · exact ih _ _

theorem natToStr_digits (n : Nat) : natToStr n ≠ [] ∧ ∀ c ∈ natToStr n, c.isDigit = true := by
  unfold natToStr Nat.toDigits
  exact ⟨toDigitsCore_ne_nil n n [], toDigitsCore_digits (n + 1) n [] (fun c hc => by cases hc)⟩

theorem toDouble_of_lt (n : Nat) (h : n < 2 ^ 53) : toDouble n = some n := by
  unfold toDouble
  rw [if_pos h]

theorem numberToString_of_lt (x : Nat) (h : x < 2 ^ 53) : numberToString x = natToStr x := by
  unfold numberToString
  rw [if_pos h]

theorem mem_dropTrailingZeros (digits : Str) (c : Char) (h : c ∈ dropTrailingZeros digits) :
    c ∈ digits := by
  unfold dropTrailingZeros at h
  rw [List.mem_reverse] at h
  exact List.mem_reverse.mp ((List.dropWhile_sublist _).subset h)

/-- The characters of `String(x)` are decimal digits, a point, the letter `e` and a plus
sign. -/
theorem numberToString_chars (x : Nat) :
    numberToString x ≠ []
      ∧ ∀ c ∈ numberToString x, c.isDigit = true ∨ c = '.' ∨ c = 'e' ∨ c = '+' := by
  unfold numberToString
  by_cases h1 : x < 2 ^ 53
  · rw [if_pos h1]
    exact ⟨(natToStr_digits x).1, fun c hc => Or.inl ((natToStr_digits x).2 c hc)⟩
  · rw [if_neg h1]
    dsimp only
    by_cases h2 : (natToStr (shortestDecimal x)).length ≤ 21
    · rw [if_pos h2]
      exact ⟨(natToStr_digits _).1, fun c hc => Or.inl ((natToStr_digits _).2 c hc)⟩
    · rw [if_neg h2]
      split
      · exact ⟨(natToStr_digits _).1, fun c hc => Or.inl ((natToStr_digits _).2 c hc)⟩
      · rename_i d hd
        refine ⟨List.cons_ne_nil _ _, ?_⟩
        intro c hc
        have hdm : d ∈ natToStr (shortestDecimal x) :=
          mem_dropTrailingZeros _ d (by rw [hd]; exact List.mem_cons_self _ _)
        simp only [List.mem_cons] at hc
        rcases hc with hc | hc | hc | hc
        · exact Or.inl (hc ▸ (natToStr_digits _).2 d hdm)
        · exact Or.inr (Or.inr (Or.inl hc))
        · exact Or.inr (Or.inr (Or.inr hc))
        · exact Or.inl ((natToStr_digits _).2 c hc)
      · rename_i d more hne hd
        refine ⟨List.cons_ne_nil _ _, ?_⟩
        intro c hc
        have hsub : ∀ y ∈ d :: more, y ∈ natToStr (shortestDecimal x) :=
          fun y hy => mem_dropTrailingZeros _ y (by rw [hd]; exact hy)
        simp only [List.mem_cons, List.mem_append] at hc
        rcases hc with (hc | hc | hc) | hc | hc | hc
        · exact Or.inl (hc ▸ (natToStr_digits _).2 d (hsub d (List.mem_cons_self _ _)))
        · exact Or.inr (Or.inl hc)
        · exact Or.inl ((natToStr_digits _).2 c (hsub c (List.mem_cons_of_mem _ hc)))
        · exact Or.inr (Or.inr (Or.inl hc))
        · exact Or.inr (Or.inr (Or.inr hc))
        · exact Or.inl ((natToStr_digits _).2 c hc)

theorem numberToString_plain (x : Nat) :
    ∀ c ∈ numberToString x, c ≠ '"' ∧ c ≠ '\x7b' ∧ c ≠ '\x7d' ∧ c ≠ ':' := by
  intro c hc
  rcases (numberToString_chars x).2 c hc with h | h | h | h
  · refine ⟨?_, ?_, ?_, ?_⟩ <;> (intro hq; rw [hq] at h; exact absurd h (by decide))
  · rw [h]; decide
  · rw [h]; decide
  · rw [h]; decide

theorem isJsSpace_toLower (c : Char) : isJsSpace c.toLower = isJsSpace c := by
  have key : ∀ m, 65 ≤ m → m ≤ 90 →
      isJsSpace (Char.ofNat (m + 32)) = false ∧ isJsSpace (Char.ofNat m) = false := by
    intro m h1 h2
    interval_cases m <;> decide
  unfold Char.toLower
  simp only []
  split
  · rename_i h
    have := key c.toNat h.1 h.2
    rw [Char.ofNat_toNat] at this
    rw [this.1, this.2]
  · rfl

theorem dropWhile_head_false {α : Type} (p : α → Bool) (l : List α) (c : α) (cs : List α)
    (h : l.dropWhile p = c :: cs) : p c = false := by
  induction l with
  | nil => simp at h
  | cons x xs ih =>
    rw [List.dropWhile_cons] at h
    split at h
    · exact ih h
    · rename_i hx
      injection h with h1 h2
      subst h1
      simpa using hx

theorem trimStart_head (s : Str) (c : Char) (cs : Str) (h : trimStart s = c :: cs) :
    isJsSpace c = false :=
  dropWhile_head_false isJsSpace s c cs h

theorem trimEnd_eq_self_of_last (s : Str) (c : Char) (h : isJsSpace c = false) :
    trimEnd (s ++ [c]) = s ++ [c] := by
  simp [trimEnd, List.dropWhile_cons, h]

theorem trimEnd_last (s : Str) (h : trimEnd s ≠ []) :
    ∃ t c, trimEnd s = t ++ [c] ∧ isJsSpace c = false := by
  unfold trimEnd at h ⊢
  cases hd : s.reverse.dropWhile isJsSpace with
  | nil => simp [hd] at h
  | cons c t =>
    exact ⟨t.reverse, c, by simp, dropWhile_head_false isJsSpace s.reverse c t hd⟩

theorem trimStart_eq_self_of_head (c : Char) (s : Str) (h : isJsSpace c = false) :
    trimStart (c :: s) = c :: s := by
  simp [trimStart, List.dropWhile_cons, h]

/-- A non-empty string that neither starts nor ends with white space is its own trim. -/
theorem trim_eq_self (c d : Char) (s : Str) (hc : isJsSpace c = false)
    (hd : isJsSpace d = false) : trim (c :: (s ++ [d])) = c :: (s ++ [d]) := by
  unfold trim
  rw [trimStart_eq_self_of_head c _ hc]
  have := trimEnd_eq_self_of_last (c :: s) d hd
  simpa using this

/-- The result of `trim`, when not empty, neither starts nor ends with white space. -/
theorem trim_shape (s : Str) (h : trim s ≠ []) :
    ∃ c t, trim s = c :: t ∧ isJsSpace c = false ∧
      ∃ u d, trim s = u ++ [d] ∧ isJsSpace d = false := by
  obtain ⟨u, d, hu, hd⟩ := trimEnd_last (trimStart s) h
  cases hs : trimStart s with
  | nil => simp [trim, hs, trimEnd] at h
  | cons c cs =>
    have hc := trimStart_head s c cs hs
    cases ht : trim s with
    | nil => exact absurd ht h
    | cons c2 t =>
      refine ⟨c2, t, rfl, ?_, u, d, ?_, hd⟩
      · have h1 : trim s = u ++ [d] := hu
        rw [hs] at hu
        unfold trim at ht
        rw [hs] at ht
        cases u with
        | nil =>
          simp only [List.nil_append] at hu
          rw [hu] at ht
          have : c2 = d := by simpa using (List.cons.inj ht).1.symm
          rw [this]; exact hd
        | cons u0 us =>
          -- the first character of `trimEnd (c :: cs)` is `c`
          have hlen : (trimEnd (c :: cs)).head? = some c := by
            unfold trimEnd
            have hsuf : (List.dropWhile isJsSpace (c :: cs).reverse) <:+ (c :: cs).reverse :=
              List.dropWhile_suffix _
            obtain ⟨pre, hpre⟩ := hsuf
            have hrev := congrArg List.reverse hpre
            simp only [List.reverse_append, List.reverse_reverse] at hrev
            have hne : (List.dropWhile isJsSpace (c :: cs).reverse).reverse ≠ [] := by
              have := hu ▸ (by simp : (u0 :: us ++ [d]) ≠ [])
              simpa [trimEnd] using this
            cases hr : (List.dropWhile isJsSpace (c :: cs).reverse).reverse with
            | nil => exact absurd hr hne
            | cons r0 rs =>
              rw [hr] at hrev
              simp only [List.cons_append] at hrev
              have := (List.cons.inj hrev).1
              simp [this]
          rw [ht] at hlen
          simp only [List.head?_cons, Option.some.injEq] at hlen
          rw [hlen]; exact hc
      · rw [← ht]; exact hu

/-! ## Facts about the dispatch ledger -/

theorem mem_jsSetAdd (set : List Str) (k x : Str) : x ∈ jsSetAdd set k ↔ x ∈ set ∨ x = k := by
  unfold jsSetAdd
  split
  · rename_i h
    constructor
    · exact Or.inl
    · rintro (h1 | h1)
      · exact h1
      · exact h1 ▸ h
  · simp

theorem mem_foldl_jsSetAdd (l acc : List Str) (x : Str) :
    x ∈ l.foldl jsSetAdd acc ↔ x ∈ acc ∨ x ∈ l := by
  induction l generalizing acc with
  | nil => simp
  | cons k ks ih =>
    rw [List.foldl_cons, ih, mem_jsSetAdd]
    simp only [List.mem_cons]
    tauto

theorem mem_jsSetOfList (l : List Str) (x : Str) : x ∈ jsSetOfList l ↔ x ∈ l := by
  unfold jsSetOfList
  rw [mem_foldl_jsSetAdd]
  simp

theorem mem_sliceLast_append (n : Nat) (hn : 0 < n) (l : List Str) (k : Str) :
    k ∈ sliceLast n (l ++ [k]) := by
  unfold sliceLast
  have h : (l ++ [k]).length - n ≤ l.length := by
    simp only [List.length_append, List.length_singleton]
    omega
  rw [List.drop_append_of_le_length h]
  simp

/-- The key of a directive, when it is not empty, starts with the lower-cased worker id and
is its own trim, so that it is found again when the ledger is read back. -/
theorem trim_actionKeyOf (a : Action) (h : actionKeyOf a ≠ []) :
    trim (actionKeyOf a) = actionKeyOf a := by
  unfold actionKeyOf buildDispatchActionKey at h ⊢
  simp only [normalizeDispatchInstruction] at h ⊢
  split
  · rename_i hemp
    simp [hemp] at h
  · rename_i hemp
    simp only [Bool.or_eq_true, List.isEmpty_iff, not_or, toLowerCase, List.map_eq_nil_iff] at hemp
    obtain ⟨hw, hi⟩ := hemp
    obtain ⟨c, t, hct, hc, _⟩ := trim_shape _ hw
    obtain ⟨_, _, _, _, u, d, hud, hd⟩ := trim_shape _ hi
    rw [hct, hud]
    have hc2 : isJsSpace c.toLower = false := by rw [isJsSpace_toLower]; exact hc
    have := trim_eq_self c.toLower d (t.map Char.toLower ++ "::".toList ++ u) hc2 hd
    simpa [toLowerCase, List.append_assoc] using this

theorem applyDispatchAction_skip (send : SendOracle) (sid : Str) (st : DispatchLoop) (a : Action)
    (h : ((trim a.workerId).isEmpty || (normalizeDispatchInstruction a.instruction).isEmpty
      || (actionKeyOf a).isEmpty) = true ∨ actionKeyOf a ∈ st.processedSet) :
    applyDispatchAction send sid st a = st := by
  unfold applyDispatchAction
  simp only []
  rcases h with h | h
  · rw [if_pos h]
  · by_cases hc : ((trim a.workerId).isEmpty || (normalizeDispatchInstruction a.instruction).isEmpty
      || (actionKeyOf a).isEmpty) = true
    · rw [if_pos hc]
    · rw [if_neg hc, if_pos h]

theorem applyDispatchAction_fresh (send : SendOracle) (sid : Str) (st : DispatchLoop) (a : Action)
    (h1 : ((trim a.workerId).isEmpty || (normalizeDispatchInstruction a.instruction).isEmpty
      || (actionKeyOf a).isEmpty) = false) (h2 : actionKeyOf a ∉ st.processedSet) :
    (applyDispatchAction send sid st a).appliedAny = true ∧
    (applyDispatchAction send sid st a).processedSet = st.processedSet ++ [actionKeyOf a] ∧
    ((detectExampleDispatchReason (normalizeDispatchInstruction a.instruction)).isEmpty = false →
      (applyDispatchAction send sid st a).sent = st.sent) := by
  unfold applyDispatchAction
  simp only [h1, h2, if_false, Bool.false_eq_true, jsSetAdd]
  split <;> simp_all

theorem applySupervisorDispatchActions_single (send : SendOracle) (s : Session) (a : Action) :
    applySupervisorDispatchActions send s [a] =
      dispatchLoopEnd s (s.supervisor.getD defaultSupervisor)
        (applyDispatchAction send s.sessionId
          (dispatchLoopStart s (s.supervisor.getD defaultSupervisor)) a) := by
  simp [applySupervisorDispatchActions]

/-- A directive that the loop skips leaves everything as it was; the supervisor record is
created when it was missing. -/
theorem applySupervisorDispatchActions_skip (send : SendOracle) (s : Session) (a : Action)
    (h : ((trim a.workerId).isEmpty || (normalizeDispatchInstruction a.instruction).isEmpty
        || (actionKeyOf a).isEmpty) = true
      ∨ actionKeyOf a ∈ (dispatchLoopStart s (s.supervisor.getD defaultSupervisor)).processedSet) :
    applySupervisorDispatchActions send s [a] =
      { changed := false
        session := { s with supervisor := some (s.supervisor.getD defaultSupervisor) }
        sent := [], stored := [], pushed := [] } := by
  rw [applySupervisorDispatchActions_single, applyDispatchAction_skip send s.sessionId _ a h]
  rfl

/-- A call that skips its directive on a session that has a supervisor record changes
nothing at all. -/
theorem applySupervisorDispatchActions_noop (send : SendOracle) (t : Session) (a : Action)
    (hsup : t.supervisor.isSome = true)
    (h : ((trim a.workerId).isEmpty || (normalizeDispatchInstruction a.instruction).isEmpty
        || (actionKeyOf a).isEmpty) = true
      ∨ actionKeyOf a ∈ (dispatchLoopStart t (t.supervisor.getD defaultSupervisor)).processedSet) :
    (applySupervisorDispatchActions send t [a]).sent = [] ∧
    (applySupervisorDispatchActions send t [a]).changed = false ∧
    (applySupervisorDispatchActions send t [a]).session = t := by
  rw [applySupervisorDispatchActions_skip send t a h]
  refine ⟨rfl, rfl, ?_⟩
  cases hs : t.supervisor with
  | none => rw [hs] at hsup; cases hsup
  | some v =>
    cases t
    simp only [Option.getD_some] at hs ⊢
    simp_all

/-- C2. Applying the same supervisor directive twice is idempotent: whatever the session,
the directive and the behaviour of the runtime in the two calls, the second call of
`applySupervisorDispatchActions` with the directive sends no input, returns `false` and
leaves the session, hence `processedDispatchKeys`, exactly as the first call left it. -/
theorem applySupervisorDispatchActions_idempotent (send1 send2 : SendOracle) (s : Session)
    (a : Action) :
    (applySupervisorDispatchActions send2
        (applySupervisorDispatchActions send1 s [a]).session [a]).sent = [] ∧
    (applySupervisorDispatchActions send2
        (applySupervisorDispatchActions send1 s [a]).session [a]).changed = false ∧
    (applySupervisorDispatchActions send2
        (applySupervisorDispatchActions send1 s [a]).session [a]).session
      = (applySupervisorDispatchActions send1 s [a]).session ∧
    ((applySupervisorDispatchActions send2
        (applySupervisorDispatchActions send1 s [a]).session [a]).session.supervisor.map
          fun v => v.processedDispatchKeys)
      = (applySupervisorDispatchActions send1 s [a]).session.supervisor.map
          fun v => v.processedDispatchKeys := by
  suffices h : (applySupervisorDispatchActions send1 s [a]).session.supervisor.isSome = true ∧
      (((trim a.workerId).isEmpty || (normalizeDispatchInstruction a.instruction).isEmpty
        || (actionKeyOf a).isEmpty) = true
      ∨ actionKeyOf a ∈ (dispatchLoopStart (applySupervisorDispatchActions send1 s [a]).session
          ((applySupervisorDispatchActions send1 s [a]).session.supervisor.getD
            defaultSupervisor)).processedSet) by
    obtain ⟨h1, h2, h3⟩ := applySupervisorDispatchActions_noop send2 _ a h.1 h.2
    exact ⟨h1, h2, h3, by rw [h3]⟩
  by_cases hemp : ((trim a.workerId).isEmpty || (normalizeDispatchInstruction a.instruction).isEmpty
      || (actionKeyOf a).isEmpty) = true
  · -- the directive is blank: both calls skip it
    rw [applySupervisorDispatchActions_skip send1 s a (Or.inl hemp)]
    exact ⟨rfl, Or.inl hemp⟩
  · have hemp' : ((trim a.workerId).isEmpty
        || (normalizeDispatchInstruction a.instruction).isEmpty
        || (actionKeyOf a).isEmpty) = false := by simpa using hemp
    have hkey : actionKeyOf a ≠ [] := by
      intro h0
      rw [h0] at hemp'
      simp at hemp'
    by_cases hin : actionKeyOf a ∈
        (dispatchLoopStart s (s.supervisor.getD defaultSupervisor)).processedSet
    · -- already in the ledger: both calls skip it
      rw [applySupervisorDispatchActions_skip send1 s a (Or.inr hin)]
      exact ⟨rfl, Or.inr hin⟩
    · -- processed by the first call: its key is the last one of the stored ledger
      obtain ⟨f1, f2, -⟩ := applyDispatchAction_fresh send1 s.sessionId
        (dispatchLoopStart s (s.supervisor.getD defaultSupervisor)) a hemp' hin
      have e1 : (applySupervisorDispatchActions send1 s [a]).session =
          { s with
            supervisor := some { (s.supervisor.getD defaultSupervisor) with
              processedDispatchKeys := sliceLast 360
                ((dispatchLoopStart s (s.supervisor.getD defaultSupervisor)).processedSet
                  ++ [actionKeyOf a]) }
            workers := (applyDispatchAction send1 s.sessionId
              (dispatchLoopStart s (s.supervisor.getD defaultSupervisor)) a).workers } := by
        rw [applySupervisorDispatchActions_single]
        simp [dispatchLoopEnd, f1, f2]
      rw [e1]
      refine ⟨rfl, Or.inr ?_⟩
      simp only [dispatchLoopStart, Option.getD_some]
      rw [mem_jsSetOfList, List.mem_filter]
      refine ⟨List.mem_map.mpr ⟨actionKeyOf a, mem_sliceLast_append 360 (by omega) _ _,
        trim_actionKeyOf a hkey⟩, ?_⟩
      cases hk : actionKeyOf a with
      | nil => exact absurd hk hkey
      | cons c cs => rfl

theorem mem_dropWhile_of_false {α : Type} (p : α → Bool) (l : List α) (c : α)
    (hc : c ∈ l) (hp : p c = false) : c ∈ l.dropWhile p := by
  induction l with
  | nil => cases hc
  | cons x xs ih =>
    rw [List.dropWhile_cons]
    split
    · rename_i hx
      rcases List.mem_cons.mp hc with h | h
      · subst h; rw [hp] at hx; cases hx
      · exact ih h
    · exact hc

theorem mem_trim_of_nonspace (s : Str) (c : Char) (hc : c ∈ s) (hp : isJsSpace c = false) :
    c ∈ trim s := by
  unfold trim trimEnd trimStart
  rw [List.mem_reverse]
  apply mem_dropWhile_of_false _ _ _ _ hp
  rw [List.mem_reverse]
  exact mem_dropWhile_of_false _ _ _ hc hp

theorem trim_ne_nil_of_mem (s : Str) (c : Char) (hc : c ∈ s) (hp : isJsSpace c = false) :
    trim s ≠ [] :=
  List.ne_nil_of_mem (mem_trim_of_nonspace s c hc hp)

theorem mem_collapseWsAux_of_nonspace (s : Str) (b : Bool) (c : Char) (hc : c ∈ s)
    (hp : isJsSpace c = false) : c ∈ collapseWsAux b s := by
  induction s generalizing b with
  | nil => cases hc
  | cons x xs ih =>
    rcases List.mem_cons.mp hc with h | h
    · subst h
      simp [collapseWsAux, hp]
    · unfold collapseWsAux
      split
      · split
        · exact ih true h
        · exact List.mem_cons_of_mem _ (ih true h)
      · exact List.mem_cons_of_mem _ (ih false h)

/-- A non-blank string stays non-blank under `trim` and under `normalizeDispatchInstruction`. -/
theorem trim_trim_ne_nil (s : Str) (h : trim s ≠ []) : trim (trim s) ≠ [] := by
  obtain ⟨c, t, hct, hc, -⟩ := trim_shape s h
  exact trim_ne_nil_of_mem _ c (by rw [hct]; exact List.mem_cons_self _ _) hc

theorem normalize_normalize_ne_nil (s : Str) (h : normalizeDispatchInstruction s ≠ []) :
    normalizeDispatchInstruction (normalizeDispatchInstruction s) ≠ [] := by
  obtain ⟨c, t, hct, hc, -⟩ := trim_shape _ h
  have hct2 : trim (collapseWs s) = c :: t := hct
  unfold normalizeDispatchInstruction
  apply trim_ne_nil_of_mem _ c _ hc
  apply mem_collapseWsAux_of_nonspace _ _ _ _ hc
  rw [hct2]; exact List.mem_cons_self _ _

theorem actionKeyOf_ne_nil (a : Action) (hw : trim a.workerId ≠ [])
    (hi : normalizeDispatchInstruction a.instruction ≠ []) : actionKeyOf a ≠ [] := by
  have h1 := trim_trim_ne_nil _ hw
  have h2 := normalize_normalize_ne_nil _ hi
  unfold actionKeyOf buildDispatchActionKey
  simp only [toLowerCase]
  cases h3 : trim (trim a.workerId) with
  | nil => exact absurd h3 h1
  | cons c cs => 
    cases h4 : normalizeDispatchInstruction (normalizeDispatchInstruction a.instruction) with
    | nil => exact absurd h4 h2
    | cons d ds => simp

/-- C3 (as amended). A directive with a non-blank worker id whose normalised instruction is
non-blank and is flagged by `detectExampleDispatchReason` (a placeholder or example phrase),
and whose key is not yet in the stored ledger, is intercepted:
`applySupervisorDispatchActions` calls `sendInput` zero times for it, still adds its key to
`processedDispatchKeys` and returns `true`. -/
theorem applySupervisorDispatchActions_placeholder (send : SendOracle) (s : Session) (a : Action)
    (hw : trim a.workerId ≠ [])
    (hi : normalizeDispatchInstruction a.instruction ≠ [])
    (hex : detectExampleDispatchReason (normalizeDispatchInstruction a.instruction) ≠ [])
    (hnew : ∀ k ∈ (s.supervisor.getD defaultSupervisor).processedDispatchKeys,
      trim k ≠ actionKeyOf a) :
    (applySupervisorDispatchActions send s [a]).sent = [] ∧
    (applySupervisorDispatchActions send s [a]).changed = true ∧
    ∃ v, (applySupervisorDispatchActions send s [a]).session.supervisor = some v ∧
      actionKeyOf a ∈ v.processedDispatchKeys := by
  have hkey := actionKeyOf_ne_nil a hw hi
  have hemp : ((trim a.workerId).isEmpty || (normalizeDispatchInstruction a.instruction).isEmpty
      || (actionKeyOf a).isEmpty) = false := by
    simp [List.isEmpty_iff, hw, hi, hkey]
  have hin : actionKeyOf a ∉
      (dispatchLoopStart s (s.supervisor.getD defaultSupervisor)).processedSet := by
    simp only [dispatchLoopStart]
    rw [mem_jsSetOfList, List.mem_filter, List.mem_map]
    rintro ⟨⟨k, hk, hk2⟩, -⟩
    exact hnew k hk hk2
  obtain ⟨f1, f2, f3⟩ := applyDispatchAction_fresh send s.sessionId
    (dispatchLoopStart s (s.supervisor.getD defaultSupervisor)) a hemp hin
  have f3' := f3 (by
    cases h : detectExampleDispatchReason (normalizeDispatchInstruction a.instruction) with
    | nil => exact absurd h hex
    | cons c cs => rfl)
  have hmem : actionKeyOf a ∈ sliceLast 360 (applyDispatchAction send s.sessionId
      (dispatchLoopStart s (s.supervisor.getD defaultSupervisor)) a).processedSet := by
    rw [f2]
    exact mem_sliceLast_append 360 (by omega) _ _
  rw [applySupervisorDispatchActions_single]
  unfold dispatchLoopEnd
  rw [f1]
  simp only [Bool.not_true, Bool.false_eq_true, if_false]
  refine ⟨f3', trivial, _, rfl, ?_⟩
  dsimp only
  exact hmem

/-- Witness for C3: the exact phrase `具体执行指令` sent to `worker-1` of a fresh session. -/
theorem applySupervisorDispatchActions_placeholder_witness :
    (applySupervisorDispatchActions sendAlwaysOk sampleSession
      [{ workerId := "worker-1".toList, instruction := "具体执行指令".toList }]).sent = [] ∧
    (applySupervisorDispatchActions sendAlwaysOk sampleSession
      [{ workerId := "worker-1".toList, instruction := "具体执行指令".toList }]).changed = true ∧
    ∃ v, (applySupervisorDispatchActions sendAlwaysOk sampleSession
        [{ workerId := "worker-1".toList,
           instruction := "具体执行指令".toList }]).session.supervisor = some v ∧
      actionKeyOf { workerId := "worker-1".toList, instruction := "具体执行指令".toList }
        ∈ v.processedDispatchKeys :=
  applySupervisorDispatchActions_placeholder sendAlwaysOk sampleSession
    { workerId := "worker-1".toList, instruction := "具体执行指令".toList }
    (by decide) (by decide) (by decide) (by decide)

/-- Counterexample to C3 as stated: the phrase `new instruction here` is not flagged by
`detectExampleDispatchReason`, so the directive is forwarded to the worker; and a flagged
phrase whose key is already in the ledger makes the call return `false`. -/
theorem applySupervisorDispatchActions_placeholder_counterexample :
    detectExampleDispatchReason "new instruction here".toList = [] ∧
    (applySupervisorDispatchActions sendAlwaysOk sampleSession
      [{ workerId := "worker-1".toList, instruction := "new instruction here".toList }]).sent
      = [{ sessionId := "session-1".toList, targetId := "worker-1".toList,
           text := "new instruction here".toList, pressEnter := true }] ∧
    (applySupervisorDispatchActions sendAlwaysOk
      (applySupervisorDispatchActions sendAlwaysOk sampleSession
        [{ workerId := "worker-1".toList, instruction := "具体执行指令".toList }]).session
      [{ workerId := "worker-1".toList, instruction := "具体执行指令".toList }]).changed
      = false := by
  refine ⟨by decide, by decide!, by decide!⟩

/-! ## Frame facts of the broker helpers -/

@[simp] theorem updateCapture_approvals (s : Session) (slot : Option Nat) (l : List Str)
    (x : Str) : (updateCapture s slot l x).approvals = s.approvals := by
  cases slot <;> rfl

@[simp] theorem updateCapture_dontAskRules (s : Session) (slot : Option Nat) (l : List Str)
    (x : Str) : (updateCapture s slot l x).dontAskRules = s.dontAskRules := by
  cases slot <;> rfl

@[simp] theorem updateCapture_approvalPolicy (s : Session) (slot : Option Nat) (l : List Str)
    (x : Str) : (updateCapture s slot l x).approvalPolicy = s.approvalPolicy := by
  cases slot <;> rfl

@[simp] theorem updateCapture_autoContinueHistory (s : Session) (slot : Option Nat)
    (l : List Str) (x : Str) :
    (updateCapture s slot l x).autoContinueHistory = s.autoContinueHistory := by
  cases slot <;> rfl

@[simp] theorem updateCapture_sessionId (s : Session) (slot : Option Nat) (l : List Str)
    (x : Str) : (updateCapture s slot l x).sessionId = s.sessionId := by
  cases slot <;> rfl

@[simp] theorem setTargetStatus_approvals (s : Session) (t x : Str) :
    (setTargetStatus s t x).approvals = s.approvals := by
  unfold setTargetStatus; split <;> rfl

@[simp] theorem setTargetStatus_dontAskRules (s : Session) (t x : Str) :
    (setTargetStatus s t x).dontAskRules = s.dontAskRules := by
  unfold setTargetStatus; split <;> rfl

@[simp] theorem setTargetStatus_approvalPolicy (s : Session) (t x : Str) :
    (setTargetStatus s t x).approvalPolicy = s.approvalPolicy := by
  unfold setTargetStatus; split <;> rfl

@[simp] theorem setTargetStatus_autoContinueHistory (s : Session) (t x : Str) :
    (setTargetStatus s t x).autoContinueHistory = s.autoContinueHistory := by
  unfold setTargetStatus; split <;> rfl

@[simp] theorem recordAutoContinueHistory_approvals (n : Str) (s : Session) (w f k : Str) :
    (recordAutoContinueHistory n s w f k).approvals = s.approvals := by
  simp only [recordAutoContinueHistory]

@[simp] theorem recordAutoContinueHistory_dontAskRules (n : Str) (s : Session) (w f k : Str) :
    (recordAutoContinueHistory n s w f k).dontAskRules = s.dontAskRules := by
  simp only [recordAutoContinueHistory]

@[simp] theorem recordAutoContinueHistory_approvalPolicy (n : Str) (s : Session) (w f k : Str) :
    (recordAutoContinueHistory n s w f k).approvalPolicy = s.approvalPolicy := by
  simp only [recordAutoContinueHistory]

@[simp] theorem recordAutoContinueHistory_workers (n : Str) (s : Session) (w f k : Str) :
    (recordAutoContinueHistory n s w f k).workers = s.workers := by
  simp only [recordAutoContinueHistory]

@[simp] theorem recordAutoContinueHistory_supervisor (n : Str) (s : Session) (w f k : Str) :
    (recordAutoContinueHistory n s w f k).supervisor = s.supervisor := by
  simp only [recordAutoContinueHistory]

theorem getContinueSuggestionPolicy_congr (s s2 : Session) (t : Str)
    (h : s2.approvalPolicy = s.approvalPolicy) :
    getContinueSuggestionPolicy s2 t = getContinueSuggestionPolicy s t := by
  unfold getContinueSuggestionPolicy
  rw [h]

theorem hasRecentlyHandled_congr (dp : Str → Option Int) (now : Int) (s s2 : Session)
    (w f k : Str) (h1 : s2.approvals = s.approvals)
    (h2 : s2.autoContinueHistory = s.autoContinueHistory) :
    hasRecentlyHandledSameApproval dp now s2 w f k
      = hasRecentlyHandledSameApproval dp now s w f k := by
  unfold hasRecentlyHandledSameApproval historyHasRecent
  rw [h1, h2]

@[simp] theorem afterCapture_approvals (env : BrokerEnv) (st : BrokerState) (t : TargetRef) :
    (afterCapture env st t).session.approvals = st.session.approvals := by
  simp [afterCapture]

@[simp] theorem afterCapture_dontAskRules (env : BrokerEnv) (st : BrokerState) (t : TargetRef) :
    (afterCapture env st t).session.dontAskRules = st.session.dontAskRules := by
  simp [afterCapture]

@[simp] theorem afterCapture_approvalPolicy (env : BrokerEnv) (st : BrokerState)
    (t : TargetRef) :
    (afterCapture env st t).session.approvalPolicy = st.session.approvalPolicy := by
  simp [afterCapture]

@[simp] theorem afterCapture_autoContinueHistory (env : BrokerEnv) (st : BrokerState)
    (t : TargetRef) :
    (afterCapture env st t).session.autoContinueHistory = st.session.autoContinueHistory := by
  simp [afterCapture]

@[simp] theorem afterCapture_sessionId (env : BrokerEnv) (st : BrokerState) (t : TargetRef) :
    (afterCapture env st t).session.sessionId = st.session.sessionId := by
  simp [afterCapture]

@[simp] theorem afterCapture_sent (env : BrokerEnv) (st : BrokerState) (t : TargetRef) :
    (afterCapture env st t).sent = st.sent := rfl

@[simp] theorem afterCapture_changed (env : BrokerEnv) (st : BrokerState) (t : TargetRef) :
    (afterCapture env st t).changed = st.changed := rfl

/-- The loop body, with the policy test written out. -/
theorem scanTarget_eq (env : BrokerEnv) (now : Int) (st : BrokerState) (t : TargetRef) :
    scanTarget env now st t =
      (if !(detectionOf env t.targetId).hit then afterCapture env st t
       else if (afterCapture env st t).session.approvals.any
           (isPendingSame t.targetId (detectionOf env t.targetId).fingerprint
             (detectionOf env t.targetId).kind) then afterCapture env st t
       else if hasRecentlyHandledSameApproval env.dateParse now (afterCapture env st t).session
           t.targetId (detectionOf env t.targetId).fingerprint
           (detectionOf env t.targetId).kind then afterCapture env st t
       else if (detectionOf env t.targetId).kind = "continue_suggestion".toList
           ∧ getContinueSuggestionPolicy (afterCapture env st t).session t.targetId
             = "auto_continue".toList then
         scanAutoContinue env now (afterCapture env st t) t.targetId (detectionOf env t.targetId)
           (getContinueSuggestionPolicy (afterCapture env st t).session t.targetId)
       else if (afterCapture env st t).session.dontAskRules.any
           (ruleMatches t.targetId (detectionOf env t.targetId).fingerprint
             (detectionOf env t.targetId).kind) then
         scanAutoResolve env (afterCapture env st t) t.targetId (detectionOf env t.targetId)
       else scanCreateApproval env now (afterCapture env st t) t.targetId
         (detectionOf env t.targetId)) := by
  unfold scanTarget
  simp only []
  by_cases hk : (detectionOf env t.targetId).kind = "continue_suggestion".toList
  · simp only [hk, if_true, true_and]
  · simp only [hk, if_false, false_and]

/-! ## What each branch of the loop body does to the session -/

@[simp] theorem brokerSend_session (env : BrokerEnv) (st : BrokerState) (t x : Str) :
    (brokerSend env st t x).2.session = st.session := rfl

@[simp] theorem brokerSend_sent (env : BrokerEnv) (st : BrokerState) (t x : Str) :
    (brokerSend env st t x).2.sent = st.sent ++
      [{ sessionId := st.session.sessionId, targetId := t, text := x, pressEnter := true }] :=
  rfl

@[simp] theorem brokerSend_changed (env : BrokerEnv) (st : BrokerState) (t x : Str) :
    (brokerSend env st t x).2.changed = st.changed := rfl

@[simp] theorem brokerEmit_session (st : BrokerState) (a b : BrokerEvent) :
    (brokerEmit st a b).session = st.session := rfl

@[simp] theorem brokerEmit_sent (st : BrokerState) (a b : BrokerEvent) :
    (brokerEmit st a b).sent = st.sent := rfl

@[simp] theorem brokerEmit_changed (st : BrokerState) (a b : BrokerEvent) :
    (brokerEmit st a b).changed = st.changed := rfl

theorem scanAutoContinue_approvals (env : BrokerEnv) (now : Int) (st : BrokerState)
    (t : Str) (d : Detection) (p : Str) :
    (scanAutoContinue env now st t d p).session.approvals = st.session.approvals := by
  unfold scanAutoContinue
  simp only [brokerEmit_session]
  split <;> simp

theorem scanAutoContinue_approvalPolicy (env : BrokerEnv) (now : Int) (st : BrokerState)
    (t : Str) (d : Detection) (p : Str) :
    (scanAutoContinue env now st t d p).session.approvalPolicy = st.session.approvalPolicy := by
  unfold scanAutoContinue
  simp only [brokerEmit_session]
  split <;> simp

theorem scanAutoContinue_sent (env : BrokerEnv) (now : Int) (st : BrokerState)
    (t : Str) (d : Detection) (p : Str) :
    (scanAutoContinue env now st t d p).sent = st.sent ++
      [{ sessionId := st.session.sessionId, targetId := t,
         text := buildContinueExecutionInstruction, pressEnter := true }] := by
  unfold scanAutoContinue
  simp

theorem scanAutoResolve_session (env : BrokerEnv) (st : BrokerState) (t : Str)
    (d : Detection) : (scanAutoResolve env st t d).session = st.session := by
  unfold scanAutoResolve
  simp

theorem scanAutoResolve_sent (env : BrokerEnv) (st : BrokerState) (t : Str) (d : Detection) :
    (scanAutoResolve env st t d).sent = st.sent ++
      [{ sessionId := st.session.sessionId, targetId := t,
         text := if d.kind = "continue_suggestion".toList then buildContinueExecutionInstruction
           else "2".toList,
         pressEnter := true }] := by
  unfold scanAutoResolve
  simp

theorem scanCreateApproval_approvals (env : BrokerEnv) (now : Int) (st : BrokerState)
    (t : Str) (d : Detection) :
    (scanCreateApproval env now st t d).session.approvals
      = st.session.approvals ++ [newApproval env now st.session t d] := by
  unfold scanCreateApproval
  simp

theorem scanCreateApproval_approvalPolicy (env : BrokerEnv) (now : Int) (st : BrokerState)
    (t : Str) (d : Detection) :
    (scanCreateApproval env now st t d).session.approvalPolicy = st.session.approvalPolicy := by
  unfold scanCreateApproval
  simp

theorem scanTarget_approvalPolicy (env : BrokerEnv) (now : Int) (st : BrokerState)
    (t : TargetRef) :
    (scanTarget env now st t).session.approvalPolicy = st.session.approvalPolicy := by
  rw [scanTarget_eq]
  split_ifs <;>
    simp [scanAutoContinue_approvalPolicy, scanAutoResolve_session,
      scanCreateApproval_approvalPolicy]

/-- The loop body either leaves the approval list as it is, or appends one new pending
approval for a prompt that had no pending approval. -/
theorem scanTarget_approvals (env : BrokerEnv) (now : Int) (st : BrokerState) (t : TargetRef) :
    (scanTarget env now st t).session.approvals = st.session.approvals ∨
    (st.session.approvals.any (isPendingSame t.targetId (detectionOf env t.targetId).fingerprint
        (detectionOf env t.targetId).kind) = false ∧
      (scanTarget env now st t).session.approvals = st.session.approvals ++
        [newApproval env now (afterCapture env st t).session t.targetId
          (detectionOf env t.targetId)]) := by
  rw [scanTarget_eq]
  split_ifs with h1 h2 h3 h4 h5
  · left; simp
  · left; simp
  · left; simp
  · left; simp [scanAutoContinue_approvals]
  · left; simp [scanAutoResolve_session]
  · right
    refine ⟨by simpa using h2, ?_⟩
    rw [scanCreateApproval_approvals]
    simp

/-! ## The sweep and the loop -/

theorem recordSwept_frame (resolvedAt : Str) (items : List Approval) (s : Session) :
    (recordSwept resolvedAt items s).approvals = s.approvals ∧
    (recordSwept resolvedAt items s).approvalPolicy = s.approvalPolicy ∧
    (recordSwept resolvedAt items s).workers = s.workers ∧
    (recordSwept resolvedAt items s).supervisor = s.supervisor ∧
    (recordSwept resolvedAt items s).dontAskRules = s.dontAskRules := by
  induction items generalizing s with
  | nil => simp [recordSwept]
  | cons a rest ih =>
    obtain ⟨h1, h2, h3, h4, h5⟩ := ih (recordAutoContinueHistory resolvedAt s "supervisor".toList
      a.fingerprint a.kind)
    simp only [recordSwept]
    rw [h1, h2, h3, h4, h5]
    simp

theorem sweepResolve_frame (resolvedAt : Str) (s : Session) (items : List Approval) :
    (sweepResolve resolvedAt s items).approvals =
      s.approvals.map (fun item =>
        if isPendingSupervisorSuggestion item then autoResolved resolvedAt item else item) ∧
    (sweepResolve resolvedAt s items).approvalPolicy = s.approvalPolicy ∧
    (sweepResolve resolvedAt s items).workers = s.workers ∧
    (sweepResolve resolvedAt s items).dontAskRules = s.dontAskRules ∧
    ∃ v, (sweepResolve resolvedAt s items).supervisor = some v ∧ v.status = "running".toList := by
  unfold sweepResolve
  simp only []
  obtain ⟨h1, h2, h3, h4, h5⟩ := recordSwept_frame resolvedAt items
    { s with approvals := s.approvals.map fun item =>
        if isPendingSupervisorSuggestion item then autoResolved resolvedAt item else item }
  refine ⟨?_, ?_, ?_, ?_, ?_⟩
  · rw [setTargetStatus_approvals, h1]
  · rw [setTargetStatus_approvalPolicy, h2]
  · simp [setTargetStatus, h3]
  · rw [setTargetStatus_dontAskRules, h5]
  · simp [setTargetStatus]

/-- The three outcomes of the sweep: nothing to do (no pending item, or a policy other than
`auto_continue`), a failed send, or every pending item resolved with choice 1. -/
theorem sweep_cases (env : BrokerEnv) (now : Int) (st : BrokerState) :
    (((st.session.approvals.filter isPendingSupervisorSuggestion).length = 0
        ∨ getContinueSuggestionPolicy st.session "supervisor".toList ≠ "auto_continue".toList) ∧
      autoContinuePendingSupervisorSuggestions env now st = (false, st)) ∨
    ((autoContinuePendingSupervisorSuggestions env now st).1 = false ∧
      (autoContinuePendingSupervisorSuggestions env now st).2.session = st.session ∧
      (autoContinuePendingSupervisorSuggestions env now st).2.sent = st.sent ++
        [continueCall st.session.sessionId "supervisor".toList] ∧
      (env.sendInput st.sent.length
        (continueCall st.session.sessionId "supervisor".toList)).ok = false) ∨
    ((autoContinuePendingSupervisorSuggestions env now st).1 = true ∧
      getContinueSuggestionPolicy st.session "supervisor".toList = "auto_continue".toList ∧
      (env.sendInput st.sent.length
        (continueCall st.session.sessionId "supervisor".toList)).ok = true ∧
      (autoContinuePendingSupervisorSuggestions env now st).2.session =
        sweepResolve (env.toISOString now) st.session
          (st.session.approvals.filter isPendingSupervisorSuggestion) ∧
      (autoContinuePendingSupervisorSuggestions env now st).2.sent = st.sent ++
        [continueCall st.session.sessionId "supervisor".toList]) := by
  unfold autoContinuePendingSupervisorSuggestions
  simp only []
  split
  · rename_i h0
    left; exact ⟨Or.inl h0, rfl⟩
  · split
    · rename_i hp
      left; exact ⟨Or.inr hp, rfl⟩
    · rename_i hpol
      split
      · rename_i hok
        right; left
        refine ⟨rfl, by simp, by simp [continueCall], ?_⟩
        simpa [brokerSend, continueCall] using hok
      · rename_i hok
        right; right
        refine ⟨rfl, by simpa using hpol, by simpa [brokerSend, continueCall] using hok,
          by simp, by simp [continueCall]⟩

/-! ## No pending approval is duplicated -/

theorem mem_pendingTriples (l : List Approval) (t f k : Str) :
    (t, f, k) ∈ pendingTriples l ↔ l.any (isPendingSame t f k) = true := by
  unfold pendingTriples isPendingSame
  simp only [List.mem_map, List.mem_filter, List.any_eq_true, Bool.and_eq_true,
    decide_eq_true_eq, Prod.mk.injEq]
  constructor
  · rintro ⟨a, ⟨ha, hs⟩, h1, h2, h3⟩
    exact ⟨a, ha, ⟨⟨⟨hs, h1⟩, h2⟩, h3⟩⟩
  · rintro ⟨a, ha, ⟨⟨⟨hs, h1⟩, h2⟩, h3⟩⟩
    exact ⟨a, ⟨ha, hs⟩, h1, h2, h3⟩

theorem pendingTriples_append_new (env : BrokerEnv) (now : Int) (s : Session) (t : Str)
    (d : Detection) (l : List Approval) :
    pendingTriples (l ++ [newApproval env now s t d])
      = pendingTriples l ++ [(t, d.fingerprint, d.kind)] := by
  simp [pendingTriples, newApproval, List.filter_append, List.filter_cons]

theorem pendingTriples_sweep_sublist (resolvedAt : Str) (l : List Approval) :
    (pendingTriples (l.map fun item =>
      if isPendingSupervisorSuggestion item then autoResolved resolvedAt item else item)).Sublist
      (pendingTriples l) := by
  induction l with
  | nil => simp [pendingTriples]
  | cons a rest ih =>
    unfold pendingTriples at ih ⊢
    rw [List.map_cons]
    by_cases hp : isPendingSupervisorSuggestion a = true
    · have hpend : a.status = "pending".toList := by
        simp only [isPendingSupervisorSuggestion, Bool.and_eq_true, decide_eq_true_eq] at hp
        exact hp.1.1
      have hres : ¬ ((autoResolved resolvedAt a).status = "pending".toList) := by
        simp only [autoResolved]
        decide
      simp only [hp, if_true, List.filter_cons, hres, decide_False, hpend, decide_True,
        List.map_cons, Bool.false_eq_true, if_false]
      exact List.Sublist.cons _ ih
    · simp only [hp, if_false, Bool.false_eq_true, List.filter_cons]
      split
      · simp only [List.map_cons]
        exact List.Sublist.cons₂ _ ih
      · exact ih

theorem scanTarget_pendingUnique (env : BrokerEnv) (now : Int) (st : BrokerState)
    (t : TargetRef) (h : PendingUnique st.session) :
    PendingUnique (scanTarget env now st t).session := by
  unfold PendingUnique at h ⊢
  rcases scanTarget_approvals env now st t with h1 | ⟨hno, h1⟩
  · rw [h1]; exact h
  · rw [h1, pendingTriples_append_new]
    rw [List.nodup_append]
    refine ⟨h, List.nodup_singleton _, ?_⟩
    intro x hx hx2
    rw [List.mem_singleton] at hx2
    subst hx2
    rw [mem_pendingTriples, hno] at hx
    cases hx

theorem scanLoop_pendingUnique (env : BrokerEnv) (ts : List TargetRef) (i : Nat)
    (st : BrokerState) (h : PendingUnique st.session) :
    PendingUnique (scanLoop env i st ts).session := by
  induction ts generalizing i st with
  | nil => exact h
  | cons t rest ih =>
    exact ih (i + 1) _ (scanTarget_pendingUnique env _ st t h)

theorem sweep_pendingUnique (env : BrokerEnv) (now : Int) (st : BrokerState)
    (h : PendingUnique st.session) :
    PendingUnique (autoContinuePendingSupervisorSuggestions env now st).2.session := by
  rcases sweep_cases env now st with ⟨-, h1⟩ | ⟨-, h1, -⟩ | ⟨-, -, -, h1, -⟩
  · rw [h1]; exact h
  · rw [h1]; exact h
  · unfold PendingUnique at h ⊢
    rw [h1, (sweepResolve_frame _ _ _).1]
    exact List.Nodup.sublist (pendingTriples_sweep_sublist _ _) h

/-- A prompt that is unresolved (it has a pending approval) is not queued again: the loop
body leaves the approval list as it is. -/
theorem scanTarget_unresolved (env : BrokerEnv) (now : Int) (st : BrokerState) (t : TargetRef)
    (h : promptUnresolved env st.session t = true) :
    (scanTarget env now st t).session.approvals = st.session.approvals := by
  rcases scanTarget_approvals env now st t with h1 | ⟨hno, -⟩
  · exact h1
  · rw [scanTarget_eq]
    unfold promptUnresolved at h
    rw [hno] at h
    simp only [Bool.or_false] at h
    rw [if_pos h]
    simp

theorem scanTarget_covered (env : BrokerEnv) (now : Int) (st : BrokerState) (t : TargetRef)
    (h : promptCovered env st.session t = true) :
    (scanTarget env now st t).session.approvals = st.session.approvals := by
  unfold promptCovered at h
  rcases Bool.or_eq_true _ _ ▸ h with h | h
  · exact scanTarget_unresolved env now st t h
  · simp only [Bool.and_eq_true, decide_eq_true_eq] at h
    obtain ⟨⟨ht, hk⟩, hp⟩ := h
    rw [scanTarget_eq]
    have hpol : getContinueSuggestionPolicy (afterCapture env st t).session t.targetId
        = "auto_continue".toList := by
      rw [ht, getContinueSuggestionPolicy_congr st.session _ _ (by simp)]
      exact hp
    split_ifs with h1 h2 h3 h4 h5
    · simp
    · simp
    · simp
    · simp [scanAutoContinue_approvals]
    · exact absurd ⟨hk, hpol⟩ h4
    · exact absurd ⟨hk, hpol⟩ h4

theorem promptCovered_congr (env : BrokerEnv) (s s2 : Session) (t : TargetRef)
    (h1 : s2.approvals = s.approvals) (h2 : s2.approvalPolicy = s.approvalPolicy) :
    promptCovered env s2 t = promptCovered env s t := by
  unfold promptCovered promptUnresolved
  rw [h1, getContinueSuggestionPolicy_congr s s2 _ h2]

theorem scanLoop_covered (env : BrokerEnv) (ts : List TargetRef) (i : Nat) (st : BrokerState)
    (h : ∀ t ∈ ts, promptCovered env st.session t = true) :
    (scanLoop env i st ts).session.approvals = st.session.approvals := by
  induction ts generalizing i st with
  | nil => rfl
  | cons t rest ih =>
    have h1 := scanTarget_covered env (env.dateNow (i + 1)) st t (h t (List.mem_cons_self _ _))
    have h2 := scanTarget_approvalPolicy env (env.dateNow (i + 1)) st t
    simp only [scanLoop]
    rw [ih (i + 1) _ (fun u hu => by
      rw [promptCovered_congr env st.session _ u h1 h2]
      exact h u (List.mem_cons_of_mem _ hu)), h1]

theorem sweep_covered (env : BrokerEnv) (now : Int) (st : BrokerState) (t : TargetRef)
    (h : promptUnresolved env st.session t = true) :
    promptCovered env (autoContinuePendingSupervisorSuggestions env now st).2.session t
      = true := by
  rcases sweep_cases env now st with ⟨-, h1⟩ | ⟨-, h1, -⟩ | ⟨-, hpol, -, h1, -⟩
  · rw [h1]; simp [promptCovered, h]
  · rw [h1]; simp [promptCovered, h]
  · obtain ⟨ha, hp, -, -, -⟩ := sweepResolve_frame (env.toISOString now) st.session
      (st.session.approvals.filter isPendingSupervisorSuggestion)
    rw [h1]
    unfold promptCovered promptUnresolved
    rw [getContinueSuggestionPolicy_congr st.session _ _ hp, ha, hpol]
    unfold promptUnresolved at h
    rcases Bool.or_eq_true _ _ ▸ h with h | h
    · simp [h]
    · rw [List.any_eq_true] at h
      obtain ⟨a, hmem, hsame⟩ := h
      by_cases hsw : isPendingSupervisorSuggestion a = true
      · have hs := hsame
        simp only [isPendingSame, Bool.and_eq_true, decide_eq_true_eq] at hs
        simp only [isPendingSupervisorSuggestion, Bool.and_eq_true, decide_eq_true_eq] at hsw
        have ht : t.targetId = "supervisor".toList := by rw [← hs.1.1.2]; exact hsw.1.2
        have hk : (detectionOf env t.targetId).kind = "continue_suggestion".toList := by
          rw [← hs.2]; exact hsw.2
        rw [Bool.or_eq_true]
        right
        simp only [Bool.and_eq_true, decide_eq_true_eq]
        exact ⟨⟨ht, hk⟩, trivial⟩
      · have : (List.map (fun item =>
            if isPendingSupervisorSuggestion item then autoResolved (env.toISOString now) item
            else item) st.session.approvals).any
            (isPendingSame t.targetId (detectionOf env t.targetId).fingerprint
              (detectionOf env t.targetId).kind) = true := by
          rw [List.any_eq_true]
          exact ⟨a, List.mem_map.mpr ⟨a, hmem, by simp [hsw]⟩, hsame⟩
        simp [this]

theorem sweep_workers (env : BrokerEnv) (now : Int) (st : BrokerState) :
    (autoContinuePendingSupervisorSuggestions env now st).2.session.workers
      = st.session.workers := by
  rcases sweep_cases env now st with ⟨-, h1⟩ | ⟨-, h1, -⟩ | ⟨-, -, -, h1, -⟩
  · rw [h1]
  · rw [h1]
  · rw [h1, (sweepResolve_frame _ _ _).2.2.1]

theorem sweep_approvals_length (env : BrokerEnv) (now : Int) (st : BrokerState) :
    (autoContinuePendingSupervisorSuggestions env now st).2.session.approvals.length
      = st.session.approvals.length := by
  rcases sweep_cases env now st with ⟨-, h1⟩ | ⟨-, h1, -⟩ | ⟨-, -, -, h1, -⟩
  · rw [h1]
  · rw [h1]
  · rw [h1, (sweepResolve_frame _ _ _).1, List.length_map]

/-- C1. `scanAndQueue` keeps the invariant that no two pending approvals share the same
(target id, fingerprint, kind); the loop body never queues a prompt that already has a
pending approval; and a scan in which every prompt shown is still unresolved (has its
pending approval) leaves the length of `session.approvals` unchanged. -/
theorem scanAndQueue_no_duplicate_pending (env : BrokerEnv) (s : Session) :
    (PendingUnique s → PendingUnique (scanAndQueue env s).session) ∧
    (∀ (now : Int) (st : BrokerState) (t : TargetRef),
      promptUnresolved env st.session t = true →
        (scanTarget env now st t).session.approvals = st.session.approvals) ∧
    ((∀ t ∈ scanTargets s, promptUnresolved env s t = true) →
      (scanAndQueue env s).session.approvals.length = s.approvals.length) := by
  refine ⟨?_, fun now st t h => scanTarget_unresolved env now st t h, ?_⟩
  · intro h
    unfold scanAndQueue
    apply scanLoop_pendingUnique
    exact sweep_pendingUnique env _ (brokerStart s) h
  · intro h
    unfold scanAndQueue
    simp only []
    rw [scanLoop_covered]
    · exact sweep_approvals_length env _ (brokerStart s)
    · intro t ht
      have hw := sweep_workers env (env.dateNow 0) (brokerStart s)
      have ht2 : t ∈ scanTargets s := by
        unfold scanTargets at ht ⊢
        rw [hw] at ht
        exact ht
      exact sweep_covered env _ (brokerStart s) t (h t ht2)

/-- Witness for C1: `worker-1` shows a prompt for which it already has a pending approval;
the scan keeps the invariant and does not grow the approval list. -/
theorem scanAndQueue_no_duplicate_pending_witness :
    PendingUnique (scanAndQueue workerPromptEnv sessionWithPending).session ∧
    (scanAndQueue workerPromptEnv sessionWithPending).session.approvals.length
      = sessionWithPending.approvals.length :=
  ⟨(scanAndQueue_no_duplicate_pending workerPromptEnv sessionWithPending).1 (by decide),
   (scanAndQueue_no_duplicate_pending workerPromptEnv sessionWithPending).2.2 (by decide)⟩

/-! ## The rearm window -/

/-- Whether an approval is a resolved one of the triple, as `hasRecentlyHandledSameApproval`
filters. -/
theorem mem_matching_resolved (l : List Approval) (w f k : Str) (a : Approval) :
    a ∈ l.filter (fun item => decide (item.workerId = w) && decide (item.fingerprint = f)
        && decide (item.kind = k) && decide (item.status = "resolved".toList)) ↔
      a ∈ l ∧ a.workerId = w ∧ a.fingerprint = f ∧ a.kind = k ∧ a.status = "resolved".toList := by
  simp only [List.mem_filter, Bool.and_eq_true, decide_eq_true_eq]
  tauto

/-- The head of the sorted list is a matching approval with the greatest time stamp. -/
theorem head_insertionSort_latest (dp : Str → Option Int) (l : List Approval)
    (latest : Approval)
    (h : (l.insertionSort fun a b => approvalTimestamp dp b ≤ approvalTimestamp dp a).head?
      = some latest) :
    latest ∈ l ∧ ∀ a ∈ l, approvalTimestamp dp a ≤ approvalTimestamp dp latest := by
  have htotal : IsTotal Approval fun a b => approvalTimestamp dp b ≤ approvalTimestamp dp a :=
    ⟨fun a b => le_total _ _⟩
  have htrans : IsTrans Approval fun a b => approvalTimestamp dp b ≤ approvalTimestamp dp a :=
    ⟨fun a b c hab hbc => le_trans hbc hab⟩
  have hsorted := List.sorted_insertionSort
    (fun a b => approvalTimestamp dp b ≤ approvalTimestamp dp a) l
  cases hs : l.insertionSort fun a b => approvalTimestamp dp b ≤ approvalTimestamp dp a with
  | nil => rw [hs] at h; cases h
  | cons x xs =>
    rw [hs] at h hsorted
    simp only [List.head?_cons, Option.some.injEq] at h
    subst h
    have hmem : ∀ a, a ∈ l ↔ a ∈ x :: xs := by
      intro a
      rw [← hs]
      exact (List.mem_insertionSort _).symm
    refine ⟨(hmem x).mpr (List.mem_cons_self _ _), ?_⟩
    intro a ha
    rcases List.mem_cons.mp ((hmem a).mp ha) with h1 | h1
    · rw [h1]
    · exact List.rel_of_sorted_cons hsorted a h1

theorem getApprovalRearmMs_eq (kind : Str) : getApprovalRearmMs kind = 90000 := by
  unfold getApprovalRearmMs APPROVAL_REARM_MS
  split <;> rfl

/-- Without a resolved approval of the triple the function answers `false`, whatever the
auto-continue history holds. -/
theorem hasRecentlyHandled_without_resolved (dp : Str → Option Int) (now : Int) (s : Session)
    (w f k : Str)
    (h : ∀ a ∈ s.approvals, ¬ (a.workerId = w ∧ a.fingerprint = f ∧ a.kind = k
      ∧ a.status = "resolved".toList)) :
    hasRecentlyHandledSameApproval dp now s w f k = false := by
  have hnil : s.approvals.filter (fun item => decide (item.workerId = w)
      && decide (item.fingerprint = f) && decide (item.kind = k)
      && decide (item.status = "resolved".toList)) = [] := by
    rw [List.filter_eq_nil_iff]
    intro a ha hc
    have := (mem_matching_resolved s.approvals w f k a).mp (List.mem_filter.mpr ⟨ha, hc⟩)
    exact h a ha this.2
  unfold hasRecentlyHandledSameApproval
  simp only [hnil, getApprovalRearmMs_eq]
  rfl

/-- A resolved approval of the triple with a readable time stamp less than 90 s old makes
the function answer `true`. -/
theorem hasRecentlyHandled_of_recent (dp : Str → Option Int) (now : Int) (s : Session)
    (w f k : Str) (a : Approval) (ha : a ∈ s.approvals)
    (hm : a.workerId = w ∧ a.fingerprint = f ∧ a.kind = k ∧ a.status = "resolved".toList)
    (hpos : 0 < approvalTimestamp dp a) (hrecent : now - approvalTimestamp dp a < 90000) :
    hasRecentlyHandledSameApproval dp now s w f k = true := by
  unfold hasRecentlyHandledSameApproval
  simp only [getApprovalRearmMs_eq]
  rw [if_neg (by decide)]
  have hmem := (mem_matching_resolved s.approvals w f k a).mpr ⟨ha, hm⟩
  cases hh : ((s.approvals.filter (fun item => decide (item.workerId = w)
      && decide (item.fingerprint = f) && decide (item.kind = k)
      && decide (item.status = "resolved".toList))).insertionSort
      fun a b => approvalTimestamp dp b ≤ approvalTimestamp dp a).head? with
  | none =>
    rw [List.head?_eq_none_iff] at hh
    have : a ∈ ([] : List Approval) := by
      rw [← hh]; exact (List.mem_insertionSort _).mpr hmem
    cases this
  | some latest =>
    obtain ⟨-, hmax⟩ := head_insertionSort_latest dp _ latest hh
    have hle := hmax a hmem
    simp only []
    rw [if_neg (by omega), if_pos (by omega)]

/-- When every resolved approval of the triple is 90 s old or older and the history holds
no younger entry, the function answers `false`. -/
theorem hasRecentlyHandled_of_expired (dp : Str → Option Int) (now : Int) (s : Session)
    (w f k : Str)
    (hold : ∀ a ∈ s.approvals, a.workerId = w ∧ a.fingerprint = f ∧ a.kind = k
      ∧ a.status = "resolved".toList → ¬ (now - approvalTimestamp dp a < 90000))
    (hhist : historyHasRecent dp now 90000 s w f k = false) :
    hasRecentlyHandledSameApproval dp now s w f k = false := by
  unfold hasRecentlyHandledSameApproval
  simp only [getApprovalRearmMs_eq]
  rw [if_neg (by decide)]
  cases hh : ((s.approvals.filter (fun item => decide (item.workerId = w)
      && decide (item.fingerprint = f) && decide (item.kind = k)
      && decide (item.status = "resolved".toList))).insertionSort
      fun a b => approvalTimestamp dp b ≤ approvalTimestamp dp a).head? with
  | none => rfl
  | some latest =>
    obtain ⟨hl, -⟩ := head_insertionSort_latest dp _ latest hh
    have hl2 := (mem_matching_resolved s.approvals w f k latest).mp hl
    have := hold latest hl2.1 hl2.2
    simp only []
    by_cases h0 : approvalTimestamp dp latest = 0
    · rw [if_pos h0]; exact hhist
    · rw [if_neg h0, if_neg this]; exact hhist

/-- C4, the code at the failing input: the supervisor's prompt was auto-continued 2 s ago
(the history holds the entry) and no approval was ever created for it; the scan does not
consult the history, sends the continue instruction again and records a second entry. -/
theorem scanAndQueue_history_ignored :
    historyHasRecent sampleDateParse 1000000 90000 sessionWithHistory "supervisor".toList
      "fp-continue".toList "continue_suggestion".toList = true ∧
    hasRecentlyHandledSameApproval sampleDateParse 1000000 sessionWithHistory
      "supervisor".toList "fp-continue".toList "continue_suggestion".toList = false ∧
    (scanAndQueue supervisorPromptEnv sessionWithHistory).sent =
      [{ sessionId := "session-1".toList, targetId := "supervisor".toList,
         text := buildContinueExecutionInstruction, pressEnter := true }] ∧
    (scanAndQueue supervisorPromptEnv sessionWithHistory).session.autoContinueHistory.length
      = 2 := by
  refine ⟨by decide!, by decide!, by decide!, by decide!⟩

/-! ## The branches of the loop body, by their conditions -/

theorem scanTarget_skip_recent (env : BrokerEnv) (now : Int) (st : BrokerState) (t : TargetRef)
    (h : hasRecentlyHandledSameApproval env.dateParse now st.session t.targetId
      (detectionOf env t.targetId).fingerprint (detectionOf env t.targetId).kind = true) :
    scanTarget env now st t = afterCapture env st t := by
  rw [scanTarget_eq]
  have h2 : hasRecentlyHandledSameApproval env.dateParse now (afterCapture env st t).session
      t.targetId (detectionOf env t.targetId).fingerprint (detectionOf env t.targetId).kind
      = true := by
    rw [hasRecentlyHandled_congr _ _ st.session _ _ _ _ (by simp) (by simp)]
    exact h
  split_ifs <;> rfl

/-- The conditions under which the loop body reaches its last branch and queues the prompt. -/
theorem scanTarget_create (env : BrokerEnv) (now : Int) (st : BrokerState) (t : TargetRef)
    (hhit : (detectionOf env t.targetId).hit = true)
    (hpend : st.session.approvals.any (isPendingSame t.targetId
      (detectionOf env t.targetId).fingerprint (detectionOf env t.targetId).kind) = false)
    (hrecent : hasRecentlyHandledSameApproval env.dateParse now st.session t.targetId
      (detectionOf env t.targetId).fingerprint (detectionOf env t.targetId).kind = false)
    (hauto : ¬ ((detectionOf env t.targetId).kind = "continue_suggestion".toList
      ∧ getContinueSuggestionPolicy st.session t.targetId = "auto_continue".toList))
    (hrule : st.session.dontAskRules.any (ruleMatches t.targetId
      (detectionOf env t.targetId).fingerprint (detectionOf env t.targetId).kind) = false) :
    scanTarget env now st t = scanCreateApproval env now (afterCapture env st t) t.targetId
      (detectionOf env t.targetId) := by
  rw [scanTarget_eq]
  rw [hasRecentlyHandled_congr _ _ st.session _ _ _ _ (by simp) (by simp),
    getContinueSuggestionPolicy_congr st.session _ _ (by simp)]
  simp only [afterCapture_approvals, afterCapture_dontAskRules, hhit, hpend, hrecent, hrule,
    Bool.not_true, Bool.false_eq_true, if_false]
  rw [if_neg hauto]

/-- The conditions under which the loop body answers the prompt from a `DontAskRule`. -/
theorem scanTarget_rule (env : BrokerEnv) (now : Int) (st : BrokerState) (t : TargetRef)
    (hhit : (detectionOf env t.targetId).hit = true)
    (hpend : st.session.approvals.any (isPendingSame t.targetId
      (detectionOf env t.targetId).fingerprint (detectionOf env t.targetId).kind) = false)
    (hrecent : hasRecentlyHandledSameApproval env.dateParse now st.session t.targetId
      (detectionOf env t.targetId).fingerprint (detectionOf env t.targetId).kind = false)
    (hauto : ¬ ((detectionOf env t.targetId).kind = "continue_suggestion".toList
      ∧ getContinueSuggestionPolicy st.session t.targetId = "auto_continue".toList))
    (hrule : st.session.dontAskRules.any (ruleMatches t.targetId
      (detectionOf env t.targetId).fingerprint (detectionOf env t.targetId).kind) = true) :
    scanTarget env now st t = scanAutoResolve env (afterCapture env st t) t.targetId
      (detectionOf env t.targetId) := by
  rw [scanTarget_eq]
  rw [hasRecentlyHandled_congr _ _ st.session _ _ _ _ (by simp) (by simp),
    getContinueSuggestionPolicy_congr st.session _ _ (by simp)]
  simp only [afterCapture_approvals, afterCapture_dontAskRules, hhit, hpend, hrecent, hrule,
    Bool.not_true, Bool.false_eq_true, if_false, if_true]
  rw [if_neg hauto]

theorem scanCreateApproval_changed (env : BrokerEnv) (now : Int) (st : BrokerState)
    (t : Str) (d : Detection) : (scanCreateApproval env now st t d).changed = true := by
  unfold scanCreateApproval
  rfl

theorem scanCreateApproval_sent (env : BrokerEnv) (now : Int) (st : BrokerState)
    (t : Str) (d : Detection) : (scanCreateApproval env now st t d).sent = st.sent := by
  unfold scanCreateApproval
  rfl

/-- C5 (as amended). For a target that shows a prompt (in particular a worker showing a
continue suggestion): if the session holds a resolved approval of the same (target,
fingerprint, kind) whose time stamp is readable and less than 90 s before the scan, the
loop body creates no approval, sends nothing and reports no change; if the prompt is a
continue suggestion, the policy of the target is not `auto_continue`, no pending approval
of the triple exists, every resolved approval of the triple is 90 s old or older, the
history holds no entry of the triple younger than 90 s and no rule matches, the loop body
appends one new pending approval and reports a change. -/
theorem scanTarget_rearm (env : BrokerEnv) (now : Int) (st : BrokerState) (t : TargetRef)
    (hhit : (detectionOf env t.targetId).hit = true) :
    ((∃ a ∈ st.session.approvals, (a.workerId = t.targetId
        ∧ a.fingerprint = (detectionOf env t.targetId).fingerprint
        ∧ a.kind = (detectionOf env t.targetId).kind ∧ a.status = "resolved".toList)
        ∧ 0 < approvalTimestamp env.dateParse a
        ∧ now - approvalTimestamp env.dateParse a < 90000) →
      (scanTarget env now st t).session.approvals = st.session.approvals ∧
      (scanTarget env now st t).changed = st.changed ∧
      (scanTarget env now st t).sent = st.sent) ∧
    ((detectionOf env t.targetId).kind = "continue_suggestion".toList →
      getContinueSuggestionPolicy st.session t.targetId ≠ "auto_continue".toList →
      st.session.approvals.any (isPendingSame t.targetId
        (detectionOf env t.targetId).fingerprint (detectionOf env t.targetId).kind) = false →
      (∀ a ∈ st.session.approvals, a.workerId = t.targetId
        ∧ a.fingerprint = (detectionOf env t.targetId).fingerprint
        ∧ a.kind = (detectionOf env t.targetId).kind ∧ a.status = "resolved".toList →
          ¬ (now - approvalTimestamp env.dateParse a < 90000)) →
      historyHasRecent env.dateParse now 90000 st.session t.targetId
        (detectionOf env t.targetId).fingerprint (detectionOf env t.targetId).kind = false →
      st.session.dontAskRules.any (ruleMatches t.targetId
        (detectionOf env t.targetId).fingerprint (detectionOf env t.targetId).kind) = false →
      (scanTarget env now st t).session.approvals = st.session.approvals ++
        [newApproval env now (afterCapture env st t).session t.targetId
          (detectionOf env t.targetId)] ∧
      (newApproval env now (afterCapture env st t).session t.targetId
          (detectionOf env t.targetId)).status = "pending".toList ∧
      (scanTarget env now st t).changed = true) := by
  constructor
  · rintro ⟨a, ha, hm, hpos, hrec⟩
    rw [scanTarget_skip_recent env now st t
      (hasRecentlyHandled_of_recent _ _ _ _ _ _ a ha hm hpos hrec)]
    simp
  · intro hk hpol hpend hold hhist hrule
    rw [scanTarget_create env now st t hhit hpend
      (hasRecentlyHandled_of_expired _ _ _ _ _ _ hold hhist) (fun h => hpol h.2) hrule]
    refine ⟨?_, rfl, scanCreateApproval_changed _ _ _ _ _⟩
    rw [scanCreateApproval_approvals]
    simp

/-- Witness for C5: `worker-1` shows the prompt again 5 s after its resolution (nothing
happens) and 100 s after it (a new pending approval is queued). -/
theorem scanTarget_rearm_witness :
    ((scanTarget workerPromptEnv 1000000 (brokerStart (sessionResolvedAt "995000".toList))
        workerOneTarget).session.approvals = (sessionResolvedAt "995000".toList).approvals ∧
      (scanTarget workerPromptEnv 1000000 (brokerStart (sessionResolvedAt "995000".toList))
        workerOneTarget).changed = false ∧
      (scanTarget workerPromptEnv 1000000 (brokerStart (sessionResolvedAt "995000".toList))
        workerOneTarget).sent = []) ∧
    ((scanTarget workerPromptEnv 1000000 (brokerStart (sessionResolvedAt "900000".toList))
        workerOneTarget).session.approvals = (sessionResolvedAt "900000".toList).approvals ++
        [newApproval workerPromptEnv 1000000
          (afterCapture workerPromptEnv (brokerStart (sessionResolvedAt "900000".toList))
            workerOneTarget).session "worker-1".toList
          (detectionOf workerPromptEnv "worker-1".toList)] ∧
      (newApproval workerPromptEnv 1000000
          (afterCapture workerPromptEnv (brokerStart (sessionResolvedAt "900000".toList))
            workerOneTarget).session "worker-1".toList
          (detectionOf workerPromptEnv "worker-1".toList)).status = "pending".toList ∧
      (scanTarget workerPromptEnv 1000000 (brokerStart (sessionResolvedAt "900000".toList))
        workerOneTarget).changed = true) :=
  ⟨(scanTarget_rearm workerPromptEnv 1000000 (brokerStart (sessionResolvedAt "995000".toList))
      workerOneTarget (by decide!)).1 (by decide!),
   (scanTarget_rearm workerPromptEnv 1000000 (brokerStart (sessionResolvedAt "900000".toList))
      workerOneTarget (by decide!)).2 (by decide!) (by decide!) (by decide!) (by decide!)
      (by decide!) (by decide!)⟩

/-- Counterexample to C5 as stated: the resolution of `worker-1`'s prompt is 100 s old, the
history is empty and no rule matches, but the prompt also has a pending approval; the scan
creates no new approval and reports no change. -/
theorem scanAndQueue_rearm_counterexample :
    (scanAndQueue workerPromptEnv sessionResolvedAndPending).session.approvals
      = sessionResolvedAndPending.approvals ∧
    (scanAndQueue workerPromptEnv sessionResolvedAndPending).changed = false ∧
    sessionResolvedAndPending.autoContinueHistory = [] ∧
    sessionResolvedAndPending.dontAskRules = [] ∧
    (sessionResolvedAndPending.approvals.map fun a =>
      (a.status, approvalTimestamp sampleDateParse a))
      = [("resolved".toList, 900000), ("pending".toList, 1000)] ∧
    workerPromptEnv.dateNow 1 = 1000000 := by
  refine ⟨by decide!, by decide!, by decide!, by decide!, by decide!, by decide!⟩

/-! ## Worker status -/

theorem setWorkerCapture_keeps_id (ws : List Worker) (i : Nat) (l : List Str) (x id : Str)
    (h : ∃ w ∈ ws, w.workerId = id) : ∃ w ∈ setWorkerCapture ws i l x, w.workerId = id := by
  induction ws generalizing i with
  | nil => obtain ⟨w, hw, -⟩ := h; cases hw
  | cons a rest ih =>
    obtain ⟨w, hw, hid⟩ := h
    cases i with
    | zero =>
      rcases List.mem_cons.mp hw with h1 | h1
      · exact ⟨_, List.mem_cons_self _ _, by subst h1; exact hid⟩
      · exact ⟨w, List.mem_cons_of_mem _ h1, hid⟩
    | succ j =>
      rcases List.mem_cons.mp hw with h1 | h1
      · exact ⟨a, List.mem_cons_self _ _, by subst h1; exact hid⟩
      · obtain ⟨v, hv, hvid⟩ := ih j ⟨w, h1, hid⟩
        exact ⟨v, List.mem_cons_of_mem _ hv, hvid⟩

/-- After `setWorkerStatus`, the worker found by the id has the new status. -/
theorem find_setWorkerStatus (ws : List Worker) (id status : Str)
    (h : ∃ w ∈ ws, w.workerId = id) :
    ((setWorkerStatus ws id status).find? fun w => decide (w.workerId = id)).map
      (fun w => w.status) = some status := by
  induction ws with
  | nil => obtain ⟨w, hw, -⟩ := h; cases hw
  | cons a rest ih =>
    unfold setWorkerStatus
    by_cases ha : a.workerId = id
    · simp [ha]
    · obtain ⟨w, hw, hid⟩ := h
      rcases List.mem_cons.mp hw with h1 | h1
      · subst h1; exact absurd hid ha
      · simp only [ha, if_false, List.find?_cons, decide_False]
        exact ih ⟨w, h1, hid⟩

theorem scanCreateApproval_workers (env : BrokerEnv) (now : Int) (st : BrokerState)
    (t : Str) (d : Detection) (ht : t ≠ "supervisor".toList) :
    (scanCreateApproval env now st t d).session.workers
      = setWorkerStatus st.session.workers t "waiting_user_input".toList := by
  unfold scanCreateApproval setTargetStatus
  simp only [brokerEmit_session]
  rw [if_neg ht]

theorem policy_supervisor_default (s : Session)
    (h : s.approvalPolicy.supervisorContinueSuggestion = []
      ∨ s.approvalPolicy.supervisorContinueSuggestion = "auto_continue".toList) :
    getContinueSuggestionPolicy s "supervisor".toList = "auto_continue".toList := by
  unfold getContinueSuggestionPolicy
  rw [if_pos rfl]
  rcases h with h | h <;> rw [h] <;> decide

theorem policy_worker_default (s : Session) (t : Str) (ht : t ≠ "supervisor".toList)
    (h : s.approvalPolicy.workerContinueSuggestion = []
      ∨ s.approvalPolicy.workerContinueSuggestion = "queue".toList) :
    getContinueSuggestionPolicy s t = "queue".toList := by
  unfold getContinueSuggestionPolicy
  rw [if_neg ht]
  rcases h with h | h <;> rw [h] <;> decide

/-- C6. Under the default (or unset) approval policy, a continue-suggestion hit on the
supervisor adds no approval record, whatever the runtime answers to the send; a
continue-suggestion hit on a worker for which no pending approval of the triple, no recent
resolution and no `DontAskRule` exists adds exactly one approval, which is pending and
belongs to that worker, and sets the worker's status to `waiting_user_input`. -/
theorem scanTarget_default_policy (env : BrokerEnv) (now : Int) (st : BrokerState)
    (t : TargetRef) (hhit : (detectionOf env t.targetId).hit = true)
    (hk : (detectionOf env t.targetId).kind = "continue_suggestion".toList) :
    (t.targetId = "supervisor".toList →
      (st.session.approvalPolicy.supervisorContinueSuggestion = []
        ∨ st.session.approvalPolicy.supervisorContinueSuggestion = "auto_continue".toList) →
      (scanTarget env now st t).session.approvals = st.session.approvals) ∧
    (t.targetId ≠ "supervisor".toList →
      (st.session.approvalPolicy.workerContinueSuggestion = []
        ∨ st.session.approvalPolicy.workerContinueSuggestion = "queue".toList) →
      (∃ w ∈ st.session.workers, w.workerId = t.targetId) →
      st.session.approvals.any (isPendingSame t.targetId
        (detectionOf env t.targetId).fingerprint (detectionOf env t.targetId).kind) = false →
      hasRecentlyHandledSameApproval env.dateParse now st.session t.targetId
        (detectionOf env t.targetId).fingerprint (detectionOf env t.targetId).kind = false →
      st.session.dontAskRules.any (ruleMatches t.targetId
        (detectionOf env t.targetId).fingerprint (detectionOf env t.targetId).kind) = false →
      (scanTarget env now st t).session.approvals = st.session.approvals ++
        [newApproval env now (afterCapture env st t).session t.targetId
          (detectionOf env t.targetId)] ∧
      (newApproval env now (afterCapture env st t).session t.targetId
          (detectionOf env t.targetId)).status = "pending".toList ∧
      (newApproval env now (afterCapture env st t).session t.targetId
          (detectionOf env t.targetId)).workerId = t.targetId ∧
      (((scanTarget env now st t).session.workers.find?
          fun w => decide (w.workerId = t.targetId)).map fun w => w.status)
        = some "waiting_user_input".toList) := by
  constructor
  · intro ht hpol
    apply scanTarget_covered
    unfold promptCovered
    rw [Bool.or_eq_true]
    right
    simp only [Bool.and_eq_true, decide_eq_true_eq]
    exact ⟨⟨ht, hk⟩, policy_supervisor_default _ hpol⟩
  · intro ht hpol hw hpend hrecent hrule
    have hq := policy_worker_default st.session t.targetId ht hpol
    rw [scanTarget_create env now st t hhit hpend hrecent
      (fun h => by rw [hq] at h; exact absurd h.2 (by decide)) hrule]
    refine ⟨?_, rfl, rfl, ?_⟩
    · rw [scanCreateApproval_approvals]; simp
    · rw [scanCreateApproval_workers _ _ _ _ _ ht]
      apply find_setWorkerStatus
      obtain ⟨w, hw1, hw2⟩ := hw
      unfold afterCapture updateCapture
      cases hs : t.slot with
      | none => exact ⟨w, hw1, hw2⟩
      | some i => exact setWorkerCapture_keeps_id _ _ _ _ _ ⟨w, hw1, hw2⟩

/-- Witness for C6: the supervisor shows the prompt and the send fails (no approval); then
`worker-1` shows it in a fresh session (one pending approval, status changed). -/
theorem scanTarget_default_policy_witness :
    (scanTarget (sampleEnv "supervisor".toList samplePrompt 1000000 sendAlwaysFails) 1000000
        (brokerStart sampleSession) supervisorTarget).session.approvals
      = sampleSession.approvals ∧
    ((scanTarget workerPromptEnv 1000000 (brokerStart sampleSession)
        workerOneTarget).session.approvals = sampleSession.approvals ++
        [newApproval workerPromptEnv 1000000
          (afterCapture workerPromptEnv (brokerStart sampleSession) workerOneTarget).session
          "worker-1".toList (detectionOf workerPromptEnv "worker-1".toList)] ∧
      (newApproval workerPromptEnv 1000000
          (afterCapture workerPromptEnv (brokerStart sampleSession) workerOneTarget).session
          "worker-1".toList (detectionOf workerPromptEnv "worker-1".toList)).status
        = "pending".toList ∧
      (newApproval workerPromptEnv 1000000
          (afterCapture workerPromptEnv (brokerStart sampleSession) workerOneTarget).session
          "worker-1".toList (detectionOf workerPromptEnv "worker-1".toList)).workerId
        = "worker-1".toList ∧
      (((scanTarget workerPromptEnv 1000000 (brokerStart sampleSession)
          workerOneTarget).session.workers.find?
          fun w => decide (w.workerId = "worker-1".toList)).map fun w => w.status)
        = some "waiting_user_input".toList) :=
  ⟨(scanTarget_default_policy
      (sampleEnv "supervisor".toList samplePrompt 1000000 sendAlwaysFails) 1000000
      (brokerStart sampleSession) supervisorTarget (by decide!) (by decide!)).1
      (by decide!) (by decide!),
   (scanTarget_default_policy workerPromptEnv 1000000 (brokerStart sampleSession)
      workerOneTarget (by decide!) (by decide!)).2
      (by decide!) (by decide!) (by decide!) (by decide!) (by decide!) (by decide!)⟩

/-- C18. For a classifier hit on a target with no identical pending approval, outside the
rearm window and not auto-continued by policy, a `DontAskRule` with the same target id and
fingerprint whose kind is absent or equal to the hit's kind makes the loop body leave the
approval list as it is and send exactly one input to that target: the fixed continue
instruction for a continue suggestion, the literal `2` otherwise. -/
theorem scanTarget_dont_ask_rule (env : BrokerEnv) (now : Int) (st : BrokerState)
    (t : TargetRef) (hhit : (detectionOf env t.targetId).hit = true)
    (hpend : st.session.approvals.any (isPendingSame t.targetId
      (detectionOf env t.targetId).fingerprint (detectionOf env t.targetId).kind) = false)
    (hrecent : hasRecentlyHandledSameApproval env.dateParse now st.session t.targetId
      (detectionOf env t.targetId).fingerprint (detectionOf env t.targetId).kind = false)
    (hauto : ¬ ((detectionOf env t.targetId).kind = "continue_suggestion".toList
      ∧ getContinueSuggestionPolicy st.session t.targetId = "auto_continue".toList))
    (hrule : ∃ rule ∈ st.session.dontAskRules, rule.workerId = t.targetId
      ∧ rule.fingerprint = (detectionOf env t.targetId).fingerprint
      ∧ (rule.kind = [] ∨ rule.kind = (detectionOf env t.targetId).kind)) :
    (scanTarget env now st t).session.approvals = st.session.approvals ∧
    (scanTarget env now st t).sent = st.sent ++
      [{ sessionId := st.session.sessionId, targetId := t.targetId,
         text := if (detectionOf env t.targetId).kind = "continue_suggestion".toList then
           buildContinueExecutionInstruction else "2".toList,
         pressEnter := true }] := by
  have hany : st.session.dontAskRules.any (ruleMatches t.targetId
      (detectionOf env t.targetId).fingerprint (detectionOf env t.targetId).kind) = true := by
    obtain ⟨rule, hmem, h1, h2, h3⟩ := hrule
    rw [List.any_eq_true]
    refine ⟨rule, hmem, ?_⟩
    unfold ruleMatches
    rcases h3 with h3 | h3 <;> simp [h1, h2, h3]
  rw [scanTarget_rule env now st t hhit hpend hrecent hauto hany]
  rw [scanAutoResolve_session, scanAutoResolve_sent]
  simp

/-- Witness for C18: `worker-1` shows the prompt for which a rule exists. -/
theorem scanTarget_dont_ask_rule_witness :
    (scanTarget workerPromptEnv 1000000 (brokerStart sessionWithRule)
        workerOneTarget).session.approvals = sessionWithRule.approvals ∧
    (scanTarget workerPromptEnv 1000000 (brokerStart sessionWithRule) workerOneTarget).sent
      = (brokerStart sessionWithRule).sent ++
        [{ sessionId := sessionWithRule.sessionId, targetId := "worker-1".toList,
           text := if (detectionOf workerPromptEnv "worker-1".toList).kind
               = "continue_suggestion".toList then
             buildContinueExecutionInstruction else "2".toList,
           pressEnter := true }] :=
  scanTarget_dont_ask_rule workerPromptEnv 1000000 (brokerStart sessionWithRule)
    workerOneTarget (by decide!) (by decide!) (by decide!) (by decide!) (by decide!)

/-! ## What the loop keeps -/

theorem scanTarget_keeps (env : BrokerEnv) (now : Int) (st : BrokerState) (t : TargetRef) :
    (∃ extra, (scanTarget env now st t).session.approvals = st.session.approvals ++ extra) ∧
    (∃ extra, (scanTarget env now st t).sent = st.sent ++ extra) ∧
    (st.changed = true → (scanTarget env now st t).changed = true) := by
  refine ⟨?_, ?_, ?_⟩
  · rcases scanTarget_approvals env now st t with h | ⟨-, h⟩
    · exact ⟨[], by rw [h]; simp⟩
    · exact ⟨_, h⟩
  · rw [scanTarget_eq]
    split_ifs
    · exact ⟨[], by simp⟩
    · exact ⟨[], by simp⟩
    · exact ⟨[], by simp⟩
    · exact ⟨_, scanAutoContinue_sent _ _ _ _ _ _⟩
    · exact ⟨_, scanAutoResolve_sent _ _ _ _⟩
    · exact ⟨[], by rw [scanCreateApproval_sent]; simp⟩
  · intro hc
    rw [scanTarget_eq]
    split_ifs
    · simpa using hc
    · simpa using hc
    · simpa using hc
    · unfold scanAutoContinue; rfl
    · unfold scanAutoResolve; simpa [brokerEmit] using hc
    · exact scanCreateApproval_changed _ _ _ _ _

theorem scanLoop_keeps (env : BrokerEnv) (ts : List TargetRef) (i : Nat) (st : BrokerState) :
    (∃ extra, (scanLoop env i st ts).session.approvals = st.session.approvals ++ extra) ∧
    (∃ extra, (scanLoop env i st ts).sent = st.sent ++ extra) ∧
    (st.changed = true → (scanLoop env i st ts).changed = true) := by
  induction ts generalizing i st with
  | nil => exact ⟨⟨[], by simp [scanLoop]⟩, ⟨[], by simp [scanLoop]⟩, fun h => h⟩
  | cons t rest ih =>
    obtain ⟨⟨e1, h1⟩, ⟨e2, h2⟩, h3⟩ := scanTarget_keeps env (env.dateNow (i + 1)) st t
    obtain ⟨⟨f1, g1⟩, ⟨f2, g2⟩, g3⟩ := ih (i + 1) (scanTarget env (env.dateNow (i + 1)) st t)
    simp only [scanLoop]
    refine ⟨⟨e1 ++ f1, ?_⟩, ⟨e2 ++ f2, ?_⟩, fun h => g3 (h3 h)⟩
    · rw [g1, h1, List.append_assoc]
    · rw [g2, h2, List.append_assoc]

/-- C19 (as amended). When the supervisor policy is `auto_continue` and the session holds
pending continue suggestions of the supervisor: if the sweep's send succeeds, the sweep
sends the continue instruction exactly once and sets the supervisor's status to `running`,
and after `scanAndQueue` every one of them is resolved with `resolvedChoice` 1, every other
approval is as it was, the first input sent is the sweep's and the call returns `true`;
if the send fails, every approval is in the list as it was. -/
theorem scanAndQueue_sweep (env : BrokerEnv) (s : Session)
    (hpol : getContinueSuggestionPolicy s "supervisor".toList = "auto_continue".toList)
    (hpending : ∃ a ∈ s.approvals, isPendingSupervisorSuggestion a = true) :
    ((env.sendInput 0 (continueCall s.sessionId "supervisor".toList)).ok = true →
      (autoContinuePendingSupervisorSuggestions env (env.dateNow 0) (brokerStart s)).2.sent
        = [(continueCall s.sessionId "supervisor".toList)] ∧
      (∃ v, (autoContinuePendingSupervisorSuggestions env (env.dateNow 0)
          (brokerStart s)).2.session.supervisor = some v ∧ v.status = "running".toList) ∧
      (∃ extra, (scanAndQueue env s).session.approvals =
        s.approvals.map (fun item =>
          if isPendingSupervisorSuggestion item then
            autoResolved (env.toISOString (env.dateNow 0)) item
          else item) ++ extra) ∧
      (∀ item : Approval,
        (autoResolved (env.toISOString (env.dateNow 0)) item).status = "resolved".toList ∧
        (autoResolved (env.toISOString (env.dateNow 0)) item).resolvedChoice = some 1) ∧
      (∃ extra, (scanAndQueue env s).sent =
        (continueCall s.sessionId "supervisor".toList) :: extra) ∧
      (scanAndQueue env s).changed = true) ∧
    ((env.sendInput 0 (continueCall s.sessionId "supervisor".toList)).ok = false →
      (autoContinuePendingSupervisorSuggestions env (env.dateNow 0) (brokerStart s)).2.sent
        = [(continueCall s.sessionId "supervisor".toList)] ∧
      ∃ extra, (scanAndQueue env s).session.approvals = s.approvals ++ extra) := by
  have hne : (s.approvals.filter isPendingSupervisorSuggestion).length ≠ 0 := by
    obtain ⟨a, ha, hp⟩ := hpending
    intro h0
    have : a ∈ s.approvals.filter isPendingSupervisorSuggestion := List.mem_filter.mpr ⟨ha, hp⟩
    rw [List.length_eq_zero.mp h0] at this
    cases this
  have hnot : ¬ ((s.approvals.filter isPendingSupervisorSuggestion).length = 0
      ∨ getContinueSuggestionPolicy s "supervisor".toList ≠ "auto_continue".toList) := by
    rintro (h | h)
    · exact hne h
    · exact h hpol
  constructor
  · intro hok
    rcases sweep_cases env (env.dateNow 0) (brokerStart s) with ⟨h, -⟩ | ⟨-, -, -, h⟩
        | ⟨h1, -, -, h4, h5⟩
    · exact absurd h hnot
    · have h' : (env.sendInput 0 (continueCall s.sessionId "supervisor".toList)).ok = false := h
      rw [hok] at h'; cases h'
    · obtain ⟨fa, -, -, -, fv⟩ := sweepResolve_frame (env.toISOString (env.dateNow 0)) s
        (s.approvals.filter isPendingSupervisorSuggestion)
      have h4' : (autoContinuePendingSupervisorSuggestions env (env.dateNow 0)
          (brokerStart s)).2.session = sweepResolve (env.toISOString (env.dateNow 0)) s
            (s.approvals.filter isPendingSupervisorSuggestion) := h4
      have h5' : (autoContinuePendingSupervisorSuggestions env (env.dateNow 0)
          (brokerStart s)).2.sent = [continueCall s.sessionId "supervisor".toList] := by
        rw [h5]; rfl
      refine ⟨h5', by rw [h4']; exact fv, ?_, fun item => ⟨rfl, rfl⟩, ?_, ?_⟩
      · obtain ⟨⟨e, he⟩, -, -⟩ := scanLoop_keeps env
          (scanTargets (autoContinuePendingSupervisorSuggestions env (env.dateNow 0)
            (brokerStart s)).2.session) 0
          { (autoContinuePendingSupervisorSuggestions env (env.dateNow 0) (brokerStart s)).2
            with changed := (autoContinuePendingSupervisorSuggestions env (env.dateNow 0)
              (brokerStart s)).1 }
        refine ⟨e, ?_⟩
        unfold scanAndQueue
        simp only [] at he ⊢
        rw [he, h4', fa]
      · obtain ⟨-, ⟨e, he⟩, -⟩ := scanLoop_keeps env
          (scanTargets (autoContinuePendingSupervisorSuggestions env (env.dateNow 0)
            (brokerStart s)).2.session) 0
          { (autoContinuePendingSupervisorSuggestions env (env.dateNow 0) (brokerStart s)).2
            with changed := (autoContinuePendingSupervisorSuggestions env (env.dateNow 0)
              (brokerStart s)).1 }
        refine ⟨e, ?_⟩
        unfold scanAndQueue
        simp only [] at he ⊢
        rw [he, h5']
        rfl
      · obtain ⟨-, -, hc⟩ := scanLoop_keeps env
          (scanTargets (autoContinuePendingSupervisorSuggestions env (env.dateNow 0)
            (brokerStart s)).2.session) 0
          { (autoContinuePendingSupervisorSuggestions env (env.dateNow 0) (brokerStart s)).2
            with changed := (autoContinuePendingSupervisorSuggestions env (env.dateNow 0)
              (brokerStart s)).1 }
        unfold scanAndQueue
        exact hc h1
  · intro hfail
    rcases sweep_cases env (env.dateNow 0) (brokerStart s) with ⟨h, -⟩ | ⟨-, h2, h3, -⟩
        | ⟨-, -, h3, -⟩
    · exact absurd h hnot
    · have h2' : (autoContinuePendingSupervisorSuggestions env (env.dateNow 0)
          (brokerStart s)).2.session = s := h2
      refine ⟨by rw [h3]; rfl, ?_⟩
      obtain ⟨⟨e, he⟩, -, -⟩ := scanLoop_keeps env
        (scanTargets (autoContinuePendingSupervisorSuggestions env (env.dateNow 0)
          (brokerStart s)).2.session) 0
        { (autoContinuePendingSupervisorSuggestions env (env.dateNow 0) (brokerStart s)).2
          with changed := (autoContinuePendingSupervisorSuggestions env (env.dateNow 0)
            (brokerStart s)).1 }
      refine ⟨e, ?_⟩
      unfold scanAndQueue
      simp only [] at he ⊢
      rw [he, h2']
    · have h' : (env.sendInput 0 (continueCall s.sessionId "supervisor".toList)).ok = true := h3
      rw [hfail] at h'; cases h'

/-- Witness for C19: the stale pending suggestion of the supervisor, with a runtime that
accepts the sweep's input and with one that rejects it. -/
theorem scanAndQueue_sweep_witness :
    ((autoContinuePendingSupervisorSuggestions supervisorChoiceEnv
        (supervisorChoiceEnv.dateNow 0) (brokerStart sessionSupervisorPending)).2.sent
        = [continueCall sessionSupervisorPending.sessionId "supervisor".toList] ∧
      (∃ v, (autoContinuePendingSupervisorSuggestions supervisorChoiceEnv
          (supervisorChoiceEnv.dateNow 0)
          (brokerStart sessionSupervisorPending)).2.session.supervisor = some v
        ∧ v.status = "running".toList) ∧
      (∃ extra, (scanAndQueue supervisorChoiceEnv sessionSupervisorPending).session.approvals =
        sessionSupervisorPending.approvals.map (fun item =>
          if isPendingSupervisorSuggestion item then
            autoResolved (supervisorChoiceEnv.toISOString (supervisorChoiceEnv.dateNow 0)) item
          else item) ++ extra) ∧
      (∀ item : Approval,
        (autoResolved (supervisorChoiceEnv.toISOString (supervisorChoiceEnv.dateNow 0))
          item).status = "resolved".toList ∧
        (autoResolved (supervisorChoiceEnv.toISOString (supervisorChoiceEnv.dateNow 0))
          item).resolvedChoice = some 1) ∧
      (∃ extra, (scanAndQueue supervisorChoiceEnv sessionSupervisorPending).sent =
        (continueCall sessionSupervisorPending.sessionId "supervisor".toList) :: extra) ∧
      (scanAndQueue supervisorChoiceEnv sessionSupervisorPending).changed = true) ∧
    ((autoContinuePendingSupervisorSuggestions
        (sampleEnv "supervisor".toList "1. yes".toList 1000000 sendAlwaysFails)
        ((sampleEnv "supervisor".toList "1. yes".toList 1000000 sendAlwaysFails).dateNow 0)
        (brokerStart sessionSupervisorPending)).2.sent
        = [continueCall sessionSupervisorPending.sessionId "supervisor".toList] ∧
      ∃ extra, (scanAndQueue
        (sampleEnv "supervisor".toList "1. yes".toList 1000000 sendAlwaysFails)
        sessionSupervisorPending).session.approvals
          = sessionSupervisorPending.approvals ++ extra) :=
  ⟨(scanAndQueue_sweep supervisorChoiceEnv sessionSupervisorPending (by decide!)
      (by decide!)).1 (by decide!),
   (scanAndQueue_sweep (sampleEnv "supervisor".toList "1. yes".toList 1000000 sendAlwaysFails)
      sessionSupervisorPending (by decide!) (by decide!)).2 (by decide!)⟩

/-- Counterexample to C19 as stated: the policy is `auto_continue`, the supervisor holds a
pending continue suggestion and the sweep's send succeeds, but the supervisor shows a
three-choice prompt in the same tick; the main scan queues it, and after `scanAndQueue`
the supervisor's status is `waiting_user_input`, not `running`. -/
theorem scanAndQueue_sweep_counterexample :
    getContinueSuggestionPolicy sessionSupervisorPending "supervisor".toList
      = "auto_continue".toList ∧
    (sessionSupervisorPending.approvals.map isPendingSupervisorSuggestion) = [true] ∧
    (supervisorChoiceEnv.sendInput 0
      (continueCall sessionSupervisorPending.sessionId "supervisor".toList)).ok = true ∧
    ((scanAndQueue supervisorChoiceEnv sessionSupervisorPending).session.supervisor.map
      fun v => v.status) = some "waiting_user_input".toList := by
  refine ⟨by decide!, by decide!, by decide!, by decide!⟩

/-! ## `resolve` -/

@[simp] theorem resolveApply_session (env : BrokerEnv) (st : BrokerState) (a : Approval)
    (c : Nat) (i : Str) : (resolveApply env st a c i).2.session = st.session := by
  unfold resolveApply
  split_ifs <;> rfl

theorem resolveApply_fails (env : BrokerEnv) (st : BrokerState) (a : Approval) (c : Nat)
    (i : Str) (h : ∀ call, (env.sendInput st.sent.length call).ok = false) :
    (resolveApply env st a c i).1.ok = false := by
  unfold resolveApply
  split_ifs <;> first | rfl | exact h _

@[simp] theorem resolveReplan_session (env : BrokerEnv) (st : BrokerState) (a : Approval)
    (i : Str) : (resolveReplan env st a i).2.session = st.session := by
  unfold resolveReplan
  split_ifs <;> (try simp only []) <;> (try split_ifs) <;> rfl

theorem resolve_of_find (env : BrokerEnv) (s : Session) (id : Str) (c : Nat) (i : Str)
    (a : Approval) (h : s.approvals.find? (fun item => decide (item.id = id)) = some a) :
    resolve env s id c i =
      (if a.status ≠ "pending".toList then
        resolveFail (brokerStart s) "该待处理项已处理".toList
      else if c = 3 ∧ (trim i).isEmpty then
        resolveFail (brokerStart s) "选择 3 时必须填写替代指令".toList
      else if !targetExists s a.workerId then
        resolveFail (brokerStart s) ("关联窗口不存在: ".toList ++ a.workerId)
      else if !(resolveApply env (brokerStart s) a c i).1.ok then
        resolveFail (resolveApply env (brokerStart s) a c i).2
          (strOr (resolveApply env (brokerStart s) a c i).1.stderr "发送确认结果失败".toList)
      else resolveCommit env (resolveApply env (brokerStart s) a c i).2 a id c i) := by
  unfold resolve
  simp only [h]

/-- C14. `resolve` is atomic on failure: when the approval id is unknown, the approval is
not pending, the choice is 3 with a blank instruction, the approval's target is no longer
in the session, or the runtime rejects the resolution input, it returns `ok = false` and
the session is exactly as before (approvals, rules and every target's status). -/
theorem resolve_atomic (env : BrokerEnv) (s : Session) (id : Str) (c : Nat) (i : Str)
    (h : s.approvals.find? (fun item => decide (item.id = id)) = none
      ∨ (∃ a, s.approvals.find? (fun item => decide (item.id = id)) = some a
          ∧ (a.status ≠ "pending".toList ∨ targetExists s a.workerId = false))
      ∨ (c = 3 ∧ trim i = [])
      ∨ (∀ call, (env.sendInput 0 call).ok = false)) :
    (resolve env s id c i).ok = false ∧ (resolve env s id c i).state.session = s := by
  cases hf : s.approvals.find? (fun item => decide (item.id = id)) with
  | none =>
    unfold resolve
    simp only [hf]
    exact ⟨rfl, rfl⟩
  | some a =>
    rw [resolve_of_find env s id c i a hf]
    split_ifs with h1 h2 h3 h4
    · exact ⟨rfl, rfl⟩
    · exact ⟨rfl, rfl⟩
    · exact ⟨rfl, rfl⟩
    · exact ⟨rfl, by simp [resolveFail, brokerStart]⟩
    · exfalso
      rcases h with h | ⟨b, hb, h | h⟩ | ⟨hc, hi⟩ | h
      · rw [hf] at h; cases h
      · rw [hf] at hb; cases hb; exact h (by simpa using h1)
      · rw [hf] at hb; cases hb; rw [h] at h3; exact h3 rfl
      · exact h2 ⟨hc, by rw [hi]; rfl⟩
      · exact h4 (by rw [resolveApply_fails env (brokerStart s) a c i h]; rfl)


theorem resolve_atomic_witness :
    (resolve (sampleEnv "worker-1".toList samplePrompt 1000000 sendAlwaysFails)
        sessionWithPending "approval-0".toList 1 []).ok = false
      ∧ (resolve (sampleEnv "worker-1".toList samplePrompt 1000000 sendAlwaysFails)
          sessionWithPending "approval-0".toList 1 []).state.session = sessionWithPending :=
  resolve_atomic (sampleEnv "worker-1".toList samplePrompt 1000000 sendAlwaysFails)
    sessionWithPending "approval-0".toList 1 [] (Or.inr (Or.inr (Or.inr (fun _ => rfl))))

@[simp] theorem resolveRule_frame (env : BrokerEnv) (st : BrokerState) (a : Approval) (c : Nat) :
    (resolveRule env st a c).sent = st.sent
      ∧ (resolveRule env st a c).replanCalls = st.replanCalls
      ∧ (resolveRule env st a c).session.approvals = st.session.approvals
      ∧ (resolveRule env st a c).session.workers = st.session.workers
      ∧ (resolveRule env st a c).session.supervisor = st.session.supervisor
      ∧ (resolveRule env st a c).session.sessionId = st.session.sessionId := by
  unfold resolveRule
  split_ifs <;> exact ⟨rfl, rfl, rfl, rfl, rfl, rfl⟩

theorem resolveRule_rules (env : BrokerEnv) (st : BrokerState) (a : Approval) (c : Nat) :
    (resolveRule env st a c).session.dontAskRules =
      if c = 2 then
        st.session.dontAskRules
          ++ [DontAskRule.mk a.workerId a.fingerprint a.kind (env.toISOString (env.dateNow 0))]
      else st.session.dontAskRules := by
  unfold resolveRule
  split_ifs <;> rfl

@[simp] theorem resolvePlanned_session (env : BrokerEnv) (st : BrokerState) (a : Approval)
    (c : Nat) (i : Str) : (resolvePlanned env st a c i).2.session = st.session := by
  unfold resolvePlanned
  split_ifs
  · exact resolveReplan_session env st a i
  · rfl

theorem resolveCommit_session (env : BrokerEnv) (st : BrokerState) (a : Approval) (id : Str)
    (c : Nat) (i : Str) :
    (resolveCommit env st a id c i).state.session =
      setTargetStatus
        { (resolveRule env st a c).session with
          approvals := markResolved (env.toISOString (env.dateNow 0)) c i
            st.session.approvals id }
        a.workerId "running".toList := by
  unfold resolveCommit
  simp only [brokerEmit_session, resolvePlanned_session, (resolveRule_frame env st a c).2.2.1]

theorem markResolved_split (r : Str) (c : Nat) (i : Str) (l : List Approval) (id : Str)
    (a : Approval) (h : l.find? (fun item => decide (item.id = id)) = some a) :
    ∃ pre post, l = pre ++ a :: post ∧ (∀ b ∈ pre, b.id ≠ id)
      ∧ markResolved r c i l id = pre ++ resolvedCopy r c i a :: post := by
  induction l with
  | nil => cases h
  | cons b rest ih =>
    unfold markResolved
    by_cases hb : b.id = id
    · rw [List.find?_cons_of_pos _ (by simpa using hb)] at h
      cases h
      exact ⟨[], rest, rfl, by simp, by rw [if_pos hb]; rfl⟩
    · rw [List.find?_cons_of_neg _ (by simpa using hb)] at h
      obtain ⟨pre, post, h1, h2, h3⟩ := ih h
      refine ⟨b :: pre, post, by rw [h1]; rfl, ?_, by rw [if_neg hb, h3]; rfl⟩
      intro x hx
      rcases List.mem_cons.mp hx with hx | hx
      · rw [hx]; exact hb
      · exact h2 x hx

theorem resolve_ok (env : BrokerEnv) (s : Session) (id : Str) (c : Nat) (i : Str)
    (a : Approval) (hf : s.approvals.find? (fun item => decide (item.id = id)) = some a)
    (hok : (resolve env s id c i).ok = true) :
    a.status = "pending".toList ∧ ¬ (c = 3 ∧ (trim i).isEmpty = true)
      ∧ targetExists s a.workerId = true
      ∧ (resolveApply env (brokerStart s) a c i).1.ok = true
      ∧ resolve env s id c i
          = resolveCommit env (resolveApply env (brokerStart s) a c i).2 a id c i := by
  rw [resolve_of_find env s id c i a hf] at hok ⊢
  split_ifs at hok ⊢ with h1 h2 h3 h4
  · cases hok
  · cases hok
  · cases hok
  · cases hok
  · exact ⟨by simpa using h1, h2, by simpa using h3, by simpa using h4, rfl⟩

/-- C15. Whenever `resolve` succeeds on the approval `a` found under the id, with choice
`c`: the approvals are the old ones with `a` (the first with that id) replaced by `a` with
status `resolved`, the time stamp, `resolvedChoice = c` and the trimmed instruction, every
other approval unchanged; the status of the target of `a` is `running` (the other field of
supervisor and workers is untouched); and `dontAskRules` gains exactly the rule
`(a.workerId, a.fingerprint, a.kind)` at its end when `c = 2` and is unchanged otherwise. -/
theorem resolve_success (env : BrokerEnv) (s : Session) (id : Str) (c : Nat) (i : Str)
    (a : Approval) (hf : s.approvals.find? (fun item => decide (item.id = id)) = some a)
    (hok : (resolve env s id c i).ok = true) :
    a.status = "pending".toList
      ∧ (∃ pre post, s.approvals = pre ++ a :: post ∧ (∀ b ∈ pre, b.id ≠ id)
          ∧ (resolve env s id c i).state.session.approvals
              = pre ++ { a with status := "resolved".toList,
                                resolvedAt := env.toISOString (env.dateNow 0),
                                resolvedChoice := some c,
                                instruction := trim i } :: post)
      ∧ (if a.workerId = "supervisor".toList then
          (resolve env s id c i).state.session.supervisor.map (fun x => x.status)
              = some "running".toList
            ∧ (resolve env s id c i).state.session.workers = s.workers
        else
          ((resolve env s id c i).state.session.workers.find?
              fun w => decide (w.workerId = a.workerId)).map (fun w => w.status)
              = some "running".toList
            ∧ (resolve env s id c i).state.session.workers
                = setWorkerStatus s.workers a.workerId "running".toList
            ∧ (resolve env s id c i).state.session.supervisor = s.supervisor)
      ∧ (resolve env s id c i).state.session.dontAskRules
          = (if c = 2 then
              s.dontAskRules
                ++ [DontAskRule.mk a.workerId a.fingerprint a.kind
                      (env.toISOString (env.dateNow 0))]
            else s.dontAskRules) := by
  obtain ⟨hp, -, ht, -, he⟩ := resolve_ok env s id c i a hf hok
  rw [he, resolveCommit_session]
  obtain ⟨pre, post, h1, h2, h3⟩ :=
    markResolved_split (env.toISOString (env.dateNow 0)) c i s.approvals id a hf
  have hfr := resolveRule_frame env (resolveApply env (brokerStart s) a c i).2 a c
  have hs : (resolveApply env (brokerStart s) a c i).2.session = s :=
    resolveApply_session env (brokerStart s) a c i
  refine ⟨hp, ⟨pre, post, h1, h2, ?_⟩, ?_, ?_⟩
  · rw [setTargetStatus_approvals]
    dsimp only
    rw [hs, h3]
    rfl
  · unfold setTargetStatus
    by_cases hw : a.workerId = "supervisor".toList
    · rw [if_pos hw, if_pos hw]
      dsimp only
      rw [hfr.2.2.2.1, hs]
      exact ⟨rfl, rfl⟩
    · rw [if_neg hw, if_neg hw]
      dsimp only
      rw [hfr.2.2.2.1, hfr.2.2.2.2.1, hs]
      refine ⟨find_setWorkerStatus s.workers a.workerId "running".toList ?_, rfl, rfl⟩
      unfold targetExists at ht
      rw [if_neg hw] at ht
      simpa using ht
  · rw [setTargetStatus_dontAskRules]
    dsimp only
    rw [resolveRule_rules, hs]

theorem resolve_success_witness :
    (sampleApproval "approval-0".toList "worker-1".toList "pending".toList []).status
        = "pending".toList
      ∧ (∃ pre post, sessionWithPending.approvals
            = pre ++ sampleApproval "approval-0".toList "worker-1".toList "pending".toList []
                :: post
          ∧ (∀ b ∈ pre, b.id ≠ "approval-0".toList)
          ∧ (resolve workerPromptEnv sessionWithPending "approval-0".toList 2
                " ok ".toList).state.session.approvals
              = pre ++ { sampleApproval "approval-0".toList "worker-1".toList
                            "pending".toList [] with
                          status := "resolved".toList,
                          resolvedAt := workerPromptEnv.toISOString (workerPromptEnv.dateNow 0),
                          resolvedChoice := some 2,
                          instruction := trim " ok ".toList } :: post)
      ∧ (if (sampleApproval "approval-0".toList "worker-1".toList "pending".toList []).workerId
            = "supervisor".toList then
          (resolve workerPromptEnv sessionWithPending "approval-0".toList 2
              " ok ".toList).state.session.supervisor.map (fun x => x.status)
              = some "running".toList
            ∧ (resolve workerPromptEnv sessionWithPending "approval-0".toList 2
                " ok ".toList).state.session.workers = sessionWithPending.workers
        else
          ((resolve workerPromptEnv sessionWithPending "approval-0".toList 2
              " ok ".toList).state.session.workers.find?
              fun w => decide (w.workerId
                = (sampleApproval "approval-0".toList "worker-1".toList "pending".toList
                    []).workerId)).map (fun w => w.status)
              = some "running".toList
            ∧ (resolve workerPromptEnv sessionWithPending "approval-0".toList 2
                " ok ".toList).state.session.workers
                = setWorkerStatus sessionWithPending.workers
                    (sampleApproval "approval-0".toList "worker-1".toList "pending".toList
                      []).workerId "running".toList
            ∧ (resolve workerPromptEnv sessionWithPending "approval-0".toList 2
                " ok ".toList).state.session.supervisor = sessionWithPending.supervisor)
      ∧ (resolve workerPromptEnv sessionWithPending "approval-0".toList 2
            " ok ".toList).state.session.dontAskRules
          = (if 2 = 2 then
              sessionWithPending.dontAskRules
                ++ [DontAskRule.mk
                      (sampleApproval "approval-0".toList "worker-1".toList
                        "pending".toList []).workerId
                      (sampleApproval "approval-0".toList "worker-1".toList
                        "pending".toList []).fingerprint
                      (sampleApproval "approval-0".toList "worker-1".toList
                        "pending".toList []).kind
                      (workerPromptEnv.toISOString (workerPromptEnv.dateNow 0))]
            else sessionWithPending.dontAskRules) :=
  resolve_success workerPromptEnv sessionWithPending "approval-0".toList 2 " ok ".toList
    (sampleApproval "approval-0".toList "worker-1".toList "pending".toList [])
    (by decide!) (by decide!)


/-! ## What `resolve` sends -/

theorem mem_intersperse_of_mem {α : Type} (sep p : α) :
    ∀ l : List α, p ∈ l → p ∈ l.intersperse sep
  | [], h => by cases h
  | [x], h => by simpa using h
  | x :: y :: rest, h => by
    rw [List.intersperse_cons_cons]
    rcases List.mem_cons.mp h with h | h
    · rw [h]; exact List.mem_cons_self _ _
    · exact List.mem_cons_of_mem _
        (List.mem_cons_of_mem _ (mem_intersperse_of_mem sep p (y :: rest) h))

theorem infix_joinNonEmpty (p : Str) (parts : List Str) (h : p ∈ parts) (hp : p ≠ []) :
    p <:+: joinNonEmpty parts := by
  unfold joinNonEmpty List.intercalate
  apply List.infix_of_mem_flatten
  apply mem_intersperse_of_mem
  rw [List.mem_filter]
  refine ⟨h, ?_⟩
  cases p with
  | nil => exact absurd rfl hp
  | cons c t => rfl

theorem infix_of_part (x p : Str) (parts : List Str) (h : p ∈ parts) (hx : x <:+: p)
    (hne : x ≠ []) : x <:+: joinNonEmpty parts := by
  refine List.IsInfix.trans hx (infix_joinNonEmpty p parts h ?_)
  intro hp
  rw [hp] at hx
  exact hne (List.eq_nil_of_infix_nil hx)

theorem resolveCommit_sent (env : BrokerEnv) (st : BrokerState) (a : Approval) (id : Str)
    (c : Nat) (i : Str) :
    (resolveCommit env st a id c i).state.sent
        = (resolvePlanned env (resolveRule env st a c) a c i).2.sent
      ∧ (resolveCommit env st a id c i).state.replanCalls
        = (resolvePlanned env (resolveRule env st a c) a c i).2.replanCalls :=
  ⟨rfl, rfl⟩

theorem resolve_effects (env : BrokerEnv) (s : Session) (id : Str) (c : Nat) (i : Str)
    (a : Approval) (hf : s.approvals.find? (fun item => decide (item.id = id)) = some a)
    (hp : a.status = "pending".toList) (hn : ¬ (c = 3 ∧ (trim i).isEmpty = true))
    (ht : targetExists s a.workerId = true) :
    (resolve env s id c i).state =
      if (resolveApply env (brokerStart s) a c i).1.ok = true then
        (resolveCommit env (resolveApply env (brokerStart s) a c i).2 a id c i).state
      else (resolveApply env (brokerStart s) a c i).2 := by
  rw [resolve_of_find env s id c i a hf, if_neg (not_not.mpr hp), if_neg hn,
    if_neg (by rw [ht]; decide)]
  by_cases hok : (resolveApply env (brokerStart s) a c i).1.ok = true
  · rw [if_neg (by rw [hok]; decide), if_pos hok]
  · rw [if_pos (by simpa using hok), if_neg hok]
    rfl

theorem resolvePlanned_continue (env : BrokerEnv) (st : BrokerState) (a : Approval) (c : Nat)
    (i : Str) (hk : a.kind = "continue_suggestion".toList) :
    (resolvePlanned env st a c i).2 = st := by
  unfold resolvePlanned resolveReplan
  rw [if_neg (not_not.mpr hk)]
  split_ifs <;> rfl

theorem resolvePlanned_other (env : BrokerEnv) (st : BrokerState) (a : Approval) (c : Nat)
    (i : Str) (hc : c ≠ 3) : (resolvePlanned env st a c i).2 = st := by
  unfold resolvePlanned
  rw [if_neg hc]

theorem jsLength_cons (c : Char) (s : Str) :
    jsLength (c :: s) = (if 0x10000 ≤ c.toNat then 2 else 1) + jsLength s := by
  unfold jsLength
  rw [List.map_cons, List.sum_cons]

theorem jsLength_jsSlice_le (s : Str) : ∀ n, jsLength (jsSlice n s) ≤ n := by
  induction s with
  | nil =>
    intro n
    cases n <;> exact Nat.zero_le _
  | cons c cs ih =>
    intro n
    cases n with
    | zero => exact Nat.zero_le _
    | succ n =>
      unfold jsSlice
      by_cases hc : 0x10000 ≤ c.toNat
      · rw [if_pos hc]
        cases n with
        | zero =>
          show jsLength ['\uFFFD'] ≤ 1
          decide
        | succ m =>
          simp only []
          rw [jsLength_cons, if_pos hc]
          have := ih m
          omega
      · rw [if_neg hc, jsLength_cons, if_neg hc]
        have := ih n
        omega

theorem jsSlice_of_le (s : Str) : ∀ n, jsLength s ≤ n → jsSlice n s = s := by
  induction s with
  | nil =>
    intro n _
    cases n <;> rfl
  | cons c cs ih =>
    intro n h
    rw [jsLength_cons] at h
    cases n with
    | zero => split_ifs at h <;> omega
    | succ n =>
      unfold jsSlice
      by_cases hc : 0x10000 ≤ c.toNat
      · rw [if_pos hc] at h ⊢
        cases n with
        | zero => omega
        | succ m =>
          simp only []
          rw [ih m (by omega)]
      · rw [if_neg hc] at h ⊢
        rw [ih n (by omega)]

theorem jsSlice_cut (s : Str) :
    ∀ n, ∃ k, jsSlice n s = s.take k ∨ jsSlice n s = s.take k ++ ['\uFFFD'] := by
  induction s with
  | nil =>
    intro n
    exact ⟨0, Or.inl (by cases n <;> rfl)⟩
  | cons c cs ih =>
    intro n
    cases n with
    | zero => exact ⟨0, Or.inl rfl⟩
    | succ n =>
      unfold jsSlice
      by_cases hc : 0x10000 ≤ c.toNat
      · rw [if_pos hc]
        cases n with
        | zero => exact ⟨0, Or.inr rfl⟩
        | succ m =>
          simp only []
          obtain ⟨k, hk | hk⟩ := ih m
          · exact ⟨k + 1, Or.inl (by rw [hk]; rfl)⟩
          · exact ⟨k + 1, Or.inr (by rw [hk]; rfl)⟩
      · rw [if_neg hc]
        obtain ⟨k, hk | hk⟩ := ih n
        · exact ⟨k + 1, Or.inl (by rw [hk]; rfl)⟩
        · exact ⟨k + 1, Or.inr (by rw [hk]; rfl)⟩

/-- C16 (as amended). For a pending approval `a` of kind `continue_suggestion` whose target
is in the session: `resolve` with choice 1 sends exactly one input, the fixed continue
instruction, to the target of `a`; with choice 2 exactly one input, the continue
instruction followed by the auto-continue note, to the target of `a`; with choice 3 and a
non-blank instruction exactly one input, addressed to the supervisor, whose text contains
the (trimmed) id of the rejected target, the trimmed instruction of the user and the
whitespace-collapsed prompt text cut to its first 240 UTF-16 code units: the cut has at
most 240 units, it is the whole text when that has no more, and it is a run of characters
from the start of the text, followed by U+FFFD for a lone surrogate when the cut falls
inside a character; and whatever the choice, `requestReplanForNoChoice` is never
invoked. -/
theorem resolve_continue_suggestion (env : BrokerEnv) (s : Session) (id : Str) (c : Nat)
    (i : Str) (a : Approval)
    (hf : s.approvals.find? (fun item => decide (item.id = id)) = some a)
    (hp : a.status = "pending".toList) (hk : a.kind = "continue_suggestion".toList)
    (ht : targetExists s a.workerId = true) :
    (c = 1 → (resolve env s id c i).state.sent
        = [SendCall.mk s.sessionId a.workerId buildContinueExecutionInstruction true])
      ∧ (c = 2 → (resolve env s id c i).state.sent
        = [SendCall.mk s.sessionId a.workerId
            (buildContinueExecutionInstruction ++ " 后续同类确认将自动继续执行。".toList) true])
      ∧ (c = 3 → trim i ≠ [] →
          (resolve env s id c i).state.sent
            = [SendCall.mk s.sessionId "supervisor".toList
                (buildSupervisorInstructionForContinueSuggestion a.workerId i a.sourceText)
                true]
          ∧ (trim a.workerId
              <:+: buildSupervisorInstructionForContinueSuggestion a.workerId i a.sourceText)
          ∧ (trim i
              <:+: buildSupervisorInstructionForContinueSuggestion a.workerId i a.sourceText)
          ∧ (jsSlice 240 (trim (collapseWs a.sourceText))
              <:+: buildSupervisorInstructionForContinueSuggestion a.workerId i a.sourceText)
          ∧ jsLength (jsSlice 240 (trim (collapseWs a.sourceText))) ≤ 240
          ∧ (jsLength (trim (collapseWs a.sourceText)) ≤ 240 →
              jsSlice 240 (trim (collapseWs a.sourceText)) = trim (collapseWs a.sourceText))
          ∧ ∃ k, jsSlice 240 (trim (collapseWs a.sourceText))
                = (trim (collapseWs a.sourceText)).take k
              ∨ jsSlice 240 (trim (collapseWs a.sourceText))
                = (trim (collapseWs a.sourceText)).take k ++ ['\uFFFD'])
      ∧ (resolve env s id c i).state.replanCalls = [] := by
  have key : ¬ (c = 3 ∧ (trim i).isEmpty = true) →
      (resolve env s id c i).state.sent = (resolveApply env (brokerStart s) a c i).2.sent
        ∧ (resolve env s id c i).state.replanCalls
            = (resolveApply env (brokerStart s) a c i).2.replanCalls := by
    intro hn
    rw [resolve_effects env s id c i a hf hp hn ht]
    split_ifs
    · rw [(resolveCommit_sent env _ a id c i).1, (resolveCommit_sent env _ a id c i).2,
        resolvePlanned_continue env _ a c i hk]
      unfold resolveRule
      split_ifs <;> exact ⟨rfl, rfl⟩
    · exact ⟨rfl, rfl⟩
  refine ⟨?_, ?_, ?_, ?_⟩
  · intro hc
    subst hc
    rw [(key (fun h => absurd h.1 (by decide))).1]
    unfold resolveApply
    rw [if_pos hk]
    rfl
  · intro hc
    subst hc
    rw [(key (fun h => absurd h.1 (by decide))).1]
    unfold resolveApply
    rw [if_pos hk]
    rfl
  · intro hc hi
    subst hc
    have hn : ¬ (3 = 3 ∧ (trim i).isEmpty = true) := by
      rintro ⟨-, h⟩
      exact hi (List.isEmpty_iff.mp h)
    refine ⟨?_, ?_, ?_, ?_, jsLength_jsSlice_le _ _, jsSlice_of_le _ _, jsSlice_cut _ _⟩
    · rw [(key hn).1]
      unfold resolveApply
      rw [if_pos hk]
      rfl
    · by_cases hw : trim a.workerId = []
      · rw [hw]; exact List.nil_infix
      · unfold buildSupervisorInstructionForContinueSuggestion
        refine infix_of_part _ _ _ (List.mem_cons_self _ _) ?_ hw
        exact ⟨"执行窗口 ".toList, " 当前停在“如需我继续”的建议阶段。".toList, rfl⟩
    · unfold buildSupervisorInstructionForContinueSuggestion
      refine infix_of_part _ ("用户新要求：".toList ++ trim i) _ ?_ ?_ hi
      · simp only [List.mem_cons, true_or, or_true]
      · exact ⟨"用户新要求：".toList, [], by simp⟩
    · by_cases hsrc : jsSlice 240 (trim (collapseWs a.sourceText)) = []
      · rw [hsrc]; exact List.nil_infix
      · unfold buildSupervisorInstructionForContinueSuggestion
        refine infix_of_part _
          ("窗口原话摘要：".toList ++ jsSlice 240 (trim (collapseWs a.sourceText))) _ ?_ ?_ hsrc
        · have he : (jsSlice 240 (trim (collapseWs a.sourceText))).isEmpty = false := by
            cases hx : jsSlice 240 (trim (collapseWs a.sourceText)) with
            | nil => exact absurd hx hsrc
            | cons _ _ => rfl
          simp only [he, Bool.false_eq_true, if_false, List.mem_cons, true_or, or_true]
        · exact ⟨"窗口原话摘要：".toList, [], by simp⟩
  · by_cases hn : c = 3 ∧ (trim i).isEmpty = true
    · rw [resolve_of_find env s id c i a hf, if_neg (not_not.mpr hp), if_pos hn]
      rfl
    · rw [(key hn).2]
      unfold resolveApply
      rw [if_pos hk]
      split_ifs <;> rfl

theorem resolve_continue_suggestion_witness :
    ((3 = 3 → trim "改成先跑测试".toList ≠ [] →
      (resolve workerPromptEnv sessionWithEmojiPending "approval-0".toList 3
          "改成先跑测试".toList).state.sent
        = [SendCall.mk sessionWithEmojiPending.sessionId "supervisor".toList
            (buildSupervisorInstructionForContinueSuggestion "worker-1".toList
              "改成先跑测试".toList emojiPrompt) true]
      ∧ (trim "worker-1".toList
          <:+: buildSupervisorInstructionForContinueSuggestion "worker-1".toList
            "改成先跑测试".toList emojiPrompt)
      ∧ (trim "改成先跑测试".toList
          <:+: buildSupervisorInstructionForContinueSuggestion "worker-1".toList
            "改成先跑测试".toList emojiPrompt)
      ∧ (jsSlice 240 (trim (collapseWs emojiPrompt))
          <:+: buildSupervisorInstructionForContinueSuggestion "worker-1".toList
            "改成先跑测试".toList emojiPrompt)
      ∧ jsLength (jsSlice 240 (trim (collapseWs emojiPrompt))) ≤ 240
      ∧ (jsLength (trim (collapseWs emojiPrompt)) ≤ 240 →
          jsSlice 240 (trim (collapseWs emojiPrompt)) = trim (collapseWs emojiPrompt))
      ∧ ∃ k, jsSlice 240 (trim (collapseWs emojiPrompt))
            = (trim (collapseWs emojiPrompt)).take k
          ∨ jsSlice 240 (trim (collapseWs emojiPrompt))
            = (trim (collapseWs emojiPrompt)).take k ++ ['\uFFFD'])
    ∧ (resolve workerPromptEnv sessionWithEmojiPending "approval-0".toList 3
        "改成先跑测试".toList).state.replanCalls = [])
    ∧ jsSlice 240 (trim (collapseWs emojiPrompt))
        = 'a' :: List.replicate 119 '😀' ++ ['\uFFFD'] :=
  ⟨⟨(resolve_continue_suggestion workerPromptEnv sessionWithEmojiPending "approval-0".toList 3
      "改成先跑测试".toList
      { sampleApproval "approval-0".toList "worker-1".toList "pending".toList []
        with sourceText := emojiPrompt }
      (by decide!) (by decide!) (by decide!) (by decide!)).2.2.1,
   (resolve_continue_suggestion workerPromptEnv sessionWithEmojiPending "approval-0".toList 3
      "改成先跑测试".toList
      { sampleApproval "approval-0".toList "worker-1".toList "pending".toList []
        with sourceText := emojiPrompt }
      (by decide!) (by decide!) (by decide!) (by decide!)).2.2.2⟩, by decide!⟩

/-- Counterexample to C16 as stated: the session holds a pending approval of kind
`continue_suggestion` for `worker-1` but no worker of that name; `resolve` with choice 1
fails and sends nothing. -/
theorem resolve_continue_suggestion_counterexample :
    sessionWithLostTarget.approvals.find? (fun item => decide (item.id = "approval-0".toList))
        = some (sampleApproval "approval-0".toList "worker-1".toList "pending".toList [])
      ∧ (sampleApproval "approval-0".toList "worker-1".toList "pending".toList []).kind
        = "continue_suggestion".toList
      ∧ (resolve workerPromptEnv sessionWithLostTarget "approval-0".toList 1 []).ok = false
      ∧ (resolve workerPromptEnv sessionWithLostTarget "approval-0".toList 1 []).state.sent
        = [] := by
  decide!


theorem resolveApply_other (env : BrokerEnv) (st : BrokerState) (a : Approval) (c : Nat)
    (i : Str) (hk : a.kind ≠ "continue_suggestion".toList) :
    resolveApply env st a c i = brokerSend env st a.workerId (natToStr c) := by
  unfold resolveApply
  rw [if_neg hk]

theorem resolveRule_other (env : BrokerEnv) (st : BrokerState) (a : Approval) (c : Nat)
    (hc : c ≠ 2) : resolveRule env st a c = st := by
  unfold resolveRule
  rw [if_neg hc]

theorem resolvePlanned_three (env : BrokerEnv) (st : BrokerState) (a : Approval) (i : Str) :
    (resolvePlanned env st a 3 i).2 = (resolveReplan env st a i).2 := by
  unfold resolvePlanned
  rw [if_pos rfl]

theorem resolveReplan_worker (env : BrokerEnv) (st : BrokerState) (a : Approval) (i : Str)
    (hk : a.kind ≠ "continue_suggestion".toList) (hw : a.workerId ≠ "supervisor".toList) :
    (resolveReplan env st a i).2 =
      if (env.requestReplanForNoChoice a.workerId (trim i)).ok = true then
        (brokerSend env
          { st with replanCalls := st.replanCalls ++ [(a.workerId, trim i)] }
          (env.requestReplanForNoChoice a.workerId (trim i)).dispatch.workerId
          (env.requestReplanForNoChoice a.workerId (trim i)).dispatch.instruction).2
      else { st with replanCalls := st.replanCalls ++ [(a.workerId, trim i)] } := by
  unfold resolveReplan
  rw [if_pos hk, if_neg hw]
  dsimp only
  split_ifs <;> rfl

theorem resolveReplan_supervisor (env : BrokerEnv) (st : BrokerState) (a : Approval) (i : Str)
    (hk : a.kind ≠ "continue_suggestion".toList) (hw : a.workerId = "supervisor".toList) :
    (resolveReplan env st a i).2
      = (brokerSend env st "supervisor".toList
          (buildSupervisorNoChoiceInstruction a.workerId i)).2 := by
  unfold resolveReplan
  rw [if_pos hk, if_pos hw]

/-- C17, as the code has it. For a pending approval `a` whose kind is not
`continue_suggestion` and whose target is in the session: `resolve` with choice 1 or 2
sends exactly one input, the decimal string of the choice, to the target of `a`, and does
not invoke `requestReplanForNoChoice`. With choice 3 and a non-blank instruction it first
sends the input `3` to the target of `a`; if the runtime rejects that input nothing else is
sent and `requestReplanForNoChoice` is not invoked; if the runtime accepts it, then on a
worker target `requestReplanForNoChoice` is invoked exactly once, with the worker id and
the trimmed instruction (its dispatch is forwarded as a second input when the re-plan is
ok), and on the supervisor target `requestReplanForNoChoice` is not invoked and the direct
adjustment instruction is sent to the supervisor as the second input. -/
theorem resolve_other_kind (env : BrokerEnv) (s : Session) (id : Str) (c : Nat)
    (i : Str) (a : Approval)
    (hf : s.approvals.find? (fun item => decide (item.id = id)) = some a)
    (hp : a.status = "pending".toList) (hk : a.kind ≠ "continue_suggestion".toList)
    (ht : targetExists s a.workerId = true) :
    (c = 1 ∨ c = 2 →
        (resolve env s id c i).state.sent = [SendCall.mk s.sessionId a.workerId (natToStr c) true]
          ∧ (resolve env s id c i).state.replanCalls = [])
      ∧ (c = 3 → trim i ≠ [] →
          ((env.sendInput 0 (SendCall.mk s.sessionId a.workerId "3".toList true)).ok = false →
            (resolve env s id c i).state.sent
                = [SendCall.mk s.sessionId a.workerId "3".toList true]
              ∧ (resolve env s id c i).state.replanCalls = [])
          ∧ ((env.sendInput 0 (SendCall.mk s.sessionId a.workerId "3".toList true)).ok = true →
              a.workerId ≠ "supervisor".toList →
            (resolve env s id c i).state.replanCalls = [(a.workerId, trim i)]
              ∧ (resolve env s id c i).state.sent
                = SendCall.mk s.sessionId a.workerId "3".toList true
                  :: (if (env.requestReplanForNoChoice a.workerId (trim i)).ok = true then
                      [SendCall.mk s.sessionId
                        (env.requestReplanForNoChoice a.workerId (trim i)).dispatch.workerId
                        (env.requestReplanForNoChoice a.workerId (trim i)).dispatch.instruction
                        true]
                    else []))
          ∧ ((env.sendInput 0 (SendCall.mk s.sessionId a.workerId "3".toList true)).ok = true →
              a.workerId = "supervisor".toList →
            (resolve env s id c i).state.replanCalls = []
              ∧ (resolve env s id c i).state.sent
                = [SendCall.mk s.sessionId a.workerId "3".toList true,
                   SendCall.mk s.sessionId "supervisor".toList
                    (buildSupervisorNoChoiceInstruction a.workerId i) true])) := by
  refine ⟨?_, ?_⟩
  · intro hc
    have hn : ¬ (c = 3 ∧ (trim i).isEmpty = true) := by
      rintro ⟨h3, -⟩
      rcases hc with h | h <;> rw [h] at h3 <;> cases h3
    have hc3 : c ≠ 3 := by
      rintro h3
      rcases hc with h | h <;> rw [h] at h3 <;> cases h3
    rw [resolve_effects env s id c i a hf hp hn ht, resolveApply_other env _ a c i hk]
    split_ifs
    · rw [(resolveCommit_sent env _ a id c i).1, (resolveCommit_sent env _ a id c i).2,
        resolvePlanned_other env _ a c i hc3]
      unfold resolveRule
      split_ifs <;> exact ⟨rfl, rfl⟩
    · exact ⟨rfl, rfl⟩
  · intro hc hi
    subst hc
    have hn : ¬ (3 = 3 ∧ (trim i).isEmpty = true) := by
      rintro ⟨-, h⟩
      exact hi (List.isEmpty_iff.mp h)
    have hfirst : (resolveApply env (brokerStart s) a 3 i).1.ok
        = (env.sendInput 0 (SendCall.mk s.sessionId a.workerId "3".toList true)).ok := by
      rw [resolveApply_other env _ a 3 i hk]
      rfl
    rw [resolve_effects env s id 3 i a hf hp hn ht, hfirst, resolveApply_other env _ a 3 i hk]
    refine ⟨?_, ?_, ?_⟩
    · intro hfail
      rw [if_neg (by rw [hfail]; decide)]
      exact ⟨rfl, rfl⟩
    · intro hok hw
      rw [if_pos hok, (resolveCommit_sent env _ a id 3 i).1,
        (resolveCommit_sent env _ a id 3 i).2, resolveRule_other env _ a 3 (by decide),
        resolvePlanned_three, resolveReplan_worker env _ a i hk hw]
      split_ifs <;> exact ⟨rfl, rfl⟩
    · intro hok hw
      rw [if_pos hok, (resolveCommit_sent env _ a id 3 i).1,
        (resolveCommit_sent env _ a id 3 i).2, resolveRule_other env _ a 3 (by decide),
        resolvePlanned_three, resolveReplan_supervisor env _ a i hk hw]
      exact ⟨rfl, rfl⟩

theorem resolve_other_kind_witness :
    (resolve workerPromptEnv sessionChoicePending "approval-0".toList 3
        " 换个方案 ".toList).state.replanCalls = [("worker-1".toList, trim " 换个方案 ".toList)]
      ∧ (resolve workerPromptEnv sessionChoicePending "approval-0".toList 3
          " 换个方案 ".toList).state.sent
        = SendCall.mk sessionChoicePending.sessionId "worker-1".toList "3".toList true
          :: (if (workerPromptEnv.requestReplanForNoChoice "worker-1".toList
                (trim " 换个方案 ".toList)).ok = true then
              [SendCall.mk sessionChoicePending.sessionId
                (workerPromptEnv.requestReplanForNoChoice "worker-1".toList
                  (trim " 换个方案 ".toList)).dispatch.workerId
                (workerPromptEnv.requestReplanForNoChoice "worker-1".toList
                  (trim " 换个方案 ".toList)).dispatch.instruction
                true]
            else []) :=
  (resolve_other_kind workerPromptEnv sessionChoicePending "approval-0".toList 3
    " 换个方案 ".toList
    (sessionChoicePending.approvals.headD
      (sampleApproval "approval-0".toList "worker-1".toList "pending".toList []))
    (by decide!) (by decide!) (by decide!) (by decide!)).2 rfl (by decide!) |>.2.1
      (by decide!) (by decide!)

/-- C17, the claim as written fails: `worker-1` is in the session and has a pending
three-choice approval, the human answers 3 with an instruction, but the runtime rejects the
input `3`; `resolve` then returns `ok = false` without invoking `requestReplanForNoChoice`. -/
theorem resolve_other_kind_counterexample :
    sessionChoicePending.approvals.map (fun a => (a.id, a.workerId, a.status, a.kind))
        = [("approval-0".toList, "worker-1".toList, "pending".toList, "three_choice".toList)]
      ∧ targetExists sessionChoicePending "worker-1".toList = true
      ∧ trim "换个方案".toList ≠ []
      ∧ (resolve rejectingEnv sessionChoicePending "approval-0".toList 3
          "换个方案".toList).ok = false
      ∧ (resolve rejectingEnv sessionChoicePending "approval-0".toList 3
          "换个方案".toList).state.replanCalls = []
      ∧ (resolve rejectingEnv sessionChoicePending "approval-0".toList 3
          "换个方案".toList).state.sent
        = [SendCall.mk "session-1".toList "worker-1".toList "3".toList true] := by
  decide!


/-! ## Choosing the plan among the candidates -/

theorem normalizePlanCandidate_score (env : ParserEnv) (c : Json) (best : ScoredPlan)
    (h : normalizePlanCandidate env c = some best) :
    best.score = best.tasks.length * 10 + (if best.planSummary.isEmpty then 0 else 3)
        + (if isArray (c.field "tasks") then 2 else 0)
      ∧ best.tasks ≠ []
      ∧ ∃ tasksRaw,
          pickFirstArray [c.field "tasks", c.field "subtasks", c.field "items",
            c.field "workers"] = some tasksRaw
          ∧ best.tasks = (normalizeTasksFrom env 0 tasksRaw).insertionSort
              (fun a b => a.workerIndex ≤ b.workerIndex) := by
  unfold normalizePlanCandidate at h
  split at h
  · cases h
  · rename_i tasksRaw hraw
    dsimp only at h
    by_cases h0 : ((normalizeTasksFrom env 0 tasksRaw).insertionSort
        (fun a b => a.workerIndex ≤ b.workerIndex)).length = 0
    · rw [if_pos h0] at h
      cases h
    · rw [if_neg h0] at h
      injection h with h
      subst h
      refine ⟨rfl, ?_, tasksRaw, hraw, rfl⟩
      intro hnil
      apply h0
      dsimp only at hnil
      rw [hnil]
      rfl

theorem pickBestLoop_some (env : ParserEnv) (l : List Json) :
    ∀ (b best : ScoredPlan), pickBestLoop env (some b) l = some best →
      (best = b ∧ ∀ x ∈ l, ∀ y, normalizePlanCandidate env x = some y → y.score ≤ b.score)
      ∨ (∃ pre c post, l = pre ++ c :: post ∧ normalizePlanCandidate env c = some best
          ∧ b.score < best.score
          ∧ (∀ x ∈ pre, ∀ y, normalizePlanCandidate env x = some y → y.score < best.score)
          ∧ (∀ x ∈ post, ∀ y, normalizePlanCandidate env x = some y → y.score ≤ best.score)) := by
  induction l with
  | nil =>
    intro b best h
    left
    unfold pickBestLoop at h
    cases h
    exact ⟨rfl, fun x hx => absurd hx (List.not_mem_nil x)⟩
  | cons c rest ih =>
    intro b best h
    unfold pickBestLoop at h
    cases hc : normalizePlanCandidate env c with
    | none =>
      rw [hc] at h
      simp only [] at h
      rcases ih b best h with ⟨h1, h2⟩ | ⟨pre, d, post, h1, h2, h3, h4, h5⟩
      · left
        refine ⟨h1, ?_⟩
        intro x hx y hy
        rcases List.mem_cons.mp hx with hx | hx
        · rw [hx, hc] at hy; cases hy
        · exact h2 x hx y hy
      · right
        refine ⟨c :: pre, d, post, by rw [h1]; rfl, h2, h3, ?_, h5⟩
        intro x hx y hy
        rcases List.mem_cons.mp hx with hx | hx
        · rw [hx, hc] at hy; cases hy
        · exact h4 x hx y hy
    | some n =>
      rw [hc] at h
      simp only [] at h
      by_cases hgt : n.score > b.score
      · rw [if_pos hgt] at h
        rcases ih n best h with ⟨h1, h2⟩ | ⟨pre, d, post, h1, h2, h3, h4, h5⟩
        · right
          refine ⟨[], c, rest, rfl, by rw [hc, h1], by rw [h1]; exact hgt, ?_, ?_⟩
          · intro x hx; cases hx
          · intro x hx y hy
            rw [h1]
            exact h2 x hx y hy
        · right
          refine ⟨c :: pre, d, post, by rw [h1]; rfl, h2, lt_trans hgt h3, ?_, h5⟩
          intro x hx y hy
          rcases List.mem_cons.mp hx with hx | hx
          · rw [hx, hc] at hy; cases hy; exact h3
          · exact h4 x hx y hy
      · rw [if_neg hgt] at h
        rcases ih b best h with ⟨h1, h2⟩ | ⟨pre, d, post, h1, h2, h3, h4, h5⟩
        · left
          refine ⟨h1, ?_⟩
          intro x hx y hy
          rcases List.mem_cons.mp hx with hx | hx
          · rw [hx, hc] at hy; cases hy; exact not_lt.mp hgt
          · exact h2 x hx y hy
        · right
          refine ⟨c :: pre, d, post, by rw [h1]; rfl, h2, h3, ?_, h5⟩
          intro x hx y hy
          rcases List.mem_cons.mp hx with hx | hx
          · rw [hx, hc] at hy; cases hy; exact lt_of_le_of_lt (not_lt.mp hgt) h3
          · exact h4 x hx y hy

theorem pickBestLoop_none (env : ParserEnv) (l : List Json) (best : ScoredPlan)
    (h : pickBestLoop env none l = some best) :
    ∃ pre c post, l = pre ++ c :: post ∧ normalizePlanCandidate env c = some best
      ∧ (∀ x ∈ pre, ∀ y, normalizePlanCandidate env x = some y → y.score < best.score)
      ∧ (∀ x ∈ post, ∀ y, normalizePlanCandidate env x = some y → y.score ≤ best.score) := by
  induction l with
  | nil => unfold pickBestLoop at h; cases h
  | cons c rest ih =>
    unfold pickBestLoop at h
    cases hc : normalizePlanCandidate env c with
    | none =>
      rw [hc] at h
      simp only [] at h
      obtain ⟨pre, d, post, h1, h2, h3, h4⟩ := ih h
      refine ⟨c :: pre, d, post, by rw [h1]; rfl, h2, ?_, h4⟩
      intro x hx y hy
      rcases List.mem_cons.mp hx with hx | hx
      · rw [hx, hc] at hy; cases hy
      · exact h3 x hx y hy
    | some n =>
      rw [hc] at h
      simp only [] at h
      rcases pickBestLoop_some env rest n best h with ⟨h1, h2⟩ | ⟨pre, d, post, h1, h2, h3, h4, h5⟩
      · refine ⟨[], c, rest, rfl, by rw [hc, h1], ?_, ?_⟩
        · intro x hx; cases hx
        · intro x hx y hy
          rw [h1]
          exact h2 x hx y hy
      · refine ⟨c :: pre, d, post, by rw [h1]; rfl, h2, ?_, h5⟩
        intro x hx y hy
        rcases List.mem_cons.mp hx with hx | hx
        · rw [hx, hc] at hy; cases hy; exact h3
        · exact h4 x hx y hy

theorem pickBestLoop_isSome (env : ParserEnv) (l : List Json) (b : Option ScoredPlan)
    (h : b.isSome = true ∨ ∃ c ∈ l, (normalizePlanCandidate env c).isSome = true) :
    (pickBestLoop env b l).isSome = true := by
  induction l generalizing b with
  | nil =>
    rcases h with h | ⟨c, hc, -⟩
    · unfold pickBestLoop; exact h
    · cases hc
  | cons c rest ih =>
    unfold pickBestLoop
    cases hc : normalizePlanCandidate env c with
    | none =>
      simp only []
      apply ih
      rcases h with h | ⟨d, hd, hd2⟩
      · left; exact h
      · rcases List.mem_cons.mp hd with hd | hd
        · rw [hd, hc] at hd2; cases hd2
        · right; exact ⟨d, hd, hd2⟩
    | some n =>
      simp only []
      cases b with
      | none => simp only []; exact ih _ (Or.inl rfl)
      | some bb =>
        simp only []
        split_ifs <;> exact ih _ (Or.inl rfl)

theorem pickBestLoop_none_of_all (env : ParserEnv) (l : List Json)
    (h : ∀ c ∈ l, normalizePlanCandidate env c = none) : pickBestLoop env none l = none := by
  induction l with
  | nil => rfl
  | cons c rest ih =>
    unfold pickBestLoop
    rw [h c (List.mem_cons_self _ _)]
    exact ih fun x hx => h x (List.mem_cons_of_mem _ hx)

theorem parseSupervisorPlanFromText_origin (env : ParserEnv) (text : Str) (plan : ParsedPlan)
    (h : parseSupervisorPlanFromText env text = some plan) :
    ∃ c best, c ∈ collectJsonCandidates env text ["task_plan_json"] true
      ∧ normalizePlanCandidate env c = some best
      ∧ plan = { planSummary := best.planSummary, tasks := best.tasks } := by
  unfold parseSupervisorPlanFromText pickBestPlanCandidate at h
  cases hb : pickBestLoop env none (collectJsonCandidates env text ["task_plan_json"] true) with
  | none => rw [hb] at h; cases h
  | some best =>
    rw [hb] at h
    obtain ⟨pre, c, post, h1, h2, -, -⟩ := pickBestLoop_none env _ best hb
    exact ⟨c, best, by rw [h1]; simp, h2, by simpa using h.symm⟩

theorem trim_idem (s : Str) : trim (trim s) = trim s := by
  by_cases h : trim s = []
  · rw [h]; rfl
  · obtain ⟨c, t, hct, hc, u, d, hud, hd⟩ := trim_shape s h
    rw [hct]
    rcases List.eq_nil_or_concat t with ht | ⟨m, e, hme⟩
    · subst ht
      have := trim_eq_self c c [] hc hc
      unfold trim at this ⊢
      unfold trimStart trimEnd at this ⊢
      simp [List.dropWhile_cons, hc]
    · rw [List.concat_eq_append] at hme
      subst hme
      have he : e = d := by
        have h2 : (c :: m) ++ [e] = u ++ [d] := by
          rw [List.cons_append, ← hct, hud]
        exact (List.append_inj_right' h2 rfl |> List.cons.inj).1
      subst he
      exact trim_eq_self c e m hc hd

theorem normalizeTask_some (env : ParserEnv) (task : Json) (index : Nat) (t : ParsedTask)
    (h : normalizeTask env task index = some t) :
    isObject (some task) = true
      ∧ t.instruction = trim (stringOfFirstTruthy [task.field "instruction",
          task.field "prompt", task.field "task", task.field "description"])
      ∧ t.instruction ≠ [] := by
  unfold normalizeTask at h
  by_cases ho : isObject (some task) = true
  · rw [if_neg (by rw [ho]; decide)] at h
    dsimp only at h
    by_cases he : (trim (stringOfFirstTruthy [task.field "instruction", task.field "prompt",
        task.field "task", task.field "description"])).isEmpty = true
    · rw [if_pos he] at h
      cases h
    · rw [if_neg he] at h
      injection h with h
      subst h
      refine ⟨ho, rfl, ?_⟩
      intro hnil
      apply he
      dsimp only at hnil
      rw [hnil]
      rfl
  · rw [if_pos (by simpa using ho)] at h
    cases h

theorem normalizeTask_none (env : ParserEnv) (task : Json) (index : Nat)
    (h : isObject (some task) = false
      ∨ trim (stringOfFirstTruthy [task.field "instruction", task.field "prompt",
          task.field "task", task.field "description"]) = []) :
    normalizeTask env task index = none := by
  unfold normalizeTask
  by_cases ho : isObject (some task) = true
  · rw [if_neg (by rw [ho]; decide)]
    dsimp only
    rcases h with h | h
    · rw [h] at ho; cases ho
    · rw [if_pos (by rw [h]; rfl)]
  · rw [if_pos (by simpa using ho)]

theorem mem_normalizeTasksFrom (env : ParserEnv) (l : List Json) (index : Nat)
    (t : ParsedTask) (h : t ∈ normalizeTasksFrom env index l) :
    ∃ task ∈ l, ∃ i, normalizeTask env task i = some t := by
  induction l generalizing index with
  | nil => cases h
  | cons task rest ih =>
    unfold normalizeTasksFrom at h
    cases ht : normalizeTask env task index with
    | none =>
      rw [ht] at h
      obtain ⟨x, hx, i, hi⟩ := ih (index + 1) h
      exact ⟨x, List.mem_cons_of_mem _ hx, i, hi⟩
    | some y =>
      rw [ht] at h
      rcases List.mem_cons.mp h with h | h
      · exact ⟨task, List.mem_cons_self _ _, index, by rw [ht, h]⟩
      · obtain ⟨x, hx, i, hi⟩ := ih (index + 1) h
        exact ⟨x, List.mem_cons_of_mem _ hx, i, hi⟩

theorem normalizeTasksFrom_nil (env : ParserEnv) (l : List Json) (index : Nat)
    (h : ∀ task ∈ l, ∀ i, normalizeTask env task i = none) :
    normalizeTasksFrom env index l = [] := by
  induction l generalizing index with
  | nil => rfl
  | cons task rest ih =>
    unfold normalizeTasksFrom
    rw [h task (List.mem_cons_self _ _) index]
    exact ih (index + 1) fun x hx => h x (List.mem_cons_of_mem _ hx)

theorem get_normalizeTasksFrom (env : ParserEnv) (l : List Json) :
    ∀ (index : Nat) (t : ParsedTask), t ∈ normalizeTasksFrom env index l →
      ∃ j task, l[j]? = some task ∧ normalizeTask env task (index + j) = some t := by
  induction l with
  | nil => intro index t h; cases h
  | cons task rest ih =>
    intro index t h
    unfold normalizeTasksFrom at h
    cases ht : normalizeTask env task index with
    | none =>
      rw [ht] at h
      obtain ⟨j, x, hx, hj⟩ := ih (index + 1) t h
      exact ⟨j + 1, x, by simpa using hx, by rw [← hj]; congr 1; omega⟩
    | some y =>
      rw [ht] at h
      rcases List.mem_cons.mp h with h | h
      · exact ⟨0, task, by simp, by rw [h]; exact ht⟩
      · obtain ⟨j, x, hx, hj⟩ := ih (index + 1) t h
        exact ⟨j + 1, x, by simpa using hx, by rw [← hj]; congr 1; omega⟩

theorem normalizeTask_workerIndex (env : ParserEnv) (task : Json) (index : Nat) (t : ParsedTask)
    (h : normalizeTask env task index = some t) :
    t.workerIndex = (parseWorkerIndex env
      (firstDefined [task.field "workerIndex", task.field "index", task.field "worker",
        task.field "workerId"]) (some (index + 1))).getD (index + 1) := by
  unfold normalizeTask at h
  split at h
  · cases h
  · dsimp only at h
    split at h
    · cases h
    · injection h with h
      rw [← h]


theorem foldl_tryPush (l : List Json) :
    ∀ kept : List Json,
      l.foldl (fun p payload => tryPush p (some payload)) kept
        = (l.filter fun v => isObject (some v)).foldl
            (fun kept v => if kept.any (fun p => Json.beq p v) then kept else kept ++ [v]) kept := by
  induction l with
  | nil => intro kept; rfl
  | cons v rest ih =>
    intro kept
    rw [List.foldl_cons, ih, List.filter_cons]
    unfold tryPush
    by_cases ho : isObject (some v) = true
    · simp only [ho, Bool.not_true, Bool.false_eq_true, if_false, if_true, List.foldl_cons]
    · simp only [ho, Bool.not_false, Bool.not_eq_true, if_true, Bool.false_eq_true, if_false]

theorem foldl_tryPush_parsed (env : ParserEnv) (raws : List Str) :
    ∀ kept : List Json,
      raws.foldl (fun parsed raw => tryPush parsed (safeParseJson env raw)) kept
        = ((raws.filterMap (safeParseJson env)).filter fun v => isObject (some v)).foldl
            (fun kept v => if kept.any (fun p => Json.beq p v) then kept else kept ++ [v]) kept := by
  induction raws with
  | nil => intro kept; rfl
  | cons raw rest ih =>
    intro kept
    rw [List.foldl_cons, ih, List.filterMap_cons]
    cases hp : safeParseJson env raw with
    | none => rfl
    | some v =>
      simp only [List.filter_cons]
      unfold tryPush
      by_cases ho : isObject (some v) = true
      · simp only [ho, Bool.not_true, Bool.false_eq_true, if_false, if_true, List.foldl_cons]
      · simp only [ho, Bool.not_false, Bool.not_eq_true, if_true, Bool.false_eq_true, if_false]

theorem foldl_tryPush_scanned (env : ParserEnv) (raws : List Str) :
    ∀ kept : List Json,
      raws.foldl
          (fun parsed raw =>
            match safeParseJson env raw with
            | some payload =>
              if !isObject (some payload) then parsed
              else if !true || looksLikePlan payload then tryPush parsed (some payload)
              else parsed
            | none => parsed) kept
        = ((raws.filterMap (safeParseJson env)).filter
            fun v => isObject (some v) && looksLikePlan v).foldl
            (fun kept v => if kept.any (fun p => Json.beq p v) then kept else kept ++ [v]) kept := by
  induction raws with
  | nil => intro kept; rfl
  | cons raw rest ih =>
    intro kept
    rw [List.foldl_cons, ih, List.filterMap_cons]
    cases hp : safeParseJson env raw with
    | none => rfl
    | some v =>
      simp only [List.filter_cons]
      unfold tryPush
      by_cases ho : isObject (some v) = true
      · by_cases hl : looksLikePlan v = true
        · simp only [ho, hl, Bool.not_true, Bool.false_eq_true, if_false, if_true,
            List.foldl_cons, Bool.or_true, Bool.and_self, Bool.false_or]
        · simp only [ho, hl, Bool.not_true, Bool.false_eq_true, if_false, if_true,
            Bool.or_false, Bool.and_false, Bool.false_or]
      · simp only [ho, Bool.not_false, if_true, Bool.false_and, Bool.false_eq_true, if_false]

/-- The candidates of a plan are gathered family by family, later repetitions being left
out. -/
theorem collectJsonCandidates_gathered (env : ParserEnv) (text : Str) :
    collectJsonCandidates env text ["task_plan_json"] true
      = keepFirstPayload (gatheredInOrder env text) := by
  unfold collectJsonCandidates keepFirstPayload gatheredInOrder
  simp only [List.foldl_cons, List.foldl_nil]
  refine (foldl_tryPush_scanned env _ _).trans ?_
  rw [foldl_tryPush_parsed, foldl_tryPush, List.foldl_append, List.foldl_append]

theorem normalizeTask_isSome (env : ParserEnv) (task : Json) (index : Nat) :
    (normalizeTask env task index).isSome = survivesNormalizeTask task := by
  unfold survivesNormalizeTask
  cases h : normalizeTask env task index with
  | some t =>
    obtain ⟨ho, heq, hne⟩ := normalizeTask_some env task index t h
    rw [ho, ← heq]
    cases hi : t.instruction with
    | nil => exact absurd hi hne
    | cons c cs => rfl
  | none =>
    by_cases ho : isObject (some task) = true
    · by_cases he : trim (stringOfFirstTruthy [task.field "instruction", task.field "prompt",
          task.field "task", task.field "description"]) = []
      · rw [he, ho]
        rfl
      · exfalso
        unfold normalizeTask at h
        rw [if_neg (by rw [ho]; decide)] at h
        dsimp only at h
        rw [if_neg (by
          intro hq
          exact he (List.isEmpty_iff.mp hq))] at h
        cases h
    · simp only [Bool.not_eq_true] at ho
      rw [ho]
      rfl

theorem normalizeTasksFrom_length (env : ParserEnv) (l : List Json) :
    ∀ index, (normalizeTasksFrom env index l).length = (l.filter survivesNormalizeTask).length := by
  induction l with
  | nil => intro index; rfl
  | cons task rest ih =>
    intro index
    unfold normalizeTasksFrom
    have hs := normalizeTask_isSome env task index
    rw [List.filter_cons]
    cases h : normalizeTask env task index with
    | some t =>
      rw [h] at hs
      simp only [Option.isSome_some] at hs
      rw [← hs]
      simp only [if_true, List.length_cons, ih]
    | none =>
      rw [h] at hs
      simp only [Option.isSome_none] at hs
      rw [← hs]
      simp only [Bool.false_eq_true, if_false, ih]

theorem normalizePlanCandidate_summary (env : ParserEnv) (c : Json) (best : ScoredPlan)
    (h : normalizePlanCandidate env c = some best) :
    best.planSummary = trim (stringOfFirstTruthy [c.field "planSummary", c.field "summary",
      c.field "overview", c.field "plan"]) := by
  unfold normalizePlanCandidate at h
  split at h
  · cases h
  · dsimp only at h
    split_ifs at h
    all_goals
      injection h with h
      rw [← h]

/-- C8. When `parseSupervisorPlanFromText` succeeds, the plan it returns is the
normalisation of one of the gathered candidates.  The candidates are gathered family by
family, the payloads of the `task_plan_json` blocks first, then those of the fenced blocks,
then the plan-like ones of the brace-balanced scan, each family in text order and later
repetitions left out.  The score of the returned candidate is 10 times the number of its
surviving tasks (the elements of its task list that are objects with a non-blank
instruction), plus 3 when its summary is not empty, plus 2 when its field `tasks` is an
array; every candidate gathered before it that normalises has a strictly smaller score and
every candidate gathered after it has a score that is not greater.  The parser succeeds
exactly when some gathered candidate normalises. -/
theorem parseSupervisorPlanFromText_best (env : ParserEnv) (text : Str) :
    (∀ plan, parseSupervisorPlanFromText env text = some plan →
      ∃ pre c post best tasksRaw,
        keepFirstPayload (gatheredInOrder env text) = pre ++ c :: post
        ∧ normalizePlanCandidate env c = some best
        ∧ plan = { planSummary := best.planSummary, tasks := best.tasks }
        ∧ pickFirstArray [c.field "tasks", c.field "subtasks", c.field "items",
            c.field "workers"] = some tasksRaw
        ∧ best.tasks.length = (tasksRaw.filter survivesNormalizeTask).length
        ∧ best.planSummary = trim (stringOfFirstTruthy [c.field "planSummary",
            c.field "summary", c.field "overview", c.field "plan"])
        ∧ best.score = (tasksRaw.filter survivesNormalizeTask).length * 10
            + (if best.planSummary.isEmpty then 0 else 3)
            + (if isArray (c.field "tasks") then 2 else 0)
        ∧ (∀ x ∈ pre, ∀ y, normalizePlanCandidate env x = some y → y.score < best.score)
        ∧ (∀ x ∈ post, ∀ y, normalizePlanCandidate env x = some y → y.score ≤ best.score))
    ∧ collectJsonCandidates env text ["task_plan_json"] true
        = keepFirstPayload (gatheredInOrder env text)
    ∧ ((parseSupervisorPlanFromText env text).isSome = true ↔
        ∃ c ∈ keepFirstPayload (gatheredInOrder env text),
          (normalizePlanCandidate env c).isSome = true) := by
  have hg := collectJsonCandidates_gathered env text
  refine ⟨?_, hg, ?_, ?_⟩
  · intro plan h
    unfold parseSupervisorPlanFromText pickBestPlanCandidate at h
    rw [hg] at h
    cases hb : pickBestLoop env none (keepFirstPayload (gatheredInOrder env text)) with
    | none => rw [hb] at h; cases h
    | some best =>
      rw [hb] at h
      obtain ⟨pre, c, post, h1, h2, h3, h4⟩ := pickBestLoop_none env _ best hb
      obtain ⟨s1, -, tasksRaw, s3, s4⟩ := normalizePlanCandidate_score env c best h2
      have hlen : best.tasks.length = (tasksRaw.filter survivesNormalizeTask).length := by
        rw [s4, List.length_insertionSort, normalizeTasksFrom_length]
      refine ⟨pre, c, post, best, tasksRaw, h1, h2, ?_, s3, hlen,
        normalizePlanCandidate_summary env c best h2, by rw [← hlen]; exact s1, h3, h4⟩
      simpa using h.symm
  · intro h
    unfold parseSupervisorPlanFromText pickBestPlanCandidate at h
    rw [hg] at h
    cases hb : pickBestLoop env none (keepFirstPayload (gatheredInOrder env text)) with
    | none => rw [hb] at h; cases h
    | some best =>
      obtain ⟨pre, c, post, h1, h2, -, -⟩ := pickBestLoop_none env _ best hb
      exact ⟨c, by rw [h1]; simp, by rw [h2]; rfl⟩
  · intro h
    unfold parseSupervisorPlanFromText pickBestPlanCandidate
    rw [hg]
    have hs := pickBestLoop_isSome env _ none (Or.inr h)
    cases hb : pickBestLoop env none (keepFirstPayload (gatheredInOrder env text)) with
    | none => rw [hb] at hs; cases hs
    | some best => rfl

theorem parseSupervisorPlanFromText_best_witness :
    (∃ pre c post best tasksRaw,
      keepFirstPayload (gatheredInOrder sampleParserEnv tiedPlansText) = pre ++ c :: post
      ∧ normalizePlanCandidate sampleParserEnv c = some best
      ∧ tiedPlansPlan = { planSummary := best.planSummary, tasks := best.tasks }
      ∧ pickFirstArray [c.field "tasks", c.field "subtasks", c.field "items",
          c.field "workers"] = some tasksRaw
      ∧ best.tasks.length = (tasksRaw.filter survivesNormalizeTask).length
      ∧ best.planSummary = trim (stringOfFirstTruthy [c.field "planSummary",
          c.field "summary", c.field "overview", c.field "plan"])
      ∧ best.score = (tasksRaw.filter survivesNormalizeTask).length * 10
          + (if best.planSummary.isEmpty then 0 else 3)
          + (if isArray (c.field "tasks") then 2 else 0)
      ∧ (∀ x ∈ pre, ∀ y, normalizePlanCandidate sampleParserEnv x = some y →
          y.score < best.score)
      ∧ (∀ x ∈ post, ∀ y, normalizePlanCandidate sampleParserEnv x = some y →
          y.score ≤ best.score))
    ∧ (keepFirstPayload (gatheredInOrder sampleParserEnv tiedPlansText)).map
        (fun c => (normalizePlanCandidate sampleParserEnv c).map fun best =>
          (best.score, best.tasks.map fun t => t.instruction))
      = [some (12, ["from the tag".toList]), some (12, ["from the fence".toList])] :=
  ⟨(parseSupervisorPlanFromText_best sampleParserEnv tiedPlansText).1 tiedPlansPlan
    (by decide!), by decide!⟩

theorem stringOfFirstTruthy_order (a b c d : Option Json) :
    (truthy a = true → stringOfFirstTruthy [a, b, c, d] = (a.map Json.toJsString).getD [])
      ∧ (truthy a = false → truthy b = true →
          stringOfFirstTruthy [a, b, c, d] = (b.map Json.toJsString).getD [])
      ∧ (truthy a = false → truthy b = false → truthy c = true →
          stringOfFirstTruthy [a, b, c, d] = (c.map Json.toJsString).getD [])
      ∧ (truthy a = false → truthy b = false → truthy c = false → truthy d = true →
          stringOfFirstTruthy [a, b, c, d] = (d.map Json.toJsString).getD [])
      ∧ (truthy a = false → truthy b = false → truthy c = false → truthy d = false →
          stringOfFirstTruthy [a, b, c, d] = []) := by
  unfold stringOfFirstTruthy firstTruthy
  refine ⟨?_, ?_, ?_, ?_, ?_⟩
  · intro ha
    rw [List.find?_cons_of_pos _ ha]
    cases a <;> rfl
  · intro ha hb
    rw [List.find?_cons_of_neg _ (by rw [ha]; decide), List.find?_cons_of_pos _ hb]
    cases b <;> rfl
  · intro ha hb hc
    rw [List.find?_cons_of_neg _ (by rw [ha]; decide),
      List.find?_cons_of_neg _ (by rw [hb]; decide), List.find?_cons_of_pos _ hc]
    cases c <;> rfl
  · intro ha hb hc hd
    rw [List.find?_cons_of_neg _ (by rw [ha]; decide),
      List.find?_cons_of_neg _ (by rw [hb]; decide),
      List.find?_cons_of_neg _ (by rw [hc]; decide), List.find?_cons_of_pos _ hd]
    cases d <;> rfl
  · intro ha hb hc hd
    rw [List.find?_cons_of_neg _ (by rw [ha]; decide),
      List.find?_cons_of_neg _ (by rw [hb]; decide),
      List.find?_cons_of_neg _ (by rw [hc]; decide),
      List.find?_cons_of_neg _ (by rw [hd]; decide)]
    rfl

/-- C30. Every task of a plan returned by `parseSupervisorPlanFromText` has a non-empty
instruction that is its own trim: the plan comes from the task list of one gathered
candidate (its first array among `tasks`, `subtasks`, `items`, `workers`), each task of the
plan from an object of that list, and the instruction of the task is the trimmed text of
the first truthy field of that object among `instruction`, `prompt`, `task`, `description`,
tried in that order.  The parser returns not-found whenever every gathered candidate either
has no array under `tasks`, `subtasks`, `items`, `workers`, or has one in which every
element is not an object or resolves to a blank instruction. -/
theorem parseSupervisorPlanFromText_instructions (env : ParserEnv) (text : Str) :
    (∀ plan, parseSupervisorPlanFromText env text = some plan →
      ∃ c ∈ collectJsonCandidates env text ["task_plan_json"] true, ∃ tasksRaw,
        pickFirstArray [c.field "tasks", c.field "subtasks", c.field "items",
          c.field "workers"] = some tasksRaw
        ∧ ∀ t ∈ plan.tasks,
            t.instruction ≠ [] ∧ trim t.instruction = t.instruction
            ∧ ∃ position task, 1 ≤ position ∧ tasksRaw[position - 1]? = some task
                ∧ isObject (some task) = true
                ∧ normalizeTask env task (position - 1) = some t
                ∧ t.instruction = trim (stringOfFirstTruthy [task.field "instruction",
                    task.field "prompt", task.field "task", task.field "description"]))
    ∧ (∀ a b c d : Option Json,
        (truthy a = true → stringOfFirstTruthy [a, b, c, d] = (a.map Json.toJsString).getD [])
        ∧ (truthy a = false → truthy b = true →
            stringOfFirstTruthy [a, b, c, d] = (b.map Json.toJsString).getD [])
        ∧ (truthy a = false → truthy b = false → truthy c = true →
            stringOfFirstTruthy [a, b, c, d] = (c.map Json.toJsString).getD [])
        ∧ (truthy a = false → truthy b = false → truthy c = false → truthy d = true →
            stringOfFirstTruthy [a, b, c, d] = (d.map Json.toJsString).getD [])
        ∧ (truthy a = false → truthy b = false → truthy c = false → truthy d = false →
            stringOfFirstTruthy [a, b, c, d] = []))
    ∧ ((∀ c ∈ collectJsonCandidates env text ["task_plan_json"] true,
          ∀ tasksRaw,
            pickFirstArray [c.field "tasks", c.field "subtasks", c.field "items",
              c.field "workers"] = some tasksRaw →
            ∀ task ∈ tasksRaw,
              isObject (some task) = false
              ∨ trim (stringOfFirstTruthy [task.field "instruction", task.field "prompt",
                  task.field "task", task.field "description"]) = []) →
        parseSupervisorPlanFromText env text = none) := by
  refine ⟨?_, stringOfFirstTruthy_order, ?_⟩
  · intro plan h
    obtain ⟨c, best, hmem, hc, hplan⟩ := parseSupervisorPlanFromText_origin env text plan h
    obtain ⟨-, -, tasksRaw, hraw, hsorted⟩ := normalizePlanCandidate_score env c best hc
    refine ⟨c, hmem, tasksRaw, hraw, ?_⟩
    intro t ht
    rw [hplan] at ht
    dsimp only at ht
    rw [hsorted] at ht
    have hin : t ∈ normalizeTasksFrom env 0 tasksRaw :=
      (List.perm_insertionSort _ _).mem_iff.mp ht
    obtain ⟨j, task, hj, hnorm⟩ := get_normalizeTasksFrom env tasksRaw 0 t hin
    rw [Nat.zero_add] at hnorm
    obtain ⟨ho, heq, hne⟩ := normalizeTask_some env task j t hnorm
    refine ⟨hne, by rw [heq, trim_idem], j + 1, task, by omega, by simpa using hj, ho,
      by simpa using hnorm, heq⟩
  · intro h
    unfold parseSupervisorPlanFromText pickBestPlanCandidate
    rw [pickBestLoop_none_of_all]
    · rfl
    · intro c hc
      unfold normalizePlanCandidate
      cases hp : pickFirstArray [c.field "tasks", c.field "subtasks", c.field "items",
          c.field "workers"] with
      | none => rfl
      | some tasksRaw =>
        dsimp only
        rw [normalizeTasksFrom_nil env tasksRaw 0
          (fun task ht i => normalizeTask_none env task i (h c hc tasksRaw hp task ht))]
        rfl

theorem parseSupervisorPlanFromText_instructions_witness :
    ∃ c ∈ collectJsonCandidates sampleParserEnv twoPlansText ["task_plan_json"] true,
      ∃ tasksRaw,
        pickFirstArray [c.field "tasks", c.field "subtasks", c.field "items",
          c.field "workers"] = some tasksRaw
        ∧ ∀ t ∈ twoPlansPlan.tasks,
            t.instruction ≠ [] ∧ trim t.instruction = t.instruction
            ∧ ∃ position task, 1 ≤ position ∧ tasksRaw[position - 1]? = some task
                ∧ isObject (some task) = true
                ∧ normalizeTask sampleParserEnv task (position - 1) = some t
                ∧ t.instruction = trim (stringOfFirstTruthy [task.field "instruction",
                    task.field "prompt", task.field "task", task.field "description"]) :=
  (parseSupervisorPlanFromText_instructions sampleParserEnv twoPlansText).1 twoPlansPlan
    (by decide!)


/-! ## Dispatch directives in supervisor output -/

/-- C9. The code takes the first tagged occurrence, not the last: on a text with two
well-formed `dispatch_json` blocks, `parseDispatchInstructionFromText` returns the
directive of the first block (here the echoed example), while `extractTaggedJson`, the
exported last-occurrence extractor, yields the directive of the last block. -/
theorem parseDispatchInstructionFromText_first_wins :
    parseDispatchInstructionFromText sampleParserEnv echoedReplanText
        = some { workerId := "worker-1".toList, instruction := "新的执行指令".toList }
      ∧ (extractTaggedJson sampleParserEnv echoedReplanText "dispatch_json").bind
          (normalizeDispatchCandidate sampleParserEnv)
        = some { workerId := "worker-1".toList, instruction := "先补测试再改代码".toList } := by
  decide!

/-- What `pushAction` keeps true of `actions` and `seen`: the actions are pairwise distinct,
the key of every action is in `seen`, and every action has a non-empty worker id and a
non-empty instruction that is its own trim. -/
theorem pushAction_inv (env : ParserEnv) (state : List Action × List Str) (w i : Str)
    (h : state.1.Nodup
      ∧ (∀ a ∈ state.1, a.workerId ++ "::".toList ++ a.instruction ∈ state.2)
      ∧ ∀ a ∈ state.1, a.workerId ≠ [] ∧ a.instruction ≠ [] ∧ trim a.instruction = a.instruction) :
    (pushAction env state w i).1.Nodup
      ∧ (∀ a ∈ (pushAction env state w i).1,
          a.workerId ++ "::".toList ++ a.instruction ∈ (pushAction env state w i).2)
      ∧ ∀ a ∈ (pushAction env state w i).1,
          a.workerId ≠ [] ∧ a.instruction ≠ [] ∧ trim a.instruction = a.instruction := by
  obtain ⟨h1, h2, h3⟩ := h
  unfold pushAction
  dsimp only
  by_cases he : ((normalizeWorkerId env (some (.str w))).isEmpty || (trim i).isEmpty) = true
  · rw [if_pos he]
    exact ⟨h1, h2, h3⟩
  · rw [if_neg he]
    by_cases hk : normalizeWorkerId env (some (.str w)) ++ "::".toList ++ trim i ∈ state.2
    · rw [if_pos hk]
      exact ⟨h1, h2, h3⟩
    · rw [if_neg hk]
      dsimp only
      simp only [Bool.or_eq_true, not_or, Bool.not_eq_true, List.isEmpty_eq_false] at he
      refine ⟨?_, ?_, ?_⟩
      · rw [List.nodup_append]
        refine ⟨h1, List.nodup_singleton _, ?_⟩
        intro a ha hb
        rw [List.mem_singleton] at hb
        subst hb
        exact hk (h2 _ ha)
      · intro a ha
        unfold jsSetAdd
        rw [if_neg hk]
        rcases List.mem_append.mp ha with ha | ha
        · exact List.mem_append_left _ (h2 a ha)
        · rw [List.mem_singleton] at ha
          subst ha
          exact List.mem_append_right _ (List.mem_singleton_self _)
      · intro a ha
        rcases List.mem_append.mp ha with ha | ha
        · exact h3 a ha
        · rw [List.mem_singleton] at ha
          subst ha
          exact ⟨he.1, he.2, trim_idem i⟩

theorem foldl_inv {α σ : Type} (P : σ → Prop) (f : σ → α → σ)
    (hf : ∀ s x, P s → P (f s x)) (l : List α) (init : σ) (h : P init) :
    P (l.foldl f init) := by
  induction l generalizing init with
  | nil => exact h
  | cons x rest ih => exact ih (f init x) (hf init x h)

/-- C10, the claim as written fails: the same directive for `worker-2`, once with two
blanks and once with one blank between its words, arrives through `dispatch_json` and
through `dispatch_batch_json`; the two instructions are equal after collapsing white-space
runs and trimming, yet both actions are returned. -/
theorem parseSupervisorDispatchActionsFromText_counterexample :
    parseSupervisorDispatchActionsFromText sampleParserEnv spacedDuplicatesText []
        = some [{ workerId := "worker-2".toList, instruction := "run  tests".toList },
            { workerId := "worker-2".toList, instruction := "run tests".toList }]
      ∧ trim (collapseWs "run  tests".toList) = trim (collapseWs "run tests".toList) := by
  decide!

/-! ## Line-wrapped JSON -/

theorem removeBreaksAux_cons (b : Bool) (c : Char) (cs : Str) :
    removeBreaksAux b (c :: cs) =
      if c = '\n' then removeBreaksAux true cs
      else if (b && isJsSpace c) = true then removeBreaksAux true cs
      else c :: removeBreaksAux false cs := by
  rw [removeBreaksAux]

theorem removeBreaksAux_append (seg tail : Str) (h : '\n' ∉ seg) :
    removeBreaksAux false (seg ++ tail) = seg ++ removeBreaksAux false tail := by
  induction seg with
  | nil => rfl
  | cons c cs ih =>
    have hc : c ≠ '\n' := fun hc => h (by rw [hc]; exact List.mem_cons_self _ _)
    have hcs : '\n' ∉ cs := fun hm => h (List.mem_cons_of_mem _ hm)
    rw [List.cons_append, removeBreaksAux_cons, if_neg hc, if_neg (by simp), ih hcs]
    rfl

theorem removeBreaksAux_blanks (n : Nat) (tail : Str) :
    removeBreaksAux true (List.replicate n ' ' ++ tail) = removeBreaksAux true tail := by
  induction n with
  | zero => rfl
  | succ k ih =>
    rw [List.replicate_succ, List.cons_append, removeBreaksAux_cons, if_neg (by decide),
      if_pos (by decide)]
    exact ih

theorem removeBreaksAux_skip (seg tail : Str) (h : '\n' ∉ seg)
    (ht : tail = [] ∨ ∃ t, tail = '\n' :: t) :
    removeBreaksAux true (seg ++ tail) = trimStart seg ++ removeBreaksAux false tail := by
  induction seg with
  | nil =>
    rcases ht with ht | ⟨t, ht⟩
    · rw [ht]; rfl
    · rw [ht, List.nil_append, removeBreaksAux_cons, removeBreaksAux_cons, if_pos rfl,
        if_pos rfl]
      rfl
  | cons c cs ih =>
    have hc : c ≠ '\n' := fun hc => h (by rw [hc]; exact List.mem_cons_self _ _)
    have hcs : '\n' ∉ cs := fun hm => h (List.mem_cons_of_mem _ hm)
    rw [List.cons_append, removeBreaksAux_cons, if_neg hc]
    by_cases hs : isJsSpace c = true
    · rw [if_pos (by simp [hs]), ih hcs]
      unfold trimStart
      rw [List.dropWhile_cons_of_pos hs]
    · rw [if_neg (by simp [hs]), removeBreaksAux_append cs tail hcs]
      unfold trimStart
      rw [List.dropWhile_cons_of_neg hs]
      rfl

theorem removeBreaksAux_pieces (rest : List (Nat × Str))
    (h : ∀ p ∈ rest, '\n' ∉ p.2) :
    removeBreaksAux false (rest.map fun p => '\n' :: List.replicate p.1 ' ' ++ p.2).flatten
      = (rest.map fun p => trimStart p.2).flatten := by
  induction rest with
  | nil => rfl
  | cons p ps ih =>
    have hp : '\n' ∉ p.2 := h p (List.mem_cons_self _ _)
    have hps : ∀ q ∈ ps, '\n' ∉ q.2 := fun q hq => h q (List.mem_cons_of_mem _ hq)
    simp only [List.map_cons, List.flatten_cons, List.cons_append]
    have ih2 := ih hps
    simp only [List.cons_append] at ih2
    rw [removeBreaksAux_cons, if_pos rfl, List.append_assoc, removeBreaksAux_blanks,
      removeBreaksAux_skip _ _ hp, ih2]
    cases ps with
    | nil => left; rfl
    | cons q qs => right; exact ⟨_, rfl⟩

theorem filter_eq_self_of_not_mem (s : Str) (x : Char) (h : x ∉ s) :
    s.filter (fun c => c != x) = s := by
  rw [List.filter_eq_self]
  intro c hc
  simp only [bne_iff_ne, ne_eq]
  intro hcx
  exact h (hcx ▸ hc)

/-! ## Worker identifiers -/

/-- C26. `normalizeWorkerId` does not bring every alias of a slot to one identifier: the
integer 1 and the string `1` give `worker-1`, but `Worker-01` gives `worker-01` (leading
zero kept) and `worker-0` gives `worker-0` (not a positive slot), whatever the builtins
answer. -/
theorem normalizeWorkerId_not_canonical (env : ParserEnv) :
    normalizeWorkerId env (some (.num 1)) = "worker-1".toList
      ∧ normalizeWorkerId env (some (.str "1".toList)) = "worker-1".toList
      ∧ normalizeWorkerId env (some (.str "Worker-01".toList)) = "worker-01".toList
      ∧ normalizeWorkerId env (some (.str "worker-0".toList)) = "worker-0".toList :=
  ⟨rfl, rfl, rfl, rfl⟩


/-! ## Single-line messages -/

theorem mapWsRuns_no_line_feed (f : Str → Str) (hf : ∀ r, '\n' ∉ f r) (s : Str) :
    ∀ run, '\n' ∉ mapWsRuns f run s := by
  induction s with
  | nil =>
    intro run
    unfold mapWsRuns
    split_ifs
    · exact List.not_mem_nil _
    · exact hf run
  | cons c cs ih =>
    intro run
    unfold mapWsRuns
    by_cases hc : isJsSpace c = true
    · rw [if_pos hc]
      exact ih _
    · rw [if_neg hc]
      intro hm
      rcases List.mem_append.mp hm with hm | hm
      · split_ifs at hm
        · exact List.not_mem_nil _ hm
        · exact hf run hm
      · rcases List.mem_cons.mp hm with hm | hm
        · rw [← hm] at hc
          exact hc (by decide)
        · exact ih [] hm

theorem mem_mapWsRuns (f : Str → Str) (hf : ∀ r x, x ∈ f r → x ∈ r ∨ x = ' ') (x : Char)
    (s : Str) : ∀ run, x ∈ mapWsRuns f run s → x ∈ run ∨ x ∈ s ∨ x = ' ' := by
  induction s with
  | nil =>
    intro run hm
    unfold mapWsRuns at hm
    split_ifs at hm
    · exact absurd hm (List.not_mem_nil _)
    · rcases hf run x hm with h | h
      · exact Or.inl h
      · exact Or.inr (Or.inr h)
  | cons c cs ih =>
    intro run hm
    unfold mapWsRuns at hm
    by_cases hc : isJsSpace c = true
    · rw [if_pos hc] at hm
      rcases ih _ hm with h | h | h
      · rcases List.mem_append.mp h with h | h
        · exact Or.inl h
        · rw [List.mem_singleton] at h
          exact Or.inr (Or.inl (by rw [h]; exact List.mem_cons_self _ _))
      · exact Or.inr (Or.inl (List.mem_cons_of_mem _ h))
      · exact Or.inr (Or.inr h)
    · rw [if_neg hc] at hm
      rcases List.mem_append.mp hm with hm | hm
      · split_ifs at hm
        · exact absurd hm (List.not_mem_nil _)
        · rcases hf run x hm with h | h
          · exact Or.inl h
          · exact Or.inr (Or.inr h)
      · rcases List.mem_cons.mp hm with hm | hm
        · exact Or.inr (Or.inl (by rw [hm]; exact List.mem_cons_self _ _))
        · rcases ih [] hm with h | h | h
          · exact absurd h (List.not_mem_nil _)
          · exact Or.inr (Or.inl (List.mem_cons_of_mem _ h))
          · exact Or.inr (Or.inr h)

theorem mem_of_mem_trim (s : Str) (x : Char) (h : x ∈ trim s) : x ∈ s := by
  unfold trim trimEnd trimStart at h
  rw [List.mem_reverse] at h
  have h1 := (List.dropWhile_sublist isJsSpace).subset h
  rw [List.mem_reverse] at h1
  exact (List.dropWhile_sublist isJsSpace).subset h1

theorem toSingleLine_no_line_feed (s : Str) : '\n' ∉ toSingleLine s := by
  unfold toSingleLine
  intro hm
  have h1 := mem_of_mem_trim _ _ hm
  have h2 := mem_mapWsRuns (fun run => if 2 ≤ run.length then [' '] else run)
    (by
      intro r x hx
      dsimp only at hx
      split_ifs at hx
      · right; simpa using hx
      · left; exact hx) '\n' _ [] h1
  rcases h2 with h2 | h2 | h2
  · exact List.not_mem_nil _ h2
  · revert h2
    apply mapWsRuns_no_line_feed
    intro r
    dsimp only
    split_ifs with hr
    · decide
    · exact hr
  · exact absurd h2 (by decide)

theorem dispatchPlan_sent_aux (send : SendOracle) (sessionId : Str) (tasks : List PlanTask)
    (st : DispatchState) :
    (tasks.foldl (dispatchTask send sessionId) st).sent
      = st.sent ++ tasks.map fun task =>
          SendCall.mk sessionId task.workerId (dispatchContent task) true := by
  induction tasks generalizing st with
  | nil => simp
  | cons t rest ih =>
    rw [List.foldl_cons, ih]
    simp [dispatchTask]

/-- C23. Messages are single-line: `toSingleLine(s)` contains no line feed, for every
string `s`; hence no text that `dispatchPlan` passes to `sendInput` contains one, whatever
the plan and the runtime, and neither do the prompts returned by `buildPlanPrompt` and
`buildFormatRepairPrompt`, whatever the objective, the worker count, the failure reason
and the attempt numbers. -/
theorem messages_single_line :
    (∀ s : Str, '\n' ∉ toSingleLine s)
      ∧ (∀ (send : SendOracle) (sessionId : Str) (plan : Plan),
          ((dispatchPlan send sessionId plan).sent.map fun call => call.text)
              = plan.tasks.map dispatchContent
            ∧ ∀ task : PlanTask, '\n' ∉ dispatchContent task)
      ∧ (∀ (objective previousError : Str) (workerCount attempt totalAttempts : Nat),
          '\n' ∉ buildPlanPrompt objective workerCount previousError attempt totalAttempts)
      ∧ (∀ (workerCount : Nat) (reason : Str),
          '\n' ∉ buildFormatRepairPrompt workerCount reason) := by
  refine ⟨toSingleLine_no_line_feed, ?_, ?_, ?_⟩
  · intro send sessionId plan
    refine ⟨?_, fun task => toSingleLine_no_line_feed _⟩
    unfold dispatchPlan
    rw [dispatchPlan_sent_aux]
    simp
  · intro objective previousError workerCount attempt totalAttempts
    exact toSingleLine_no_line_feed _
  · intro workerCount reason
    exact toSingleLine_no_line_feed _


/-! ## The fallback plan -/

theorem infix_intercalate (sep p : Str) (l : List Str) (h : p ∈ l) :
    p <:+: List.intercalate sep l := by
  unfold List.intercalate
  exact List.infix_of_mem_flatten (mem_intersperse_of_mem sep p l h)

theorem infix_joinLines_of_part (x p : Str) (lines : List Str) (h : p ∈ lines)
    (hx : x <:+: p) : x <:+: joinLines lines :=
  List.IsInfix.trans hx (infix_intercalate _ p lines h)

/-- C22. For every objective and every worker count `N`, `buildFallbackPlan` returns
exactly `N` tasks, and for `1 ≤ i ≤ N` the `i`-th task has the worker id `worker-i`, the
worker index `i`, `dependsOn = []` when `i = 1` and `[i - 1]` otherwise, and an instruction
that contains the objective text and the identity `worker-i`. -/
theorem buildFallbackPlan_tasks (objective : Str) (workerCount : Nat) :
    (buildFallbackPlan objective workerCount).tasks.length = workerCount
      ∧ ∀ i, 1 ≤ i → i ≤ workerCount →
          ∃ t, (buildFallbackPlan objective workerCount).tasks[i - 1]? = some t
            ∧ t.workerId = "worker-".toList ++ natToStr i
            ∧ t.workerIndex = i
            ∧ t.dependsOn = (if i = 1 then [] else [i - 1])
            ∧ objective <:+: t.instruction
            ∧ ("worker-".toList ++ natToStr i) <:+: t.instruction := by
  refine ⟨by simp [buildFallbackPlan], ?_⟩
  intro i h1 h2
  refine ⟨fallbackTask objective i, ?_, rfl, rfl, rfl, ?_, ?_⟩
  · unfold buildFallbackPlan
    dsimp only
    rw [List.getElem?_map, List.getElem?_range (by omega)]
    simp only [Option.map_some']
    rw [Nat.sub_add_cancel h1]
  · unfold fallbackTask
    dsimp only
    exact infix_joinLines_of_part _ ("目标：".toList ++ objective) _
      (List.mem_cons_self _ _) ⟨"目标：".toList, [], by simp⟩
  · unfold fallbackTask
    dsimp only
    refine infix_joinLines_of_part _
      ("你是执行窗口 worker-".toList ++ natToStr i ++ "。".toList) _ ?_ ?_
    · simp only [List.mem_cons, true_or, or_true]
    · exact ⟨"你是执行窗口 ".toList, "。".toList, by simp⟩

theorem buildFallbackPlan_tasks_witness :
    ∃ t, (buildFallbackPlan "重构登录模块".toList 3).tasks[2 - 1]? = some t
      ∧ t.workerId = "worker-".toList ++ natToStr 2
      ∧ t.workerIndex = 2
      ∧ t.dependsOn = (if 2 = 1 then [] else [2 - 1])
      ∧ "重构登录模块".toList <:+: t.instruction
      ∧ ("worker-".toList ++ natToStr 2) <:+: t.instruction :=
  (buildFallbackPlan_tasks "重构登录模块".toList 3).2 2 (by decide) (by decide)


/-! ## Dispatching a plan -/

theorem strOr_ne_nil (a b : Str) (h : b ≠ []) : strOr a b ≠ [] := by
  unfold strOr
  split_ifs with ha
  · exact h
  · intro hn
    rw [hn] at ha
    exact ha rfl

/-- The result `dispatchPlan` records for `task` when the send was the `i`-th one. -/
theorem dispatchTask_results (send : SendOracle) (sessionId : Str) (st : DispatchState)
    (task : PlanTask) :
    (dispatchTask send sessionId st task).results
      = st.results ++
        [DispatchItem.mk task.workerId
          (send st.sent.length
            (SendCall.mk sessionId task.workerId (dispatchContent task) true)).ok
          (if (send st.sent.length
              (SendCall.mk sessionId task.workerId (dispatchContent task) true)).ok then []
            else strOr
              (send st.sent.length
                (SendCall.mk sessionId task.workerId (dispatchContent task) true)).stderr
              (strOr
                (send st.sent.length
                  (SendCall.mk sessionId task.workerId (dispatchContent task) true)).error
                "下发失败".toList))] :=
  rfl

theorem dispatchTask_sent (send : SendOracle) (sessionId : Str) (st : DispatchState)
    (task : PlanTask) :
    (dispatchTask send sessionId st task).sent
      = st.sent ++ [SendCall.mk sessionId task.workerId (dispatchContent task) true] :=
  rfl

theorem dispatchPlan_trace (send : SendOracle) (sessionId : Str) (tasks : List PlanTask) :
    (tasks.foldl (dispatchTask send sessionId)
        { results := [], sent := [], stored := [], emitted := [] }).sent
        = tasks.map (fun task => SendCall.mk sessionId task.workerId (dispatchContent task) true)
      ∧ (tasks.foldl (dispatchTask send sessionId)
          { results := [], sent := [], stored := [], emitted := [] }).results.length
        = tasks.length
      ∧ ∀ i t, tasks[i]? = some t →
          (tasks.foldl (dispatchTask send sessionId)
            { results := [], sent := [], stored := [], emitted := [] }).results[i]?
          = some
              (DispatchItem.mk t.workerId
                (send i (SendCall.mk sessionId t.workerId (dispatchContent t) true)).ok
                (if (send i (SendCall.mk sessionId t.workerId (dispatchContent t) true)).ok
                  then []
                  else strOr
                    (send i (SendCall.mk sessionId t.workerId (dispatchContent t) true)).stderr
                    (strOr
                      (send i (SendCall.mk sessionId t.workerId (dispatchContent t) true)).error
                      "下发失败".toList))) := by
  induction tasks using List.reverseRecOn with
  | nil =>
    refine ⟨rfl, rfl, ?_⟩
    intro i t h
    rw [List.getElem?_nil] at h
    cases h
  | append_singleton rest last ih =>
    obtain ⟨h1, h2, h3⟩ := ih
    rw [List.foldl_append, List.foldl_cons, List.foldl_nil]
    refine ⟨?_, ?_, ?_⟩
    · rw [dispatchTask_sent, h1, List.map_append]
      rfl
    · rw [dispatchTask_results, List.length_append, h2, List.length_append]
      rfl
    · intro i t hi
      rw [dispatchTask_results]
      by_cases hlt : i < rest.length
      · rw [List.getElem?_append_left hlt] at hi
        rw [List.getElem?_append_left (by rw [h2]; exact hlt)]
        exact h3 i t hi
      · have hget := hi
        rw [List.getElem?_append_right (not_lt.mp hlt)] at hget
        have hi0 : i - rest.length = 0 := by
          by_contra hne
          have hone : 1 ≤ i - rest.length := Nat.one_le_iff_ne_zero.mpr hne
          rw [List.getElem?_eq_none (by simpa using hone)] at hget
          cases hget
        rw [hi0] at hget
        simp only [List.getElem?_cons_zero, Option.some.injEq] at hget
        subst hget
        have hie : i = rest.length := by omega
        subst hie
        rw [List.getElem?_append_right (by rw [h2]), h2, Nat.sub_self,
          List.getElem?_cons_zero, h1, List.length_map]

/-- C24. Dispatch results are independent per task: for every plan and every behaviour of
`sendInput`, `dispatchPlan` calls `sendInput` exactly once per task, in task order, each
call addressed to the task's worker; it returns as many results as there are tasks, the
`i`-th result carries the worker id of the `i`-th task and `ok` exactly when the `i`-th
send succeeded, and its error is non-empty exactly when that send failed. -/
theorem dispatchPlan_results (send : SendOracle) (sessionId : Str) (plan : Plan) :
    (dispatchPlan send sessionId plan).sent
        = plan.tasks.map
            (fun task => SendCall.mk sessionId task.workerId (dispatchContent task) true)
      ∧ (dispatchPlan send sessionId plan).results.length = plan.tasks.length
      ∧ ∀ i t, plan.tasks[i]? = some t →
          ∃ item, (dispatchPlan send sessionId plan).results[i]? = some item
            ∧ item.workerId = t.workerId
            ∧ item.ok
                = (send i (SendCall.mk sessionId t.workerId (dispatchContent t) true)).ok
            ∧ (item.error ≠ [] ↔ item.ok = false) := by
  obtain ⟨h1, h2, h3⟩ := dispatchPlan_trace send sessionId plan.tasks
  refine ⟨h1, h2, ?_⟩
  intro i t hi
  refine ⟨_, h3 i t hi, rfl, rfl, ?_⟩
  dsimp only
  cases hok : (send i (SendCall.mk sessionId t.workerId (dispatchContent t) true)).ok with
  | true => simp
  | false =>
    simp only [Bool.false_eq_true, if_false, iff_true]
    exact strOr_ne_nil _ _ (strOr_ne_nil _ _ (by decide))


theorem dispatchPlan_results_witness :
    ∃ item, (dispatchPlan sendFirstFails "session-1".toList twoTaskPlan).results[1]? = some item
      ∧ item.workerId = "worker-2".toList
      ∧ item.ok
          = (sendFirstFails 1
              (SendCall.mk "session-1".toList "worker-2".toList
                (dispatchContent
                  { workerId := "worker-2".toList, workerIndex := 2, title := "B".toList,
                    instruction := "补测试".toList, dependsOn := [1] }) true)).ok
      ∧ (item.error ≠ [] ↔ item.ok = false) :=
  (dispatchPlan_results sendFirstFails "session-1".toList twoTaskPlan).2.2 1
    { workerId := "worker-2".toList, workerIndex := 2, title := "B".toList,
      instruction := "补测试".toList, dependsOn := [1] } rfl


/-! ## Accepting a plan -/

theorem filter_orderedInsert (k : Nat) (a : ParsedTask) (l : List ParsedTask) :
    (l.orderedInsert (fun a b => a.workerIndex ≤ b.workerIndex) a).filter
        (fun t => decide (t.workerIndex = k))
      = if a.workerIndex = k then a :: l.filter (fun t => decide (t.workerIndex = k))
        else l.filter (fun t => decide (t.workerIndex = k)) := by
  induction l with
  | nil =>
    rw [List.orderedInsert_nil]
    by_cases hk : a.workerIndex = k
    · rw [if_pos hk, List.filter_cons_of_pos (by simpa using hk)]
    · rw [if_neg hk, List.filter_cons_of_neg (by simpa using hk)]
  | cons b rest ih =>
    rw [List.orderedInsert]
    by_cases hab : a.workerIndex ≤ b.workerIndex
    · rw [if_pos hab]
      by_cases hk : a.workerIndex = k
      · rw [if_pos hk, List.filter_cons_of_pos (by simpa using hk)]
      · rw [if_neg hk, List.filter_cons_of_neg (by simpa using hk)]
    · rw [if_neg hab]
      by_cases hb : b.workerIndex = k
      · have hak : a.workerIndex ≠ k := by omega
        rw [List.filter_cons_of_pos (by simpa using hb), ih, if_neg hak, if_neg hak,
          List.filter_cons_of_pos (by simpa using hb)]
      · rw [List.filter_cons_of_neg (by simpa using hb), ih,
          List.filter_cons_of_neg (by simpa using hb)]

theorem filter_insertionSort (k : Nat) (l : List ParsedTask) :
    (l.insertionSort (fun a b => a.workerIndex ≤ b.workerIndex)).filter
        (fun t => decide (t.workerIndex = k))
      = l.filter (fun t => decide (t.workerIndex = k)) := by
  induction l with
  | nil => rfl
  | cons a rest ih =>
    rw [List.insertionSort, filter_orderedInsert, ih]
    by_cases hk : a.workerIndex = k
    · rw [if_pos hk, List.filter_cons_of_pos (by simpa using hk)]
    · rw [if_neg hk, List.filter_cons_of_neg (by simpa using hk)]

theorem sorted_insertionSort_workerIndex (l : List ParsedTask) :
    (l.insertionSort (fun a b => a.workerIndex ≤ b.workerIndex)).Sorted
      (fun a b => a.workerIndex ≤ b.workerIndex) := by
  haveI : IsTotal ParsedTask (fun a b => a.workerIndex ≤ b.workerIndex) :=
    ⟨fun a b => Nat.le_total _ _⟩
  haveI : IsTrans ParsedTask (fun a b => a.workerIndex ≤ b.workerIndex) :=
    ⟨fun a b c => Nat.le_trans⟩
  exact List.sorted_insertionSort _ l

theorem assignWorkers_length (l : List ParsedTask) :
    ∀ index, (assignWorkers index l).length = l.length := by
  induction l with
  | nil => intro index; rfl
  | cons t rest ih =>
    intro index
    unfold assignWorkers
    rw [List.length_cons, List.length_cons, ih]

theorem assignWorkers_get (l : List ParsedTask) :
    ∀ (index j : Nat) (src : ParsedTask), l[j]? = some src →
      (assignWorkers index l)[j]?
        = some (PlanTask.mk ("worker-".toList ++ natToStr (index + j + 1)) (index + j + 1)
            (strOr src.title ("子任务 ".toList ++ natToStr (index + j + 1)))
            (trim src.instruction) src.dependsOn) := by
  induction l with
  | nil =>
    intro index j src h
    rw [List.getElem?_nil] at h
    cases h
  | cons t rest ih =>
    intro index j src h
    unfold assignWorkers
    cases j with
    | zero =>
      rw [List.getElem?_cons_zero] at h ⊢
      cases h
      rfl
    | succ m =>
      rw [List.getElem?_cons_succ] at h ⊢
      rw [ih (index + 1) m src h]
      have e : index + 1 + m + 1 = index + (m + 1) + 1 := by omega
      rw [e]

theorem mem_assignWorkers (l : List ParsedTask) :
    ∀ (index : Nat) (x : PlanTask), x ∈ assignWorkers index l →
      ∃ src ∈ l, x.instruction = trim src.instruction := by
  induction l with
  | nil =>
    intro index x h
    cases h
  | cons t rest ih =>
    intro index x h
    unfold assignWorkers at h
    rcases List.mem_cons.mp h with h | h
    · exact ⟨t, List.mem_cons_self _ _, by rw [h]⟩
    · obtain ⟨src, hs, he⟩ := ih _ x h
      exact ⟨src, List.mem_cons_of_mem _ hs, he⟩

theorem assignWorkers_of_mem (l : List ParsedTask) :
    ∀ (index : Nat) (src : ParsedTask), src ∈ l →
      ∃ x ∈ assignWorkers index l, x.instruction = trim src.instruction := by
  induction l with
  | nil =>
    intro index src h
    cases h
  | cons t rest ih =>
    intro index src h
    unfold assignWorkers
    rcases List.mem_cons.mp h with h | h
    · exact ⟨_, List.mem_cons_self _ _, by rw [h]⟩
    · obtain ⟨x, hx, he⟩ := ih (index + 1) src h
      exact ⟨x, List.mem_cons_of_mem _ hx, he⟩

/-- The outcome of `normalizePlan`, branch by branch. -/
theorem normalizePlan_cases (plan : ParsedPlan) (workerCount : Nat) :
    (plan.tasks.length < workerCount ∧ (normalizePlan plan workerCount).ok = false
        ∧ (normalizePlan plan workerCount).retryable = true
        ∧ (normalizePlan plan workerCount).plan = none)
      ∨ (workerCount ≤ plan.tasks.length
        ∧ (∃ src ∈ (plan.tasks.insertionSort
              (fun a b => a.workerIndex ≤ b.workerIndex)).take workerCount,
            trim src.instruction = [])
        ∧ (normalizePlan plan workerCount).ok = false
        ∧ (normalizePlan plan workerCount).retryable = true
        ∧ (normalizePlan plan workerCount).plan = none)
      ∨ (workerCount ≤ plan.tasks.length
        ∧ (∀ src ∈ (plan.tasks.insertionSort
              (fun a b => a.workerIndex ≤ b.workerIndex)).take workerCount,
            trim src.instruction ≠ [])
        ∧ (normalizePlan plan workerCount).ok = true
        ∧ (normalizePlan plan workerCount).plan
            = some { planSummary := trim plan.planSummary
                     tasks := assignWorkers 0
                      ((plan.tasks.insertionSort
                        (fun a b => a.workerIndex ≤ b.workerIndex)).take workerCount) }) := by
  unfold normalizePlan
  by_cases hlen : plan.tasks.length < workerCount
  · left
    rw [if_pos hlen]
    exact ⟨hlen, rfl, rfl, rfl⟩
  · right
    rw [if_neg hlen]
    dsimp only
    by_cases hany : (assignWorkers 0 ((plan.tasks.insertionSort
        (fun a b => a.workerIndex ≤ b.workerIndex)).take workerCount)).any
          (fun task => task.instruction.isEmpty) = true
    · left
      rw [if_pos hany]
      refine ⟨not_lt.mp hlen, ?_, rfl, rfl, rfl⟩
      rw [List.any_eq_true] at hany
      obtain ⟨x, hx, hxe⟩ := hany
      obtain ⟨src, hs, he⟩ := mem_assignWorkers _ _ x hx
      exact ⟨src, hs, by rw [← he]; exact List.isEmpty_iff.mp hxe⟩
    · right
      rw [if_neg hany]
      refine ⟨not_lt.mp hlen, ?_, rfl, rfl⟩
      intro src hs hempty
      apply hany
      rw [List.any_eq_true]
      obtain ⟨x, hx, he⟩ := assignWorkers_of_mem _ 0 src hs
      exact ⟨x, hx, by rw [he, hempty]; rfl⟩

/-- C12. If `normalizePlan(plan, N)` succeeds, its plan has exactly `N` tasks; the task at
position `i` (from 0) has the worker id `worker-(i+1)`, the worker index `i+1` and the
trimmed, non-empty instruction of the `i`-th of the first `N` input tasks in the sorted
order; and the sorted order is ascending in the worker index, a rearrangement of the input
tasks, and stable (for every index value, the tasks with that value stand in input order). -/
theorem normalizePlan_ok (plan : ParsedPlan) (workerCount : Nat)
    (h : (normalizePlan plan workerCount).ok = true) :
    ∃ p, (normalizePlan plan workerCount).plan = some p
      ∧ p.tasks.length = workerCount
      ∧ (∀ i src,
          ((plan.tasks.insertionSort
            (fun a b => a.workerIndex ≤ b.workerIndex)).take workerCount)[i]? = some src →
          p.tasks[i]?
              = some (PlanTask.mk ("worker-".toList ++ natToStr (i + 1)) (i + 1)
                  (strOr src.title ("子任务 ".toList ++ natToStr (i + 1)))
                  (trim src.instruction) src.dependsOn)
            ∧ trim src.instruction ≠ [])
      ∧ (plan.tasks.insertionSort (fun a b => a.workerIndex ≤ b.workerIndex)).Sorted
          (fun a b => a.workerIndex ≤ b.workerIndex)
      ∧ (plan.tasks.insertionSort (fun a b => a.workerIndex ≤ b.workerIndex)).Perm plan.tasks
      ∧ ∀ k, (plan.tasks.insertionSort (fun a b => a.workerIndex ≤ b.workerIndex)).filter
            (fun t => decide (t.workerIndex = k))
          = plan.tasks.filter (fun t => decide (t.workerIndex = k)) := by
  rcases normalizePlan_cases plan workerCount with ⟨-, h1, -⟩ | ⟨-, -, h1, -⟩ | ⟨hlen, hne, -, hp⟩
  · rw [h1] at h; cases h
  · rw [h1] at h; cases h
  · refine ⟨_, hp, ?_, ?_, sorted_insertionSort_workerIndex _, List.perm_insertionSort _ _,
      fun k => filter_insertionSort k _⟩
    · dsimp only
      rw [assignWorkers_length, List.length_take, List.length_insertionSort]
      exact Nat.min_eq_left hlen
    · intro i src hi
      refine ⟨?_, hne src (List.getElem?_mem hi)⟩
      dsimp only
      have := assignWorkers_get _ 0 i src hi
      simpa using this

theorem normalizePlan_ok_witness :
    ∃ p, (normalizePlan twoPlansPlan 1).plan = some p
      ∧ p.tasks.length = 1
      ∧ (∀ i src,
          ((twoPlansPlan.tasks.insertionSort
            (fun a b => a.workerIndex ≤ b.workerIndex)).take 1)[i]? = some src →
          p.tasks[i]?
              = some (PlanTask.mk ("worker-".toList ++ natToStr (i + 1)) (i + 1)
                  (strOr src.title ("子任务 ".toList ++ natToStr (i + 1)))
                  (trim src.instruction) src.dependsOn)
            ∧ trim src.instruction ≠ [])
      ∧ (twoPlansPlan.tasks.insertionSort (fun a b => a.workerIndex ≤ b.workerIndex)).Sorted
          (fun a b => a.workerIndex ≤ b.workerIndex)
      ∧ (twoPlansPlan.tasks.insertionSort
          (fun a b => a.workerIndex ≤ b.workerIndex)).Perm twoPlansPlan.tasks
      ∧ ∀ k, (twoPlansPlan.tasks.insertionSort
            (fun a b => a.workerIndex ≤ b.workerIndex)).filter
            (fun t => decide (t.workerIndex = k))
          = twoPlansPlan.tasks.filter (fun t => decide (t.workerIndex = k)) :=
  normalizePlan_ok twoPlansPlan 1 (by decide!)


/-- C13. `normalizePlan(plan, N)` fails if and only if the plan has fewer than `N` tasks or
one of the `N` selected tasks has a blank instruction; every failure is flagged retryable;
and when a round of `waitForPlanResult` reads a new text whose parsed plan is refused, the
loop does not return the failure but goes on with the next round, having recorded the
reason. -/
theorem normalizePlan_failure (plan : ParsedPlan) (workerCount : Nat) :
    ((normalizePlan plan workerCount).ok = false ↔
        plan.tasks.length < workerCount
        ∨ ∃ src ∈ (plan.tasks.insertionSort
              (fun a b => a.workerIndex ≤ b.workerIndex)).take workerCount,
            trim src.instruction = [])
      ∧ ((normalizePlan plan workerCount).ok = false →
          (normalizePlan plan workerCount).retryable = true)
      ∧ ∀ (env : ParserEnv) (st : WaitState) (capture : Capture) (rest : List Capture),
          capture.ok = true → joinLines capture.lines ≠ [] →
          joinLines capture.lines ≠ st.lastText →
          parseSupervisorPlanFromText env (joinLines capture.lines) = some plan →
          (normalizePlan plan workerCount).ok = false →
          waitForPlanLoop env workerCount st (capture :: rest)
            = waitForPlanLoop env workerCount
                { lastText := joinLines capture.lines
                  parseSignalCount := st.parseSignalCount + 1
                  lastRetryableReason := (normalizePlan plan workerCount).error } rest := by
  have hretry : (normalizePlan plan workerCount).ok = false →
      (normalizePlan plan workerCount).retryable = true := by
    intro h
    rcases normalizePlan_cases plan workerCount with ⟨-, -, h2, -⟩ | ⟨-, -, -, h2, -⟩
      | ⟨-, -, h2, -⟩
    · exact h2
    · exact h2
    · rw [h2] at h; cases h
  refine ⟨⟨?_, ?_⟩, hretry, ?_⟩
  · intro h
    rcases normalizePlan_cases plan workerCount with ⟨h1, -⟩ | ⟨-, h1, -⟩ | ⟨-, -, h2, -⟩
    · exact Or.inl h1
    · exact Or.inr h1
    · rw [h2] at h; cases h
  · intro h
    rcases normalizePlan_cases plan workerCount with ⟨-, h1, -⟩ | ⟨-, -, h1, -⟩
      | ⟨hlen, hne, -, -⟩
    · exact h1
    · exact h1
    · rcases h with h | ⟨src, hs, he⟩
      · omega
      · exact absurd he (hne src hs)
  · intro env st capture rest hok hne hnew hparse hfail
    rw [waitForPlanLoop, if_neg (by rw [hok]; decide)]
    dsimp only
    rw [if_neg, hparse]
    · dsimp only
      rw [if_pos (by rw [hfail]; rfl), if_pos (hretry hfail)]
    · simp only [Bool.or_eq_true, List.isEmpty_iff, decide_eq_true_eq, not_or]
      exact ⟨hne, hnew⟩

theorem normalizePlan_failure_witness :
    waitForPlanLoop sampleParserEnv 3
        { lastText := [], parseSignalCount := 0, lastRetryableReason := [] }
        (twoPlansCapture :: [])
      = waitForPlanLoop sampleParserEnv 3
          { lastText := joinLines twoPlansCapture.lines
            parseSignalCount := 0 + 1
            lastRetryableReason := (normalizePlan twoPlansPlan 3).error } [] :=
  (normalizePlan_failure twoPlansPlan 3).2.2 sampleParserEnv
    { lastText := [], parseSignalCount := 0, lastRetryableReason := [] } twoPlansCapture []
    (by decide!) (by decide!) (by decide!) (by decide!) (by decide!)


/-! ## The planning protocol -/

theorem waitForPlanLoop_ok (env : ParserEnv) (workerCount : Nat) (polls : List Capture) :
    ∀ st, (waitForPlanLoop env workerCount st polls).ok = true →
      ∃ capture ∈ polls, capture.ok = true ∧ ∃ parsed,
        parseSupervisorPlanFromText env (joinLines capture.lines) = some parsed
        ∧ (normalizePlan parsed workerCount).ok = true
        ∧ (waitForPlanLoop env workerCount st polls).plan
            = (normalizePlan parsed workerCount).plan := by
  induction polls with
  | nil =>
    intro st h
    rw [waitForPlanLoop] at h
    cases h
  | cons capture rest ih =>
    intro st h
    have lift : ∀ st2, (waitForPlanLoop env workerCount st2 rest).ok = true →
        waitForPlanLoop env workerCount st (capture :: rest)
          = waitForPlanLoop env workerCount st2 rest →
        ∃ c ∈ capture :: rest, c.ok = true ∧ ∃ parsed,
          parseSupervisorPlanFromText env (joinLines c.lines) = some parsed
          ∧ (normalizePlan parsed workerCount).ok = true
          ∧ (waitForPlanLoop env workerCount st (capture :: rest)).plan
              = (normalizePlan parsed workerCount).plan := by
      intro st2 hok heq
      obtain ⟨c, hc, h1, parsed, h2, h3, h4⟩ := ih st2 hok
      exact ⟨c, List.mem_cons_of_mem _ hc, h1, parsed, h2, h3, by rw [heq, h4]⟩
    rw [waitForPlanLoop] at h
    by_cases hok : capture.ok = true
    · rw [if_neg (by rw [hok]; decide)] at h
      dsimp only at h
      by_cases hskip : ((joinLines capture.lines).isEmpty
          || decide (joinLines capture.lines = st.lastText)) = true
      · rw [if_pos hskip] at h
        refine lift st h ?_
        rw [waitForPlanLoop, if_neg (by rw [hok]; decide)]
        dsimp only
        rw [if_pos hskip]
      · rw [if_neg hskip] at h
        cases hp : parseSupervisorPlanFromText env (joinLines capture.lines) with
        | none =>
          rw [hp] at h
          dsimp only at h
          refine lift _ h ?_
          rw [waitForPlanLoop, if_neg (by rw [hok]; decide)]
          dsimp only
          rw [if_neg hskip, hp]
        | some parsed =>
          rw [hp] at h
          dsimp only at h
          by_cases hn : (normalizePlan parsed workerCount).ok = true
          · refine ⟨capture, List.mem_cons_self _ _, hok, parsed, hp, hn, ?_⟩
            rw [waitForPlanLoop, if_neg (by rw [hok]; decide)]
            dsimp only
            rw [if_neg hskip, hp]
            dsimp only
            rw [if_neg (by rw [hn]; decide)]
          · rw [if_pos (by simpa using hn)] at h
            by_cases hr : (normalizePlan parsed workerCount).retryable = true
            · rw [if_pos hr] at h
              refine lift _ h ?_
              rw [waitForPlanLoop, if_neg (by rw [hok]; decide)]
              dsimp only
              rw [if_neg hskip, hp]
              dsimp only
              rw [if_pos (by simpa using hn), if_pos hr]
            · rw [if_neg hr] at h
              exact absurd h hn
    · rw [if_pos (by simpa using hok)] at h
      refine lift st h ?_
      rw [waitForPlanLoop, if_pos (by simpa using hok)]

/-- A plan that was extracted from the output of the supervisor and accepted by
`normalizePlan`: some capture read by some call of `waitForPlanResult` parses to a plan
whose normalisation succeeds with `plan`. -/
theorem plannerWait_ok (env : PlannerEnv) (st : PlannerState) (workerCount : Nat)
    (h : (plannerWait env st workerCount).1.ok = true) :
    ∃ k, ∃ capture ∈ env.planPolls k, capture.ok = true ∧ ∃ parsed,
      parseSupervisorPlanFromText env.parser (joinLines capture.lines) = some parsed
      ∧ (normalizePlan parsed workerCount).ok = true
      ∧ (normalizePlan parsed workerCount).plan
          = some (planOf (plannerWait env st workerCount).1) := by
  unfold plannerWait waitForPlanResult at h ⊢
  obtain ⟨c, hc, h1, parsed, h2, h3, h4⟩ := waitForPlanLoop_ok env.parser workerCount _ _ h
  refine ⟨st.waits, c, hc, h1, parsed, h2, h3, ?_⟩
  dsimp only
  unfold planOf
  rw [h4]
  rcases normalizePlan_cases parsed workerCount with ⟨-, h5, -⟩ | ⟨-, -, h5, -⟩ | ⟨-, -, -, h5⟩
  · rw [h5] at h3; cases h3
  · rw [h5] at h3; cases h3
  · rw [h5]
    rfl

theorem tryRecoverPlanFormat_cases (env : PlannerEnv) (st : PlannerState) (sessionId : Str)
    (workerCount : Nat) (reason : Str) :
    (tryRecoverPlanFormat env st sessionId workerCount reason).2.sent
        = st.sent ++ [SendCall.mk sessionId "supervisor".toList
            (buildFormatRepairPrompt workerCount reason) true]
      ∧ (tryRecoverPlanFormat env st sessionId workerCount reason).2.progress = st.progress
      ∧ ((tryRecoverPlanFormat env st sessionId workerCount reason).1.ok = true →
          ∃ k, ∃ capture ∈ env.planPolls k, capture.ok = true ∧ ∃ parsed,
            parseSupervisorPlanFromText env.parser (joinLines capture.lines) = some parsed
            ∧ (normalizePlan parsed workerCount).ok = true
            ∧ (normalizePlan parsed workerCount).plan
                = some (planOf (tryRecoverPlanFormat env st sessionId workerCount reason).1)) := by
  unfold tryRecoverPlanFormat
  dsimp only
  by_cases hs : (plannerSend env st sessionId (buildFormatRepairPrompt workerCount reason)).1.ok
      = true
  · rw [if_neg (by rw [hs]; decide)]
    by_cases hw : (plannerWait env
        (plannerSend env st sessionId (buildFormatRepairPrompt workerCount reason)).2
        workerCount).1.ok = true
    · rw [if_pos hw]
      exact ⟨rfl, rfl, fun _ => plannerWait_ok env _ workerCount hw⟩
    · rw [if_neg hw]
      refine ⟨rfl, rfl, ?_⟩
      intro h
      cases h
  · rw [if_pos (by simpa using hs)]
    refine ⟨rfl, rfl, ?_⟩
    intro h
    cases h


theorem requestPlanSucceed_frame (attempt totalAttempts : Nat) (errors : List Str)
    (repairedFor : Option Str) (plan : Plan) (st : PlannerState) :
    (requestPlanSucceed attempt totalAttempts errors repairedFor plan st).1 = .planned plan
      ∧ (requestPlanSucceed attempt totalAttempts errors repairedFor plan st).2.sent = st.sent
      ∧ ∃ p, (requestPlanSucceed attempt totalAttempts errors repairedFor plan st).2.progress
            = st.progress ++ [p] ∧ p.attempt = attempt :=
  ⟨rfl, rfl, _, rfl, rfl⟩

theorem requestPlanExhausted_frame (objective : Str) (workerCount totalAttempts : Nat)
    (allowFallback : Bool) (errors : List Str) (st : PlannerState) :
    ((∃ message, (requestPlanExhausted objective workerCount totalAttempts allowFallback
          errors st).1 = .thrown message)
        ∨ (allowFallback = true
          ∧ (requestPlanExhausted objective workerCount totalAttempts allowFallback
              errors st).1 = .fallback (buildFallbackPlan objective workerCount)))
      ∧ (requestPlanExhausted objective workerCount totalAttempts allowFallback
          errors st).2.sent = st.sent
      ∧ ∃ p, (requestPlanExhausted objective workerCount totalAttempts allowFallback
            errors st).2.progress = st.progress ++ [p] ∧ p.attempt = totalAttempts := by
  unfold requestPlanExhausted
  cases allowFallback with
  | false => exact ⟨Or.inl ⟨_, rfl⟩, rfl, _, rfl, rfl⟩
  | true => exact ⟨Or.inr ⟨rfl, rfl⟩, rfl, _, rfl, rfl⟩

theorem planAttemptSend_frame (env : PlannerEnv) (sessionId objective : Str)
    (workerCount totalAttempts attempt : Nat) (errors : List Str) (st : PlannerState) :
    (planAttemptSend env sessionId objective workerCount totalAttempts attempt errors st).2.sent
        = st.sent ++ [SendCall.mk sessionId "supervisor".toList
            (buildPlanPrompt objective workerCount (errors.getLast?.getD []) attempt
              totalAttempts) true]
      ∧ ∃ p, (planAttemptSend env sessionId objective workerCount totalAttempts attempt errors
            st).2.progress = st.progress ++ [p] ∧ p.attempt = attempt :=
  ⟨rfl, _, rfl, rfl⟩

theorem planAttemptSendFailed_frame (totalAttempts attempt : Nat) (errors : List Str)
    (sendResult : SendResult × PlannerState) :
    (∃ message, (planAttemptSendFailed totalAttempts attempt errors sendResult).1
        = .thrown message)
      ∧ (planAttemptSendFailed totalAttempts attempt errors sendResult).2.sent
        = sendResult.2.sent
      ∧ ∃ p, (planAttemptSendFailed totalAttempts attempt errors sendResult).2.progress
            = sendResult.2.progress ++ [p] ∧ p.attempt = attempt :=
  ⟨⟨_, rfl⟩, rfl, _, rfl, rfl⟩

theorem plannerWait_frame (env : PlannerEnv) (st : PlannerState) (workerCount : Nat) :
    (plannerWait env st workerCount).2.sent = st.sent
      ∧ (plannerWait env st workerCount).2.progress = st.progress :=
  ⟨rfl, rfl⟩

theorem planAttemptRepair_frame (env : PlannerEnv) (sessionId : Str)
    (workerCount totalAttempts attempt : Nat) (errors : List Str)
    (parsed : PlanResult × PlannerState) :
    (planAttemptRepair env sessionId workerCount totalAttempts attempt errors parsed).2.sent
        = parsed.2.sent ++ [SendCall.mk sessionId "supervisor".toList
            (buildFormatRepairPrompt workerCount (repairReasonOf parsed.1)) true]
      ∧ (∃ p, (planAttemptRepair env sessionId workerCount totalAttempts attempt errors
            parsed).2.progress = parsed.2.progress ++ [p] ∧ p.attempt = attempt)
      ∧ ((planAttemptRepair env sessionId workerCount totalAttempts attempt errors
            parsed).1.ok = true →
          ∃ k, ∃ capture ∈ env.planPolls k, capture.ok = true ∧ ∃ plan,
            parseSupervisorPlanFromText env.parser (joinLines capture.lines) = some plan
            ∧ (normalizePlan plan workerCount).ok = true
            ∧ (normalizePlan plan workerCount).plan
                = some (planOf (planAttemptRepair env sessionId workerCount totalAttempts
                    attempt errors parsed).1)) := by
  unfold planAttemptRepair
  obtain ⟨t1, t2, t3⟩ := tryRecoverPlanFormat_cases env
    (report parsed.2
      { state := "running".toList, phase := "repair-attempt".toList, attempt := attempt,
        maxAttempts := totalAttempts
        message := "主管输出未通过解析，尝试自动格式修复".toList
        lastError := repairReasonOf parsed.1, errors := errors })
    sessionId workerCount (repairReasonOf parsed.1)
  exact ⟨t1, ⟨_, t2, rfl⟩, t3⟩

theorem planAttemptRetry_frame (allowFallback : Bool) (totalAttempts attempt : Nat)
    (errors : List Str) (repairReason : Str) (repair : PlanResult × PlannerState) :
    (planAttemptRetry allowFallback totalAttempts attempt errors repairReason repair).2.sent
        = repair.2.sent
      ∧ (∃ p, (planAttemptRetry allowFallback totalAttempts attempt errors repairReason
            repair).2.progress = repair.2.progress ++ [p]
          ∧ p.attempt = attempt ∧ p.phase = "retry".toList
          ∧ p.lastError = (planAttemptRetry allowFallback totalAttempts attempt errors
              repairReason repair).1)
      ∧ (planAttemptRetry allowFallback totalAttempts attempt errors repairReason repair).1
        ≠ [] :=
  ⟨rfl, ⟨_, rfl, rfl, rfl, rfl⟩, List.cons_ne_nil _ _⟩

/-- One round of the loop of `requestPlan`: it sends the planning prompt built from the
last error; then either it throws because the send was rejected, or it returns a plan of
the supervisor, having sent nothing more or one repair prompt, or it has sent one repair
prompt, reports the combined error of the round under the phase `retry` and goes on with
the next round. -/
theorem requestPlanLoop_step (env : PlannerEnv) (sessionId objective : Str)
    (workerCount totalAttempts : Nat) (allowFallback : Bool) (remaining attempt : Nat)
    (errors : List Str) (st : PlannerState) :
    (∃ message s,
        requestPlanLoop env sessionId objective workerCount totalAttempts allowFallback
            (remaining + 1) attempt errors st = (.thrown message, s)
        ∧ s.sent = st.sent ++ [SendCall.mk sessionId "supervisor".toList
            (buildPlanPrompt objective workerCount (errors.getLast?.getD []) attempt
              totalAttempts) true]
        ∧ ∃ ps, s.progress = st.progress ++ ps ∧ ∀ p ∈ ps, p.attempt = attempt)
      ∨ (∃ plan s,
        requestPlanLoop env sessionId objective workerCount totalAttempts allowFallback
            (remaining + 1) attempt errors st = (.planned plan, s)
        ∧ (∃ k, ∃ capture ∈ env.planPolls k, capture.ok = true ∧ ∃ parsed,
            parseSupervisorPlanFromText env.parser (joinLines capture.lines) = some parsed
            ∧ (normalizePlan parsed workerCount).ok = true
            ∧ (normalizePlan parsed workerCount).plan = some plan)
        ∧ (∃ tail, s.sent = st.sent ++ SendCall.mk sessionId "supervisor".toList
              (buildPlanPrompt objective workerCount (errors.getLast?.getD []) attempt
                totalAttempts) true :: tail
            ∧ (tail = [] ∨ ∃ reason, tail = [SendCall.mk sessionId "supervisor".toList
                (buildFormatRepairPrompt workerCount reason) true]))
        ∧ ∃ ps, s.progress = st.progress ++ ps ∧ ∀ p ∈ ps, p.attempt = attempt)
      ∨ (∃ reason combined s ps,
        requestPlanLoop env sessionId objective workerCount totalAttempts allowFallback
            (remaining + 1) attempt errors st
          = requestPlanLoop env sessionId objective workerCount totalAttempts allowFallback
              remaining (attempt + 1) (errors ++ [combined]) s
        ∧ s.sent = st.sent ++ [SendCall.mk sessionId "supervisor".toList
              (buildPlanPrompt objective workerCount (errors.getLast?.getD []) attempt
                totalAttempts) true,
            SendCall.mk sessionId "supervisor".toList
              (buildFormatRepairPrompt workerCount reason) true]
        ∧ s.progress = st.progress ++ ps
        ∧ (∀ p ∈ ps, p.attempt = attempt)
        ∧ (∃ p ∈ ps, p.phase = "retry".toList ∧ p.lastError = combined)
        ∧ combined ≠ []) := by
  obtain ⟨a1, pa, a2, a3⟩ := planAttemptSend_frame env sessionId objective workerCount
    totalAttempts attempt errors st
  generalize hsend : planAttemptSend env sessionId objective workerCount totalAttempts
    attempt errors st = sendResult at a1 a2
  rw [requestPlanLoop]
  dsimp only
  rw [hsend]
  by_cases hs : sendResult.1.ok = true
  · rw [if_neg (by rw [hs]; decide)]
    right
    obtain ⟨w1, w2⟩ := plannerWait_frame env sendResult.2 workerCount
    have wok := plannerWait_ok env sendResult.2 workerCount
    generalize plannerWait env sendResult.2 workerCount = parsed at w1 w2 wok
    by_cases hw : parsed.1.ok = true
    · rw [if_pos hw]
      left
      obtain ⟨h1, h2, p, h3, h4⟩ := requestPlanSucceed_frame attempt totalAttempts errors none
        (planOf parsed.1) parsed.2
      refine ⟨_, _, Prod.ext h1 rfl, wok hw, ⟨[], ?_, Or.inl rfl⟩, ⟨[pa, p], ?_, ?_⟩⟩
      · exact h2.trans (w1.trans a1)
      · refine h3.trans ?_
        rw [w2, a2, List.append_assoc]
        rfl
      · intro q hq
        simp only [List.mem_cons, List.mem_singleton, List.not_mem_nil, or_false] at hq
        rcases hq with hq | hq
        · rw [hq, a3]
        · rw [hq, h4]
    · rw [if_neg hw]
      obtain ⟨r1, ⟨pr, r2, r3⟩, r4⟩ := planAttemptRepair_frame env sessionId workerCount
        totalAttempts attempt errors parsed
      generalize planAttemptRepair env sessionId workerCount totalAttempts attempt errors
        parsed = repair at r1 r2 r4
      by_cases hr : repair.1.ok = true
      · rw [if_pos hr]
        left
        obtain ⟨h1, h2, p, h3, h4⟩ := requestPlanSucceed_frame attempt totalAttempts errors
          (some (repairReasonOf parsed.1)) (planOf repair.1) repair.2
        refine ⟨_, _, Prod.ext h1 rfl, r4 hr, ⟨_, ?_, Or.inr ⟨repairReasonOf parsed.1, rfl⟩⟩,
          ⟨[pa, pr, p], ?_, ?_⟩⟩
        · refine h2.trans ?_
          rw [r1, w1, a1, List.append_assoc]
          rfl
        · refine h3.trans ?_
          rw [r2, w2, a2, List.append_assoc, List.append_assoc]
          rfl
        · intro q hq
          simp only [List.mem_cons, List.mem_singleton, List.not_mem_nil, or_false] at hq
          rcases hq with hq | hq | hq
          · rw [hq, a3]
          · rw [hq, r3]
          · rw [hq, h4]
      · rw [if_neg hr]
        right
        obtain ⟨y1, ⟨py, y2, y3, y4, y5⟩, y6⟩ := planAttemptRetry_frame allowFallback
          totalAttempts attempt errors (repairReasonOf parsed.1) repair
        refine ⟨repairReasonOf parsed.1, _, _, [pa, pr, py], rfl, ?_, ?_, ?_, ?_, y6⟩
        · refine y1.trans ?_
          rw [r1, w1, a1, List.append_assoc]
          rfl
        · refine y2.trans ?_
          rw [r2, w2, a2, List.append_assoc, List.append_assoc]
          rfl
        · intro q hq
          simp only [List.mem_cons, List.mem_singleton, List.not_mem_nil, or_false] at hq
          rcases hq with hq | hq | hq
          · rw [hq, a3]
          · rw [hq, r3]
          · rw [hq, y3]
        · exact ⟨py, by simp, y4, y5⟩
  · rw [if_pos (by simpa using hs)]
    left
    obtain ⟨⟨m, f1⟩, f2, p, f3, f4⟩ := planAttemptSendFailed_frame totalAttempts attempt errors
      sendResult
    refine ⟨m, _, Prod.ext f1 rfl, ?_, ⟨[pa, p], ?_, ?_⟩⟩
    · exact f2.trans a1
    · refine f3.trans ?_
      rw [a2, List.append_assoc]
      rfl
    · intro q hq
      simp only [List.mem_cons, List.mem_singleton, List.not_mem_nil, or_false] at hq
      rcases hq with hq | hq
      · rw [hq, a3]
      · rw [hq, f4]


theorem requestPlanLoop_strict (env : PlannerEnv) (sessionId objective : Str)
    (workerCount totalAttempts : Nat) (remaining : Nat) :
    ∀ (attempt : Nat) (errors : List Str) (st : PlannerState),
      (∀ plan, (requestPlanLoop env sessionId objective workerCount totalAttempts false
          remaining attempt errors st).1 ≠ .fallback plan)
      ∧ ∀ plan, (requestPlanLoop env sessionId objective workerCount totalAttempts false
          remaining attempt errors st).1 = .planned plan →
          ∃ k, ∃ capture ∈ env.planPolls k, capture.ok = true ∧ ∃ parsed,
            parseSupervisorPlanFromText env.parser (joinLines capture.lines) = some parsed
            ∧ (normalizePlan parsed workerCount).ok = true
            ∧ (normalizePlan parsed workerCount).plan = some plan := by
  induction remaining with
  | zero =>
    intro attempt errors st
    rw [requestPlanLoop]
    rcases (requestPlanExhausted_frame objective workerCount totalAttempts false errors st).1
      with ⟨m, hm⟩ | ⟨hf, -⟩
    · rw [hm]
      exact ⟨fun plan h => (by cases h), fun plan h => (by cases h)⟩
    · cases hf
  | succ n ih =>
    intro attempt errors st
    rcases requestPlanLoop_step env sessionId objective workerCount totalAttempts false n
      attempt errors st with ⟨m, s, h, -⟩ | ⟨plan, s, h, hprov, -⟩ | ⟨reason, combined, s, ps, h, -⟩
    · rw [h]
      exact ⟨fun plan h => (by cases h), fun plan h => (by cases h)⟩
    · rw [h]
      refine ⟨fun q h => (by cases h), fun q hq => ?_⟩
      cases hq
      exact hprov
    · rw [h]
      exact ih (attempt + 1) (errors ++ [combined]) s

/-- C20. In strict mode the fallback plan is never used: whatever the terminal shows and
the runtime answers, `requestPlan` with `allowFallback = false` never returns through
`return fallbackPlan`; when it returns a plan, some capture of the supervisor pane read by
`waitForPlanResult` parses to a plan that `normalizePlan` accepts with exactly that result;
otherwise it throws. `bootstrapSession` calls `requestPlan` with `allowFallback: false`. -/
theorem requestPlan_strict (env : PlannerEnv) (sessionId objective : Str)
    (workerCount maxRetries : Nat) :
    (∀ plan, (requestPlan env sessionId objective workerCount maxRetries false).1
        ≠ .fallback plan)
      ∧ ((∃ message, (requestPlan env sessionId objective workerCount maxRetries false).1
            = .thrown message)
        ∨ ∃ plan, (requestPlan env sessionId objective workerCount maxRetries false).1
            = .planned plan
          ∧ ∃ k, ∃ capture ∈ env.planPolls k, capture.ok = true ∧ ∃ parsed,
            parseSupervisorPlanFromText env.parser (joinLines capture.lines) = some parsed
            ∧ (normalizePlan parsed workerCount).ok = true
            ∧ (normalizePlan parsed workerCount).plan = some plan)
      ∧ bootstrapRequestPlan env sessionId objective workerCount
        = requestPlan env sessionId objective workerCount 2 false := by
  have key : (∀ plan, (requestPlan env sessionId objective workerCount maxRetries false).1
        ≠ .fallback plan)
      ∧ ∀ plan, (requestPlan env sessionId objective workerCount maxRetries false).1
          = .planned plan →
          ∃ k, ∃ capture ∈ env.planPolls k, capture.ok = true ∧ ∃ parsed,
            parseSupervisorPlanFromText env.parser (joinLines capture.lines) = some parsed
            ∧ (normalizePlan parsed workerCount).ok = true
            ∧ (normalizePlan parsed workerCount).plan = some plan := by
    unfold requestPlan
    dsimp only
    by_cases hr : waitSupervisorReady env.readyPolls = true
    · rw [if_neg (by rw [hr]; decide)]
      exact requestPlanLoop_strict env sessionId objective workerCount _ _ _ _ _
    · rw [if_pos (by simpa using hr), if_neg (by decide)]
      exact ⟨fun plan h => (by cases h), fun plan h => (by cases h)⟩
  refine ⟨key.1, ?_, rfl⟩
  cases ho : (requestPlan env sessionId objective workerCount maxRetries false).1 with
  | planned plan => exact Or.inr ⟨plan, rfl, key.2 plan ho⟩
  | fallback plan => exact absurd ho (key.1 plan)
  | thrown message => exact Or.inl ⟨message, rfl⟩


theorem filter_dropWhile_not (q : Char → Bool) (l : Str) :
    (l.dropWhile q).filter (fun c => !q c) = l.filter (fun c => !q c) := by
  induction l with
  | nil => rfl
  | cons c cs ih =>
    by_cases hc : q c = true
    · rw [List.dropWhile_cons_of_pos hc, ih, List.filter_cons_of_neg (by simp [hc])]
    · rw [List.dropWhile_cons_of_neg hc]

theorem removeWs_trim (s : Str) : removeWs (trim s) = removeWs s := by
  unfold removeWs trim trimEnd trimStart
  rw [List.filter_reverse, filter_dropWhile_not, List.filter_reverse, List.reverse_reverse,
    filter_dropWhile_not]

theorem removeWs_append (a b : Str) : removeWs (a ++ b) = removeWs a ++ removeWs b := by
  unfold removeWs
  rw [List.filter_append]

theorem removeWs_of_all_space (r : Str) (h : ∀ c ∈ r, isJsSpace c = true) : removeWs r = [] := by
  unfold removeWs
  rw [List.filter_eq_nil_iff]
  intro c hc
  simp [h c hc]

theorem removeWs_mapWsRuns (f : Str → Str)
    (hf : ∀ r, (∀ c ∈ r, isJsSpace c = true) → removeWs (f r) = []) (s : Str) :
    ∀ run, (∀ c ∈ run, isJsSpace c = true) → removeWs (mapWsRuns f run s) = removeWs s := by
  induction s with
  | nil =>
    intro run hrun
    rw [mapWsRuns]
    split_ifs
    · rfl
    · exact hf run hrun
  | cons c cs ih =>
    intro run hrun
    rw [mapWsRuns]
    by_cases hc : isJsSpace c = true
    · rw [if_pos hc, ih]
      · unfold removeWs
        rw [List.filter_cons_of_neg (by simp [hc])]
      · intro x hx
        rcases List.mem_append.mp hx with hx | hx
        · exact hrun x hx
        · rw [List.mem_singleton] at hx
          rw [hx]
          exact hc
    · rw [if_neg hc, removeWs_append]
      have h1 : removeWs (if run.isEmpty = true then [] else f run) = [] := by
        split_ifs
        · rfl
        · exact hf run hrun
      rw [h1, List.nil_append]
      unfold removeWs
      rw [List.filter_cons_of_pos (by simp [hc]), List.filter_cons_of_pos (by simp [hc])]
      congr 1
      exact ih [] (fun x hx => absurd hx (List.not_mem_nil x))

theorem removeWs_toSingleLine (s : Str) : removeWs (toSingleLine s) = removeWs s := by
  unfold toSingleLine
  dsimp only
  rw [removeWs_trim, removeWs_mapWsRuns, removeWs_mapWsRuns]
  · intro r hr
    dsimp only
    split_ifs
    · rfl
    · exact removeWs_of_all_space r hr
  · intro x hx
    exact absurd hx (List.not_mem_nil x)
  · intro r hr
    dsimp only
    split_ifs
    · rfl
    · exact removeWs_of_all_space r hr
  · intro x hx
    exact absurd hx (List.not_mem_nil x)

theorem removeWs_infix (x y : Str) (h : x <:+: y) : removeWs x <:+: removeWs y := by
  obtain ⟨a, b, rfl⟩ := h
  rw [removeWs_append, removeWs_append]
  exact ⟨removeWs a, removeWs b, rfl⟩

/-- The planning prompt carries the previous error, white space apart. -/
theorem buildPlanPrompt_contains (objective : Str) (workerCount : Nat) (previousError : Str)
    (attempt totalAttempts : Nat) (h : previousError ≠ []) :
    removeWs previousError
      <:+: removeWs (buildPlanPrompt objective workerCount previousError attempt
        totalAttempts) := by
  unfold buildPlanPrompt
  dsimp only
  rw [removeWs_toSingleLine, if_neg (by simpa using h)]
  apply removeWs_infix
  refine infix_joinLines_of_part _
    ("上一轮失败原因：".toList ++ previousError ++ "。请修正格式并重新输出完整 JSON。".toList) _ ?_ ?_
  · simp only [List.mem_cons, true_or, or_true]
  · exact ⟨"上一轮失败原因：".toList, "。请修正格式并重新输出完整 JSON。".toList, rfl⟩

theorem requestPlanLoop_trace (env : PlannerEnv) (sessionId objective : Str)
    (workerCount totalAttempts : Nat) (allowFallback : Bool) (remaining : Nat) :
    ∀ (attempt : Nat) (errors : List Str) (st : PlannerState),
      attempt + remaining = totalAttempts + 1 →
      ∃ extra more,
        (requestPlanLoop env sessionId objective workerCount totalAttempts allowFallback
            remaining attempt errors st).2.sent = st.sent ++ extra
        ∧ (requestPlanLoop env sessionId objective workerCount totalAttempts allowFallback
            remaining attempt errors st).2.progress = st.progress ++ more
        ∧ extra.length ≤ 2 * remaining
        ∧ (∀ p ∈ more, p.attempt ≤ totalAttempts)
        ∧ (∀ m call, extra[2 * m]? = some call →
            ∃ prev, call = SendCall.mk sessionId "supervisor".toList
                (buildPlanPrompt objective workerCount prev (attempt + m) totalAttempts) true
              ∧ (m = 0 → prev = errors.getLast?.getD [])
              ∧ (0 < m → prev ≠ [] ∧ ∃ p ∈ more, p.phase = "retry".toList
                  ∧ p.attempt + 1 = attempt + m ∧ p.lastError = prev))
        ∧ (∀ m call, extra[2 * m + 1]? = some call →
            ∃ reason, call = SendCall.mk sessionId "supervisor".toList
                (buildFormatRepairPrompt workerCount reason) true) := by
  induction remaining with
  | zero =>
    intro attempt errors st hsum
    rw [requestPlanLoop]
    obtain ⟨-, h2, p, h3, h4⟩ := requestPlanExhausted_frame objective workerCount totalAttempts
      allowFallback errors st
    refine ⟨[], [p], by rw [h2, List.append_nil], h3, by simp, ?_, ?_, ?_⟩
    · intro q hq
      rw [List.mem_singleton] at hq
      rw [hq, h4]
    · intro m call h
      rw [List.getElem?_nil] at h
      cases h
    · intro m call h
      rw [List.getElem?_nil] at h
      cases h
  | succ n ih =>
    intro attempt errors st hsum
    have hle : attempt ≤ totalAttempts := by omega
    rcases requestPlanLoop_step env sessionId objective workerCount totalAttempts allowFallback
      n attempt errors st with ⟨msg, s, h, h1, ps, h2, h3⟩
      | ⟨plan, s, h, -, ⟨tail, h1, htail⟩, ps, h2, h3⟩
      | ⟨reason, combined, s, ps, h, h1, h2, h3, ⟨pr, hpr, hpr1, hpr2⟩, hne⟩
    · rw [h]
      refine ⟨_, ps, h1, h2, (by simp <;> omega), fun p hp => by rw [h3 p hp]; exact hle, ?_, ?_⟩
      · intro m call hc
        cases m with
        | zero =>
          simp only [Nat.mul_zero, List.getElem?_cons_zero, Option.some.injEq] at hc
          exact ⟨_, hc.symm, fun _ => rfl, fun h0 => absurd h0 (lt_irrefl 0)⟩
        | succ k =>
          rw [List.getElem?_eq_none (by simp <;> omega)] at hc
          cases hc
      · intro m call hc
        rw [List.getElem?_eq_none (by simp <;> omega)] at hc
        cases hc
    · rw [h]
      refine ⟨_, ps, h1, h2, ?_, fun p hp => by rw [h3 p hp]; exact hle, ?_, ?_⟩
      · rcases htail with ht | ⟨r, ht⟩ <;> rw [ht] <;> simp <;> omega
      · intro m call hc
        cases m with
        | zero =>
          simp only [Nat.mul_zero, List.getElem?_cons_zero, Option.some.injEq] at hc
          exact ⟨_, hc.symm, fun _ => rfl, fun h0 => absurd h0 (lt_irrefl 0)⟩
        | succ k =>
          rcases htail with ht | ⟨r, ht⟩
          · rw [ht, List.getElem?_eq_none (by simp <;> omega)] at hc
            cases hc
          · rw [ht, List.getElem?_eq_none (by simp <;> omega)] at hc
            cases hc
      · intro m call hc
        rcases htail with ht | ⟨r, ht⟩
        · rw [ht, List.getElem?_eq_none (by simp <;> omega)] at hc
          cases hc
        · rw [ht] at hc
          cases m with
          | zero =>
            simp only [Nat.mul_zero, Nat.zero_add, List.getElem?_cons_succ,
              List.getElem?_cons_zero, Option.some.injEq] at hc
            exact ⟨r, hc.symm⟩
          | succ k =>
            rw [List.getElem?_eq_none (by simp <;> omega)] at hc
            cases hc
    · rw [h]
      obtain ⟨extra, more, e1, e2, e3, e4, e5, e6⟩ := ih (attempt + 1) (errors ++ [combined]) s
        (by omega)
      refine ⟨SendCall.mk sessionId "supervisor".toList
          (buildPlanPrompt objective workerCount (errors.getLast?.getD []) attempt
            totalAttempts) true
        :: SendCall.mk sessionId "supervisor".toList
            (buildFormatRepairPrompt workerCount reason) true
        :: extra, ps ++ more, ?_, ?_, ?_, ?_, ?_, ?_⟩
      · rw [e1, h1, List.append_assoc]
        rfl
      · rw [e2, h2, List.append_assoc]
      · simp only [List.length_cons]
        omega
      · intro p hp
        rcases List.mem_append.mp hp with hp | hp
        · rw [h3 p hp]
          exact hle
        · exact e4 p hp
      · intro m call hc
        cases m with
        | zero =>
          simp only [Nat.mul_zero, List.getElem?_cons_zero, Option.some.injEq] at hc
          exact ⟨_, hc.symm, fun _ => rfl, fun h0 => absurd h0 (lt_irrefl 0)⟩
        | succ k =>
          have hidx : 2 * (k + 1) = 2 * k + 1 + 1 := by omega
          rw [hidx, List.getElem?_cons_succ, List.getElem?_cons_succ] at hc
          obtain ⟨prev, hcall, hzero, hpos⟩ := e5 k call hc
          refine ⟨prev, ?_, fun h0 => absurd h0 (Nat.succ_ne_zero k), fun _ => ?_⟩
          · rw [hcall]
            have e : attempt + 1 + k = attempt + (k + 1) := by omega
            rw [e]
          · cases k with
            | zero =>
              have hprev : prev = combined := by
                rw [hzero rfl, List.getLast?_append]
                rfl
              refine ⟨by rw [hprev]; exact hne, pr, List.mem_append_left _ hpr, hpr1, ?_, ?_⟩
              · rw [h3 pr hpr]
              · rw [hpr2, hprev]
            | succ j =>
              obtain ⟨hn, p, hp, hp1, hp2, hp3⟩ := hpos (Nat.succ_pos j)
              exact ⟨hn, p, List.mem_append_right _ hp, hp1, by omega, hp3⟩
      · intro m call hc
        cases m with
        | zero =>
          simp only [Nat.mul_zero, Nat.zero_add, List.getElem?_cons_succ,
            List.getElem?_cons_zero, Option.some.injEq] at hc
          exact ⟨reason, hc.symm⟩
        | succ k =>
          have hidx : 2 * (k + 1) + 1 = 2 * k + 1 + 1 + 1 := by omega
          rw [hidx, List.getElem?_cons_succ, List.getElem?_cons_succ] at hc
          exact e6 k call hc


/-- C21. The planning protocol is bounded: for every run of `requestPlan` with
`maxRetries = r`, the inputs sent to the supervisor are at most `2 (r + 1)`; they alternate,
the input at an even position `2 m` being the planning prompt of attempt `m + 1` (so there
are at most `r + 1` of them) and the input at the odd position after it the single
format-repair prompt of that attempt; for `m ≥ 1` the planning prompt is built from the
failure reason reported for attempt `m` under the phase `retry`, which is not empty and
occurs in the prompt (white space apart, the prompt being flattened to a single line); and
no attempt number reported to `onProgress` exceeds `r + 1`. -/
theorem requestPlan_bounded (env : PlannerEnv) (sessionId objective : Str)
    (workerCount maxRetries : Nat) (allowFallback : Bool) :
    (requestPlan env sessionId objective workerCount maxRetries allowFallback).2.sent.length
        ≤ 2 * (maxRetries + 1)
      ∧ (∀ m call,
          (requestPlan env sessionId objective workerCount maxRetries allowFallback).2.sent[2 * m]?
            = some call →
          m < maxRetries + 1
          ∧ ∃ prev, call = SendCall.mk sessionId "supervisor".toList
                (buildPlanPrompt objective workerCount prev (m + 1) (maxRetries + 1)) true
            ∧ (0 < m → prev ≠ [] ∧ removeWs prev <:+: removeWs call.text
                ∧ ∃ p ∈ (requestPlan env sessionId objective workerCount maxRetries
                      allowFallback).2.progress,
                    p.phase = "retry".toList ∧ p.attempt = m ∧ p.lastError = prev))
      ∧ (∀ m call,
          (requestPlan env sessionId objective workerCount maxRetries
            allowFallback).2.sent[2 * m + 1]? = some call →
          ∃ reason, call = SendCall.mk sessionId "supervisor".toList
              (buildFormatRepairPrompt workerCount reason) true)
      ∧ ∀ p ∈ (requestPlan env sessionId objective workerCount maxRetries
            allowFallback).2.progress, p.attempt ≤ maxRetries + 1 := by
  unfold requestPlan
  dsimp only
  by_cases hr : waitSupervisorReady env.readyPolls = true
  · rw [if_neg (by rw [hr]; decide)]
    obtain ⟨extra, more, e1, e2, e3, e4, e5, e6⟩ := requestPlanLoop_trace env sessionId objective
      workerCount (maxRetries + 1) allowFallback (maxRetries + 1) 1 []
      { sent := [], waits := 0, stored := [], emitted := []
        progress :=
          [ { state := "running".toList, phase := "start".toList, attempt := 0,
              maxAttempts := maxRetries + 1, message := "主管开始拆解任务".toList, lastError := [],
              errors := [] },
            { state := "running".toList, phase := "supervisor-wait-ready".toList, attempt := 0,
              maxAttempts := maxRetries + 1, message := "等待主管窗口就绪".toList,
              lastError := [], errors := [] } ] }
      (by omega)
    rw [e1, e2]
    dsimp only
    rw [List.nil_append]
    refine ⟨e3, ?_, e6, ?_⟩
    · intro m call hc
      obtain ⟨prev, hcall, -, hpos⟩ := e5 m call hc
      refine ⟨?_, prev, ?_, ?_⟩
      · have hlt : 2 * m < extra.length := by
          by_contra hge
          rw [List.getElem?_eq_none (not_lt.mp hge)] at hc
          cases hc
        omega
      · rw [hcall, Nat.add_comm 1 m]
      · intro hm
        obtain ⟨hne, p, hp, hp1, hp2, hp3⟩ := hpos hm
        refine ⟨hne, ?_, p, List.mem_append_right _ hp, hp1, by omega, hp3⟩
        rw [hcall]
        exact buildPlanPrompt_contains objective workerCount prev _ _ hne
    · intro p hp
      rcases List.mem_append.mp hp with hp | hp
      · simp only [List.mem_cons, List.mem_singleton, List.not_mem_nil, or_false] at hp
        rcases hp with hp | hp <;> rw [hp] <;> exact Nat.zero_le _
      · exact e4 p hp
  · rw [if_pos (by simpa using hr)]
    cases allowFallback with
    | true =>
      rw [if_pos rfl]
      refine ⟨Nat.zero_le _, ?_, ?_, ?_⟩
      · intro m call hc
        exact absurd hc (by simp [report])
      · intro m call hc
        exact absurd hc (by simp [report])
      · intro p hp
        simp only [report, List.cons_append, List.nil_append, List.mem_cons, List.mem_singleton,
          List.not_mem_nil, or_false] at hp
        rcases hp with hp | hp | hp <;> rw [hp] <;> exact Nat.zero_le _
    | false =>
      rw [if_neg (by decide)]
      refine ⟨Nat.zero_le _, ?_, ?_, ?_⟩
      · intro m call hc
        exact absurd hc (by simp [report])
      · intro m call hc
        exact absurd hc (by simp [report])
      · intro p hp
        simp only [report, List.cons_append, List.nil_append, List.mem_cons, List.mem_singleton,
          List.not_mem_nil, or_false] at hp
        rcases hp with hp | hp | hp <;> rw [hp] <;> exact Nat.zero_le _

theorem requestPlan_bounded_witness :
    1 < 1 + 1
      ∧ ∃ prev,
        SendCall.mk "session-1".toList "supervisor".toList
            (buildPlanPrompt "重构登录模块".toList 2 silentRoundError 2 2) true
          = SendCall.mk "session-1".toList "supervisor".toList
              (buildPlanPrompt "重构登录模块".toList 2 prev (1 + 1) (1 + 1)) true
        ∧ (0 < 1 → prev ≠ []
            ∧ removeWs prev
              <:+: removeWs (SendCall.mk "session-1".toList "supervisor".toList
                  (buildPlanPrompt "重构登录模块".toList 2 silentRoundError 2 2) true).text
            ∧ ∃ p ∈ (requestPlan silentSupervisorEnv "session-1".toList "重构登录模块".toList 2 1
                  false).2.progress,
                p.phase = "retry".toList ∧ p.attempt = 1 ∧ p.lastError = prev) :=
  (requestPlan_bounded silentSupervisorEnv "session-1".toList "重构登录模块".toList 2 1
    false).2.1 1
    (SendCall.mk "session-1".toList "supervisor".toList
      (buildPlanPrompt "重构登录模块".toList 2 silentRoundError 2 2) true)
    (by decide!)


/-! ## The prompt classifier -/

theorem sliceLast_map {α β : Type} (f : α → β) (n : Nat) (l : List α) :
    (sliceLast n l).map f = sliceLast n (l.map f) := by
  unfold sliceLast
  rw [List.map_drop, List.length_map]

theorem sliceLast_idem {α : Type} (n : Nat) (l : List α) :
    sliceLast n (sliceLast n l) = sliceLast n l := by
  unfold sliceLast
  rw [List.length_drop]
  have h : l.length - (l.length - n) - n = 0 := by omega
  rw [h, List.drop_zero]

/-- C27. The classifier looks only at the last 30 lines: for every list of lines,
`detectApprovalPrompt` gives the same result (hit, kind, prompt text, fingerprint and
options) on the list and on its last 30 elements. -/
theorem detectApprovalPrompt_tail (data : CaseData) (sha256hex : Str → Str)
    (lines : List Str) :
    detectApprovalPrompt data sha256hex lines
      = detectApprovalPrompt data sha256hex (sliceLast 30 lines) := by
  unfold detectApprovalPrompt
  rw [sliceLast_map, sliceLast_idem]

/-- C28. Classification follows the stated priority: a tail in which all three option
markers are present is `three_choice` with the options 1, 2, 3, whatever else it holds; a
tail that is not three-choice but has a line with confirmation vocabulary and a yes/no
token is `yes_no`, also when a continue-suggestion phrase is present; and
`continue_suggestion` is returned only when neither of the two applies. -/
theorem classifyTail_priority (data : CaseData) (sha256hex : Str → Str) (tail : List Str) :
    ((CONFIRM_PATTERNS.all fun pattern => Rx.test true pattern (joinLines tail)) = true →
        (classifyTail data sha256hex tail).kind = "three_choice".toList
        ∧ (classifyTail data sha256hex tail).options = [1, 2, 3])
      ∧ ((CONFIRM_PATTERNS.all fun pattern => Rx.test true pattern (joinLines tail)) = false →
          (tail.any isMaybeAskLine && Rx.test true YES_NO_PATTERN (joinLines tail)) = true →
          (classifyTail data sha256hex tail).kind = "yes_no".toList)
      ∧ ((classifyTail data sha256hex tail).kind = "continue_suggestion".toList →
          (CONFIRM_PATTERNS.all fun pattern => Rx.test true pattern (joinLines tail)) = false
          ∧ (tail.any isMaybeAskLine && Rx.test true YES_NO_PATTERN (joinLines tail)) = false
          ∧ tail.any isContinueSuggestionLine = true) := by
  unfold classifyTail
  dsimp only
  refine ⟨?_, ?_, ?_⟩
  · intro h
    rw [if_pos h]
    exact ⟨rfl, rfl⟩
  · intro h1 h2
    rw [if_neg (by rw [h1]; decide), if_pos h2]
  · intro h
    by_cases h1 : (CONFIRM_PATTERNS.all fun pattern => Rx.test true pattern (joinLines tail))
        = true
    · rw [if_pos h1] at h
      dsimp only at h
      exact absurd h (by decide)
    · rw [if_neg h1] at h
      by_cases h2 : (tail.any isMaybeAskLine && Rx.test true YES_NO_PATTERN (joinLines tail))
          = true
      · rw [if_pos h2] at h
        dsimp only at h
        exact absurd h (by decide)
      · rw [if_neg h2] at h
        by_cases h3 : tail.any isContinueSuggestionLine = true
        · exact ⟨by simpa using h1, by simpa using h2, h3⟩
        · rw [if_neg h3] at h
          exact absurd h (by decide)


theorem classifyTail_priority_witness :
    (classifyTail sampleCaseData sampleSha256hex mixedPromptTail).kind = "three_choice".toList
      ∧ (classifyTail sampleCaseData sampleSha256hex mixedPromptTail).options = [1, 2, 3] :=
  (classifyTail_priority sampleCaseData sampleSha256hex mixedPromptTail).1 (by decide!)

/-- C29, as the code has it. `detectApprovalPrompt` returns the kind `yes_no` exactly when
the tail is not three-choice, some line of the tail contains confirmation vocabulary, and a
standalone yes/no token occurs in the joined tail, on that line or on any other. -/
theorem classifyTail_yes_no (data : CaseData) (sha256hex : Str → Str) (tail : List Str) :
    (classifyTail data sha256hex tail).kind = "yes_no".toList ↔
      (CONFIRM_PATTERNS.all fun pattern => Rx.test true pattern (joinLines tail)) = false
      ∧ (∃ line ∈ tail, isMaybeAskLine line = true)
      ∧ Rx.test true YES_NO_PATTERN (joinLines tail) = true := by
  unfold classifyTail
  dsimp only
  constructor
  · intro h
    by_cases h1 : (CONFIRM_PATTERNS.all fun pattern => Rx.test true pattern (joinLines tail))
        = true
    · rw [if_pos h1] at h
      dsimp only at h
      exact absurd h (by decide)
    · rw [if_neg h1] at h
      by_cases h2 : (tail.any isMaybeAskLine && Rx.test true YES_NO_PATTERN (joinLines tail))
          = true
      · rw [Bool.and_eq_true, List.any_eq_true] at h2
        exact ⟨by simpa using h1, h2.1, h2.2⟩
      · rw [if_neg h2] at h
        by_cases h3 : tail.any isContinueSuggestionLine = true
        · rw [if_pos h3] at h
          split_ifs at h
          · exact absurd h (by decide)
          · dsimp only at h
            exact absurd h (by decide)
        · rw [if_neg h3] at h
          exact absurd h (by decide)
  · rintro ⟨h1, h2, h3⟩
    rw [if_neg (by rw [h1]; decide), if_pos]
    rw [Bool.and_eq_true, List.any_eq_true]
    exact ⟨h2, h3⟩

theorem classifyTail_yes_no_witness :
    (CONFIRM_PATTERNS.all fun pattern => Rx.test true pattern (joinLines splitYesNoTail))
        = false
      ∧ (∃ line ∈ splitYesNoTail, isMaybeAskLine line = true)
      ∧ Rx.test true YES_NO_PATTERN (joinLines splitYesNoTail) = true :=
  (classifyTail_yes_no sampleCaseData sampleSha256hex splitYesNoTail).mp (by decide!)

/-- C29, the claim as written fails: in the tail `Please confirm the deployment`, `yes` no
line holds both confirmation vocabulary and a yes/no token, yet the tail is classified as
`yes_no`. -/
theorem detectApprovalPrompt_yes_no_counterexample :
    (∀ line ∈ splitYesNoTail,
        (isMaybeAskLine line && Rx.test true YES_NO_PATTERN line) = false)
      ∧ (detectApprovalPrompt sampleCaseData sampleSha256hex splitYesNoTail).kind = "yes_no".toList
      ∧ (detectApprovalPrompt sampleCaseData sampleSha256hex splitYesNoTail).hit = true := by
  decide!


/-! ## Dispatch keys -/

theorem collapseWsAux_cons (b : Bool) (c : Char) (cs : Str) :
    collapseWsAux b (c :: cs) =
      if isJsSpace c then
        if b then collapseWsAux true cs else ' ' :: collapseWsAux true cs
      else c :: collapseWsAux false cs := by
  rw [collapseWsAux]

theorem collapseWsAux_gap (g rest : Str) (hg : ∀ c ∈ g, isJsSpace c = true) (hne : g ≠ []) :
    ∀ b, collapseWsAux b (g ++ rest)
      = (if b then [] else [' ']) ++ collapseWsAux true rest := by
  induction g with
  | nil => exact absurd rfl hne
  | cons c cs ih =>
    intro b
    have hc : isJsSpace c = true := hg c (List.mem_cons_self _ _)
    rw [List.cons_append, collapseWsAux_cons, if_pos hc]
    cases cs with
    | nil => cases b <;> rfl
    | cons d ds =>
      have h2 := ih (fun x hx => hg x (List.mem_cons_of_mem _ hx)) (List.cons_ne_nil _ _) true
      cases b
      · rw [if_neg (by decide), h2]
        rfl
      · rw [if_pos rfl, h2]

theorem collapseWsAux_word (w rest : Str) (hw : ∀ c ∈ w, isJsSpace c = false) (hne : w ≠ []) :
    ∀ b, collapseWsAux b (w ++ rest) = w ++ collapseWsAux false rest := by
  induction w with
  | nil => exact absurd rfl hne
  | cons c cs ih =>
    intro b
    have hc : isJsSpace c = false := hw c (List.mem_cons_self _ _)
    rw [List.cons_append, collapseWsAux_cons, if_neg (by rw [hc]; decide)]
    cases cs with
    | nil => rfl
    | cons d ds =>
      rw [ih (fun x hx => hw x (List.mem_cons_of_mem _ hx)) (List.cons_ne_nil _ _) false]
      rfl

/-- The collapsed form of well-spaced pieces: the words joined by single blanks, and one
blank at the end when the last gap is not empty. -/
theorem collapseWsAux_pieces (pieces : List (Str × Str)) (h : WellSpaced pieces)
    (hne : pieces ≠ []) :
    ∀ b, ∃ post, (post = [] ∨ post = [' '])
      ∧ collapseWsAux b (pieces.map fun p => p.1 ++ p.2).flatten
          = List.intercalate [' '] (pieces.map Prod.fst) ++ post := by
  induction pieces with
  | nil => exact absurd rfl hne
  | cons p rest ih =>
    intro b
    cases rest with
    | nil =>
      obtain ⟨h1, h2, h3⟩ := h
      simp only [List.map_cons, List.map_nil, List.flatten_cons, List.flatten_nil,
        List.append_nil]
      rw [collapseWsAux_word p.1 p.2 h2 h1 b]
      by_cases hg : p.2 = []
      · refine ⟨[], Or.inl rfl, ?_⟩
        rw [hg]
        simp [List.intercalate, collapseWsAux]
      · refine ⟨[' '], Or.inr rfl, ?_⟩
        have := collapseWsAux_gap p.2 [] h3 hg false
        rw [List.append_nil] at this
        rw [this]
        simp [List.intercalate, collapseWsAux]
    | cons q more =>
      obtain ⟨h1, h2, h3, h4, h5⟩ := h
      obtain ⟨post, hpost, hrest⟩ := ih h5 (List.cons_ne_nil _ _) true
      refine ⟨post, hpost, ?_⟩
      rw [List.map_cons, List.flatten_cons, List.append_assoc,
        collapseWsAux_word p.1 _ h2 h1 b, collapseWsAux_gap p.2 _ h4 h3 false, hrest]
      simp [List.intercalate]

theorem trimStart_pad (pad s : Str) (h : ∀ c ∈ pad, isJsSpace c = true) :
    trimStart (pad ++ s) = trimStart s := by
  induction pad with
  | nil => rfl
  | cons c cs ih =>
    unfold trimStart at ih ⊢
    rw [List.cons_append, List.dropWhile_cons_of_pos (h c (List.mem_cons_self _ _))]
    exact ih fun x hx => h x (List.mem_cons_of_mem _ hx)

theorem trimEnd_pad (pad s : Str) (h : ∀ c ∈ pad, isJsSpace c = true) :
    trimEnd (s ++ pad) = trimEnd s := by
  unfold trimEnd
  rw [List.reverse_append]
  have := trimStart_pad pad.reverse s.reverse (fun c hc => h c (List.mem_reverse.mp hc))
  unfold trimStart at this
  rw [this]

theorem trim_eq_self_of_ends (s : Str) (h1 : ∀ c, s.head? = some c → isJsSpace c = false)
    (h2 : ∀ c, s.getLast? = some c → isJsSpace c = false) : trim s = s := by
  cases s with
  | nil => rfl
  | cons c t =>
    have hc : isJsSpace c = false := h1 c rfl
    rcases List.eq_nil_or_concat t with ht | ⟨m, d, hmd⟩
    · subst ht
      unfold trim trimStart trimEnd
      simp [List.dropWhile_cons, hc]
    · rw [List.concat_eq_append] at hmd
      subst hmd
      have hd : isJsSpace d = false := by
        apply h2 d
        rw [← List.cons_append, List.getLast?_append]
        rfl
      exact trim_eq_self c d m hc hd

theorem trim_padded (lead core trail : Str) (hl : ∀ c ∈ lead, isJsSpace c = true)
    (ht : ∀ c ∈ trail, isJsSpace c = true)
    (h1 : ∀ c, core.head? = some c → isJsSpace c = false)
    (h2 : ∀ c, core.getLast? = some c → isJsSpace c = false) :
    trim (lead ++ core ++ trail) = core := by
  have hcore := trim_eq_self_of_ends core h1 h2
  unfold trim at hcore ⊢
  rw [List.append_assoc, trimStart_pad lead _ hl]
  cases core with
  | nil =>
    rw [List.nil_append]
    have : trimStart trail = [] := by
      have := trimStart_pad trail [] ht
      rw [List.append_nil] at this
      rw [this]
      rfl
    rw [this]
    rfl
  | cons c t =>
    have hc : isJsSpace c = false := h1 c rfl
    have hs : trimStart (c :: t ++ trail) = c :: t ++ trail := by
      rw [List.cons_append]
      exact trimStart_eq_self_of_head c _ hc
    have hs2 : trimStart (c :: t) = c :: t := trimStart_eq_self_of_head c _ hc
    rw [hs, trimEnd_pad trail _ ht]
    rw [hs2] at hcore
    exact hcore

theorem head_intercalate_words (words : List Str) (h : ∀ w ∈ words, w ≠ []) (hne : words ≠ []) :
    (List.intercalate [' '] words).head? = (words.head?.bind fun w => w.head?) := by
  cases words with
  | nil => exact absurd rfl hne
  | cons w rest =>
    have hw : w ≠ [] := h w (List.mem_cons_self _ _)
    cases w with
    | nil => exact absurd rfl hw
    | cons c cs =>
      cases rest with
      | nil => simp [List.intercalate]
      | cons r rs => simp [List.intercalate]

theorem getLast_intercalate_words (words : List Str) (h : ∀ w ∈ words, w ≠ [])
    (hne : words ≠ []) :
    (List.intercalate [' '] words).getLast? = (words.getLast?.bind fun w => w.getLast?) := by
  induction words with
  | nil => exact absurd rfl hne
  | cons w rest ih =>
    cases rest with
    | nil => simp [List.intercalate]
    | cons r rs =>
      have ih2 := ih (fun x hx => h x (List.mem_cons_of_mem _ hx)) (List.cons_ne_nil _ _)
      have hcons : List.intercalate [' '] (w :: r :: rs)
          = w ++ ' ' :: List.intercalate [' '] (r :: rs) := by
        simp [List.intercalate]
      have hne2 : List.intercalate [' '] (r :: rs) ≠ [] := by
        have hr : r ≠ [] := h r (by simp)
        cases r with
        | nil => exact absurd rfl hr
        | cons c cs =>
          cases rs with
          | nil => simp [List.intercalate]
          | cons r2 rs2 => simp [List.intercalate]
      rw [hcons, List.getLast?_append, List.getLast?_cons_cons, ← ih2]
      cases hx : List.intercalate [' '] (r :: rs) with
      | nil => exact absurd hx hne2
      | cons d ds =>
        rw [List.getLast?_cons_cons]
        cases hy : (d :: ds).getLast? with
        | none => exact absurd (List.getLast?_eq_none_iff.mp hy) (List.cons_ne_nil _ _)
        | some e => rfl


theorem wellSpaced_words (pieces : List (Str × Str)) (h : WellSpaced pieces) :
    ∀ p ∈ pieces, p.1 ≠ [] ∧ ∀ c ∈ p.1, isJsSpace c = false := by
  induction pieces with
  | nil => intro p hp; cases hp
  | cons q rest ih =>
    intro p hp
    cases rest with
    | nil =>
      rw [List.mem_singleton] at hp
      subst hp
      exact ⟨h.1, h.2.1⟩
    | cons r more =>
      rcases List.mem_cons.mp hp with hp | hp
      · subst hp
        exact ⟨h.1, h.2.1⟩
      · exact ih h.2.2.2.2 p hp

theorem normalize_spacedText (lead : Str) (pieces : List (Str × Str))
    (hl : ∀ c ∈ lead, isJsSpace c = true) (hw : WellSpaced pieces) :
    normalizeDispatchInstruction (spacedText lead pieces)
      = List.intercalate [' '] (pieces.map Prod.fst) := by
  unfold normalizeDispatchInstruction collapseWs spacedText
  by_cases hp : pieces = []
  · subst hp
    simp only [List.map_nil, List.flatten_nil, List.append_nil]
    by_cases hlead : lead = []
    · subst hlead
      rfl
    · have := collapseWsAux_gap lead [] hl hlead false
      rw [List.append_nil] at this
      rw [this]
      rfl
  · have hwords := wellSpaced_words pieces hw
    have hcore1 : ∀ c, (List.intercalate [' '] (pieces.map Prod.fst)).head? = some c →
        isJsSpace c = false := by
      intro c hc
      rw [head_intercalate_words _ (by
        intro w hw2
        obtain ⟨p, hp1, hp2⟩ := List.mem_map.mp hw2
        rw [← hp2]
        exact (hwords p hp1).1) (by simpa using hp)] at hc
      cases hpc : pieces with
      | nil => exact absurd hpc hp
      | cons q rest =>
        rw [hpc] at hc
        simp only [List.map_cons, List.head?_cons, Option.some_bind] at hc
        exact (hwords q (by rw [hpc]; exact List.mem_cons_self _ _)).2 c
          (List.mem_of_mem_head? hc)
    have hcore2 : ∀ c, (List.intercalate [' '] (pieces.map Prod.fst)).getLast? = some c →
        isJsSpace c = false := by
      intro c hc
      rw [getLast_intercalate_words _ (by
        intro w hw2
        obtain ⟨p, hp1, hp2⟩ := List.mem_map.mp hw2
        rw [← hp2]
        exact (hwords p hp1).1) (by simpa using hp)] at hc
      cases hlast : (pieces.map Prod.fst).getLast? with
      | none => rw [hlast] at hc; cases hc
      | some w =>
        rw [hlast] at hc
        simp only [Option.some_bind] at hc
        have hmem : w ∈ pieces.map Prod.fst := List.mem_of_mem_getLast? hlast
        obtain ⟨p, hp1, hp2⟩ := List.mem_map.mp hmem
        rw [← hp2] at hc
        exact (hwords p hp1).2 c (List.mem_of_mem_getLast? hc)
    by_cases hlead : lead = []
    · subst hlead
      rw [List.nil_append]
      obtain ⟨post, hpost, hbody⟩ := collapseWsAux_pieces pieces hw hp false
      rw [hbody]
      have := trim_padded [] _ post (fun c hc => absurd hc (List.not_mem_nil c))
        (by rcases hpost with h | h <;> rw [h] <;> simp <;> decide) hcore1 hcore2
      rw [List.nil_append] at this
      exact this
    · rw [collapseWsAux_gap lead _ hl hlead false]
      obtain ⟨post, hpost, hbody⟩ := collapseWsAux_pieces pieces hw hp true
      rw [hbody, if_neg (by decide), ← List.append_assoc]
      exact trim_padded [' '] _ post (by simp <;> decide)
        (by rcases hpost with h | h <;> rw [h] <;> simp <;> decide) hcore1 hcore2

/-- C25, as the code has it. Dispatch keys are normalised in the case and the outer white
space of the worker id and in the white space of the instruction: for two directives whose
worker ids are the same text up to ASCII letter case, each padded with any leading and
trailing white space, and whose instructions consist of the same words separated and
surrounded by white-space runs of any length and kind, `buildDispatchActionKey` returns the
same key. -/
theorem buildDispatchActionKey_normalised (lead1 trail1 lead2 trail2 core1 core2 : Str)
    (gap1 gap2 : Str) (pieces1 pieces2 : List (Str × Str))
    (hpad : ∀ c ∈ lead1 ++ trail1 ++ lead2 ++ trail2 ++ gap1 ++ gap2, isJsSpace c = true)
    (hcore1 : (∀ c, core1.head? = some c → isJsSpace c = false)
      ∧ ∀ c, core1.getLast? = some c → isJsSpace c = false)
    (hcore2 : (∀ c, core2.head? = some c → isJsSpace c = false)
      ∧ ∀ c, core2.getLast? = some c → isJsSpace c = false)
    (hcase : toLowerCase core1 = toLowerCase core2)
    (hw1 : WellSpaced pieces1) (hw2 : WellSpaced pieces2)
    (hwords : pieces1.map Prod.fst = pieces2.map Prod.fst) :
    buildDispatchActionKey
        { workerId := lead1 ++ core1 ++ trail1, instruction := spacedText gap1 pieces1 }
      = buildDispatchActionKey
        { workerId := lead2 ++ core2 ++ trail2, instruction := spacedText gap2 pieces2 } := by
  have hmem : ∀ (part : Str), (∀ c ∈ part, c ∈ lead1 ++ trail1 ++ lead2 ++ trail2 ++ gap1 ++ gap2)
      → ∀ c ∈ part, isJsSpace c = true := fun part hsub c hc => hpad c (hsub c hc)
  unfold buildDispatchActionKey
  dsimp only
  rw [trim_padded lead1 core1 trail1 (hmem lead1 (by intro c hc; simp [hc]))
      (hmem trail1 (by intro c hc; simp [hc])) hcore1.1 hcore1.2,
    trim_padded lead2 core2 trail2 (hmem lead2 (by intro c hc; simp [hc]))
      (hmem trail2 (by intro c hc; simp [hc])) hcore2.1 hcore2.2,
    normalize_spacedText gap1 pieces1 (hmem gap1 (by intro c hc; simp [hc])) hw1,
    normalize_spacedText gap2 pieces2 (hmem gap2 (by intro c hc; simp [hc])) hw2,
    hcase, hwords]

theorem buildDispatchActionKey_normalised_witness :
    buildDispatchActionKey
        { workerId := " ".toList ++ "Worker-2".toList ++ "\t".toList
          instruction := spacedText "  ".toList
            [("run".toList, " \n ".toList), ("tests".toList, "".toList)] }
      = buildDispatchActionKey
        { workerId := "".toList ++ "worker-2".toList ++ "".toList
          instruction := spacedText "".toList
            [("run".toList, " ".toList), ("tests".toList, " ".toList)] } :=
  buildDispatchActionKey_normalised " ".toList "\t".toList "".toList "".toList
    "Worker-2".toList "worker-2".toList "  ".toList "".toList
    [("run".toList, " \n ".toList), ("tests".toList, "".toList)]
    [("run".toList, " ".toList), ("tests".toList, " ".toList)]
    (by decide) (by decide) (by decide) (by decide) (by decide) (by decide) (by decide)

/-- C25, the claim as written fails: two directives for `worker-1` whose instructions
differ only in letter case get different keys, so the second one is not treated as
already processed. -/
theorem buildDispatchActionKey_case_counterexample :
    buildDispatchActionKey { workerId := "worker-1".toList, instruction := "Run Tests".toList }
        ≠ buildDispatchActionKey
          { workerId := "worker-1".toList, instruction := "run tests".toList }
      ∧ toLowerCase "Run Tests".toList = toLowerCase "run tests".toList := by
  decide


/-! ## Fingerprints -/

theorem isDigit_bounds (c : Char) (h : c.isDigit = true) : 48 ≤ c.toNat ∧ c.toNat ≤ 57 := by
  unfold Char.isDigit at h
  simp only [Bool.and_eq_true, decide_eq_true_eq] at h
  have h1 : (48 : UInt32) ≤ c.val := h.1
  have h2 : c.val ≤ (57 : UInt32) := h.2
  rw [UInt32.le_def] at h1 h2
  exact ⟨h1, h2⟩

theorem isJsSpace_of_isDigit (c : Char) (h : c.isDigit = true) : isJsSpace c = false := by
  obtain ⟨h1, h2⟩ := isDigit_bounds c h
  unfold isJsSpace
  simp only [Bool.or_eq_false_iff, beq_eq_false_iff_ne, ne_eq, Bool.and_eq_false_imp,
    decide_eq_true_eq, decide_eq_false_iff_not, not_le]
  omega

theorem ne_slash_of_isDigit (c : Char) (h : c.isDigit = true) : (c == '/') = false := by
  obtain ⟨h1, h2⟩ := isDigit_bounds c h
  rw [beq_eq_false_iff_ne]
  intro hc
  rw [hc] at h1
  exact absurd h1 (by decide)


theorem toLower_of_isDigit (c : Char) (h : c.isDigit = true) : c.toLower = c := by
  obtain ⟨h1, h2⟩ := isDigit_bounds c h
  unfold Char.toLower
  simp only []
  split
  · rename_i hc
    have := hc.1
    omega
  · rfl

theorem replaceDigitsAux_run (d : Str) (hd : d ≠ []) (hall : ∀ c ∈ d, c.isDigit = true)
    (r : Bool) (rest : Str) :
    replaceDigitsAux r (d ++ rest)
      = (if r then [] else "<num>".toList) ++ replaceDigitsAux true rest := by
  induction d generalizing r with
  | nil => exact absurd rfl hd
  | cons c cs ih =>
    have hc : c.isDigit = true := hall c (List.mem_cons_self _ _)
    cases cs with
    | nil =>
      rw [List.singleton_append, replaceDigitsAux, if_pos hc]
      cases r <;> simp
    | cons x xs =>
      have hrest := ih (List.cons_ne_nil _ _) (fun y hy => hall y (List.mem_cons_of_mem _ hy)) true
      rw [List.cons_append, replaceDigitsAux, if_pos hc]
      cases r
      · simp only [if_neg Bool.false_ne_true, Bool.false_eq_true, if_false]
        rw [hrest]
        simp
      · simp only [if_true]
        rw [hrest]
        simp

theorem replaceDigitsAux_variant (a b : Str) (h : DigitVariant a b) :
    ∀ r, replaceDigitsAux r a = replaceDigitsAux r b := by
  induction h with
  | nil => intro r; rfl
  | same c a b _ ih =>
    intro r
    rw [replaceDigitsAux, replaceDigitsAux, ih true, ih false]
  | digits d1 d2 a b h1 h2 hd1 hd2 _ ih =>
    intro r
    rw [replaceDigitsAux_run d1 h1 hd1, replaceDigitsAux_run d2 h2 hd2, ih true]

theorem replacePathsAux_skip (w : Str) (hall : ∀ c ∈ w, isJsSpace c = false) (rest : Str) :
    replacePathsAux true (w ++ rest) = replacePathsAux true rest := by
  induction w with
  | nil => rfl
  | cons c cs ih =>
    have hc : isJsSpace c = false := hall c (List.mem_cons_self _ _)
    rw [List.cons_append, replacePathsAux]
    simp only [hc, Bool.not_false, Bool.and_self, if_true]
    exact ih fun y hy => hall y (List.mem_cons_of_mem _ hy)

theorem replacePathsAux_digits (d : Str) (hall : ∀ c ∈ d, c.isDigit = true) (rest : Str) :
    replacePathsAux false (d ++ rest) = d ++ replacePathsAux false rest := by
  induction d with
  | nil => rfl
  | cons c cs ih =>
    have hc : c.isDigit = true := hall c (List.mem_cons_self _ _)
    rw [List.cons_append, replacePathsAux]
    simp only [Bool.false_and, Bool.false_eq_true, if_false, ne_slash_of_isDigit c hc]
    rw [ih fun y hy => hall y (List.mem_cons_of_mem _ hy)]
    rfl

theorem replacePathsAux_path (p rest : Str) (hp : p ≠ []) (hall : ∀ c ∈ p, isJsSpace c = false)
    (inPath : Bool) :
    replacePathsAux inPath ('/' :: (p ++ rest))
      = (if inPath then [] else "<path>".toList) ++ replacePathsAux true rest := by
  cases p with
  | nil => exact absurd rfl hp
  | cons c cs =>
    have hc : isJsSpace c = false := hall c (List.mem_cons_self _ _)
    have hskip := replacePathsAux_skip (c :: cs) hall rest
    rw [replacePathsAux]
    cases inPath
    · simp only [Bool.false_and, Bool.false_eq_true, if_false, List.cons_append, List.head?_cons,
        Option.map_some', Option.getD_some, hc, Bool.not_false, beq_self_eq_true, Bool.and_self,
        if_true]
      rw [← List.cons_append, hskip]
    · have hs : isJsSpace '/' = false := by decide
      simp only [hs, Bool.not_false, Bool.and_self, if_true, List.nil_append]
      exact hskip

theorem volatileVariant_head (a b : Str) (h : VolatileVariant a b) :
    (a.head?.map fun d => !isJsSpace d).getD false
      = (b.head?.map fun d => !isJsSpace d).getD false := by
  cases h with
  | nil => rfl
  | same c a b _ => rfl
  | digits d1 d2 a b h1 h2 hd1 hd2 _ =>
    cases d1 with
    | nil => exact absurd rfl h1
    | cons x xs =>
      cases d2 with
      | nil => exact absurd rfl h2
      | cons y ys =>
        simp [isJsSpace_of_isDigit x (hd1 x (List.mem_cons_self _ _)),
          isJsSpace_of_isDigit y (hd2 y (List.mem_cons_self _ _))]
  | path p1 p2 a b _ _ _ _ _ => rfl

theorem digitVariant_shared (w a b : Str) (h : DigitVariant a b) :
    DigitVariant (w ++ a) (w ++ b) := by
  induction w with
  | nil => exact h
  | cons c cs ih => exact DigitVariant.same c _ _ ih

theorem replacePathsAux_variant (a b : Str) (h : VolatileVariant a b) :
    ∀ inPath, DigitVariant (replacePathsAux inPath a) (replacePathsAux inPath b) := by
  induction h with
  | nil => intro inPath; exact DigitVariant.nil
  | same c a b hab ih =>
    intro inPath
    rw [replacePathsAux, replacePathsAux, volatileVariant_head a b hab]
    by_cases h1 : (inPath && !isJsSpace c) = true
    · rw [if_pos h1, if_pos h1]
      exact ih true
    · rw [if_neg h1, if_neg h1]
      by_cases h2 : (c == '/' && (b.head?.map fun d => !isJsSpace d).getD false) = true
      · rw [if_pos h2, if_pos h2]
        exact digitVariant_shared _ _ _ (ih true)
      · rw [if_neg h2, if_neg h2]
        exact DigitVariant.same c _ _ (ih false)
  | digits d1 d2 a b h1 h2 hd1 hd2 _ ih =>
    intro inPath
    cases inPath
    · rw [replacePathsAux_digits d1 hd1, replacePathsAux_digits d2 hd2]
      exact DigitVariant.digits d1 d2 _ _ h1 h2 hd1 hd2 (ih false)
    · rw [replacePathsAux_skip d1 (fun c hc => isJsSpace_of_isDigit c (hd1 c hc)),
        replacePathsAux_skip d2 (fun c hc => isJsSpace_of_isDigit c (hd2 c hc))]
      exact ih true
  | path p1 p2 a b h1 h2 hp1 hp2 _ ih =>
    intro inPath
    rw [replacePathsAux_path p1 a h1 hp1, replacePathsAux_path p2 b h2 hp2]
    exact digitVariant_shared _ _ _ (ih true)

theorem volatileVariant_shared (w a b : Str) (h : VolatileVariant a b) :
    VolatileVariant (w ++ a) (w ++ b) := by
  induction w with
  | nil => exact h
  | cons c cs ih => exact VolatileVariant.same c _ _ ih

/-- Without a capital sigma in final position, `toLowerCase` maps character by
character. -/
theorem toLowerCaseFrom_flatMap (data : CaseData) (s : Str) :
    ∀ before, finalSigmaFrom data before s = false →
      toLowerCaseFrom data before s = s.flatMap data.lower := by
  induction s with
  | nil => intro before _; rfl
  | cons c cs ih =>
    intro before h
    rw [finalSigmaFrom, Bool.or_eq_false_iff, Bool.and_eq_false_iff] at h
    obtain ⟨h1, h2⟩ := h
    have hno : ¬ (c = 'Σ' ∧ isFinalSigma data before cs = true) := by
      intro hq
      rcases h1 with h1 | h1
      · exact absurd hq.1 (of_decide_eq_false h1)
      · rw [hq.2] at h1
        cases h1
    rw [toLowerCaseFrom, if_neg hno, ih _ h2, List.flatMap_cons]

theorem flatMap_lower_digits (data : CaseData)
    (hdigit : ∀ c : Char, c.isDigit = true → data.lower c = [c]) (d : Str)
    (hd : ∀ c ∈ d, c.isDigit = true) : d.flatMap data.lower = d := by
  induction d with
  | nil => rfl
  | cons c cs ih =>
    rw [List.flatMap_cons, hdigit c (hd c (List.mem_cons_self _ _)),
      ih fun y hy => hd y (List.mem_cons_of_mem _ hy)]
    rfl

theorem flatMap_lower_word (data : CaseData)
    (hword : ∀ c : Char, isJsSpace c = false →
      data.lower c ≠ [] ∧ ∀ d ∈ data.lower c, isJsSpace d = false)
    (p : Str) (hne : p ≠ []) (hp : ∀ c ∈ p, isJsSpace c = false) :
    p.flatMap data.lower ≠ [] ∧ ∀ d ∈ p.flatMap data.lower, isJsSpace d = false := by
  constructor
  · cases p with
    | nil => exact absurd rfl hne
    | cons c cs =>
      rw [List.flatMap_cons]
      intro hnil
      exact (hword c (hp c (List.mem_cons_self _ _))).1 (List.append_eq_nil.mp hnil).1
  · intro d hd
    rw [List.mem_flatMap] at hd
    obtain ⟨c, hc, hdc⟩ := hd
    exact (hword c (hp c hc)).2 d hdc

/-- Lower-casing character by character keeps two texts variants of each other, when the
mapping leaves the digits and the slash alone and makes words of words. -/
theorem flatMap_lower_variant (data : CaseData)
    (hdigit : ∀ c : Char, c.isDigit = true → data.lower c = [c])
    (hslash : data.lower '/' = ['/'])
    (hword : ∀ c : Char, isJsSpace c = false →
      data.lower c ≠ [] ∧ ∀ d ∈ data.lower c, isJsSpace d = false)
    (a b : Str) (h : VolatileVariant a b) :
    VolatileVariant (a.flatMap data.lower) (b.flatMap data.lower) := by
  induction h with
  | nil => exact VolatileVariant.nil
  | same c a b _ ih =>
    rw [List.flatMap_cons, List.flatMap_cons]
    exact volatileVariant_shared _ _ _ ih
  | digits d1 d2 a b h1 h2 hd1 hd2 _ ih =>
    rw [List.flatMap_append, List.flatMap_append, flatMap_lower_digits data hdigit d1 hd1,
      flatMap_lower_digits data hdigit d2 hd2]
    exact VolatileVariant.digits d1 d2 _ _ h1 h2 hd1 hd2 ih
  | path p1 p2 a b h1 h2 hp1 hp2 _ ih =>
    rw [List.flatMap_cons, List.flatMap_cons, List.flatMap_append, List.flatMap_append, hslash]
    exact VolatileVariant.path (p1.flatMap data.lower) (p2.flatMap data.lower) _ _
      (flatMap_lower_word data hword p1 h1 hp1).1
      (flatMap_lower_word data hword p2 h2 hp2).1 (flatMap_lower_word data hword p1 h1 hp1).2
      (flatMap_lower_word data hword p2 h2 hp2).2 ih

/-- The Unicode data of the examples leave the digits and the slash alone and make words
of words, as the full data do. -/
theorem sampleCaseData_regular :
    (∀ c : Char, c.isDigit = true → sampleCaseData.lower c = [c])
      ∧ sampleCaseData.lower '/' = ['/']
      ∧ ∀ c : Char, isJsSpace c = false →
          sampleCaseData.lower c ≠ [] ∧ ∀ d ∈ sampleCaseData.lower c, isJsSpace d = false := by
  refine ⟨?_, by decide, ?_⟩
  · intro c hc
    have hne : c ≠ 'Σ' := by
      intro hq
      rw [hq] at hc
      exact absurd hc (by decide)
    show (if c = 'Σ' then ['σ'] else [c.toLower]) = [c]
    rw [if_neg hne, toLower_of_isDigit c hc]
  · intro c hc
    show (if c = 'Σ' then ['σ'] else [c.toLower]) ≠ []
      ∧ ∀ d ∈ (if c = 'Σ' then ['σ'] else [c.toLower]), isJsSpace d = false
    by_cases hs : c = 'Σ'
    · rw [if_pos hs]
      exact ⟨List.cons_ne_nil _ _, by decide⟩
    · rw [if_neg hs]
      refine ⟨List.cons_ne_nil _ _, ?_⟩
      intro d hd
      rw [List.mem_singleton] at hd
      rw [hd]
      by_cases hu : 65 ≤ c.toNat ∧ c.toNat ≤ 90
      · have key : ∀ m, 65 ≤ m → m ≤ 90 → isJsSpace (Char.ofNat m).toLower = false := by
          intro m h1 h2
          interval_cases m <;> decide
        have := key c.toNat hu.1 hu.2
        rwa [Char.ofNat_toNat] at this
      · have : c.toLower = c := by
          unfold Char.toLower
          simp only []
          rw [if_neg hu]
        rw [this]
        exact hc

/-- C7 (as amended): `buildPromptFingerprint` is invariant to volatile tokens in texts
that hold no capital sigma in final position (after a cased letter and not before one,
case-ignorable characters skipped).  For every two such texts that differ only in the
values of digit runs (a non-empty run of decimal digits replaced by another one, which
covers counters, durations and context percentages) and in the characters other than
white space that follow a slash (a non-empty run replaced by another one), the two
fingerprints are equal; texts that differ in only one of the two ways are the special
cases that use only the corresponding rule of `VolatileVariant`.  What is used of the
Unicode data is that the lower-case mapping leaves the digits and the slash as they are
and gives, for a character that is no white space, a non-empty text without white
space. -/
theorem buildPromptFingerprint_volatile (data : CaseData) (sha256hex : Str → Str) (a b : Str)
    (hdigit : ∀ c : Char, c.isDigit = true → data.lower c = [c])
    (hslash : data.lower '/' = ['/'])
    (hword : ∀ c : Char, isJsSpace c = false →
      data.lower c ≠ [] ∧ ∀ d ∈ data.lower c, isJsSpace d = false)
    (ha : hasFinalSigma data a = false) (hb : hasFinalSigma data b = false)
    (h : VolatileVariant a b) :
    buildPromptFingerprint data sha256hex a = buildPromptFingerprint data sha256hex b := by
  have key : replaceDigitsAux false (replacePathsAux false (toLowerCaseFull data a))
      = replaceDigitsAux false (replacePathsAux false (toLowerCaseFull data b)) := by
    unfold toLowerCaseFull
    rw [toLowerCaseFrom_flatMap data a [] ha, toLowerCaseFrom_flatMap data b [] hb]
    exact replaceDigitsAux_variant _ _
      (replacePathsAux_variant _ _ (flatMap_lower_variant data hdigit hslash hword a b h) false)
      false
  unfold buildPromptFingerprint fingerprintSource
  simp only []
  rw [key]

theorem buildPromptFingerprint_volatile_witness :
    VolatileVariant "Σ path /tmp/abc123 and code 9001".toList
        "Σ path /tmp/xyz567 and code 7444".toList
      ∧ buildPromptFingerprint sampleCaseData sampleSha256hex
          "Σ path /tmp/abc123 and code 9001".toList
        = buildPromptFingerprint sampleCaseData sampleSha256hex
          "Σ path /tmp/xyz567 and code 7444".toList :=
  have h : VolatileVariant "Σ path /tmp/abc123 and code 9001".toList
      "Σ path /tmp/xyz567 and code 7444".toList :=
    volatileVariant_shared "Σ path ".toList _ _
      (VolatileVariant.path "tmp/abc123".toList "tmp/xyz567".toList _ _
        (by decide) (by decide) (by decide) (by decide)
        (volatileVariant_shared " and code ".toList _ _
          (VolatileVariant.digits "9001".toList "7444".toList [] [] (by decide) (by decide)
            (by decide) (by decide) VolatileVariant.nil)))
  ⟨h, buildPromptFingerprint_volatile sampleCaseData sampleSha256hex _ _
    sampleCaseData_regular.1 sampleCaseData_regular.2.1 sampleCaseData_regular.2.2
    (by decide!) (by decide!) h⟩

/-- Counterexample to C7 as stated: the two prompts differ only in the character that
follows the slash of a path, a letter in one and a digit in the other.  The capital sigma
after the path is in final position in the first prompt, where a cased letter stands
before it across the byte order mark, and not in the second: `toLowerCase` writes the final
small sigma in the first and the small sigma in the second, so the texts that are hashed
differ. -/
theorem buildPromptFingerprint_volatile_counterexample :
    VolatileVariant sigmaAfterLetter sigmaAfterDigit
      ∧ hasFinalSigma sampleCaseData sigmaAfterLetter = true
      ∧ hasFinalSigma sampleCaseData sigmaAfterDigit = false
      ∧ fingerprintSource sampleCaseData sigmaAfterLetter = "<path> ς".toList
      ∧ fingerprintSource sampleCaseData sigmaAfterDigit = "<path> σ".toList
      ∧ buildPromptFingerprint sampleCaseData sampleSha256hex sigmaAfterLetter
        ≠ buildPromptFingerprint sampleCaseData sampleSha256hex sigmaAfterDigit :=
  ⟨VolatileVariant.path ['x'] ['1'] _ _ (by decide) (by decide) (by decide) (by decide)
      (VolatileVariant.same '\uFEFF' _ _ (VolatileVariant.same 'Σ' _ _ VolatileVariant.nil)),
    by decide!, by decide!, by decide!, by decide!, by decide!⟩

/-! ## The fallback plan under normalisation -/

theorem trim_fallback_instruction (objective : Str) (i : Nat) :
    trim (fallbackTask objective i).instruction = (fallbackTask objective i).instruction := by
  apply trim_eq_self_of_ends
  · intro c hc
    have : c = '目' := by
      simp only [fallbackTask, joinLines, List.intercalate] at hc
      have h2 : ("目标：".toList ++ objective) = '目' :: ("标：".toList ++ objective) := rfl
      rw [h2] at hc
      simpa using hc.symm
    subst this
    decide
  · intro c hc
    have : c = '。' := by
      simp only [fallbackTask, joinLines, List.intercalate] at hc
      have h2 : "在本窗口内只处理你负责的内容，完成后给出阶段结果。".toList
          = "在本窗口内只处理你负责的内容，完成后给出阶段结果".toList ++ ['。'] := rfl
      rw [h2] at hc
      simp only [List.intersperse, List.flatten, List.append_nil] at hc
      rw [← List.append_assoc, ← List.append_assoc, ← List.append_assoc, ← List.append_assoc,
        ← List.append_assoc, ← List.append_assoc, List.getLast?_append] at hc
      simpa using hc.symm
    subst this
    decide

theorem assignWorkers_fallback (objective : Str) (m : Nat) :
    ∀ k, assignWorkers k
        ((List.range' k m).map fun j =>
          ParsedTask.mk (fallbackTask objective (j + 1)).workerIndex
            (fallbackTask objective (j + 1)).title (fallbackTask objective (j + 1)).instruction
            (fallbackTask objective (j + 1)).dependsOn)
      = (List.range' k m).map fun j => fallbackTask objective (j + 1) := by
  induction m with
  | zero => intro k; rfl
  | succ m ih =>
    intro k
    rw [List.range'_succ, List.map_cons, List.map_cons, assignWorkers, ih (k + 1)]
    congr 1
    have ht := trim_fallback_instruction objective (k + 1)
    have htitle : strOr (fallbackTask objective (k + 1)).title
        ("子任务 ".toList ++ natToStr (k + 1)) = (fallbackTask objective (k + 1)).title := rfl
    rw [ht, htitle]
    rfl

theorem fallback_sorted (objective : Str) (n : Nat) :
    ((List.range n).map fun j =>
        ParsedTask.mk (fallbackTask objective (j + 1)).workerIndex
          (fallbackTask objective (j + 1)).title (fallbackTask objective (j + 1)).instruction
          (fallbackTask objective (j + 1)).dependsOn).Sorted
      (fun a b => a.workerIndex ≤ b.workerIndex) := by
  unfold List.Sorted
  rw [List.pairwise_map]
  refine List.Pairwise.imp ?_ (List.pairwise_lt_range n)
  intro a b hab
  show a + 1 ≤ b + 1
  omega

/-- C39: the fallback plan is a fixed point of plan normalisation.  For every objective
and every worker count `N`, `normalizePlan(buildFallbackPlan({objective, workerCount: N}), N)`
succeeds and returns the fallback plan itself: the same summary and, task by task, the same
worker id, worker index, title, instruction and dependencies. -/
theorem normalizePlan_buildFallbackPlan (objective : Str) (n : Nat) :
    normalizePlan (asParsedPlan (buildFallbackPlan objective n)) n
      = { ok := true, retryable := false, error := []
          plan := some (buildFallbackPlan objective n) } := by
  have hlen : (asParsedPlan (buildFallbackPlan objective n)).tasks.length = n := by
    simp [asParsedPlan, buildFallbackPlan]
  have htasks : (asParsedPlan (buildFallbackPlan objective n)).tasks
      = (List.range n).map fun j =>
          ParsedTask.mk (fallbackTask objective (j + 1)).workerIndex
            (fallbackTask objective (j + 1)).title (fallbackTask objective (j + 1)).instruction
            (fallbackTask objective (j + 1)).dependsOn := by
    simp [asParsedPlan, buildFallbackPlan, List.map_map, Function.comp_def]
  have hsort : (asParsedPlan (buildFallbackPlan objective n)).tasks.insertionSort
        (fun a b => a.workerIndex ≤ b.workerIndex)
      = (asParsedPlan (buildFallbackPlan objective n)).tasks := by
    rw [htasks]
    exact List.Sorted.insertionSort_eq (fallback_sorted objective n)
  have hmapped : assignWorkers 0 (((asParsedPlan (buildFallbackPlan objective n)).tasks.insertionSort
        (fun a b => a.workerIndex ≤ b.workerIndex)).take n)
      = (buildFallbackPlan objective n).tasks := by
    rw [hsort, List.take_of_length_le (by rw [hlen]), htasks, List.range_eq_range']
    rw [assignWorkers_fallback objective n 0]
    simp [buildFallbackPlan, List.range_eq_range']
  have hany : ((buildFallbackPlan objective n).tasks.any fun task => task.instruction.isEmpty)
      = false := by
    rw [List.any_eq_false]
    intro t ht
    unfold buildFallbackPlan at ht
    obtain ⟨j, _, rfl⟩ := List.mem_map.mp ht
    simp [fallbackTask, joinLines, List.intercalate]
  unfold normalizePlan
  rw [if_neg (by rw [hlen]; exact Nat.lt_irrefl n)]
  simp only []
  rw [hmapped, hany]
  simp only [Bool.false_eq_true, if_false]
  have hsum : trim (asParsedPlan (buildFallbackPlan objective n)).planSummary
      = (buildFallbackPlan objective n).planSummary := by
    show trim "主管规划未返回有效结构化结果，已使用本地兜底分解。".toList
      = "主管规划未返回有效结构化结果，已使用本地兜底分解。".toList
    decide
  rw [hsum]


/-! ## A directive whose send fails -/

theorem applyDispatchAction_send (send : SendOracle) (sid : Str) (st : DispatchLoop) (a : Action)
    (h1 : ((trim a.workerId).isEmpty || (normalizeDispatchInstruction a.instruction).isEmpty
      || (actionKeyOf a).isEmpty) = false) (h2 : actionKeyOf a ∉ st.processedSet)
    (hex : detectExampleDispatchReason (normalizeDispatchInstruction a.instruction) = []) :
    (applyDispatchAction send sid st a).sent
        = st.sent ++ [SendCall.mk sid (trim a.workerId)
            (normalizeDispatchInstruction a.instruction) true] ∧
    (applyDispatchAction send sid st a).workers
        = (if (send st.sent.length (SendCall.mk sid (trim a.workerId)
              (normalizeDispatchInstruction a.instruction) true)).ok
            then setWorkerStatus st.workers (trim a.workerId) "running".toList
            else st.workers) := by
  unfold applyDispatchAction
  simp only [h1, h2, hex, if_false, Bool.false_eq_true, List.isEmpty_nil, Bool.not_true]
  exact ⟨trivial, trivial⟩

theorem mem_dispatchLoopStart_of_key (t : Session) (a : Action) (hkey : actionKeyOf a ≠ [])
    (h : actionKeyOf a ∈ (t.supervisor.getD defaultSupervisor).processedDispatchKeys) :
    actionKeyOf a ∈ (dispatchLoopStart t (t.supervisor.getD defaultSupervisor)).processedSet := by
  simp only [dispatchLoopStart]
  rw [mem_jsSetOfList, List.mem_filter, List.mem_map]
  refine ⟨⟨actionKeyOf a, h, trim_actionKeyOf a hkey⟩, ?_⟩
  cases hk : actionKeyOf a with
  | nil => exact absurd hk hkey
  | cons c cs => rfl

/-- C40: a directive whose send fails is consumed, not retried.  For every directive with
a non-blank worker id and a non-blank instruction that is no placeholder, whose key is not
yet in the ledger and for which `sendInput` reports a failure,
`applySupervisorDispatchActions` calls `sendInput` once, returns `true`, stores the key in
`processedDispatchKeys` and leaves the workers (hence the status of the addressed worker)
as they were; applying the same directive to the session after that call, or to any
session whose ledger holds the key, calls `sendInput` zero times. -/
theorem applySupervisorDispatchActions_failed_send (send : SendOracle) (s : Session)
    (a : Action)
    (hw : trim a.workerId ≠ [])
    (hi : normalizeDispatchInstruction a.instruction ≠ [])
    (hex : detectExampleDispatchReason (normalizeDispatchInstruction a.instruction) = [])
    (hnew : ∀ k ∈ (s.supervisor.getD defaultSupervisor).processedDispatchKeys,
      trim k ≠ actionKeyOf a)
    (hfail : (send 0 (SendCall.mk s.sessionId (trim a.workerId)
      (normalizeDispatchInstruction a.instruction) true)).ok = false) :
    (applySupervisorDispatchActions send s [a]).sent
        = [SendCall.mk s.sessionId (trim a.workerId)
            (normalizeDispatchInstruction a.instruction) true] ∧
    (applySupervisorDispatchActions send s [a]).changed = true ∧
    (∃ v, (applySupervisorDispatchActions send s [a]).session.supervisor = some v ∧
      actionKeyOf a ∈ v.processedDispatchKeys) ∧
    (applySupervisorDispatchActions send s [a]).session.workers = s.workers ∧
    (∀ later : SendOracle, (applySupervisorDispatchActions later
      (applySupervisorDispatchActions send s [a]).session [a]).sent = []) ∧
    (∀ (later : SendOracle) (t : Session),
      actionKeyOf a ∈ (t.supervisor.getD defaultSupervisor).processedDispatchKeys →
      (applySupervisorDispatchActions later t [a]).sent = []) := by
  have hkey := actionKeyOf_ne_nil a hw hi
  have hemp : ((trim a.workerId).isEmpty || (normalizeDispatchInstruction a.instruction).isEmpty
      || (actionKeyOf a).isEmpty) = false := by
    simp [List.isEmpty_iff, hw, hi, hkey]
  have hin : actionKeyOf a ∉
      (dispatchLoopStart s (s.supervisor.getD defaultSupervisor)).processedSet := by
    simp only [dispatchLoopStart]
    rw [mem_jsSetOfList, List.mem_filter, List.mem_map]
    rintro ⟨⟨k, hk, hk2⟩, -⟩
    exact hnew k hk hk2
  obtain ⟨f1, f2, -⟩ := applyDispatchAction_fresh send s.sessionId
    (dispatchLoopStart s (s.supervisor.getD defaultSupervisor)) a hemp hin
  obtain ⟨g1, g2⟩ := applyDispatchAction_send send s.sessionId
    (dispatchLoopStart s (s.supervisor.getD defaultSupervisor)) a hemp hin hex
  have hstart : (dispatchLoopStart s (s.supervisor.getD defaultSupervisor)).sent = [] := rfl
  have hworkers : (dispatchLoopStart s (s.supervisor.getD defaultSupervisor)).workers
      = s.workers := rfl
  rw [hstart] at g1 g2
  rw [List.length_nil, hfail, hworkers] at g2
  rw [List.nil_append] at g1
  have hmem : actionKeyOf a ∈ sliceLast 360 (applyDispatchAction send s.sessionId
      (dispatchLoopStart s (s.supervisor.getD defaultSupervisor)) a).processedSet := by
    rw [f2]
    exact mem_sliceLast_append 360 (by omega) _ _
  have hgeneral : ∀ (later : SendOracle) (t : Session),
      actionKeyOf a ∈ (t.supervisor.getD defaultSupervisor).processedDispatchKeys →
      (applySupervisorDispatchActions later t [a]).sent = [] := by
    intro later t ht
    rw [applySupervisorDispatchActions_skip later t a
      (Or.inr (mem_dispatchLoopStart_of_key t a hkey ht))]
  have hres : (applySupervisorDispatchActions send s [a]).session.supervisor
      = some { (s.supervisor.getD defaultSupervisor) with
          processedDispatchKeys := sliceLast 360 (applyDispatchAction send s.sessionId
            (dispatchLoopStart s (s.supervisor.getD defaultSupervisor)) a).processedSet } := by
    rw [applySupervisorDispatchActions_single]
    unfold dispatchLoopEnd
    rw [f1]
    rfl
  refine ⟨?_, ?_, ⟨_, hres, ?_⟩, ?_, ?_, hgeneral⟩
  · rw [applySupervisorDispatchActions_single]
    unfold dispatchLoopEnd
    rw [f1]
    exact g1
  · rw [applySupervisorDispatchActions_single]
    unfold dispatchLoopEnd
    rw [f1]
    rfl
  · dsimp only
    exact hmem
  · rw [applySupervisorDispatchActions_single]
    unfold dispatchLoopEnd
    rw [f1]
    exact g2
  · intro later
    apply hgeneral
    rw [hres]
    dsimp only [Option.getD]
    exact hmem

theorem applySupervisorDispatchActions_failed_send_witness :
    (applySupervisorDispatchActions sendAlwaysFails sampleSession
        [Action.mk "worker-1".toList "run the tests".toList]).sent
      = [SendCall.mk "session-1".toList "worker-1".toList "run the tests".toList true] ∧
    (applySupervisorDispatchActions sendAlwaysFails sampleSession
        [Action.mk "worker-1".toList "run the tests".toList]).changed = true ∧
    (applySupervisorDispatchActions sendAlwaysFails sampleSession
        [Action.mk "worker-1".toList "run the tests".toList]).session.workers
      = sampleSession.workers ∧
    (applySupervisorDispatchActions sendAlwaysOk
      (applySupervisorDispatchActions sendAlwaysFails sampleSession
        [Action.mk "worker-1".toList "run the tests".toList]).session
      [Action.mk "worker-1".toList "run the tests".toList]).sent = [] :=
  have h := applySupervisorDispatchActions_failed_send sendAlwaysFails sampleSession
    (Action.mk "worker-1".toList "run the tests".toList)
    (by decide!) (by decide!) (by decide!) (by decide!) (by decide!)
  ⟨h.1, h.2.1, h.2.2.2.1, h.2.2.2.2.1 sendAlwaysOk⟩


/-! ## The ledger as a bounded ordered set -/

theorem nodup_jsSetAdd (set : List Str) (k : Str) (h : set.Nodup) : (jsSetAdd set k).Nodup := by
  unfold jsSetAdd
  by_cases hk : k ∈ set
  · rw [if_pos hk]
    exact h
  · rw [if_neg hk]
    exact List.Nodup.append h (List.nodup_singleton k) (by simpa using hk)

theorem nodup_foldl_jsSetAdd (l : List Str) :
    ∀ acc : List Str, acc.Nodup → (l.foldl jsSetAdd acc).Nodup := by
  induction l with
  | nil => intro acc h; exact h
  | cons k rest ih =>
    intro acc h
    exact ih _ (nodup_jsSetAdd acc k h)

theorem nodup_jsSetOfList (l : List Str) : (jsSetOfList l).Nodup :=
  nodup_foldl_jsSetAdd l [] List.nodup_nil

theorem foldl_jsSetAdd_of_nodup (l : List Str) :
    ∀ acc : List Str, (acc ++ l).Nodup → l.foldl jsSetAdd acc = acc ++ l := by
  induction l with
  | nil => intro acc _; simp
  | cons k rest ih =>
    intro acc h
    have hk : k ∉ acc := by
      intro hmem
      have := List.nodup_append.mp h
      exact this.2.2 hmem (List.mem_cons_self _ _) 
    have hadd : jsSetAdd acc k = acc ++ [k] := by
      unfold jsSetAdd
      rw [if_neg hk]
    rw [List.foldl_cons, hadd, ih (acc ++ [k]) (by simpa using h)]
    simp

theorem jsSetOfList_of_nodup (l : List Str) (h : l.Nodup) : jsSetOfList l = l := by
  unfold jsSetOfList
  rw [foldl_jsSetAdd_of_nodup l [] (by simpa using h)]
  rfl

theorem applyDispatchAction_ledger (send : SendOracle) (sid : Str) (st : DispatchLoop)
    (a : Action) :
    ((applyDispatchAction send sid st a).processedSet = st.processedSet
        ∧ (applyDispatchAction send sid st a).appliedAny = st.appliedAny)
      ∨ (actionKeyOf a ∉ st.processedSet
        ∧ (applyDispatchAction send sid st a).processedSet = st.processedSet ++ [actionKeyOf a]
        ∧ (applyDispatchAction send sid st a).appliedAny = true) := by
  by_cases h1 : ((trim a.workerId).isEmpty || (normalizeDispatchInstruction a.instruction).isEmpty
      || (actionKeyOf a).isEmpty) = true
  · rw [applyDispatchAction_skip send sid st a (Or.inl h1)]
    exact Or.inl ⟨rfl, rfl⟩
  · by_cases h2 : actionKeyOf a ∈ st.processedSet
    · rw [applyDispatchAction_skip send sid st a (Or.inr h2)]
      exact Or.inl ⟨rfl, rfl⟩
    · obtain ⟨f1, f2, -⟩ := applyDispatchAction_fresh send sid st a
        (by simpa using h1) h2
      exact Or.inr ⟨h2, f2, f1⟩

theorem dispatchLoop_ledger (send : SendOracle) (sid : Str) (actions : List Action) :
    ∀ st : DispatchLoop, ∃ added : List Str,
      (actions.foldl (applyDispatchAction send sid) st).processedSet = st.processedSet ++ added
      ∧ (st.processedSet.Nodup →
          (actions.foldl (applyDispatchAction send sid) st).processedSet.Nodup)
      ∧ (actions.foldl (applyDispatchAction send sid) st).appliedAny
          = (st.appliedAny || !added.isEmpty)
      ∧ ∀ k ∈ added, ∃ a ∈ actions, k = actionKeyOf a := by
  induction actions with
  | nil =>
    intro st
    exact ⟨[], by simp, fun h => h, by simp, by simp⟩
  | cons a rest ih =>
    intro st
    obtain ⟨added, e1, e2, e3, e4⟩ := ih (applyDispatchAction send sid st a)
    rw [List.foldl_cons]
    rcases applyDispatchAction_ledger send sid st a with ⟨h1, h2⟩ | ⟨h0, h1, h2⟩
    · refine ⟨added, by rw [e1, h1], fun h => e2 (by rw [h1]; exact h), by rw [e3, h2], ?_⟩
      intro k hk
      obtain ⟨b, hb, hkb⟩ := e4 k hk
      exact ⟨b, List.mem_cons_of_mem _ hb, hkb⟩
    · refine ⟨actionKeyOf a :: added, by rw [e1, h1]; simp, ?_, by rw [e3, h2]; simp, ?_⟩
      · intro h
        apply e2
        rw [h1]
        exact List.Nodup.append h (List.nodup_singleton _) (by simpa using h0)
      · intro k hk
        rcases List.mem_cons.mp hk with rfl | hk
        · exact ⟨a, List.mem_cons_self _ _, rfl⟩
        · obtain ⟨b, hb, hkb⟩ := e4 k hk
          exact ⟨b, List.mem_cons_of_mem _ hb, hkb⟩

theorem length_sliceLast_le {α : Type} (n : Nat) (l : List α) : (sliceLast n l).length ≤ n := by
  unfold sliceLast
  rw [List.length_drop]
  omega

/-- C32: the processed-dispatch ledger is a bounded ordered set.  A call of
`applySupervisorDispatchActions` that returns `false` leaves `processedDispatchKeys` as it
was.  After a call that returns `true` the ledger is the last 360 entries of the list made
of the previously stored keys (read back trimmed, without blanks and repetitions, in their
order: for a ledger of distinct trimmed non-blank keys that is the stored list itself)
followed by the newly processed keys, which are keys of the given directives; that list has
no duplicates, so the ledger has at most 360 entries and no duplicates, and what is cut off
when the cap is exceeded is exactly the front of the list, the oldest entries. -/
theorem applySupervisorDispatchActions_ledger (send : SendOracle) (s : Session)
    (actions : List Action) :
    ((applySupervisorDispatchActions send s actions).changed = false →
      ((applySupervisorDispatchActions send s actions).session.supervisor.getD
        defaultSupervisor).processedDispatchKeys
        = (s.supervisor.getD defaultSupervisor).processedDispatchKeys)
    ∧ ((applySupervisorDispatchActions send s actions).changed = true →
      ∃ stored added : List Str,
        stored = jsSetOfList (((s.supervisor.getD defaultSupervisor).processedDispatchKeys.map
          trim).filter fun k => !k.isEmpty)
        ∧ ((s.supervisor.getD defaultSupervisor).processedDispatchKeys.Nodup →
            (∀ k ∈ (s.supervisor.getD defaultSupervisor).processedDispatchKeys,
              trim k = k ∧ k ≠ []) →
            stored = (s.supervisor.getD defaultSupervisor).processedDispatchKeys)
        ∧ added ≠ []
        ∧ (∀ k ∈ added, ∃ a ∈ actions, k = actionKeyOf a)
        ∧ (stored ++ added).Nodup
        ∧ ((applySupervisorDispatchActions send s actions).session.supervisor.getD
            defaultSupervisor).processedDispatchKeys
          = (stored ++ added).drop ((stored ++ added).length - 360)
        ∧ (((applySupervisorDispatchActions send s actions).session.supervisor.getD
            defaultSupervisor).processedDispatchKeys).length ≤ 360
        ∧ (((applySupervisorDispatchActions send s actions).session.supervisor.getD
            defaultSupervisor).processedDispatchKeys).Nodup) := by
  unfold applySupervisorDispatchActions
  by_cases hlen : actions.length = 0
  · rw [if_pos hlen]
    exact ⟨fun _ => rfl, fun h => (by cases h)⟩
  · rw [if_neg hlen]
    simp only []
    obtain ⟨added, e1, e2, e3, e4⟩ := dispatchLoop_ledger send s.sessionId actions
      (dispatchLoopStart s (s.supervisor.getD defaultSupervisor))
    have hstart : (dispatchLoopStart s (s.supervisor.getD defaultSupervisor)).processedSet
        = jsSetOfList (((s.supervisor.getD defaultSupervisor).processedDispatchKeys.map
          trim).filter fun k => !k.isEmpty) := rfl
    have hany : (dispatchLoopStart s (s.supervisor.getD defaultSupervisor)).appliedAny = false :=
      rfl
    rw [hany, Bool.false_or] at e3
    rw [hstart] at e1 e2
    have hnodup := e2 (nodup_jsSetOfList _)
    generalize (actions.foldl (applyDispatchAction send s.sessionId)
      (dispatchLoopStart s (s.supervisor.getD defaultSupervisor))) = fin at e1 e2 e3 hnodup ⊢
    unfold dispatchLoopEnd
    cases hfin : fin.appliedAny with
    | false =>
      simp only [Bool.not_false, if_true]
      constructor
      · intro _
        rfl
      · intro h
        cases h
    | true =>
      simp only [Bool.not_true, Bool.false_eq_true, if_false]
      refine ⟨fun h => (by cases h), fun _ => ⟨_, added, rfl, ?_, ?_, e4, ?_, ?_, ?_, ?_⟩⟩
      · intro hnd hclean
        have hmap : (s.supervisor.getD defaultSupervisor).processedDispatchKeys.map trim
            = (s.supervisor.getD defaultSupervisor).processedDispatchKeys := by
          conv_rhs => rw [← List.map_id (s.supervisor.getD defaultSupervisor).processedDispatchKeys]
          apply List.map_congr_left
          intro k hk
          exact (hclean k hk).1
        rw [hmap, List.filter_eq_self.mpr, jsSetOfList_of_nodup _ hnd]
        intro k hk
        cases hk2 : k with
        | nil => exact absurd hk2 (hclean k hk).2
        | cons c cs => rfl
      · intro hadded
        rw [hfin, hadded] at e3
        simp at e3
      · rw [← e1]
        exact hnodup
      · dsimp only [Option.getD]
        rw [e1]
        rfl
      · dsimp only [Option.getD]
        exact length_sliceLast_le 360 _
      · dsimp only [Option.getD]
        unfold sliceLast
        exact List.Nodup.sublist (List.drop_sublist _ _) hnodup

theorem applySupervisorDispatchActions_ledger_witness :
    (applySupervisorDispatchActions sendAlwaysOk sampleSession
        [Action.mk "worker-1".toList "run the tests".toList]).changed = true
      ∧ ∃ stored added : List Str,
        stored = jsSetOfList
          (((sampleSession.supervisor.getD defaultSupervisor).processedDispatchKeys.map
            trim).filter fun k => !k.isEmpty)
        ∧ ((sampleSession.supervisor.getD defaultSupervisor).processedDispatchKeys.Nodup →
            (∀ k ∈ (sampleSession.supervisor.getD defaultSupervisor).processedDispatchKeys,
              trim k = k ∧ k ≠ []) →
            stored = (sampleSession.supervisor.getD defaultSupervisor).processedDispatchKeys)
        ∧ added ≠ []
        ∧ (∀ k ∈ added, ∃ a ∈ [Action.mk "worker-1".toList "run the tests".toList],
            k = actionKeyOf a)
        ∧ (stored ++ added).Nodup
        ∧ ((applySupervisorDispatchActions sendAlwaysOk sampleSession
            [Action.mk "worker-1".toList "run the tests".toList]).session.supervisor.getD
            defaultSupervisor).processedDispatchKeys
          = (stored ++ added).drop ((stored ++ added).length - 360)
        ∧ (((applySupervisorDispatchActions sendAlwaysOk sampleSession
            [Action.mk "worker-1".toList "run the tests".toList]).session.supervisor.getD
            defaultSupervisor).processedDispatchKeys).length ≤ 360
        ∧ (((applySupervisorDispatchActions sendAlwaysOk sampleSession
            [Action.mk "worker-1".toList "run the tests".toList]).session.supervisor.getD
            defaultSupervisor).processedDispatchKeys).Nodup :=
  ⟨by decide!, (applySupervisorDispatchActions_ledger sendAlwaysOk sampleSession
    [Action.mk "worker-1".toList "run the tests".toList]).2 (by decide!)⟩


/-! ## Worker indices of a parsed plan -/

theorem positiveNumber_nil : positiveNumber [] = none := by decide

theorem positiveNumber_pos (digits : Str) (n : Nat) (h : positiveNumber digits = some n) :
    0 < n := by
  unfold positiveNumber at h
  split at h
  · split_ifs at h with hp
    injection h with h
    rw [← h]
    exact hp
  · cases h

theorem positiveNumber_exact (digits : Str) (h0 : 0 < digitsValue digits)
    (h : digitsValue digits < 2 ^ 53) : positiveNumber digits = some (digitsValue digits) := by
  unfold positiveNumber
  rw [toDouble_of_lt _ h]
  simp only [h0, if_true]

theorem parseWorkerIndex_amended (env : ParserEnv) (slot : Option Json) (position : Nat) :
    (parseWorkerIndex env slot (some position)).getD position
      = amendedWorkerIndex env slot position := by
  have key : ∀ raw : Str,
      (parseWorkerIndex.parseText env (some position) raw).getD position
        = (match positiveNumber (digitSuffix (trim raw)) with
            | some number => number
            | none =>
              if (trim raw).isEmpty then position
              else
                match env.numberOfString (trim raw) with
                | some n => if 0 < n then n else position
                | none => position) := by
    intro raw
    unfold parseWorkerIndex.parseText
    simp only []
    by_cases he : (trim raw).isEmpty = true
    · have hnil : trim raw = [] := List.isEmpty_iff.mp he
      rw [if_pos he, hnil]
      rfl
    · rw [if_neg he]
      have hsuffix : (if (digitSuffix (trim raw)).isEmpty = true then none
          else positiveNumber (digitSuffix (trim raw))) = positiveNumber (digitSuffix (trim raw)) := by
        by_cases hs : (digitSuffix (trim raw)).isEmpty = true
        · rw [if_pos hs, List.isEmpty_iff.mp hs, positiveNumber_nil]
        · rw [if_neg hs]
      rw [hsuffix]
      cases hpn : positiveNumber (digitSuffix (trim raw)) with
      | some number => rfl
      | none =>
        simp only [he, Bool.false_eq_true, if_false]
        cases hn : env.numberOfString (trim raw) with
        | none => rfl
        | some n =>
          simp only []
          by_cases hp : 0 < n
          · rw [if_pos hp, if_pos hp]; rfl
          · rw [if_neg hp, if_neg hp]; rfl
  unfold amendedWorkerIndex
  cases slot with
  | none => rfl
  | some v =>
    cases v with
    | null => rfl
    | num n =>
      unfold parseWorkerIndex explicitIndex
      simp only []
      by_cases hp : 0 < n
      · rw [if_pos hp, if_pos hp]; rfl
      · rw [if_neg hp, if_neg hp]
        exact key (intToStr n)
    | bool b => exact key (Json.toJsString (.bool b))
    | real r => exact key (Json.toJsString (.real r))
    | str r => exact key (Json.toJsString (.str r))
    | arr r => exact key (Json.toJsString (.arr r))
    | obj r => exact key (Json.toJsString (.obj r))

theorem amendedWorkerIndex_pos (env : ParserEnv) (slot : Option Json) (position : Nat)
    (hp : 0 < position) : 0 < amendedWorkerIndex env slot position := by
  unfold amendedWorkerIndex
  cases he : explicitIndex slot with
  | some n =>
    simp only []
    unfold explicitIndex at he
    split at he
    · split at he
      · rename_i n0 hn
        injection he with he
        rw [← he]
        omega
      · cases he
    · cases he
  | none =>
    simp only []
    cases hpn : positiveNumber (digitSuffix (slotText slot)) with
    | some number => exact positiveNumber_pos _ _ hpn
    | none =>
      simp only []
      split
      · exact hp
      · split
        · split
          · assumption
          · exact hp
        · exact hp

theorem amendedWorkerIndex_exact (env : ParserEnv) (slot : Option Json) (position : Nat)
    (he : explicitIndex slot = none) (h0 : 0 < digitsValue (digitSuffix (slotText slot)))
    (h : digitsValue (digitSuffix (slotText slot)) < 2 ^ 53) :
    amendedWorkerIndex env slot position = digitsValue (digitSuffix (slotText slot)) := by
  unfold amendedWorkerIndex
  rw [he]
  simp only []
  rw [positiveNumber_exact _ h0 h]

/-- C38 (as amended).  For every text, the tasks of a plan returned by
`parseSupervisorPlanFromText` are in non-decreasing order of `workerIndex`, and each has a
`workerIndex` that is a positive integer: the task comes from the object at some 1-based
position of the raw task list of a gathered candidate, and its index is the explicit
positive integer given in the slot (the first of `workerIndex`, `index`, `worker`,
`workerId` that is defined), else the number that the trailing digits of the slot text
write, as `Number` reads it (the nearest double, unless that is 0 or `Infinity`), else the
positive integer `Number(text)` of a non-blank slot text, else that position.  When the
slot holds no explicit positive integer and its trailing digits write a positive number
below `2^53`, the index is that number itself. -/
theorem parseSupervisorPlanFromText_workerIndex (env : ParserEnv) (text : Str)
    (plan : ParsedPlan) (h : parseSupervisorPlanFromText env text = some plan) :
    plan.tasks.Sorted (fun a b => a.workerIndex ≤ b.workerIndex)
      ∧ (∀ t ∈ plan.tasks,
          0 < t.workerIndex
          ∧ ∃ c ∈ collectJsonCandidates env text ["task_plan_json"] true,
              ∃ tasksRaw position raw,
                pickFirstArray [c.field "tasks", c.field "subtasks", c.field "items",
                  c.field "workers"] = some tasksRaw
                ∧ 1 ≤ position ∧ tasksRaw[position - 1]? = some raw
                ∧ t.workerIndex = amendedWorkerIndex env
                    (firstDefined [raw.field "workerIndex", raw.field "index",
                      raw.field "worker", raw.field "workerId"]) position)
      ∧ ∀ (slot : Option Json) (position : Nat), explicitIndex slot = none →
          0 < digitsValue (digitSuffix (slotText slot)) →
          digitsValue (digitSuffix (slotText slot)) < 2 ^ 53 →
          amendedWorkerIndex env slot position = digitsValue (digitSuffix (slotText slot)) := by
  obtain ⟨c, best, hmem, hc, hplan⟩ := parseSupervisorPlanFromText_origin env text plan h
  obtain ⟨-, -, tasksRaw, hraw, hsorted⟩ := normalizePlanCandidate_score env c best hc
  have htasks : plan.tasks = (normalizeTasksFrom env 0 tasksRaw).insertionSort
      (fun a b => a.workerIndex ≤ b.workerIndex) := by
    rw [hplan]
    exact hsorted
  refine ⟨by rw [htasks]; exact sorted_insertionSort_workerIndex _, ?_,
    fun slot position => amendedWorkerIndex_exact env slot position⟩
  intro t ht
  rw [htasks] at ht
  have hin : t ∈ normalizeTasksFrom env 0 tasksRaw :=
    (List.perm_insertionSort _ _).mem_iff.mp ht
  obtain ⟨j, raw, hj, hnorm⟩ := get_normalizeTasksFrom env tasksRaw 0 t hin
  rw [Nat.zero_add] at hnorm
  have hidx := normalizeTask_workerIndex env raw j t hnorm
  rw [parseWorkerIndex_amended] at hidx
  refine ⟨by rw [hidx]; exact amendedWorkerIndex_pos env _ (j + 1) (by omega), c, hmem,
    tasksRaw, j + 1, raw, hraw, by omega, by simpa using hj, hidx⟩

theorem parseSupervisorPlanFromText_workerIndex_witness :
    twoPlansPlan.tasks.Sorted (fun a b => a.workerIndex ≤ b.workerIndex)
      ∧ (∀ t ∈ twoPlansPlan.tasks,
          0 < t.workerIndex
          ∧ ∃ c ∈ collectJsonCandidates sampleParserEnv twoPlansText ["task_plan_json"] true,
              ∃ tasksRaw position raw,
                pickFirstArray [c.field "tasks", c.field "subtasks", c.field "items",
                  c.field "workers"] = some tasksRaw
                ∧ 1 ≤ position ∧ tasksRaw[position - 1]? = some raw
                ∧ t.workerIndex = amendedWorkerIndex sampleParserEnv
                    (firstDefined [raw.field "workerIndex", raw.field "index",
                      raw.field "worker", raw.field "workerId"]) position)
      ∧ ∀ (slot : Option Json) (position : Nat), explicitIndex slot = none →
          0 < digitsValue (digitSuffix (slotText slot)) →
          digitsValue (digitSuffix (slotText slot)) < 2 ^ 53 →
          amendedWorkerIndex sampleParserEnv slot position
            = digitsValue (digitSuffix (slotText slot)) :=
  parseSupervisorPlanFromText_workerIndex sampleParserEnv twoPlansText twoPlansPlan
    (by decide!)

/-- Counterexample to C38 as stated.  The only task of the first plan gives its worker
index as the text `2.0`: it is no explicit integer, its trailing digits form 0, and the
task stands at position 1, so the claim describes the index 1; the parser returns 2, which
is `Number("2.0")`.  The only task of the second plan gives the text `9007199254740993`:
the claim describes the integer formed by these digits; the parser returns
9007199254740992, the double that `Number` reads. -/
theorem parseSupervisorPlanFromText_workerIndex_counterexample :
    (parseSupervisorPlanFromText decimalParserEnv decimalIndexText
        = some { planSummary := []
                 tasks := [ParsedTask.mk 2 "子任务 1".toList "run tests".toList []] }
      ∧ claimedWorkerIndex (some (.str "2.0".toList)) 1 = 1)
    ∧ (parseSupervisorPlanFromText sampleParserEnv roundedIndexText
        = some { planSummary := []
                 tasks := [ParsedTask.mk 9007199254740992 "子任务 1".toList
                   "run tests".toList []] }
      ∧ claimedWorkerIndex (some (.str "9007199254740993".toList)) 1 = 9007199254740993) := by
  decide!


/-! ## Line breaks in dispatched messages -/

theorem mapWsRuns_gap (f : Str → Str) (gap rest : Str) (hg : ∀ c ∈ gap, isJsSpace c = true) :
    ∀ run, mapWsRuns f run (gap ++ rest) = mapWsRuns f (run ++ gap) rest := by
  induction gap with
  | nil => intro run; simp
  | cons c cs ih =>
    intro run
    have hc : isJsSpace c = true := hg c (List.mem_cons_self _ _)
    rw [List.cons_append, mapWsRuns, if_pos hc, ih (fun x hx => hg x (List.mem_cons_of_mem _ hx))]
    simp

theorem mapWsRuns_word (f : Str → Str) (word rest : Str)
    (hw : ∀ c ∈ word, isJsSpace c = false) (hne : word ≠ []) :
    ∀ run, mapWsRuns f run (word ++ rest)
      = (if run.isEmpty then [] else f run) ++ word ++ mapWsRuns f [] rest := by
  induction word with
  | nil => exact absurd rfl hne
  | cons c cs ih =>
    intro run
    have hc : isJsSpace c = false := hw c (List.mem_cons_self _ _)
    rw [List.cons_append, mapWsRuns, if_neg (by rw [hc]; decide)]
    cases cs with
    | nil => simp
    | cons d ds =>
      rw [ih (fun x hx => hw x (List.mem_cons_of_mem _ hx)) (List.cons_ne_nil _ _) []]
      simp

theorem mapWsRuns_pieces (f : Str → Str) (pieces : List (Str × Str))
    (hp : ∀ p ∈ pieces, p.1 ≠ [] ∧ (∀ c ∈ p.1, isJsSpace c = false)
      ∧ ∀ c ∈ p.2, isJsSpace c = true) :
    ∀ run, mapWsRuns f run (pieces.map fun p => p.1 ++ p.2).flatten
      = (if run.isEmpty then [] else f run)
        ++ (pieces.map fun p => p.1 ++ (if p.2.isEmpty then [] else f p.2)).flatten := by
  induction pieces with
  | nil =>
    intro run
    simp [mapWsRuns]
  | cons p rest ih =>
    intro run
    obtain ⟨h1, h2, h3⟩ := hp p (List.mem_cons_self _ _)
    rw [List.map_cons, List.flatten_cons, List.append_assoc, mapWsRuns_word f p.1 _ h2 h1,
      mapWsRuns_gap f p.2 _ h3, List.nil_append,
      ih (fun q hq => hp q (List.mem_cons_of_mem _ hq)) p.2]
    simp

theorem wellSpaced_gaps (pieces : List (Str × Str)) (h : WellSpaced pieces) :
    ∀ p ∈ pieces, ∀ c ∈ p.2, isJsSpace c = true := by
  induction pieces with
  | nil => intro p hp; cases hp
  | cons q rest ih =>
    intro p hp
    cases rest with
    | nil =>
      rw [List.mem_singleton] at hp
      subst hp
      exact h.2.2
    | cons r more =>
      rcases List.mem_cons.mp hp with hp | hp
      · subst hp
        exact h.2.2.2.1
      · exact ih h.2.2.2.2 p hp

theorem toSingleLine_pieces (pieces : List (Str × Str)) (h : WellSpaced pieces)
    (hlast : ∀ p, pieces.getLast? = some p → p.2 = []) :
    toSingleLine (spacedText [] pieces)
      = spacedText [] (pieces.map fun p => (p.1, flattenGap p.2)) := by
  have hwords := wellSpaced_words pieces h
  have hgaps := wellSpaced_gaps pieces h
  have step1 := mapWsRuns_pieces (fun run => if '\n' ∈ run then [' '] else run) pieces
    (fun p hp => ⟨(hwords p hp).1, (hwords p hp).2, hgaps p hp⟩) []
  have hmid : ∀ p ∈ pieces.map (fun p : Str × Str =>
      (p.1, if p.2.isEmpty then [] else (if '\n' ∈ p.2 then [' '] else p.2))),
      p.1 ≠ [] ∧ (∀ c ∈ p.1, isJsSpace c = false) ∧ ∀ c ∈ p.2, isJsSpace c = true := by
    intro p hp
    obtain ⟨q, hq, rfl⟩ := List.mem_map.mp hp
    refine ⟨(hwords q hq).1, (hwords q hq).2, ?_⟩
    intro c hc
    dsimp only at hc
    split_ifs at hc
    · cases hc
    · rw [List.mem_singleton] at hc
      subst hc
      decide
    · exact hgaps q hq c hc
  have step2 := mapWsRuns_pieces (fun run => if 2 ≤ run.length then [' '] else run) _ hmid []
  have hcomp : ∀ gap : Str,
      (if (if gap.isEmpty then [] else (if '\n' ∈ gap then [' '] else gap)).isEmpty then []
        else (if 2 ≤ (if gap.isEmpty then [] else (if '\n' ∈ gap then [' '] else gap)).length
          then [' '] else (if gap.isEmpty then [] else (if '\n' ∈ gap then [' '] else gap))))
      = flattenGap gap := by
    intro gap
    unfold flattenGap
    cases gap with
    | nil => simp
    | cons c cs =>
      by_cases hn : '\n' ∈ c :: cs
      · simp [hn]
      · by_cases hl : 2 ≤ (c :: cs).length
        · simp [hn, hl]
        · simp [hn, hl]
  have hflat : (pieces.map fun p => p.1 ++ p.2).flatten
      = ((pieces.map fun p : Str × Str => (p.1, p.2)).map fun p => p.1 ++ p.2).flatten := by
    simp
  unfold toSingleLine spacedText
  simp only [List.nil_append]
  rw [step1]
  simp only [List.isEmpty_nil, if_true, List.nil_append]
  have hre : (pieces.map fun p : Str × Str =>
        p.1 ++ (if p.2.isEmpty then [] else (if '\n' ∈ p.2 then [' '] else p.2))).flatten
      = ((pieces.map fun p : Str × Str =>
          (p.1, if p.2.isEmpty then [] else (if '\n' ∈ p.2 then [' '] else p.2))).map
            fun p => p.1 ++ p.2).flatten := by
    simp [List.map_map, Function.comp_def]
  rw [hre, step2]
  simp only [List.isEmpty_nil, if_true, List.nil_append, List.map_map, Function.comp_def, hcomp]
  apply trim_eq_self_of_ends
  · intro c hc
    cases pieces with
    | nil => cases hc
    | cons p rest =>
      obtain ⟨hp1, hp2⟩ := hwords p (List.mem_cons_self _ _)
      cases hw : p.1 with
      | nil => exact absurd hw hp1
      | cons d ds =>
        simp only [List.map_cons, List.flatten_cons, hw, List.cons_append, List.head?_cons,
          Option.some.injEq] at hc
        subst hc
        exact hp2 d (by rw [hw]; exact List.mem_cons_self _ _)
  · intro c hc
    rcases List.eq_nil_or_concat pieces with hnil | ⟨init, last, hcat⟩
    · subst hnil
      cases hc
    · rw [List.concat_eq_append] at hcat
      subst hcat
      have hl2 : last.2 = [] := hlast last (by simp)
      obtain ⟨hw1, hw2⟩ := hwords last (by simp)
      have hfg : flattenGap last.2 = [] := by rw [hl2]; rfl
      simp only [List.map_append, List.map_cons, List.map_nil, List.flatten_append,
        List.flatten_cons, List.flatten_nil, List.append_nil, hfg] at hc
      rw [List.getLast?_append_of_ne_nil _ hw1] at hc
      exact hw2 c (List.mem_of_mem_getLast? hc)

/-- C37 (as amended).  The text `dispatchPlan` sends for a task is `toSingleLine` of the
assembled message.  It contains no line feed, and when the message is read as words
separated by white-space runs, the sent text has the same words and every run that holds a
line feed (one break or several, LF or CRLF, with the blanks around them) has become
exactly one blank; a run without line feed becomes one blank when it has two or more
characters and is kept otherwise. -/
theorem dispatchPlan_line_breaks (send : SendOracle) (sessionId : Str) (plan : Plan) :
    ((dispatchPlan send sessionId plan).sent.map fun call => call.text)
        = plan.tasks.map (fun task => toSingleLine (dispatchMessage task))
      ∧ (∀ task : PlanTask, '\n' ∉ toSingleLine (dispatchMessage task))
      ∧ (∀ (task : PlanTask) (pieces : List (Str × Str)), WellSpaced pieces →
          (∀ p, pieces.getLast? = some p → p.2 = []) →
          dispatchMessage task = spacedText [] pieces →
          toSingleLine (dispatchMessage task)
            = spacedText [] (pieces.map fun p => (p.1, flattenGap p.2)))
      ∧ ∀ gap : Str, '\n' ∈ gap → flattenGap gap = [' '] := by
  refine ⟨?_, fun task => toSingleLine_no_line_feed _, ?_, ?_⟩
  · unfold dispatchPlan
    rw [dispatchPlan_sent_aux]
    simp only [List.nil_append, List.map_map, Function.comp_def]
    rfl
  · intro task pieces hw hlast hmsg
    rw [hmsg]
    exact toSingleLine_pieces pieces hw hlast
  · intro gap hg
    unfold flattenGap
    rw [if_pos (Or.inl hg)]

theorem dispatchPlan_line_breaks_witness :
    WellSpaced brokenLinesPieces
      ∧ dispatchMessage brokenLinesTask = spacedText [] brokenLinesPieces
      ∧ toSingleLine (dispatchMessage brokenLinesTask)
          = spacedText [] (brokenLinesPieces.map fun p => (p.1, flattenGap p.2)) :=
  ⟨by decide!, by decide!,
    (dispatchPlan_line_breaks sendAlwaysOk "session-1".toList
      { planSummary := [], tasks := [brokenLinesTask] }).2.2.1 brokenLinesTask
      brokenLinesPieces (by decide!) (by decide!) (by decide!)⟩

/-- Counterexample to C37 as stated: a carriage return that stands alone between two
letters of the title is still in the text that is sent, and two line feeds in a row in the
instruction have become one blank together, not one each. -/
theorem dispatchPlan_line_breaks_counterexample :
    (∃ call ∈ (dispatchPlan sendAlwaysOk "session-1".toList
        { planSummary := [], tasks := [carriageReturnTask] }).sent, '\r' ∈ call.text)
      ∧ ((dispatchPlan sendAlwaysOk "session-1".toList
          { planSummary := [], tasks := [brokenLinesTask] }).sent.map fun call => call.text)
        = [("你是 worker-1。 子任务标题：T。 依赖：无。 run tests now "
            ++ "收到后请直接开始执行，并持续输出进展。").toList] := by
  decide!


/-! ## Planning and stopping -/

theorem getSession_updateSession (store : List SessionRecord) (sessionId : Str)
    (f : SessionRecord → SessionRecord) (hf : ∀ s, (f s).sessionId = s.sessionId) :
    getSession (updateSession store sessionId f) sessionId
      = (getSession store sessionId).map f := by
  unfold getSession updateSession
  induction store with
  | nil => rfl
  | cons s rest ih =>
    rw [List.map_cons]
    cases hs : (s.sessionId == sessionId) with
    | true =>
      have hfs : ((f s).sessionId == sessionId) = true := by rw [hf]; exact hs
      simp only [if_true, List.find?_cons, hfs, hs, Option.map_some']
    | false =>
      simp only [Bool.false_eq_true, if_false, List.find?_cons, hs]
      exact ih

theorem pushSnapshot_store (st : Lifecycle) (sessionId : Str) :
    (pushSnapshot st sessionId).store = st.store
      ∧ (pushSnapshot st sessionId).sent = st.sent
      ∧ (pushSnapshot st sessionId).watchers = st.watchers
      ∧ (pushSnapshot st sessionId).stored = st.stored := by
  unfold pushSnapshot
  cases getSession st.store sessionId <;> exact ⟨rfl, rfl, rfl, rfl⟩

theorem getSession_stopSession (st : Lifecycle) (sessionId : Str) :
    getSession (stopSession st sessionId).store sessionId
        = (getSession st.store sessionId).map
            (fun session => { session with status := "stopped".toList })
      ∧ (stopSession st sessionId).sent = st.sent := by
  unfold stopSession
  simp only []
  rw [(pushSnapshot_store _ sessionId).1, (pushSnapshot_store _ sessionId).2.1]
  refine ⟨?_, rfl⟩
  show getSession (updateSession _ sessionId _) sessionId = _
  rw [getSession_updateSession]
  · rfl
  · intro s
    rfl

theorem bootstrapApply_session (env : LifecycleEnv) (st : Lifecycle) (sessionId trigger : Str)
    (plan : Plan) :
    (getSession (bootstrapApply env st sessionId trigger plan).store sessionId).map
        (fun s => s.status)
      = (getSession st.store sessionId).map (fun _ =>
          if (dispatchPlan (fun n call => env.sendInput (st.sent.length + n) call) sessionId
              plan).results.all (fun item => item.ok)
          then "running".toList else "partial_error".toList)
    ∧ (bootstrapApply env st sessionId trigger plan).sent
      = st.sent ++ plan.tasks.map fun task =>
          SendCall.mk sessionId task.workerId (dispatchContent task) true := by
  unfold bootstrapApply
  simp only []
  rw [(pushSnapshot_store _ sessionId).1, (pushSnapshot_store _ sessionId).2.1]
  refine ⟨?_, ?_⟩
  · show (getSession (updateSession (updateSession st.store sessionId _) sessionId _)
      sessionId).map _ = _
    rw [getSession_updateSession, getSession_updateSession]
    · cases getSession st.store sessionId <;> rfl
    · intro s
      rfl
    · intro s
      rfl
  · show st.sent ++ (dispatchPlan _ sessionId plan).sent = _
    unfold dispatchPlan
    rw [dispatchPlan_sent_aux]
    rfl

theorem planningFailed_session (env : LifecycleEnv) (st : Lifecycle)
    (sessionId trigger message : Str) :
    (getSession (planningFailed env st sessionId trigger message).store sessionId).map
        (fun s => s.status)
      = (getSession st.store sessionId).map (fun _ => "error".toList) := by
  unfold planningFailed
  simp only []
  rw [(pushSnapshot_store _ sessionId).1]
  show (getSession (updateSession st.store sessionId _) sessionId).map _ = _
  rw [getSession_updateSession]
  · cases getSession st.store sessionId <;> rfl
  · intro s
    rfl

/-- C34 (what the code does).  Whatever the session was, once `stopSession` has set its
status to `stopped` while a planning cycle is in flight, the completion of that cycle
writes a new status over it: when the planner returned a plan, `bootstrapSession` sends
one message per task to the workers and sets the status to `running` or `partial_error`;
when the planner threw, `runPlanningCycle` sets the status to `error`.  No branch reads
the status before it writes; the last part is the run on a session with two workers that
was stopped while its first plan was awaited. -/
theorem completePlanningCycle_after_stop (env : LifecycleEnv) (st : Lifecycle)
    (sessionId trigger : Str) :
    (getSession (stopSession st sessionId).store sessionId).map (fun s => s.status)
        = (getSession st.store sessionId).map (fun _ => "stopped".toList)
      ∧ (∀ plan : Plan,
          (getSession (completePlanningCycle env (stopSession st sessionId) sessionId trigger
              (.planned plan)).store sessionId).map (fun s => s.status)
            = (getSession st.store sessionId).map (fun _ =>
                if (dispatchPlan (fun n call => env.sendInput (st.sent.length + n) call)
                    sessionId plan).results.all (fun item => item.ok)
                then "running".toList else "partial_error".toList)
          ∧ (completePlanningCycle env (stopSession st sessionId) sessionId trigger
              (.planned plan)).sent
            = st.sent ++ plan.tasks.map fun task =>
                SendCall.mk sessionId task.workerId (dispatchContent task) true)
      ∧ (∀ message : Str,
          (getSession (completePlanningCycle env (stopSession st sessionId) sessionId trigger
              (.thrown message)).store sessionId).map (fun s => s.status)
            = (getSession st.store sessionId).map (fun _ => "error".toList))
      ∧ (getSession (completePlanningCycle lostRuntimeEnv
            (stopSession planningLifecycle "session-1".toList) "session-1".toList
            "initial".toList (.planned twoTaskPlan)).store "session-1".toList).map
          (fun s => (s.status, s.workers.map fun w => w.status))
        = some ("partial_error".toList, ["error".toList, "error".toList]) := by
  obtain ⟨hstop, hsent⟩ := getSession_stopSession st sessionId
  refine ⟨?_, ?_, ?_, by decide!⟩
  · rw [hstop]
    cases getSession st.store sessionId <;> rfl
  · intro plan
    obtain ⟨h1, h2⟩ := bootstrapApply_session env (stopSession st sessionId) sessionId trigger
      plan
    refine ⟨?_, ?_⟩
    · show (getSession (bootstrapApply env (stopSession st sessionId) sessionId trigger
        plan).store sessionId).map _ = _
      rw [h1, hstop, hsent]
      cases getSession st.store sessionId <;> rfl
    · show (bootstrapApply env (stopSession st sessionId) sessionId trigger plan).sent = _
      rw [h2, hsent]
  · intro message
    show (getSession (planningFailed env (stopSession st sessionId) sessionId trigger
      message).store sessionId).map _ = _
    rw [planningFailed_session, hstop]
    cases getSession st.store sessionId <;> rfl


/-! ## Recovery on startup -/

theorem getSession_sessionId (store : List SessionRecord) (sessionId : Str) (s : SessionRecord)
    (h : getSession store sessionId = some s) : s.sessionId = sessionId := by
  unfold getSession at h
  have := List.find?_some h
  simpa using this

theorem getSession_updateSession_ne (store : List SessionRecord) (other sessionId : Str)
    (f : SessionRecord → SessionRecord) (hf : ∀ s, (f s).sessionId = s.sessionId)
    (hne : other ≠ sessionId) :
    getSession (updateSession store other f) sessionId = getSession store sessionId := by
  unfold getSession updateSession
  induction store with
  | nil => rfl
  | cons s rest ih =>
    rw [List.map_cons]
    cases hs : (s.sessionId == other) with
    | true =>
      have hso : s.sessionId = other := by simpa using hs
      have h1 : ((f s).sessionId == sessionId) = false := by
        rw [hf, hso]
        simpa using hne
      have h2 : (s.sessionId == sessionId) = false := by
        rw [hso]
        simpa using hne
      simp only [if_true, List.find?_cons, h1, h2]
      exact ih
    | false =>
      simp only [Bool.false_eq_true, if_false, List.find?_cons]
      rw [ih]

theorem markRecoveryFailed_sessionId (now phase error message : Str) (s : SessionRecord) :
    (markRecoveryFailed now phase error message s).sessionId = s.sessionId := rfl

theorem appendEvent_frame (st : Lifecycle) (sessionId type detail : Str) (flag : Bool) :
    (appendEvent st sessionId type detail flag).store = st.store
      ∧ (appendEvent st sessionId type detail flag).watchers = st.watchers := ⟨rfl, rfl⟩

theorem pushEvent_frame (st : Lifecycle) (sessionId type detail : Str) (flag : Bool) :
    (pushEvent st sessionId type detail flag).store = st.store
      ∧ (pushEvent st sessionId type detail flag).watchers = st.watchers := ⟨rfl, rfl⟩

/-- The loop body for another session id leaves a session and its watcher as they are. -/
theorem recoverSession_other (env : LifecycleEnv) (st : Lifecycle) (other sessionId : Str)
    (hne : other ≠ sessionId) :
    getSession (recoverSession env st other).store sessionId = getSession st.store sessionId
      ∧ (sessionId ∈ (recoverSession env st other).watchers ↔ sessionId ∈ st.watchers) := by
  unfold recoverSession
  cases hg : getSession st.store other with
  | none => exact ⟨rfl, Iff.rfl⟩
  | some session =>
    simp only []
    split
    · exact ⟨rfl, Iff.rfl⟩
    · split
      · rw [(pushSnapshot_store _ other).1, (pushSnapshot_store _ other).2.2.1]
        exact ⟨getSession_updateSession_ne _ _ _ _ (fun _ => rfl) hne, Iff.rfl⟩
      · split
        · rw [(pushSnapshot_store _ other).1, (pushSnapshot_store _ other).2.2.1]
          exact ⟨getSession_updateSession_ne _ _ _ _ (fun _ => rfl) hne, Iff.rfl⟩
        · rw [(pushSnapshot_store _ other).1, (pushSnapshot_store _ other).2.2.1]
          have hwatch : sessionId ∈ (startWatcher st other).watchers ↔ sessionId ∈ st.watchers := by
            unfold startWatcher
            split
            · exact Iff.rfl
            · simp only [List.mem_append, List.mem_singleton]
              constructor
              · rintro (h | h)
                · exact h
                · exact absurd h.symm hne
              · exact Or.inl
          have hstore : (startWatcher st other).store = st.store := by
            unfold startWatcher
            split <;> rfl
          split
          · refine ⟨?_, hwatch⟩
            show getSession (updateSession (startWatcher st other).store other _) sessionId = _
            rw [getSession_updateSession_ne _ _ _ _ (markRecoveryFailed_sessionId _ _ _ _) hne,
              hstore]
          · refine ⟨?_, hwatch⟩
            show getSession (startWatcher st other).store sessionId = _
            rw [hstore]

theorem recoverSessions_others (env : LifecycleEnv) (ids : List Str) (sessionId : Str)
    (hnot : sessionId ∉ ids) :
    ∀ st : Lifecycle,
      getSession (ids.foldl (recoverSession env) st).store sessionId
          = getSession st.store sessionId
        ∧ (sessionId ∈ (ids.foldl (recoverSession env) st).watchers ↔ sessionId ∈ st.watchers) := by
  induction ids with
  | nil => intro st; exact ⟨rfl, Iff.rfl⟩
  | cons other rest ih =>
    intro st
    have hne : other ≠ sessionId := fun h => hnot (by rw [h]; exact List.mem_cons_self _ _)
    obtain ⟨h1, h2⟩ := recoverSession_other env st other sessionId hne
    obtain ⟨h3, h4⟩ := ih (fun h => hnot (List.mem_cons_of_mem _ h)) (recoverSession env st other)
    rw [List.foldl_cons]
    exact ⟨h3.trans h1, h4.trans h2⟩

/-- The loop body for the session's own id. -/
theorem recoverSession_self (env : LifecycleEnv) (st : Lifecycle) (sessionId : Str)
    (s : SessionRecord) (hs : getSession st.store sessionId = some s)
    (hrec : isRecoverableStatus s.status = true) (hw : sessionId ∉ st.watchers) :
    ∃ after, getSession (recoverSession env st sessionId).store sessionId = some after
      ∧ (recoveryLost env s = true →
          after.status = "error".toList ∧ after.planning.state = "failed".toList
            ∧ after.planning.phase = "runtime-lost".toList
            ∧ sessionId ∉ (recoverSession env st sessionId).watchers)
      ∧ (recoveryLost env s = false → midPlanning s = true →
          after.status = "error".toList ∧ after.planning.state = "failed".toList
            ∧ after.planning.phase = "recovery-pending".toList
            ∧ sessionId ∈ (recoverSession env st sessionId).watchers)
      ∧ (recoveryLost env s = false → midPlanning s = false →
          after = s ∧ sessionId ∈ (recoverSession env st sessionId).watchers) := by
  have hid := getSession_sessionId _ _ _ hs
  have hstart : (startWatcher st sessionId).watchers = st.watchers ++ [sessionId]
      ∧ (startWatcher st sessionId).store = st.store := by
    unfold startWatcher
    rw [if_neg hw]
    exact ⟨rfl, rfl⟩
  cases h1 : (s.runtime != "tmux".toList || (trim s.tmuxSession).isEmpty) with
  | true =>
    have hlost : recoveryLost env s = true := by
      unfold recoveryLost
      rw [h1]
      rfl
    have hrun : recoverSession env st sessionId
        = pushSnapshot
          (appendEvent { st with
            store := updateSession st.store sessionId
              (markRecoveryFailed env.nowIso "runtime-lost".toList
                "应用重启后无法恢复该会话运行时".toList "应用重启后无法恢复该会话运行时".toList) }
            sessionId "session_recover_failed".toList "unsupported-runtime".toList false)
          sessionId := by
      unfold recoverSession
      rw [hs]
      simp only [hrec, h1, Bool.not_true, Bool.false_eq_true, if_false, if_true]
    rw [hrun, (pushSnapshot_store _ sessionId).1, (pushSnapshot_store _ sessionId).2.2.1]
    refine ⟨markRecoveryFailed env.nowIso "runtime-lost".toList
      "应用重启后无法恢复该会话运行时".toList "应用重启后无法恢复该会话运行时".toList s, ?_, ?_, ?_, ?_⟩
    · show getSession (updateSession st.store sessionId _) sessionId = _
      rw [getSession_updateSession _ _ _ (markRecoveryFailed_sessionId _ _ _ _), hs]
      rfl
    · intro _
      exact ⟨rfl, rfl, rfl, hw⟩
    · intro h
      rw [hlost] at h
      cases h
    · intro h
      rw [hlost] at h
      cases h
  | false =>
    cases h2 : (env.attachTmuxSession sessionId (trim s.tmuxSession)
        ("supervisor".toList :: (s.workers.map fun item => item.workerId).filter
          fun (w : Str) => !w.isEmpty)).ok with
    | false =>
      have hlost : recoveryLost env s = true := by
        unfold recoveryLost
        rw [h1, hid, h2]
        rfl
      have hrun : recoverSession env st sessionId
          = pushSnapshot
            (appendEvent { st with
              store := updateSession st.store sessionId
                (markRecoveryFailed env.nowIso "runtime-lost".toList
                  (strOr (env.attachTmuxSession sessionId (trim s.tmuxSession)
                    ("supervisor".toList :: (s.workers.map fun item => item.workerId).filter
                      fun (w : Str) => !w.isEmpty)).error "会话恢复失败".toList)
                  (strOr (env.attachTmuxSession sessionId (trim s.tmuxSession)
                    ("supervisor".toList :: (s.workers.map fun item => item.workerId).filter
                      fun (w : Str) => !w.isEmpty)).error "会话恢复失败".toList)) }
              sessionId "session_recover_failed".toList
              (strOr (env.attachTmuxSession sessionId (trim s.tmuxSession)
                ("supervisor".toList :: (s.workers.map fun item => item.workerId).filter
                  fun (w : Str) => !w.isEmpty)).error "attach-failed".toList) false)
            sessionId := by
        unfold recoverSession
        rw [hs]
        simp only [hrec, h1, h2, Bool.not_true, Bool.not_false, Bool.false_eq_true, if_false,
          if_true]
      rw [hrun, (pushSnapshot_store _ sessionId).1, (pushSnapshot_store _ sessionId).2.2.1]
      refine ⟨markRecoveryFailed env.nowIso "runtime-lost".toList
        (strOr (env.attachTmuxSession sessionId (trim s.tmuxSession)
        ("supervisor".toList :: (s.workers.map fun item => item.workerId).filter
          fun (w : Str) => !w.isEmpty)).error "会话恢复失败".toList)
        (strOr (env.attachTmuxSession sessionId (trim s.tmuxSession)
        ("supervisor".toList :: (s.workers.map fun item => item.workerId).filter
          fun (w : Str) => !w.isEmpty)).error "会话恢复失败".toList) s, ?_, ?_, ?_, ?_⟩
      · show getSession (updateSession st.store sessionId _) sessionId = _
        rw [getSession_updateSession _ _ _ (markRecoveryFailed_sessionId _ _ _ _), hs]
        rfl
      · intro _
        exact ⟨rfl, rfl, rfl, hw⟩
      · intro h
        rw [hlost] at h
        cases h
      · intro h
        rw [hlost] at h
        cases h
    | true =>
      have hlost : recoveryLost env s = false := by
        unfold recoveryLost
        rw [h1, hid, h2]
        rfl
      cases h3 : (s.status == "planning".toList || isPlanningBusy s.planning.state) with
      | true =>
        have hrun : recoverSession env st sessionId
            = pushSnapshot
              (pushEvent
                (appendEvent { startWatcher st sessionId with
                  store := updateSession (startWatcher st sessionId).store sessionId
                    (markRecoveryFailed env.nowIso "recovery-pending".toList
                      "应用重启后已暂停自动规划，请手动重新触发规划".toList
                      "应用已恢复连接，但未自动继续规划。请手动点击“重新触发规划”。".toList) }
                  sessionId "session_recovered".toList (trim s.tmuxSession) true)
                sessionId "session-recovered".toList (trim s.tmuxSession) true)
              sessionId := by
          unfold recoverSession
          rw [hs]
          simp only [hrec, h1, h2, h3, Bool.not_true, Bool.false_eq_true, if_false, if_true]
        rw [hrun, (pushSnapshot_store _ sessionId).1, (pushSnapshot_store _ sessionId).2.2.1]
        refine ⟨markRecoveryFailed env.nowIso "recovery-pending".toList
          "应用重启后已暂停自动规划，请手动重新触发规划".toList
          "应用已恢复连接，但未自动继续规划。请手动点击“重新触发规划”。".toList s, ?_, ?_, ?_, ?_⟩
        · show getSession (updateSession (startWatcher st sessionId).store sessionId _)
            sessionId = _
          rw [getSession_updateSession _ _ _ (markRecoveryFailed_sessionId _ _ _ _),
            hstart.2, hs]
          rfl
        · intro h
          rw [hlost] at h
          cases h
        · intro _ _
          refine ⟨rfl, rfl, rfl, ?_⟩
          show sessionId ∈ (startWatcher st sessionId).watchers
          rw [hstart.1]
          simp
        · intro _ h
          unfold midPlanning at h
          rw [h3] at h
          cases h
      | false =>
        have hrun : recoverSession env st sessionId
            = pushSnapshot
              (pushEvent
                (appendEvent (startWatcher st sessionId)
                  sessionId "session_recovered".toList (trim s.tmuxSession) false)
                sessionId "session-recovered".toList (trim s.tmuxSession) false)
              sessionId := by
          unfold recoverSession
          rw [hs]
          simp only [hrec, h1, h2, h3, Bool.not_true, Bool.false_eq_true, if_false, if_true]
        rw [hrun, (pushSnapshot_store _ sessionId).1, (pushSnapshot_store _ sessionId).2.2.1]
        refine ⟨s, ?_, ?_, ?_, ?_⟩
        · show getSession (startWatcher st sessionId).store sessionId = _
          rw [hstart.2, hs]
        · intro h
          rw [hlost] at h
          cases h
        · intro _ h
          unfold midPlanning at h
          rw [h3] at h
          cases h
        · intro _ _
          refine ⟨rfl, ?_⟩
          show sessionId ∈ (startWatcher st sessionId).watchers
          rw [hstart.1]
          simp

/-- C35.  After `recoverSessionsOnStartup`, every persisted session whose status was one
of `planning`, `running`, `partial_error`, `error` is still stored, and: if its runtime is
not tmux, its tmux handle is blank or re-attachment fails, it has status `error`, planning
state `failed`, phase `runtime-lost`, and no watcher was started for it; if re-attachment
succeeds and it was mid-planning (status `planning`, or planning state `running` or
`retrying`), it has status `error`, planning state `failed` and phase `recovery-pending`
(and is watched); otherwise the record is unchanged and the session is watched.  In no
case is its status `planning` afterwards.  The session ids are those the store lists, each
once, and no watcher runs before the recovery. -/
theorem recoverSessionsOnStartup_outcome (env : LifecycleEnv) (sessionIds : List Str)
    (st : Lifecycle) (sessionId : Str) (s : SessionRecord)
    (hids : sessionIds.Nodup) (hmem : sessionId ∈ sessionIds)
    (hs : getSession st.store sessionId = some s)
    (hrec : isRecoverableStatus s.status = true) (hw : sessionId ∉ st.watchers) :
    ∃ after, getSession (recoverSessionsOnStartup env sessionIds st).store sessionId = some after
      ∧ (recoveryLost env s = true →
          after.status = "error".toList ∧ after.planning.state = "failed".toList
            ∧ after.planning.phase = "runtime-lost".toList
            ∧ sessionId ∉ (recoverSessionsOnStartup env sessionIds st).watchers)
      ∧ (recoveryLost env s = false → midPlanning s = true →
          after.status = "error".toList ∧ after.planning.state = "failed".toList
            ∧ after.planning.phase = "recovery-pending".toList
            ∧ sessionId ∈ (recoverSessionsOnStartup env sessionIds st).watchers)
      ∧ (recoveryLost env s = false → midPlanning s = false →
          after = s ∧ sessionId ∈ (recoverSessionsOnStartup env sessionIds st).watchers)
      ∧ after.status ≠ "planning".toList := by
  obtain ⟨pre, post, hsplit⟩ := List.append_of_mem hmem
  subst hsplit
  have hnd := List.nodup_append.mp hids
  have hpre : sessionId ∉ pre := fun h => hnd.2.2 h (List.mem_cons_self _ _)
  have hpost : sessionId ∉ post := (List.nodup_cons.mp hnd.2.1).1
  unfold recoverSessionsOnStartup
  rw [List.foldl_append, List.foldl_cons]
  obtain ⟨p1, p2⟩ := recoverSessions_others env pre sessionId hpre st
  obtain ⟨after, a1, a2, a3, a4⟩ := recoverSession_self env (pre.foldl (recoverSession env) st)
    sessionId s (by rw [p1]; exact hs) hrec (fun h => hw (p2.mp h))
  obtain ⟨q1, q2⟩ := recoverSessions_others env post sessionId hpost
    (recoverSession env (pre.foldl (recoverSession env) st) sessionId)
  refine ⟨after, by rw [q1]; exact a1, ?_, ?_, ?_, ?_⟩
  · intro h
    obtain ⟨b1, b2, b3, b4⟩ := a2 h
    exact ⟨b1, b2, b3, fun hin => b4 (q2.mp hin)⟩
  · intro h hm
    obtain ⟨b1, b2, b3, b4⟩ := a3 h hm
    exact ⟨b1, b2, b3, q2.mpr b4⟩
  · intro h hm
    obtain ⟨b1, b2⟩ := a4 h hm
    exact ⟨b1, q2.mpr b2⟩
  · cases hl : recoveryLost env s with
    | true =>
      rw [(a2 hl).1]
      decide
    | false =>
      cases hm : midPlanning s with
      | true =>
        rw [(a3 hl hm).1]
        decide
      | false =>
        rw [(a4 hl hm).1]
        intro hp
        unfold midPlanning at hm
        rw [hp] at hm
        cases hm

theorem recoverSessionsOnStartup_outcome_witness :
    ∃ after, getSession (recoverSessionsOnStartup lostRuntimeEnv ["session-1".toList]
        persistedLifecycle).store "session-1".toList = some after
      ∧ after.status = "error".toList ∧ after.planning.state = "failed".toList
      ∧ after.planning.phase = "runtime-lost".toList
      ∧ "session-1".toList ∉ (recoverSessionsOnStartup lostRuntimeEnv ["session-1".toList]
          persistedLifecycle).watchers
      ∧ after.status ≠ "planning".toList :=
  match recoverSessionsOnStartup_outcome lostRuntimeEnv ["session-1".toList] persistedLifecycle
      "session-1".toList planningRecord
      (by decide) (by decide) (by decide!) (by decide!) (by decide) with
  | ⟨after, h1, h2, _, _, h5⟩ => ⟨after, h1, (h2 (by decide!)).1, (h2 (by decide!)).2.1,
      (h2 (by decide!)).2.2.1, (h2 (by decide!)).2.2.2, h5⟩


/-! ## Approvals are never deleted and never re-opened -/

theorem approvalKept_refl (a : Approval) : approvalKept a a :=
  ⟨rfl, rfl, rfl, rfl, Or.inl rfl, fun h => ⟨h, rfl⟩⟩

theorem approvalKept_trans (a b c : Approval) (h1 : approvalKept a b) (h2 : approvalKept b c) :
    approvalKept a c := by
  obtain ⟨a1, a2, a3, a4, a5, a6⟩ := h1
  obtain ⟨b1, b2, b3, b4, b5, b6⟩ := h2
  refine ⟨b1.trans a1, b2.trans a2, b3.trans a3, b4.trans a4, ?_, ?_⟩
  · rcases a5 with a5 | ⟨a5, a7⟩
    · rcases b5 with b5 | ⟨b5, b7⟩
      · exact Or.inl (b5.trans a5)
      · exact Or.inr ⟨a5 ▸ b5, b7⟩
    · rcases b5 with b5 | ⟨b5, b7⟩
      · exact Or.inr ⟨a5, b5.trans a7⟩
      · exact Or.inr ⟨a5, b7⟩
  · intro h
    obtain ⟨c1, c2⟩ := a6 h
    obtain ⟨d1, d2⟩ := b6 c1
    exact ⟨d1, d2.trans c2⟩

theorem approvalsKept_refl (l : List Approval) : approvalsKept l l :=
  ⟨Nat.le_refl _, fun _ a h => ⟨a, h, approvalKept_refl a⟩⟩

theorem approvalsKept_trans (l m n : List Approval) (h1 : approvalsKept l m)
    (h2 : approvalsKept m n) : approvalsKept l n := by
  refine ⟨Nat.le_trans h1.1 h2.1, ?_⟩
  intro i a ha
  obtain ⟨b, hb, hab⟩ := h1.2 i a ha
  obtain ⟨c, hc, hbc⟩ := h2.2 i b hb
  exact ⟨c, hc, approvalKept_trans a b c hab hbc⟩

theorem approvalsKept_append (l extra : List Approval) : approvalsKept l (l ++ extra) := by
  refine ⟨by simp, ?_⟩
  intro i a ha
  have hi : i < l.length := by
    by_contra hnot
    rw [List.getElem?_eq_none (by omega)] at ha
    cases ha
  exact ⟨a, by rw [List.getElem?_append_left hi]; exact ha, approvalKept_refl a⟩

theorem approvalsKept_cons (a b : Approval) (l m : List Approval) (hab : approvalKept a b)
    (h : approvalsKept l m) : approvalsKept (a :: l) (b :: m) := by
  refine ⟨by simpa using h.1, ?_⟩
  intro i x hx
  cases i with
  | zero =>
    simp only [List.getElem?_cons_zero, Option.some.injEq] at hx
    subst hx
    exact ⟨b, by simp, hab⟩
  | succ j =>
    simp only [List.getElem?_cons_succ] at hx
    obtain ⟨y, hy, hxy⟩ := h.2 j x hx
    exact ⟨y, by simpa using hy, hxy⟩

theorem approvalsKept_map (f : Approval → Approval) (hf : ∀ a, approvalKept a (f a))
    (l : List Approval) : approvalsKept l (l.map f) := by
  induction l with
  | nil => exact approvalsKept_refl []
  | cons a rest ih => exact approvalsKept_cons a (f a) rest _ (hf a) ih

theorem approvalKept_autoResolved (resolvedAt : Str) (a : Approval) :
    approvalKept a
      (if isPendingSupervisorSuggestion a then autoResolved resolvedAt a else a) := by
  by_cases h : isPendingSupervisorSuggestion a = true
  · rw [if_pos h]
    have hp : a.status = "pending".toList := by
      unfold isPendingSupervisorSuggestion at h
      simp only [Bool.and_eq_true, decide_eq_true_eq] at h
      exact h.1.1
    refine ⟨rfl, rfl, rfl, rfl, Or.inr ⟨hp, rfl⟩, ?_⟩
    intro hr
    rw [hp] at hr
    exact absurd hr (by decide)
  · rw [if_neg h]
    exact approvalKept_refl a

theorem approvalsKept_markResolved (r : Str) (c : Nat) (i : Str) (id : Str) :
    ∀ (l : List Approval) (a : Approval),
      l.find? (fun item => decide (item.id = id)) = some a → a.status = "pending".toList →
      approvalsKept l (markResolved r c i l id) := by
  intro l
  induction l with
  | nil => intro a h; cases h
  | cons b rest ih =>
    intro a h hp
    unfold markResolved
    by_cases hb : b.id = id
    · rw [List.find?_cons_of_pos _ (by simpa using hb)] at h
      injection h with h
      subst h
      rw [if_pos hb]
      refine approvalsKept_cons b _ rest rest ?_ (approvalsKept_refl rest)
      refine ⟨rfl, rfl, rfl, rfl, Or.inr ⟨hp, rfl⟩, ?_⟩
      intro hr
      rw [hp] at hr
      exact absurd hr (by decide)
    · rw [List.find?_cons_of_neg _ (by simpa using hb)] at h
      rw [if_neg hb]
      exact approvalsKept_cons b b rest _ (approvalKept_refl b) (ih a h hp)

theorem approvalsKept_sweep (env : BrokerEnv) (now : Int) (st : BrokerState) :
    approvalsKept st.session.approvals
      (autoContinuePendingSupervisorSuggestions env now st).2.session.approvals := by
  rcases sweep_cases env now st with ⟨-, h1⟩ | ⟨-, h1, -⟩ | ⟨-, -, -, h1, -⟩
  · rw [h1]
    exact approvalsKept_refl _
  · rw [h1]
    exact approvalsKept_refl _
  · rw [h1, (sweepResolve_frame _ _ _).1]
    exact approvalsKept_map _ (approvalKept_autoResolved _) _

theorem approvalsKept_scanLoop (env : BrokerEnv) (ts : List TargetRef) (i : Nat)
    (st : BrokerState) :
    approvalsKept st.session.approvals (scanLoop env i st ts).session.approvals := by
  obtain ⟨extra, h⟩ := (scanLoop_keeps env ts i st).1
  rw [h]
  exact approvalsKept_append _ _

/-- C33: approvals are never deleted and never re-opened.  For every session, after
`scanAndQueue` and after `resolve` (whatever the id, the choice and the instruction, and
whether it succeeds or fails) every approval that was in `session.approvals` is still
there, at its place, with the same id, target, fingerprint and kind; its status is what it
was or has gone from `pending` to `resolved`; and an approval that was `resolved` is still
`resolved` with the same `resolvedChoice`. -/
theorem approvals_kept (env : BrokerEnv) (s : Session) :
    approvalsKept s.approvals (scanAndQueue env s).session.approvals
      ∧ ∀ (id : Str) (choice : Nat) (instruction : Str),
          approvalsKept s.approvals (resolve env s id choice instruction).state.session.approvals := by
  refine ⟨?_, ?_⟩
  · unfold scanAndQueue
    simp only []
    refine approvalsKept_trans _ _ _ (approvalsKept_sweep env (env.dateNow 0) (brokerStart s))
      ?_
    exact approvalsKept_scanLoop env _ 0
      { (autoContinuePendingSupervisorSuggestions env (env.dateNow 0) (brokerStart s)).2 with
        changed := (autoContinuePendingSupervisorSuggestions env (env.dateNow 0)
          (brokerStart s)).1 }
  · intro id c i
    cases hf : s.approvals.find? (fun item => decide (item.id = id)) with
    | none =>
      unfold resolve
      simp only [hf]
      exact approvalsKept_refl _
    | some a =>
      rw [resolve_of_find env s id c i a hf]
      have hsess : (resolveApply env (brokerStart s) a c i).2.session = s :=
        resolveApply_session env (brokerStart s) a c i
      split_ifs with h1 h2 h3 h4
      · exact approvalsKept_refl _
      · exact approvalsKept_refl _
      · exact approvalsKept_refl _
      · show approvalsKept s.approvals (resolveApply env (brokerStart s) a c i).2.session.approvals
        rw [hsess]
        exact approvalsKept_refl _
      · rw [resolveCommit_session, setTargetStatus_approvals]
        show approvalsKept s.approvals
          (markResolved _ c i (resolveApply env (brokerStart s) a c i).2.session.approvals id)
        rw [hsess]
        exact approvalsKept_markResolved _ c i id s.approvals a hf (by simpa using h1)


/-! ## Broadcast directives and the order of the returned actions -/

theorem toLowerCase_digits (ds : Str) (h : ∀ c ∈ ds, c.isDigit = true) : toLowerCase ds = ds := by
  unfold toLowerCase
  induction ds with
  | nil => rfl
  | cons c cs ih =>
    rw [List.map_cons, toLower_of_isDigit c (h c (List.mem_cons_self _ _)),
      ih fun y hy => h y (List.mem_cons_of_mem _ hy)]

theorem toLower_of_ciEq (c p : Char) (hp : p ∈ "worker-".toList) (h : ciEq c p = true) :
    c.toLower = p := by
  have key : ∀ m, 97 ≤ m → m ≤ 122 → ∀ q ∈ "worker-".toList,
      Char.ofNat (m - 32) = q.toUpper → (Char.ofNat m).toLower = q := by
    intro m h1 h2
    interval_cases m <;> decide
  have key2 : ∀ q ∈ "worker-".toList, q.toUpper.toLower = q := by decide
  unfold ciEq at h
  have h' : c.toUpper = p.toUpper := by simpa using h
  by_cases hr : 97 ≤ c.toNat ∧ c.toNat ≤ 122
  · have hu : c.toUpper = Char.ofNat (c.toNat - 32) := by
      unfold Char.toUpper
      simp only []
      rw [if_pos hr]
    have := key c.toNat hr.1 hr.2 p hp (by rw [← hu]; exact h')
    rwa [Char.ofNat_toNat] at this
  · have hu : c.toUpper = c := by
      unfold Char.toUpper
      simp only []
      rw [if_neg hr]
    rw [hu] at h'
    rw [h']
    exact key2 p hp

theorem toLowerCase_of_startsWith (pat : Str) (hp : ∀ p ∈ pat, p ∈ "worker-".toList) :
    ∀ s : Str, s.length = pat.length → startsWithBy ciEq s pat = true → toLowerCase s = pat := by
  induction pat with
  | nil =>
    intro s hl _
    have : s = [] := List.length_eq_zero.mp hl
    rw [this]
    rfl
  | cons p ps ih =>
    intro s hl hs
    cases s with
    | nil => cases hl
    | cons c cs =>
      unfold startsWithBy at hs
      rw [Bool.and_eq_true] at hs
      have h1 := toLower_of_ciEq c p (hp p (List.mem_cons_self _ _)) hs.1
      have h2 := ih (fun q hq => hp q (List.mem_cons_of_mem _ hq)) cs (by simpa using hl) hs.2
      unfold toLowerCase at h2 ⊢
      rw [List.map_cons, h1, h2]

/-- A worker id that `normalizeWorkerId` returns is empty or `worker-` followed by the text
of a number. -/
theorem normalizeWorkerId_shape (env : ParserEnv) (v : Option Json)
    (h : normalizeWorkerId env v ≠ []) :
    ∃ body, body ≠ [] ∧ (∀ c ∈ body, c.isDigit = true ∨ c = '.' ∨ c = 'e' ∨ c = '+')
      ∧ normalizeWorkerId env v = "worker-".toList ++ body := by
  unfold normalizeWorkerId at h ⊢
  simp only [] at h ⊢
  split_ifs at h ⊢ with h1 h2
  · exact absurd rfl h
  · unfold isWorkerIdLike at h2
    simp only [Bool.and_eq_true, beq_iff_eq, Bool.not_eq_true', List.all_eq_true] at h2
    obtain ⟨⟨⟨h3, h4⟩, h5⟩, h6⟩ := h2
    refine ⟨(trim (stringOfFirstTruthy [v])).drop 7, ?_, fun c hc => Or.inl (h6 c hc), ?_⟩
    · intro hnil
      rw [hnil] at h5
      cases h5
    · have hsplit : trim (stringOfFirstTruthy [v])
          = (trim (stringOfFirstTruthy [v])).take 7 ++ (trim (stringOfFirstTruthy [v])).drop 7 :=
        (List.take_append_drop 7 _).symm
      have hhead := toLowerCase_of_startsWith "worker-".toList (fun p hp => hp) _ h3 h4
      have htail := toLowerCase_digits _ h6
      conv_lhs => rw [hsplit]
      unfold toLowerCase at hhead htail ⊢
      rw [List.map_append, hhead, htail]
  · cases hparsed : parseWorkerIndex env (some (.str (trim (stringOfFirstTruthy [v])))) none with
    | none =>
      rw [hparsed] at h
      exact absurd rfl h
    | some parsed =>
      rw [hparsed] at h
      simp only [] at h ⊢
      split_ifs at h ⊢
      · exact ⟨numberToString parsed, (numberToString_chars parsed).1,
          (numberToString_chars parsed).2, rfl⟩
      · exact absurd rfl h

/-- A worker id of that shape is left as it is by `normalizeWorkerId`. -/
theorem normalizeWorkerId_fixed (env : ParserEnv) (ds : Str) (hne : ds ≠ [])
    (hd : ∀ c ∈ ds, c.isDigit = true) :
    normalizeWorkerId env (some (.str ("worker-".toList ++ ds))) = "worker-".toList ++ ds := by
  have hstr : stringOfFirstTruthy [some (Json.str ("worker-".toList ++ ds))]
      = "worker-".toList ++ ds := rfl
  have htrim : trim ("worker-".toList ++ ds) = "worker-".toList ++ ds := by
    apply trim_eq_self_of_ends
    · intro c hc
      have : c = 'w' := by
        have h2 : "worker-".toList ++ ds = 'w' :: ("orker-".toList ++ ds) := rfl
        rw [h2] at hc
        simpa using hc.symm
      subst this
      decide
    · intro c hc
      rw [List.getLast?_append_of_ne_nil _ hne] at hc
      exact isJsSpace_of_isDigit c (hd c (List.mem_of_mem_getLast? hc))
  have hlike : isWorkerIdLike ("worker-".toList ++ ds) = true := by
    unfold isWorkerIdLike
    have htake : ("worker-".toList ++ ds).take 7 = "worker-".toList := by
      rw [List.take_append_of_le_length (by decide)]
      rfl
    have hdrop : ("worker-".toList ++ ds).drop 7 = ds := by
      rw [List.drop_append_of_le_length (by decide)]
      rfl
    rw [htake, hdrop]
    simp only [Bool.and_eq_true, beq_iff_eq, Bool.not_eq_true', List.all_eq_true]
    refine ⟨⟨⟨by decide, by decide⟩, ?_⟩, hd⟩
    cases ds with
    | nil => exact absurd rfl hne
    | cons c cs => rfl
  have hlower : toLowerCase ("worker-".toList ++ ds) = "worker-".toList ++ ds := by
    have := toLowerCase_digits ds hd
    unfold toLowerCase at this ⊢
    rw [List.map_append, this]
    rfl
  unfold normalizeWorkerId
  simp only []
  rw [hstr, htrim]
  have hne2 : ("worker-".toList ++ ds).isEmpty = false := rfl
  rw [if_neg (by rw [hne2]; decide), if_pos hlike, hlower]


/-- The key `workerId::instruction` tells the worker id and the instruction apart when the
worker ids hold no colon. -/
theorem dispatchKey_injective (w1 w2 i1 i2 : Str) (h1 : ∀ c ∈ w1, c ≠ ':')
    (h2 : ∀ c ∈ w2, c ≠ ':')
    (h : w1 ++ "::".toList ++ i1 = w2 ++ "::".toList ++ i2) :
    w1 = w2 ∧ i1 = i2 := by
  have h' : w1 ++ (':' :: ':' :: i1) = w2 ++ (':' :: ':' :: i2) := by
    have e1 : w1 ++ "::".toList ++ i1 = w1 ++ (':' :: ':' :: i1) := by simp
    have e2 : w2 ++ "::".toList ++ i2 = w2 ++ (':' :: ':' :: i2) := by simp
    rw [e1, e2] at h
    exact h
  clear h
  induction w1 generalizing w2 with
  | nil =>
    cases w2 with
    | nil =>
      simp only [List.nil_append, List.cons.injEq, true_and] at h'
      exact ⟨rfl, h'⟩
    | cons c cs =>
      simp only [List.nil_append, List.cons_append, List.cons.injEq] at h'
      exact absurd h'.1.symm (h2 c (List.mem_cons_self _ _))
  | cons c cs ih =>
    cases w2 with
    | nil =>
      simp only [List.nil_append, List.cons_append, List.cons.injEq] at h'
      exact absurd h'.1 (h1 c (List.mem_cons_self _ _))
    | cons e es =>
      simp only [List.cons_append, List.cons.injEq] at h'
      obtain ⟨r1, r2⟩ := ih es (fun x hx => h1 x (List.mem_cons_of_mem _ hx))
        (fun x hx => h2 x (List.mem_cons_of_mem _ hx)) h'.2
      exact ⟨by rw [h'.1, r1], r2⟩

theorem normalDirective_colon (a : Action) (h : NormalDirective a) : ∀ c ∈ a.workerId, c ≠ ':' := by
  obtain ⟨⟨body, -, hb, hw⟩, -, -⟩ := h
  intro c hc
  rw [hw] at hc
  rcases List.mem_append.mp hc with hc | hc
  · intro hq
    rw [hq] at hc
    exact absurd hc (by decide)
  · rcases hb c hc with q | q | q | q
    · intro hq; rw [hq] at q; exact absurd q (by decide)
    · rw [q]; decide
    · rw [q]; decide
    · rw [q]; decide

theorem normalDirective_key (a b : Action) (ha : NormalDirective a) (hb : NormalDirective b)
    (h : a.workerId ++ "::".toList ++ a.instruction = b.workerId ++ "::".toList ++ b.instruction) :
    a = b := by
  obtain ⟨e1, e2⟩ := dispatchKey_injective _ _ _ _ (normalDirective_colon a ha)
    (normalDirective_colon b hb) h
  cases a
  cases b
  simp only at e1 e2
  rw [e1, e2]

/-- What `storedDirective` gives is a normal directive. -/
theorem storedDirective_normal (env : ParserEnv) (a b : Action)
    (h : storedDirective env a = some b) : NormalDirective b := by
  unfold storedDirective at h
  simp only [] at h
  split_ifs at h with he
  simp only [Bool.or_eq_true, not_or, Bool.not_eq_true, List.isEmpty_eq_false] at he
  injection h with h
  rw [← h]
  obtain ⟨body, q1, q2, q3⟩ := normalizeWorkerId_shape env (some (.str a.workerId))
    (by intro hnil; rw [hnil] at he; exact absurd rfl he.1)
  refine ⟨⟨body, q1, q2, q3⟩, ?_, trim_idem _⟩
  intro hnil
  dsimp only at hnil
  rw [hnil] at he
  exact absurd rfl he.2

/-- One call of `pushAction`, in terms of what it stores. -/
theorem pushAction_stored (env : ParserEnv) (state : List Action × List Str) (a : Action) :
    pushAction env state a.workerId a.instruction
      = match storedDirective env a with
        | none => state
        | some b =>
          if b.workerId ++ "::".toList ++ b.instruction ∈ state.2 then state
          else (state.1 ++ [b], jsSetAdd state.2 (b.workerId ++ "::".toList ++ b.instruction)) := by
  unfold pushAction storedDirective
  simp only []
  by_cases he : ((normalizeWorkerId env (some (.str a.workerId))).isEmpty
      || (trim a.instruction).isEmpty) = true
  · rw [if_pos he, if_pos he]
  · rw [if_neg he, if_neg he]

theorem pushAction_step (env : ParserEnv) (state : List Action × List Str) (a : Action)
    (hinv : DispatchInv state) :
    DispatchInv (pushAction env state a.workerId a.instruction)
      ∧ (pushAction env state a.workerId a.instruction).1
          = match storedDirective env a with
            | none => state.1
            | some b => if b ∈ state.1 then state.1 else state.1 ++ [b] := by
  obtain ⟨i1, i2, i3⟩ := hinv
  rw [pushAction_stored env state a]
  cases hs : storedDirective env a with
  | none => exact ⟨⟨i1, i2, i3⟩, rfl⟩
  | some b =>
    have hb := storedDirective_normal env a b hs
    simp only []
    by_cases hk : b.workerId ++ "::".toList ++ b.instruction ∈ state.2
    · rw [if_pos hk]
      obtain ⟨x, hx, hkey⟩ := i2 _ hk
      have hxb := normalDirective_key x b (i3 x hx) hb hkey
      rw [hxb] at hx
      rw [if_pos hx]
      exact ⟨⟨i1, i2, i3⟩, rfl⟩
    · rw [if_neg hk]
      have hnot : b ∉ state.1 := fun hmem => hk (i1 b hmem)
      rw [if_neg hnot]
      refine ⟨⟨?_, ?_, ?_⟩, rfl⟩
      · intro x hx
        rw [mem_jsSetAdd]
        rcases List.mem_append.mp hx with hx | hx
        · exact Or.inl (i1 x hx)
        · rw [List.mem_singleton] at hx
          rw [hx]
          exact Or.inr rfl
      · intro k hk2
        rw [mem_jsSetAdd] at hk2
        rcases hk2 with hk2 | hk2
        · obtain ⟨x, hx, hkey⟩ := i2 k hk2
          exact ⟨x, List.mem_append_left _ hx, hkey⟩
        · exact ⟨b, by simp, hk2.symm⟩
      · intro x hx
        rcases List.mem_append.mp hx with hx | hx
        · exact i3 x hx
        · rw [List.mem_singleton] at hx
          rw [hx]
          exact hb

theorem pushAction_fold (env : ParserEnv) (l : List Action) :
    ∀ state : List Action × List Str, DispatchInv state →
      DispatchInv (l.foldl (fun st a => pushAction env st a.workerId a.instruction) state)
        ∧ (l.foldl (fun st a => pushAction env st a.workerId a.instruction) state).1
            = (l.filterMap (storedDirective env)).foldl
                (fun kept a => if a ∈ kept then kept else kept ++ [a]) state.1 := by
  induction l with
  | nil =>
    intro state hinv
    exact ⟨hinv, rfl⟩
  | cons a rest ih =>
    intro state hinv
    obtain ⟨s1, s2⟩ := pushAction_step env state a hinv
    obtain ⟨r1, r2⟩ := ih (pushAction env state a.workerId a.instruction) s1
    rw [List.foldl_cons]
    refine ⟨r1, ?_⟩
    rw [r2, s2, List.filterMap_cons]
    cases storedDirective env a with
    | none => rfl
    | some b => rfl

theorem foldl_pushCandidate (env : ParserEnv) (payloads : List Json) :
    ∀ state : List Action × List Str,
      payloads.foldl (pushCandidate env) state
        = (payloads.filterMap (normalizeDispatchCandidate env)).foldl
            (fun st a => pushAction env st a.workerId a.instruction) state := by
  induction payloads with
  | nil => intro state; rfl
  | cons x rest ih =>
    intro state
    rw [List.foldl_cons, ih, List.filterMap_cons]
    unfold pushCandidate
    cases normalizeDispatchCandidate env x <;> rfl

theorem foldl_pushBatch (env : ParserEnv) (payloads : List Json) :
    ∀ state : List Action × List Str,
      payloads.foldl (pushBatch env) state
        = (payloads.flatMap fun payload =>
            match pickFirstArray [payload.field "tasks", payload.field "dispatches",
                payload.field "items", payload.field "workers"] with
            | some list => list.filterMap (normalizeDispatchCandidate env)
            | none => []).foldl
            (fun st a => pushAction env st a.workerId a.instruction) state := by
  induction payloads with
  | nil => intro state; rfl
  | cons x rest ih =>
    intro state
    rw [List.foldl_cons, ih, List.flatMap_cons, List.foldl_append]
    congr 1
    unfold pushBatch
    cases pickFirstArray [x.field "tasks", x.field "dispatches", x.field "items",
        x.field "workers"] with
    | none => rfl
    | some list => exact foldl_pushCandidate env list state

theorem foldl_pushBroadcast (env : ParserEnv) (known : List Str) (payloads : List Json) :
    ∀ state : List Action × List Str,
      payloads.foldl (pushBroadcast env known) state
        = (payloads.flatMap fun payload =>
            if (broadcastInstruction payload).isEmpty then []
            else (broadcastTargets env known payload).map fun w =>
              Action.mk w (broadcastInstruction payload)).foldl
            (fun st a => pushAction env st a.workerId a.instruction) state := by
  induction payloads with
  | nil => intro state; rfl
  | cons x rest ih =>
    intro state
    rw [List.foldl_cons, ih, List.flatMap_cons, List.foldl_append]
    congr 1
    have hdef : pushBroadcast env known state x
        = if (broadcastInstruction x).isEmpty then state
          else (broadcastTargets env known x).foldl
            (fun st w => pushAction env st w (broadcastInstruction x)) state := rfl
    rw [hdef]
    split_ifs
    · rfl
    · rw [List.foldl_map]

theorem collectDispatchActions_flat (env : ParserEnv) (text : Str) (workerIds : List Str) :
    collectDispatchActions env text workerIds
      = (directivesInOrder env text workerIds).foldl
          (fun st a => pushAction env st a.workerId a.instruction) ([], []) := by
  unfold collectDispatchActions directivesInOrder singleDirectives batchDirectives
    broadcastDirectives
  simp only []
  rw [foldl_pushBroadcast, foldl_pushBatch, foldl_pushCandidate, List.foldl_append,
    List.foldl_append]
  rfl


/-- The list that the three loops build is the list of stored directives, in the order
`dispatch_json`, `dispatch_batch_json`, `dispatch_all_json`, without its later
repetitions. -/
theorem collectDispatchActions_keepFirst (env : ParserEnv) (text : Str) (workerIds : List Str) :
    (collectDispatchActions env text workerIds).1
      = keepFirst ((directivesInOrder env text workerIds).filterMap (storedDirective env)) := by
  have hinit : DispatchInv (([], []) : List Action × List Str) :=
    ⟨fun a ha => (by cases ha), fun k hk => (by cases hk), fun a ha => (by cases ha)⟩
  rw [collectDispatchActions_flat]
  exact (pushAction_fold env (directivesInOrder env text workerIds) ([], []) hinit).2

/-- What `keepFirst` does, told without its loop: from a list `kept` that holds the members
of the part `read` once each, in the order of their first occurrence, it builds such a list
for the whole text. -/
theorem keepFirst_aux (rest : List Action) :
    ∀ (read kept : List Action), (∀ a, a ∈ kept ↔ a ∈ read) → kept.Nodup →
      kept.Pairwise (fun a b => (read ++ rest).indexOf a < (read ++ rest).indexOf b) →
      (∀ a, a ∈ rest.foldl (fun kept a => if a ∈ kept then kept else kept ++ [a]) kept
          ↔ a ∈ read ++ rest)
        ∧ (rest.foldl (fun kept a => if a ∈ kept then kept else kept ++ [a]) kept).Nodup
        ∧ (rest.foldl (fun kept a => if a ∈ kept then kept else kept ++ [a]) kept).Pairwise
            (fun a b => (read ++ rest).indexOf a < (read ++ rest).indexOf b) := by
  induction rest with
  | nil =>
    intro read kept hm hn hp
    simp only [List.foldl_nil, List.append_nil] at hp ⊢
    exact ⟨hm, hn, hp⟩
  | cons x rest ih =>
    intro read kept hm hn hp
    have happ : read ++ x :: rest = (read ++ [x]) ++ rest := by simp
    rw [List.foldl_cons, happ]
    rw [happ] at hp
    by_cases hx : x ∈ kept
    · rw [if_pos hx]
      refine ih (read ++ [x]) kept ?_ hn hp
      intro a
      rw [hm a, List.mem_append, List.mem_singleton]
      constructor
      · exact Or.inl
      · rintro (h | h)
        · exact h
        · rw [h]; exact (hm x).mp hx
    · rw [if_neg hx]
      have hxr : x ∉ read := fun h => hx ((hm x).mpr h)
      refine ih (read ++ [x]) (kept ++ [x]) ?_ ?_ ?_
      · intro a
        rw [List.mem_append, List.mem_append, hm a]
      · rw [List.nodup_append]
        refine ⟨hn, List.nodup_singleton _, ?_⟩
        intro a ha hb
        rw [List.mem_singleton] at hb
        rw [hb] at ha
        exact hx ha
      · rw [List.pairwise_append]
        refine ⟨hp, List.pairwise_singleton _ _, ?_⟩
        intro a ha b hb
        rw [List.mem_singleton] at hb
        rw [hb]
        have har : a ∈ read := (hm a).mp ha
        have e1 : (read ++ [x] ++ rest).indexOf a = read.indexOf a := by
          rw [List.append_assoc, List.indexOf_append_of_mem har]
        have e2 : (read ++ [x] ++ rest).indexOf x = read.length := by
          rw [List.append_assoc, List.indexOf_append_of_not_mem hxr]
          simp
        rw [e1, e2]
        exact List.indexOf_lt_length.mpr har

/-- The list `keepFirst l` holds every member of `l` once, in the order of the first
occurrences in `l`. -/
theorem keepFirst_spec (l : List Action) :
    (∀ a, a ∈ keepFirst l ↔ a ∈ l) ∧ (keepFirst l).Nodup
      ∧ (keepFirst l).Pairwise (fun a b => l.indexOf a < l.indexOf b) := by
  have h := keepFirst_aux l [] [] (fun a => Iff.rfl) List.nodup_nil List.Pairwise.nil
  simpa [keepFirst] using h

theorem normalDirective_of_candidate (env : ParserEnv) (x : Json) (d : Action)
    (h : normalizeDispatchCandidate env x = some d) : NormalDirective d := by
  unfold normalizeDispatchCandidate at h
  by_cases h1 : (!isObject (some x)) = true
  · rw [if_pos h1] at h
    cases h
  · rw [if_neg h1] at h
    simp only [] at h
    by_cases h2 : ((normalizeWorkerId env (firstTruthy [x.field "workerId", x.field "worker",
        x.field "target", x.field "targetWorker"])).isEmpty
        || (trim (stringOfFirstTruthy [x.field "instruction", x.field "prompt",
          x.field "message", x.field "task"])).isEmpty) = true
    · rw [if_pos h2] at h
      cases h
    · rw [if_neg h2] at h
      simp only [Option.some.injEq] at h
      rw [← h]
      simp only [Bool.or_eq_true, not_or, Bool.not_eq_true, List.isEmpty_eq_false] at h2
      refine ⟨?_, ?_, trim_idem _⟩
      · obtain ⟨ds, q1, q2, q3⟩ := normalizeWorkerId_shape env
          (firstTruthy [x.field "workerId", x.field "worker", x.field "target",
            x.field "targetWorker"])
          (by intro hnil; rw [hnil] at h2; exact absurd rfl h2.1)
        exact ⟨ds, q1, q2, q3⟩
      · intro hnil
        dsimp only at hnil
        rw [hnil] at h2
        exact absurd rfl h2.2

theorem normalDirective_of_target (env : ParserEnv) (workerIds : List Str) (payload : Json)
    (w : Str) (hw : w ∈ broadcastTargets env (knownWorkersOf env workerIds) payload)
    (hi : broadcastInstruction payload ≠ []) :
    NormalDirective (Action.mk w (broadcastInstruction payload)) := by
  have hshape : ∃ v, w = normalizeWorkerId env v ∧ w ≠ [] := by
    unfold broadcastTargets knownWorkersOf at hw
    split at hw
    · rw [List.mem_filter, List.mem_map] at hw
      obtain ⟨⟨item, -, rfl⟩, hne⟩ := hw
      exact ⟨_, rfl, by intro hnil; rw [hnil] at hne; cases hne⟩
    · rw [List.mem_filter, List.mem_map] at hw
      obtain ⟨⟨item, -, rfl⟩, hne⟩ := hw
      exact ⟨_, rfl, by intro hnil; rw [hnil] at hne; cases hne⟩
  obtain ⟨v, rfl, hne⟩ := hshape
  obtain ⟨ds, q1, q2, q3⟩ := normalizeWorkerId_shape env v hne
  exact ⟨⟨ds, q1, q2, q3⟩, hi, trim_idem _⟩

theorem directivesInOrder_normal (env : ParserEnv) (text : Str) (workerIds : List Str) :
    ∀ a ∈ directivesInOrder env text workerIds, NormalDirective a := by
  intro a ha
  unfold directivesInOrder at ha
  rcases List.mem_append.mp ha with ha | ha
  · rcases List.mem_append.mp ha with ha | ha
    · unfold singleDirectives at ha
      obtain ⟨x, -, hx⟩ := List.mem_filterMap.mp ha
      exact normalDirective_of_candidate env x a hx
    · unfold batchDirectives at ha
      obtain ⟨payload, -, hp⟩ := List.mem_flatMap.mp ha
      split at hp
      · obtain ⟨x, -, hx⟩ := List.mem_filterMap.mp hp
        exact normalDirective_of_candidate env x a hx
      · cases hp
  · unfold broadcastDirectives at ha
    obtain ⟨payload, -, hp⟩ := List.mem_flatMap.mp ha
    split_ifs at hp with he
    · cases hp
    · obtain ⟨w, hw, rfl⟩ := List.mem_map.mp hp
      exact normalDirective_of_target env workerIds payload w hw
        (by intro hnil; rw [hnil] at he; exact he rfl)

/-- A normal directive whose worker id is `worker-` followed by digits is stored as it
is. -/
theorem storedDirective_of_like (env : ParserEnv) (a : Action) (h : NormalDirective a)
    (hl : isWorkerIdLike a.workerId = true) : storedDirective env a = some a := by
  obtain ⟨⟨body, hne, -, hw⟩, hi, ht⟩ := h
  have hd : ∀ c ∈ body, c.isDigit = true := by
    rw [hw] at hl
    unfold isWorkerIdLike at hl
    have hdrop : ("worker-".toList ++ body).drop 7 = body := by
      rw [List.drop_append_of_le_length (by decide)]
      rfl
    rw [hdrop] at hl
    simp only [Bool.and_eq_true, List.all_eq_true] at hl
    exact hl.2
  have hnorm : normalizeWorkerId env (some (.str a.workerId)) = a.workerId := by
    rw [hw]
    exact normalizeWorkerId_fixed env body hne hd
  have hwne : a.workerId.isEmpty = false := by
    rw [hw]
    rfl
  have hine : a.instruction.isEmpty = false := by
    cases hc : a.instruction with
    | nil => exact absurd hc hi
    | cons c cs => rfl
  unfold storedDirective
  simp only []
  rw [hnorm, ht, hwne, hine]
  simp only [Bool.or_self, Bool.false_eq_true, if_false]

/-- A worker id made from an index below `2^53` is `worker-` followed by digits. -/
theorem isWorkerIdLike_of_small (n : Nat) (h : n < 2 ^ 53) :
    isWorkerIdLike ("worker-".toList ++ numberToString n) = true := by
  rw [numberToString_of_lt n h]
  unfold isWorkerIdLike
  have htake : ("worker-".toList ++ natToStr n).take 7 = "worker-".toList := by
    rw [List.take_append_of_le_length (by decide)]
    rfl
  have hdrop : ("worker-".toList ++ natToStr n).drop 7 = natToStr n := by
    rw [List.drop_append_of_le_length (by decide)]
    rfl
  rw [htake, hdrop]
  simp only [Bool.and_eq_true, beq_iff_eq, Bool.not_eq_true', List.all_eq_true]
  refine ⟨⟨⟨by decide, by decide⟩, ?_⟩, (natToStr_digits n).2⟩
  cases hc : natToStr n with
  | nil => exact absurd hc (natToStr_digits n).1
  | cons c cs => rfl

/-- C31 (as amended).  The list that `parseSupervisorDispatchActionsFromText` returns is
the list of the directives of the text in the order `dispatch_json`, then
`dispatch_batch_json`, then `dispatch_all_json`, each in text order, every one as
`pushAction` stores it (worker id normalised once more, instruction trimmed), with later
repetitions left out: it holds every stored directive once, in the order of the first
occurrences.  A directive whose worker id is `worker-` followed by digits, as it is for
every index below `2^53`, is stored as it is.  So a `dispatch_all_json` payload with a
non-blank instruction yields an action with that instruction for every such worker it
addresses; the workers it addresses are the known workers (the normalised ids of the option
`workerIds`, in that order) when the payload has no `workerIds` array, and only the
normalisable ids of that array when it has one. -/
theorem parseSupervisorDispatchActionsFromText_order (env : ParserEnv) (text : Str)
    (workerIds : List Str) :
    (parseSupervisorDispatchActionsFromText env text workerIds
        = if (collectDispatchActions env text workerIds).1.length = 0 then none
          else some (collectDispatchActions env text workerIds).1)
      ∧ (collectDispatchActions env text workerIds).1
          = keepFirst ((directivesInOrder env text workerIds).filterMap (storedDirective env))
      ∧ (∀ a, a ∈ (collectDispatchActions env text workerIds).1
          ↔ a ∈ (directivesInOrder env text workerIds).filterMap (storedDirective env))
      ∧ (collectDispatchActions env text workerIds).1.Nodup
      ∧ (collectDispatchActions env text workerIds).1.Pairwise (fun a b =>
          ((directivesInOrder env text workerIds).filterMap (storedDirective env)).indexOf a
            < ((directivesInOrder env text workerIds).filterMap (storedDirective env)).indexOf b)
      ∧ (∀ a ∈ directivesInOrder env text workerIds, isWorkerIdLike a.workerId = true →
          storedDirective env a = some a)
      ∧ (∀ n : Nat, n < 2 ^ 53 →
          isWorkerIdLike ("worker-".toList ++ numberToString n) = true)
      ∧ (∀ payload ∈ extractAllTaggedJson env text "dispatch_all_json",
          broadcastInstruction payload ≠ [] →
          ∀ w ∈ broadcastTargets env (knownWorkersOf env workerIds) payload,
            isWorkerIdLike w = true →
            Action.mk w (broadcastInstruction payload)
              ∈ (collectDispatchActions env text workerIds).1)
      ∧ (∀ (payload : Json) (known : List Str), isArray (payload.field "workerIds") = false →
          broadcastTargets env known payload = known)
      ∧ ∀ (payload : Json) (known : List Str) (items : List Json),
          payload.field "workerIds" = some (.arr items) →
          broadcastTargets env known payload
            = (items.map fun item => normalizeWorkerId env (some item)).filter
                fun (w : Str) => !w.isEmpty := by
  have hkeep := collectDispatchActions_keepFirst env text workerIds
  obtain ⟨k1, k2, k3⟩ := keepFirst_spec
    ((directivesInOrder env text workerIds).filterMap (storedDirective env))
  rw [← hkeep] at k1 k2 k3
  have hlike : ∀ a ∈ directivesInOrder env text workerIds, isWorkerIdLike a.workerId = true →
      storedDirective env a = some a := fun a ha hl =>
    storedDirective_of_like env a (directivesInOrder_normal env text workerIds a ha) hl
  refine ⟨rfl, hkeep, k1, k2, k3, hlike, isWorkerIdLike_of_small, ?_, ?_, ?_⟩
  · intro payload hp hi w hw hl
    have hmem : Action.mk w (broadcastInstruction payload)
        ∈ directivesInOrder env text workerIds := by
      unfold directivesInOrder broadcastDirectives
      apply List.mem_append_right
      rw [List.mem_flatMap]
      refine ⟨payload, hp, ?_⟩
      have hne : (broadcastInstruction payload).isEmpty = false := by
        cases hc : broadcastInstruction payload with
        | nil => exact absurd hc hi
        | cons c cs => rfl
      rw [hne]
      simp only [Bool.false_eq_true, if_false]
      exact List.mem_map.mpr ⟨w, hw, rfl⟩
    rw [k1]
    exact List.mem_filterMap.mpr ⟨_, hmem, hlike _ hmem hl⟩
  · intro payload known hna
    unfold broadcastTargets
    split
    · rename_i items hitems
      rw [hitems] at hna
      cases hna
    · rfl
  · intro payload known items hitems
    unfold broadcastTargets
    rw [hitems]

theorem parseSupervisorDispatchActionsFromText_order_witness :
    parseSupervisorDispatchActionsFromText sampleParserEnv threeFamiliesText
        ["worker-1".toList, "worker-2".toList, "worker-3".toList]
      = some [Action.mk "worker-1".toList "继续任务 A".toList,
              Action.mk "worker-2".toList "继续任务 B".toList,
              Action.mk "worker-1".toList "同步日报".toList,
              Action.mk "worker-3".toList "同步日报".toList]
    ∧ directivesInOrder sampleParserEnv threeFamiliesText
        ["worker-1".toList, "worker-2".toList, "worker-3".toList]
      = [Action.mk "worker-1".toList "继续任务 A".toList,
         Action.mk "worker-2".toList "继续任务 B".toList,
         Action.mk "worker-2".toList "继续任务 B".toList,
         Action.mk "worker-1".toList "同步日报".toList,
         Action.mk "worker-3".toList "同步日报".toList]
    ∧ (collectDispatchActions sampleParserEnv threeFamiliesText
        ["worker-1".toList, "worker-2".toList, "worker-3".toList]).1
      = keepFirst ((directivesInOrder sampleParserEnv threeFamiliesText
          ["worker-1".toList, "worker-2".toList, "worker-3".toList]).filterMap
            (storedDirective sampleParserEnv))
    ∧ parseSupervisorDispatchActionsFromText sampleParserEnv broadcastText
        ["Worker-1".toList, "2".toList]
      = some [Action.mk "worker-1".toList "同步日报".toList,
              Action.mk "worker-2".toList "同步日报".toList] :=
  ⟨by decide!, by decide!,
    (parseSupervisorDispatchActionsFromText_order sampleParserEnv threeFamiliesText
      ["worker-1".toList, "worker-2".toList, "worker-3".toList]).2.1, by decide!⟩

/-- Counterexample to C31 as stated: the option `workerIds` names one worker by the text
`w1000000000000000000000`.  Its normalised id, the known worker, is `worker-1e+21`; the
broadcast that names no workers yields no action for that id but one for `worker-21`,
which `pushAction` makes of it. -/
theorem parseSupervisorDispatchActionsFromText_order_counterexample :
    knownWorkersOf sampleParserEnv ["w1000000000000000000000".toList]
        = ["worker-1e+21".toList]
      ∧ parseSupervisorDispatchActionsFromText sampleParserEnv broadcastText
          ["w1000000000000000000000".toList]
        = some [Action.mk "worker-21".toList "同步日报".toList] := by
  decide!

/-- C10, as the code has it.  The actions returned by
`parseSupervisorDispatchActionsFromText` are pairwise distinct: no two of them have the same
worker id and the same instruction, where every instruction is stored trimmed (and is not
empty), whether the duplicates arrive through the same tag or through different tag
families.  Of equal directives the first occurrence is the one kept: the list holds every
stored directive of the three tag families once, in the order of the first occurrences. -/
theorem parseSupervisorDispatchActionsFromText_nodup (env : ParserEnv) (text : Str)
    (workerIds : List Str) (actions : List Action)
    (h : parseSupervisorDispatchActionsFromText env text workerIds = some actions) :
    actions.Nodup
      ∧ (∀ a ∈ actions,
          a.workerId ≠ [] ∧ a.instruction ≠ [] ∧ trim a.instruction = a.instruction)
      ∧ actions
          = keepFirst ((directivesInOrder env text workerIds).filterMap (storedDirective env))
      ∧ (∀ a, a ∈ actions
          ↔ a ∈ (directivesInOrder env text workerIds).filterMap (storedDirective env))
      ∧ actions.Pairwise (fun a b =>
          ((directivesInOrder env text workerIds).filterMap (storedDirective env)).indexOf a
            < ((directivesInOrder env text workerIds).filterMap (storedDirective env)).indexOf b) := by
  have hact : actions = (collectDispatchActions env text workerIds).1 := by
    unfold parseSupervisorDispatchActionsFromText at h
    dsimp only at h
    split_ifs at h
    injection h with h
    exact h.symm
  have hkeep := collectDispatchActions_keepFirst env text workerIds
  obtain ⟨k1, k2, k3⟩ := keepFirst_spec
    ((directivesInOrder env text workerIds).filterMap (storedDirective env))
  rw [← hkeep, ← hact] at k1 k2 k3
  refine ⟨k2, ?_, by rw [hact]; exact hkeep, k1, k3⟩
  intro a ha
  obtain ⟨d, -, hd⟩ := List.mem_filterMap.mp ((k1 a).mp ha)
  obtain ⟨⟨body, -, -, hw⟩, hi, ht⟩ := storedDirective_normal env d a hd
  refine ⟨?_, hi, ht⟩
  rw [hw]
  exact List.cons_ne_nil _ _

theorem parseSupervisorDispatchActionsFromText_nodup_witness :
    [({ workerId := "worker-2".toList, instruction := "继续任务 B".toList } : Action),
      { workerId := "worker-1".toList, instruction := "继续任务 A".toList }].Nodup
      ∧ (∀ a ∈ [({ workerId := "worker-2".toList, instruction := "继续任务 B".toList } : Action),
          { workerId := "worker-1".toList, instruction := "继续任务 A".toList }],
          a.workerId ≠ [] ∧ a.instruction ≠ [] ∧ trim a.instruction = a.instruction)
      ∧ [({ workerId := "worker-2".toList, instruction := "继续任务 B".toList } : Action),
          { workerId := "worker-1".toList, instruction := "继续任务 A".toList }]
          = keepFirst ((directivesInOrder sampleParserEnv repeatedDirectiveText []).filterMap
              (storedDirective sampleParserEnv))
      ∧ (∀ a, a ∈ [({ workerId := "worker-2".toList, instruction := "继续任务 B".toList } : Action),
          { workerId := "worker-1".toList, instruction := "继续任务 A".toList }]
          ↔ a ∈ (directivesInOrder sampleParserEnv repeatedDirectiveText []).filterMap
              (storedDirective sampleParserEnv))
      ∧ [({ workerId := "worker-2".toList, instruction := "继续任务 B".toList } : Action),
          { workerId := "worker-1".toList, instruction := "继续任务 A".toList }].Pairwise
          (fun a b =>
            ((directivesInOrder sampleParserEnv repeatedDirectiveText []).filterMap
                (storedDirective sampleParserEnv)).indexOf a
              < ((directivesInOrder sampleParserEnv repeatedDirectiveText []).filterMap
                (storedDirective sampleParserEnv)).indexOf b) :=
  parseSupervisorDispatchActionsFromText_nodup sampleParserEnv repeatedDirectiveText []
    [{ workerId := "worker-2".toList, instruction := "继续任务 B".toList },
      { workerId := "worker-1".toList, instruction := "继续任务 A".toList }] (by decide!)


/-! ## The brace-balanced scan -/

theorem option_map_append (cur : Option Str) (a b : Str) :
    (cur.map fun text => text ++ a).map (fun text => text ++ b)
      = cur.map fun text => text ++ (a ++ b) := by
  cases cur with
  | none => rfl
  | some t => simp

theorem balancedStep_inString (st : BalancedScan) (ch : Char) (h : st.inString = true) :
    balancedStep st ch
      = if st.escaped then
          { st with current := st.current.map fun text => text ++ [ch], escaped := false }
        else if ch = '\\' then
          { st with current := st.current.map fun text => text ++ [ch], escaped := true }
        else if ch = '"' then
          { st with current := st.current.map fun text => text ++ [ch], inString := false }
        else { st with current := st.current.map fun text => text ++ [ch] } := by
  unfold balancedStep
  simp only [h, if_true]

theorem balancedStep_plain (st : BalancedScan) (ch : Char) (h : st.inString = false)
    (h1 : ch ≠ '"') (h2 : ch ≠ '\x7b') (h3 : ch ≠ '\x7d') :
    balancedStep st ch = { st with current := st.current.map fun text => text ++ [ch] } := by
  unfold balancedStep
  simp only [h, Bool.false_eq_true, if_false, h1, h2, h3]

/-- The scan of the inside of a string literal and of its closing quotation mark: braces
and escaped quotation marks in it change neither the depth nor the list. -/
theorem literal_scan (body : Str) :
    ∀ (escaped : Bool) (st : BalancedScan), literalEnd escaped body = true →
      st.inString = true → st.escaped = escaped →
      (body ++ ['"']).foldl balancedStep st
        = { st with
            current := st.current.map fun text => text ++ (body ++ ['"'])
            inString := false, escaped := false } := by
  induction body with
  | nil =>
    intro escaped st hl hs he
    cases escaped with
    | true => cases hl
    | false =>
      rw [List.nil_append, List.foldl_cons, List.foldl_nil, balancedStep_inString st _ hs, he]
      simp only [Bool.false_eq_true, if_false, if_true]
      have : ('"' : Char) ≠ '\\' := by decide
      rw [if_neg this]
  | cons c rest ih =>
    intro escaped st hl hs he
    rw [List.cons_append, List.foldl_cons, balancedStep_inString st _ hs, he]
    cases escaped with
    | true =>
      simp only [if_true]
      unfold literalEnd at hl
      rw [ih false { st with current := st.current.map fun text => text ++ [c], escaped := false }
        hl hs rfl]
      simp only [option_map_append]
      rfl
    | false =>
      simp only [Bool.false_eq_true, if_false]
      unfold literalEnd at hl
      by_cases hc : c = '\\'
      · rw [if_pos hc] at hl ⊢
        rw [ih true { st with current := st.current.map fun text => text ++ [c], escaped := true }
          hl hs rfl]
        simp only [option_map_append]
        rfl
      · rw [if_neg hc] at hl ⊢
        by_cases hq : c = '"'
        · rw [if_pos hq] at hl
          cases hl
        · rw [if_neg hq] at hl ⊢
          rw [ih false
            { st with current := st.current.map fun text => text ++ [c], escaped := false }
            hl hs rfl]
          simp only [option_map_append]
          rfl

/-- A string literal between its two quotation marks is passed without a trace by a scan
that is outside a string literal, at every depth. -/
theorem quoted_scan (body : Str) (hb : isLiteralBody body = true) (st : BalancedScan)
    (hs : st.inString = false) (he : st.escaped = false) :
    ('"' :: (body ++ ['"'])).foldl balancedStep st
      = { st with current := st.current.map fun text => text ++ ('"' :: (body ++ ['"'])) } := by
  have hstep : balancedStep st '"'
      = { st with current := st.current.map fun text => text ++ ['"'], inString := true } := by
    unfold balancedStep
    simp only [hs, Bool.false_eq_true, if_false, if_true]
  rw [List.foldl_cons, hstep, literal_scan body false
    { st with current := st.current.map fun text => text ++ ['"'], inString := true } hb rfl he]
  simp only [option_map_append]
  cases st
  simp only at hs he
  simp [hs, he]

theorem depthNeutral_nil : DepthNeutral [] := by
  intro st _ _ _
  cases st with
  | mk list depth current inString escaped =>
    cases current <;> simp

theorem depthNeutral_append (a b : Str) (ha : DepthNeutral a) (hb : DepthNeutral b) :
    DepthNeutral (a ++ b) := by
  intro st hs he hd
  rw [List.foldl_append, ha st hs he hd,
    hb { st with current := st.current.map fun text => text ++ a } hs he hd]
  simp only [option_map_append]

theorem depthNeutral_plain (t : Str)
    (h : ∀ c ∈ t, c ≠ '"' ∧ c ≠ '\x7b' ∧ c ≠ '\x7d') : DepthNeutral t := by
  induction t with
  | nil => exact depthNeutral_nil
  | cons c rest ih =>
    have hrest := ih fun x hx => h x (List.mem_cons_of_mem _ hx)
    obtain ⟨h1, h2, h3⟩ := h c (List.mem_cons_self _ _)
    intro st hs he hd
    rw [List.foldl_cons, balancedStep_plain st c hs h1 h2 h3,
      hrest { st with current := st.current.map fun text => text ++ [c] } hs he hd]
    simp only [option_map_append]
    rfl

theorem depthNeutral_quoted (body : Str) (hb : isLiteralBody body = true) :
    DepthNeutral ('"' :: (body ++ ['"'])) := by
  intro st hs he _
  exact quoted_scan body hb st hs he

theorem depthNeutral_braces (inner : Str) (h : DepthNeutral inner) :
    DepthNeutral ('\x7b' :: (inner ++ ['\x7d'])) := by
  intro st hs he hd
  have hopen : balancedStep st '\x7b'
      = { st with current := st.current.map fun text => text ++ ['\x7b'],
                  depth := st.depth + 1 } := by
    unfold balancedStep
    have hq : ('\x7b' : Char) ≠ '"' := by decide
    simp only [hs, Bool.false_eq_true, if_false, hq, if_true]
    rw [if_neg (by omega)]
  rw [List.foldl_cons, hopen, List.foldl_append,
    h { st with current := st.current.map fun text => text ++ ['\x7b'], depth := st.depth + 1 }
      hs he (by simp)]
  rw [List.foldl_cons, List.foldl_nil]
  unfold balancedStep
  have hq : ('\x7d' : Char) ≠ '"' := by decide
  have hq2 : ('\x7d' : Char) ≠ '\x7b' := by decide
  simp only [hs, Bool.false_eq_true, if_false, hq, hq2, if_true]
  rw [if_neg (by omega), if_neg (by omega)]
  simp only [option_map_append, Nat.add_sub_cancel]
  rfl

theorem literalEnd_quoteChar (c : Char) (rest : Str) :
    literalEnd false (quoteChar c ++ rest) = literalEnd false rest := by
  have hdigit : ∀ n, n < 16 → Nat.digitChar n ≠ '\\' ∧ Nat.digitChar n ≠ '"' := by
    intro n hn
    interval_cases n <;> decide
  unfold quoteChar
  split_ifs with h1 h2 h3 h4 h5 h6 h7 h8
  · rfl
  · rfl
  · rfl
  · rfl
  · rfl
  · rfl
  · rfl
  · have ha := hdigit (c.toNat / 16) (by omega)
    have hb := hdigit (c.toNat % 16) (by omega)
    simp only [List.cons_append, List.nil_append]
    rw [literalEnd]
    simp only [if_true]
    rw [literalEnd, literalEnd]
    simp only [show ('0' : Char) ≠ '\\' from by decide, show ('0' : Char) ≠ '"' from by decide,
      if_false]
    rw [literalEnd]
    simp only [show ('0' : Char) ≠ '\\' from by decide, show ('0' : Char) ≠ '"' from by decide,
      if_false]
    rw [literalEnd]
    simp only [ha.1, ha.2, if_false]
    rw [literalEnd]
    simp only [hb.1, hb.2, if_false]
  · simp only [List.cons_append, List.nil_append]
    rw [literalEnd]
    simp only [h1, h2, if_false]

theorem isLiteralBody_quoted (s : Str) : isLiteralBody (s.flatMap quoteChar) = true := by
  unfold isLiteralBody
  induction s with
  | nil => rfl
  | cons c rest ih =>
    rw [List.flatMap_cons, literalEnd_quoteChar]
    exact ih

theorem depthNeutral_jsonQuote (s : Str) : DepthNeutral (jsonQuote s) :=
  depthNeutral_quoted _ (isLiteralBody_quoted s)

theorem depthNeutral_intToStr (n : Int) : DepthNeutral (intToStr n) := by
  apply depthNeutral_plain
  intro c hc
  unfold intToStr at hc
  split_ifs at hc
  · rcases List.mem_cons.mp hc with h | h
    · rw [h]
      decide
    · exact ⟨(numberToString_plain _ c h).1, (numberToString_plain _ c h).2.1,
        (numberToString_plain _ c h).2.2.1⟩
  · exact ⟨(numberToString_plain _ c hc).1, (numberToString_plain _ c hc).2.1,
      (numberToString_plain _ c hc).2.2.1⟩

theorem depthNeutral_numberText (text : Str) (h : isNumberText text = true) :
    DepthNeutral text := by
  apply depthNeutral_plain
  intro c hc
  unfold isNumberText at h
  simp only [Bool.and_eq_true, List.all_eq_true, Bool.or_eq_true, decide_eq_true_eq] at h
  have := h.2 c hc
  refine ⟨?_, ?_, ?_⟩ <;>
    (intro hq; rw [hq] at this; revert this; decide)

mutual
/-- The serialisation of a value is passed without a trace. -/
theorem depthNeutral_jsonStringify : ∀ v : Json, plainNumbers v = true →
    DepthNeutral (jsonStringify v)
  | .null, _ => depthNeutral_plain _ (by decide)
  | .bool true, _ => depthNeutral_plain _ (by decide)
  | .bool false, _ => depthNeutral_plain _ (by decide)
  | .num n, _ => depthNeutral_intToStr n
  | .real text, h => depthNeutral_numberText text (by simpa [plainNumbers] using h)
  | .str s, _ => depthNeutral_jsonQuote s
  | .arr items, h => by
    have hi := depthNeutral_jsonStringifyItems items (by simpa [plainNumbers] using h)
    have e : jsonStringify (.arr items) = ['['] ++ (jsonStringifyItems items ++ [']']) := by
      simp [jsonStringify]
    rw [e]
    exact depthNeutral_append _ _ (depthNeutral_plain _ (by decide))
      (depthNeutral_append _ _ hi (depthNeutral_plain _ (by decide)))
  | .obj fields, h => by
    have hf := depthNeutral_jsonStringifyFields fields (by simpa [plainNumbers] using h)
    have e : jsonStringify (.obj fields)
        = '\x7b' :: (jsonStringifyFields fields ++ ['\x7d']) := by
      simp [jsonStringify]
    rw [e]
    exact depthNeutral_braces _ hf
/-- The same for the elements of an array. -/
theorem depthNeutral_jsonStringifyItems : ∀ items : List Json, plainNumbersList items = true →
    DepthNeutral (jsonStringifyItems items)
  | [], _ => depthNeutral_nil
  | [a], h => by
    have ha := depthNeutral_jsonStringify a (by
      simp only [plainNumbersList, Bool.and_eq_true] at h
      exact h.1)
    simpa [jsonStringifyItems] using ha
  | a :: b :: rest, h => by
    simp only [plainNumbersList, Bool.and_eq_true] at h
    have ha := depthNeutral_jsonStringify a h.1
    have hr := depthNeutral_jsonStringifyItems (b :: rest) (by
      simp only [plainNumbersList, Bool.and_eq_true]
      exact h.2)
    have e : jsonStringifyItems (a :: b :: rest)
        = jsonStringify a ++ ([','] ++ jsonStringifyItems (b :: rest)) := by
      simp [jsonStringifyItems]
    rw [e]
    exact depthNeutral_append _ _ ha
      (depthNeutral_append _ _ (depthNeutral_plain _ (by decide)) hr)
/-- The same for the members of an object. -/
theorem depthNeutral_jsonStringifyFields : ∀ fields : List (Str × Json),
    plainNumbersFields fields = true → DepthNeutral (jsonStringifyFields fields)
  | [], _ => depthNeutral_nil
  | [(k, a)], h => by
    have ha := depthNeutral_jsonStringify a (by
      simp only [plainNumbersFields, Bool.and_eq_true] at h
      exact h.1)
    have e : jsonStringifyFields [(k, a)] = jsonQuote k ++ ([':'] ++ jsonStringify a) := by
      simp [jsonStringifyFields]
    rw [e]
    exact depthNeutral_append _ _ (depthNeutral_jsonQuote k)
      (depthNeutral_append _ _ (depthNeutral_plain _ (by decide)) ha)
  | (k, a) :: b :: rest, h => by
    simp only [plainNumbersFields, Bool.and_eq_true] at h
    have ha := depthNeutral_jsonStringify a h.1
    have hr := depthNeutral_jsonStringifyFields (b :: rest) (by
      cases b
      simp only [plainNumbersFields, Bool.and_eq_true]
      exact h.2)
    have e : jsonStringifyFields ((k, a) :: b :: rest)
        = jsonQuote k ++ ([':'] ++ (jsonStringify a ++ ([','] ++ jsonStringifyFields (b :: rest)))) := by
      cases b
      simp [jsonStringifyFields]
    rw [e]
    exact depthNeutral_append _ _ (depthNeutral_jsonQuote k)
      (depthNeutral_append _ _ (depthNeutral_plain _ (by decide))
        (depthNeutral_append _ _ ha
          (depthNeutral_append _ _ (depthNeutral_plain _ (by decide)) hr)))
end

theorem extract_object (inner : Str) (h : DepthNeutral inner) :
    extractBalancedJsonObjects ('\x7b' :: (inner ++ ['\x7d'])) = ['\x7b' :: (inner ++ ['\x7d'])] := by
  unfold extractBalancedJsonObjects
  have hopen : balancedStep
      { list := [], depth := 0, current := none, inString := false, escaped := false } '\x7b'
      = { list := [], depth := 1, current := some ['\x7b'], inString := false,
          escaped := false } := by
    decide
  rw [List.foldl_cons, hopen, List.foldl_append,
    h { list := [], depth := 1, current := some ['\x7b'], inString := false, escaped := false }
      rfl rfl (Nat.le_refl 1)]
  rw [List.foldl_cons, List.foldl_nil]
  unfold balancedStep
  have hq : ('\x7d' : Char) ≠ '"' := by decide
  have hq2 : ('\x7d' : Char) ≠ '\x7b' := by decide
  simp only [Bool.false_eq_true, if_false, hq, hq2, if_true]
  simp

theorem weave_snoc (gaps cands : List Str) (gap cand : Str) (h : gaps.length = cands.length) :
    weave (gaps ++ [gap]) (cands ++ [cand]) = weave gaps cands ++ (gap ++ cand) := by
  unfold weave
  rw [List.zipWith_append _ _ _ _ _ h]
  simp

/-- What one round of the scan does to the list and to the open candidate: the candidate
grows by the character, or it is opened at a brace, or it is dropped, or it is closed by a
brace and put at the end of the list. -/
theorem balancedStep_cases (st : BalancedScan) (ch : Char) :
    ((balancedStep st ch).list = st.list
        ∧ (balancedStep st ch).current = st.current.map fun text => text ++ [ch])
      ∨ ((balancedStep st ch).list = st.list ∧ (balancedStep st ch).current = some [ch]
        ∧ ch = '\x7b')
      ∨ ((balancedStep st ch).list = st.list ∧ (balancedStep st ch).current = none)
      ∨ ∃ cur, st.current = some cur ∧ (balancedStep st ch).list = st.list ++ [cur ++ [ch]]
        ∧ (balancedStep st ch).current = none ∧ ch = '\x7d' := by
  unfold balancedStep
  dsimp only
  split_ifs with h1 h2 h3 h4 h5 h6 h7 h8 h9 h10
  · exact Or.inl ⟨rfl, rfl⟩
  · exact Or.inl ⟨rfl, rfl⟩
  · exact Or.inl ⟨rfl, rfl⟩
  · exact Or.inl ⟨rfl, rfl⟩
  · exact Or.inl ⟨rfl, rfl⟩
  · exact Or.inr (Or.inl ⟨rfl, rfl, h6⟩)
  · exact Or.inl ⟨rfl, rfl⟩
  · exact Or.inr (Or.inr (Or.inl ⟨rfl, rfl⟩))
  · cases hcur : st.current with
    | none => exact Or.inr (Or.inr (Or.inl ⟨rfl, rfl⟩))
    | some cur => exact Or.inr (Or.inr (Or.inr ⟨cur, rfl, rfl, rfl, h8⟩))
  · exact Or.inl ⟨rfl, rfl⟩
  · exact Or.inl ⟨rfl, rfl⟩

/-- The scan cuts the text it has read into gaps and candidates: the text is
`gap₁ ++ cand₁ ++ ... ++ gapₙ ++ candₙ ++ tail`, every candidate starts with an opening
brace and ends with a closing one, and an open candidate is the end of the tail. -/
theorem scan_weave (rest : Str) :
    ∀ (read : Str) (st : BalancedScan) (gaps : List Str) (tail : Str),
      gaps.length = st.list.length → read = weave gaps st.list ++ tail →
      (∀ c ∈ st.list, c.head? = some '\x7b' ∧ c.getLast? = some '\x7d') →
      (∀ cur, st.current = some cur → cur.head? = some '\x7b' ∧ ∃ g, tail = g ++ cur) →
      ∃ (gaps2 : List Str) (tail2 : Str),
        gaps2.length = (rest.foldl balancedStep st).list.length
          ∧ read ++ rest = weave gaps2 (rest.foldl balancedStep st).list ++ tail2
          ∧ ∀ c ∈ (rest.foldl balancedStep st).list,
              c.head? = some '\x7b' ∧ c.getLast? = some '\x7d' := by
  induction rest with
  | nil =>
    intro read st gaps tail hlen hread hc _
    exact ⟨gaps, tail, hlen, by simpa using hread, hc⟩
  | cons ch rest ih =>
    intro read st gaps tail hlen hread hc hcur
    rw [List.foldl_cons]
    have happ : read ++ ch :: rest = (read ++ [ch]) ++ rest := by simp
    rw [happ]
    rcases balancedStep_cases st ch with ⟨hl, hn⟩ | ⟨hl, hn, hch⟩ | ⟨hl, hn⟩
      | ⟨cur, hsome, hl, hn, hch⟩
    · refine ih (read ++ [ch]) (balancedStep st ch) gaps (tail ++ [ch]) (by rw [hl]; exact hlen)
        (by rw [hl, hread, List.append_assoc]) (by rw [hl]; exact hc) ?_
      intro cur2 h2
      rw [hn] at h2
      cases hst : st.current with
      | none => rw [hst] at h2; cases h2
      | some cur =>
        rw [hst] at h2
        simp only [Option.map_some', Option.some.injEq] at h2
        obtain ⟨hhead, g, hg⟩ := hcur cur hst
        subst h2
        refine ⟨?_, g, by rw [hg, List.append_assoc]⟩
        cases cur with
        | nil => cases hhead
        | cons a as => exact hhead
    · refine ih (read ++ [ch]) (balancedStep st ch) gaps (tail ++ [ch]) (by rw [hl]; exact hlen)
        (by rw [hl, hread, List.append_assoc]) (by rw [hl]; exact hc) ?_
      intro cur2 h2
      rw [hn] at h2
      simp only [Option.some.injEq] at h2
      subst h2
      exact ⟨by rw [hch]; rfl, tail, rfl⟩
    · refine ih (read ++ [ch]) (balancedStep st ch) gaps (tail ++ [ch]) (by rw [hl]; exact hlen)
        (by rw [hl, hread, List.append_assoc]) (by rw [hl]; exact hc) ?_
      intro cur2 h2
      rw [hn] at h2
      cases h2
    · obtain ⟨hhead, g, hg⟩ := hcur cur hsome
      refine ih (read ++ [ch]) (balancedStep st ch) (gaps ++ [g]) [] ?_ ?_ ?_ ?_
      · rw [hl]
        simp [hlen]
      · rw [hl, weave_snoc _ _ _ _ hlen, hread, hg]
        simp
      · rw [hl]
        intro c hmem
        rcases List.mem_append.mp hmem with h | h
        · exact hc c h
        · rw [List.mem_singleton] at h
          subst h
          refine ⟨?_, by rw [hch]; simp⟩
          cases cur with
          | nil => cases hhead
          | cons a as => exact hhead
      · intro cur2 h2
        rw [hn] at h2
        cases h2

/-- Every text is cut by the scan into gaps and the candidates it returns. -/
theorem extract_weave (source : Str) :
    ∃ (gaps : List Str) (tail : Str),
      gaps.length = (extractBalancedJsonObjects source).length
        ∧ source = weave gaps (extractBalancedJsonObjects source) ++ tail
        ∧ ∀ c ∈ extractBalancedJsonObjects source,
            c.head? = some '\x7b' ∧ c.getLast? = some '\x7d' := by
  have h := scan_weave source []
    { list := [], depth := 0, current := none, inString := false, escaped := false } [] []
    rfl rfl (by intro c hc; cases hc) (by intro cur h; cases h)
  simpa [extractBalancedJsonObjects] using h

/-- C36: the brace-balanced scan is string-literal aware.  A string literal (an opening
quotation mark, a body in which every quotation mark is escaped by a backslash, a closing
quotation mark) read by a scan that is outside a string literal leaves the brace depth and
the list of candidates as they were, whatever braces and escaped quotation marks the body
holds.  For the serialisation `s` of a JSON object `extractBalancedJsonObjects s` is `[s]`.
For every text the returned candidates start with an opening brace, end with a closing
brace, and stand in the text one after the other without overlap: the text is
`gap₁ ++ cand₁ ++ ... ++ gapₙ ++ candₙ ++ tail`. -/
theorem extractBalancedJsonObjects_literal_aware (body : Str) (st : BalancedScan)
    (fields : List (Str × Json)) (source : Str)
    (hbody : isLiteralBody body = true) (hs : st.inString = false) (he : st.escaped = false)
    (hfields : plainNumbersFields fields = true) :
    ((('"' :: (body ++ ['"'])).foldl balancedStep st).depth = st.depth
        ∧ (('"' :: (body ++ ['"'])).foldl balancedStep st).list = st.list
        ∧ (('"' :: (body ++ ['"'])).foldl balancedStep st).inString = false
        ∧ (('"' :: (body ++ ['"'])).foldl balancedStep st).escaped = false)
      ∧ extractBalancedJsonObjects (jsonStringify (.obj fields)) = [jsonStringify (.obj fields)]
      ∧ ∃ (gaps : List Str) (tail : Str),
          gaps.length = (extractBalancedJsonObjects source).length
            ∧ source = weave gaps (extractBalancedJsonObjects source) ++ tail
            ∧ ∀ c ∈ extractBalancedJsonObjects source,
                c.head? = some '\x7b' ∧ c.getLast? = some '\x7d' := by
  refine ⟨?_, ?_, extract_weave source⟩
  · rw [quoted_scan body hbody st hs he]
    exact ⟨rfl, rfl, hs, he⟩
  · have e : jsonStringify (.obj fields)
        = '\x7b' :: (jsonStringifyFields fields ++ ['\x7d']) := by
      simp [jsonStringify]
    rw [e]
    exact extract_object _ (depthNeutral_jsonStringifyFields fields hfields)

theorem extractBalancedJsonObjects_literal_aware_witness :
    (isLiteralBody literalBodySample = true ∧ openScan.inString = false
        ∧ openScan.escaped = false ∧ plainNumbersFields nestedObjectFields = true)
      ∧ ((('"' :: (literalBodySample ++ ['"'])).foldl balancedStep openScan).depth
            = openScan.depth
        ∧ (('"' :: (literalBodySample ++ ['"'])).foldl balancedStep openScan).list
            = openScan.list
        ∧ (('"' :: (literalBodySample ++ ['"'])).foldl balancedStep openScan).inString = false
        ∧ (('"' :: (literalBodySample ++ ['"'])).foldl balancedStep openScan).escaped = false)
      ∧ extractBalancedJsonObjects (jsonStringify (.obj nestedObjectFields))
          = [jsonStringify (.obj nestedObjectFields)]
      ∧ ∃ (gaps : List Str) (tail : Str),
          gaps.length = (extractBalancedJsonObjects proseWithObjects).length
            ∧ proseWithObjects = weave gaps (extractBalancedJsonObjects proseWithObjects) ++ tail
            ∧ ∀ c ∈ extractBalancedJsonObjects proseWithObjects,
                c.head? = some '\x7b' ∧ c.getLast? = some '\x7d' :=
  ⟨⟨by decide, rfl, rfl, by decide⟩,
    extractBalancedJsonObjects_literal_aware literalBodySample openScan nestedObjectFields
      proseWithObjects (by decide) rfl rfl (by decide)⟩

/-! ## Line-wrapped plan blocks -/

/-- A step of the scan from a state whose candidates and open text are short keeps them
short. -/
theorem balancedStep_short (st : BalancedScan) (ch : Char) (n : Nat) (hn : 1 ≤ n)
    (hl : ∀ e ∈ st.list, e.length ≤ n) (hc : ∀ c, st.current = some c → c.length < n) :
    (∀ e ∈ (balancedStep st ch).list, e.length < n + 1)
      ∧ ∀ c, (balancedStep st ch).current = some c → c.length < n + 1 := by
  rcases balancedStep_cases st ch with ⟨h1, h2⟩ | ⟨h1, h2, -⟩ | ⟨h1, h2⟩ | ⟨cur, hcur, h1, h2, -⟩
  · rw [h1, h2]
    refine ⟨fun e he => Nat.lt_succ_of_le (hl e he), ?_⟩
    intro c hcc
    cases hs : st.current with
    | none => rw [hs] at hcc; cases hcc
    | some t =>
      rw [hs] at hcc
      simp only [Option.map_some', Option.some.injEq] at hcc
      rw [← hcc, List.length_append, List.length_singleton]
      exact Nat.succ_lt_succ (hc t hs)
  · rw [h1, h2]
    refine ⟨fun e he => Nat.lt_succ_of_le (hl e he), ?_⟩
    intro c hcc
    simp only [Option.some.injEq] at hcc
    rw [← hcc, List.length_singleton]
    omega
  · rw [h1, h2]
    refine ⟨fun e he => Nat.lt_succ_of_le (hl e he), ?_⟩
    intro c hcc
    cases hcc
  · rw [h1, h2]
    refine ⟨?_, fun c hcc => by cases hcc⟩
    intro e he
    rcases List.mem_append.mp he with he | he
    · exact Nat.lt_succ_of_le (hl e he)
    · rw [List.mem_singleton] at he
      rw [he, List.length_append, List.length_singleton]
      exact Nat.succ_lt_succ (hc cur hcur)

theorem foldl_balancedStep_short (q : Str) :
    ∀ (st : BalancedScan) (ch : Char) (n : Nat), 1 ≤ n → (∀ e ∈ st.list, e.length ≤ n) →
      (∀ c, st.current = some c → c.length < n) →
      (∀ e ∈ ((ch :: q).foldl balancedStep st).list, e.length < n + (ch :: q).length)
        ∧ ∀ c, ((ch :: q).foldl balancedStep st).current = some c →
            c.length < n + (ch :: q).length := by
  induction q with
  | nil =>
    intro st ch n hn hl hc
    exact balancedStep_short st ch n hn hl hc
  | cons d q ih =>
    intro st ch n hn hl hc
    obtain ⟨h1, h2⟩ := balancedStep_short st ch n hn hl hc
    have := ih (balancedStep st ch) d (n + 1) (by omega) (fun e he => Nat.le_of_lt (h1 e he)) h2
    rw [List.foldl_cons]
    simp only [List.length_cons] at this ⊢
    refine ⟨fun e he => ?_, fun c hc => ?_⟩
    · have := this.1 e he; omega
    · have := this.2 c hc; omega

/-- When the scan that has read `p` holds `p` as its open text and ends, after `q`, with
the one candidate `p ++ q`, it held all it had read as its open text at every character of
`q`, and no candidate. -/
theorem scan_on_track (q : Str) :
    ∀ (p : Str) (st : BalancedScan), p ≠ [] → st.list = [] → st.current = some p →
      (q.foldl balancedStep st).list = [p ++ q] →
      ∀ q1 ch q2, q = q1 ++ ch :: q2 →
        (q1.foldl balancedStep st).list = []
          ∧ (q1.foldl balancedStep st).current = some (p ++ q1) := by
  induction q with
  | nil =>
    intro p st _ _ _ _ q1 ch q2 hq
    cases q1 <;> cases hq
  | cons c q ih =>
    intro p st hp hl hc hfin q1 ch q2 hq
    cases q1 with
    | nil => exact ⟨hl, by simpa using hc⟩
    | cons c1 q1 =>
      rw [List.cons_append] at hq
      injection hq with hq1 hq2
      subst hq1
      rw [List.foldl_cons] at hfin ⊢
      have hplen : 1 ≤ p.length := by
        cases p with
        | nil => exact absurd rfl hp
        | cons a as => simp
      have hoff : (∀ e ∈ (balancedStep st c).list, e.length ≤ p.length + 1)
          → (∀ t, (balancedStep st c).current = some t → t.length < p.length + 1)
          → False := by
        intro ha hb
        cases q with
        | nil => cases q1 <;> cases hq2
        | cons d q3 =>
          have hshort := (foldl_balancedStep_short q3 (balancedStep st c) d (p.length + 1)
            (by omega) ha hb).1 (p ++ c :: d :: q3) (by rw [hfin]; exact List.mem_singleton_self _)
          simp only [List.length_append, List.length_cons] at hshort
          omega
      rcases balancedStep_cases st c with ⟨h1, h2⟩ | ⟨h1, h2, -⟩ | ⟨h1, h2⟩
        | ⟨cur, hcur, h1, h2, -⟩
      · have hcur : (balancedStep st c).current = some (p ++ [c]) := by
          rw [h2, hc]; rfl
        have := ih (p ++ [c]) (balancedStep st c) (by simp) (by rw [h1]; exact hl) hcur
          (by rw [hfin]; simp) q1 ch q2 hq2
        simpa using this
      · exfalso
        apply hoff
        · intro e he
          rw [h1, hl] at he
          cases he
        · intro t ht
          rw [h2] at ht
          injection ht with ht
          rw [← ht, List.length_singleton]
          omega
      · exfalso
        apply hoff
        · intro e he
          rw [h1, hl] at he
          cases he
        · intro t ht
          rw [h2] at ht
          cases ht
      · exfalso
        apply hoff
        · intro e he
          rw [h1, hl, List.nil_append, List.mem_singleton] at he
          rw [hc] at hcur
          injection hcur with hcur
          rw [he, ← hcur, List.length_append, List.length_singleton]
        · intro t ht
          rw [h2] at ht
          cases ht


/-- The step of the scan does not look at the open text: when a step from a state with
open text `p` only adds the character to it, the step from the same state with open text
`q` only adds the character to `q`. -/
theorem balancedStep_retarget (st : BalancedScan) (p q : Str) (ch : Char) (hp : p ≠ [])
    (hc : st.current = some p) (hl : (balancedStep st ch).list = st.list)
    (hn : (balancedStep st ch).current = some (p ++ [ch])) :
    balancedStep { st with current := some q } ch
      = { balancedStep st ch with current := some (q ++ [ch]) } := by
  obtain ⟨list, depth, current, inString, escaped⟩ := st
  dsimp only at hc
  subst hc
  have hne : [ch] ≠ p ++ [ch] := by
    intro h
    have := congrArg List.length h
    simp only [List.length_append, List.length_singleton] at this
    cases p with
    | nil => exact hp rfl
    | cons a as => simp at this
  unfold balancedStep at hl hn ⊢
  dsimp only at hl hn ⊢
  split_ifs at hl hn ⊢ <;> simp_all

/-- When a step from a state with open text `p` closes the candidate, the step from the
same state with open text `q` closes the candidate `q` with the character added. -/
theorem balancedStep_retarget_close (st : BalancedScan) (p q : Str) (ch : Char)
    (hc : st.current = some p) (hl0 : st.list = [])
    (hl : (balancedStep st ch).list = [p ++ [ch]]) :
    balancedStep { st with current := some q } ch
      = { list := [q ++ [ch]], depth := 0, current := none, inString := false,
          escaped := st.escaped } := by
  obtain ⟨list, depth, current, inString, escaped⟩ := st
  dsimp only at hc hl0
  subst hc
  subst hl0
  unfold balancedStep at hl ⊢
  dsimp only at hl ⊢
  split_ifs at hl ⊢ <;> simp_all

/-- A line feed and the blanks after it are read by the scan without a trace, unless the
scan has just read a backslash in a string literal. -/
theorem balancedStep_break (n : Nat) (st : BalancedScan) (he : st.escaped = false) :
    ('\n' :: List.replicate n ' ').foldl balancedStep st
      = { st with current := st.current.map fun text => text ++ '\n' :: List.replicate n ' ' } := by
  have one : ∀ (c : Char) (s : BalancedScan), s.escaped = false → c ≠ '"' → c ≠ '\x7b' →
      c ≠ '\x7d' → c ≠ '\\' →
      balancedStep s c = { s with current := s.current.map fun text => text ++ [c] } := by
    intro c s hs h1 h2 h3 h4
    unfold balancedStep
    dsimp only
    split_ifs <;> simp_all
  have blanks : ∀ (k : Nat) (s : BalancedScan), s.escaped = false →
      (List.replicate k ' ').foldl balancedStep s
        = { s with current := s.current.map fun text => text ++ List.replicate k ' ' } := by
    intro k
    induction k with
    | zero =>
      intro s _
      obtain ⟨list, depth, current, inString, escaped⟩ := s
      cases current <;> simp
    | succ k ih =>
      intro s hs
      rw [List.replicate_succ, List.foldl_cons,
        one ' ' s hs (by decide) (by decide) (by decide) (by decide), ih _ (by exact hs)]
      obtain ⟨list, depth, current, inString, escaped⟩ := s
      cases current <;> simp
  rw [List.foldl_cons, one '\n' st he (by decide) (by decide) (by decide) (by decide),
    blanks n _ (by exact he)]
  obtain ⟨list, depth, current, inString, escaped⟩ := st
  cases current <;> simp


theorem foldl_balancedStep_retarget (seg : Str) :
    ∀ (p q : Str) (st : BalancedScan), p ≠ [] → st.current = some p →
      (∀ q1 q2, seg = q1 ++ q2 →
        (q1.foldl balancedStep st).list = st.list
          ∧ (q1.foldl balancedStep st).current = some (p ++ q1)) →
      seg.foldl balancedStep { st with current := some q }
        = { seg.foldl balancedStep st with current := some (q ++ seg) } := by
  induction seg with
  | nil =>
    intro p q st _ hc _
    obtain ⟨list, depth, current, inString, escaped⟩ := st
    simp
  | cons c seg ih =>
    intro p q st hp hc h
    have h1 := h [c] seg rfl
    simp only [List.foldl_cons, List.foldl_nil] at h1
    rw [List.foldl_cons, List.foldl_cons, balancedStep_retarget st p q c hp hc h1.1 h1.2]
    have := ih (p ++ [c]) (q ++ [c]) (balancedStep st c) (by simp) h1.2 (by
      intro q1 q2 hq
      have h2 := h (c :: q1) q2 (by rw [hq]; rfl)
      rw [List.foldl_cons] at h2
      refine ⟨by rw [h2.1, h1.1], by rw [h2.2]; simp⟩)
    rw [this]
    simp

theorem insertBreaks_cons (first : Str) (n : Nat) (seg : Str) (rest : List (Nat × Str)) :
    insertBreaks first ((n, seg) :: rest)
      = first ++ ('\n' :: List.replicate n ' ' ++ insertBreaks seg rest) := by
  unfold insertBreaks
  simp

theorem scan_wrapped_aux (rest : List (Nat × Str)) :
    ∀ (first p q : Str) (st : BalancedScan), p ≠ [] → st.list = [] → st.current = some p →
      (∀ x ∈ rest, x.2 ≠ []) →
      ((first ++ (rest.map fun x => x.2).flatten).foldl balancedStep st).list
        = [p ++ (first ++ (rest.map fun x => x.2).flatten)] →
      (∀ k, k < rest.length →
        ((first ++ ((rest.take k).map fun x => x.2).flatten).foldl balancedStep st).escaped
          = false) →
      ∃ e, (insertBreaks first rest).foldl balancedStep { st with current := some q }
        = { list := [q ++ insertBreaks first rest], depth := 0, current := none,
            inString := false, escaped := e } := by
  induction rest with
  | nil =>
    intro first p q st hp hl hc _ hfin _
    simp only [List.map_nil, List.flatten_nil, List.append_nil] at hfin
    have hins : insertBreaks first [] = first := by unfold insertBreaks; simp
    rw [hins]
    rcases List.eq_nil_or_concat first with h0 | ⟨s0, ch, h0⟩
    · rw [h0, List.foldl_nil, hl] at hfin
      cases hfin
    · rw [List.concat_eq_append] at h0
      subst h0
      have htrack : ∀ q1 q2, s0 = q1 ++ q2 →
          (q1.foldl balancedStep st).list = st.list
            ∧ (q1.foldl balancedStep st).current = some (p ++ q1) := by
        intro q1 q2 hq
        rw [hl]
        cases q2 with
        | nil =>
          exact scan_on_track _ p st hp hl hc hfin q1 ch [] (by rw [hq]; simp)
        | cons d q2 =>
          exact scan_on_track _ p st hp hl hc hfin q1 d (q2 ++ [ch]) (by rw [hq]; simp)
      have hend := htrack s0 [] (by simp)
      rw [List.foldl_append, foldl_balancedStep_retarget s0 p q st hp hc htrack]
      rw [List.foldl_append] at hfin
      simp only [List.foldl_cons, List.foldl_nil] at hfin ⊢
      refine ⟨(s0.foldl balancedStep st).escaped, ?_⟩
      have := balancedStep_retarget_close (s0.foldl balancedStep st) (p ++ s0) (q ++ s0) ch
        hend.2 (by rw [hend.1, hl]) (by rw [hfin]; simp)
      rw [this]
      simp
  | cons x rest ih =>
    obtain ⟨n, seg⟩ := x
    intro first p q st hp hl hc hne hfin hesc
    have hseg : seg ≠ [] := hne (n, seg) (List.mem_cons_self _ _)
    simp only [List.map_cons, List.flatten_cons] at hfin
    have htrack : ∀ q1 q2, first = q1 ++ q2 →
        (q1.foldl balancedStep st).list = st.list
          ∧ (q1.foldl balancedStep st).current = some (p ++ q1) := by
      intro q1 q2 hq
      rw [hl]
      cases q2 with
      | nil =>
        cases seg with
        | nil => exact absurd rfl hseg
        | cons d seg =>
          exact scan_on_track _ p st hp hl hc hfin q1 d
            (seg ++ (rest.map fun x => x.2).flatten) (by rw [hq]; simp)
      | cons d q2 =>
        exact scan_on_track _ p st hp hl hc hfin q1 d
          (q2 ++ (seg ++ (rest.map fun x => x.2).flatten)) (by rw [hq]; simp)
    have hend := htrack first [] (by simp)
    have hesc0 := hesc 0 (by simp)
    simp only [List.take_zero, List.map_nil, List.flatten_nil, List.append_nil] at hesc0
    rw [insertBreaks_cons, List.foldl_append,
      foldl_balancedStep_retarget first p q st hp hc htrack, List.foldl_append,
      balancedStep_break n _ (by exact hesc0)]
    dsimp only [Option.map_some']
    obtain ⟨e, he⟩ := ih seg (p ++ first) (q ++ first ++ '\n' :: List.replicate n ' ')
      (first.foldl balancedStep st) (by simp [hp]) (by rw [hend.1, hl]) hend.2
      (fun y hy => hne y (List.mem_cons_of_mem _ hy))
      (by rw [← List.foldl_append, hfin]; simp)
      (by
        intro k hk
        have := hesc (k + 1) (by simpa using hk)
        simpa [List.foldl_append] using this)
    refine ⟨e, ?_⟩
    rw [he]
    simp

/-- The scan of a JSON text that it cuts out as one candidate cuts out the wrapped text as
one candidate, when no break stands where the scan has just read a backslash in a string
literal. -/
theorem scan_wrapped (first : Str) (rest : List (Nat × Str)) (hfirst : first ≠ [])
    (hne : ∀ x ∈ rest, x.2 ≠ [])
    (hscan : extractBalancedJsonObjects (first ++ (rest.map fun x => x.2).flatten)
      = [first ++ (rest.map fun x => x.2).flatten])
    (hesc : ∀ k, k < rest.length →
      ((first ++ ((rest.take k).map fun x => x.2).flatten).foldl balancedStep
        { list := [], depth := 0, current := none, inString := false, escaped := false }).escaped
        = false) :
    ∃ e, (insertBreaks first rest).foldl balancedStep
        { list := [], depth := 0, current := none, inString := false, escaped := false }
      = { list := [insertBreaks first rest], depth := 0, current := none, inString := false,
          escaped := e } := by
  cases first with
  | nil => exact absurd rfl hfirst
  | cons c0 f =>
    unfold extractBalancedJsonObjects at hscan
    rw [List.cons_append, List.foldl_cons] at hscan
    have hopen : balancedStep
        { list := [], depth := 0, current := none, inString := false, escaped := false } '\x7b'
        = { list := [], depth := 1, current := some ['\x7b'], inString := false,
            escaped := false } := by
      decide
    by_cases hc0 : c0 = '\x7b'
    · subst hc0
      rw [hopen] at hscan
      have hins : insertBreaks ('\x7b' :: f) rest = '\x7b' :: insertBreaks f rest := by
        unfold insertBreaks; rfl
      obtain ⟨e, he⟩ := scan_wrapped_aux rest f ['\x7b'] ['\x7b']
        { list := [], depth := 1, current := some ['\x7b'], inString := false, escaped := false }
        (by simp) rfl rfl hne (by rw [hscan]; rfl)
        (by
          intro k hk
          have := hesc k hk
          rw [List.cons_append, List.foldl_cons, hopen] at this
          exact this)
      refine ⟨e, ?_⟩
      rw [hins, List.foldl_cons, hopen]
      exact he
    · exfalso
      have hoff : (balancedStep
            { list := [], depth := 0, current := none, inString := false, escaped := false }
            c0).list = []
          ∧ (balancedStep
            { list := [], depth := 0, current := none, inString := false, escaped := false }
            c0).current = none := by
        rcases balancedStep_cases
          { list := [], depth := 0, current := none, inString := false, escaped := false } c0
          with ⟨h1, h2⟩ | ⟨_, _, h3⟩ | ⟨h1, h2⟩ | ⟨cur, hcur, _⟩
        · exact ⟨h1, h2⟩
        · exact absurd h3 hc0
        · exact ⟨h1, h2⟩
        · cases hcur
      cases hq : f ++ (rest.map fun x => x.2).flatten with
      | nil =>
        rw [hq, List.foldl_nil, hoff.1] at hscan
        cases hscan
      | cons d q3 =>
        rw [hq] at hscan
        have hshort := (foldl_balancedStep_short q3 _ d 1 (le_refl 1)
          (fun e he => by rw [hoff.1] at he; cases he)
          (fun t ht => by rw [hoff.2] at ht; cases ht)).1
          (c0 :: d :: q3) (by rw [hscan]; exact List.mem_singleton_self _)
        simp only [List.length_cons] at hshort
        omega

/-- Text without quotation marks and braces is passed by a scan that is outside every
candidate and every string literal. -/
theorem scan_plain (t : Str) (h : ∀ c ∈ t, c ≠ '"' ∧ c ≠ '\x7b' ∧ c ≠ '\x7d') :
    ∀ st : BalancedScan, st.inString = false → st.current = none →
      t.foldl balancedStep st = st := by
  induction t with
  | nil => intro st _ _; rfl
  | cons c t ih =>
    intro st hs hc
    obtain ⟨h1, h2, h3⟩ := h c (List.mem_cons_self _ _)
    have hstep : balancedStep st c = st := by
      rw [balancedStep_plain st c hs h1 h2 h3, hc]
      obtain ⟨list, depth, current, inString, escaped⟩ := st
      dsimp only at hc
      subst hc
      rfl
    rw [List.foldl_cons, hstep]
    exact ih (fun x hx => h x (List.mem_cons_of_mem _ hx)) st hs hc

/-- The brace-balanced scan of a response that holds the wrapped JSON text between texts
without quotation marks and braces returns the wrapped text, and nothing else. -/
theorem extractBalancedJsonObjects_wrapped (before after first : Str) (rest : List (Nat × Str))
    (hb : ∀ c ∈ before, c ≠ '"' ∧ c ≠ '\x7b' ∧ c ≠ '\x7d')
    (ha : ∀ c ∈ after, c ≠ '"' ∧ c ≠ '\x7b' ∧ c ≠ '\x7d')
    (hfirst : first ≠ []) (hne : ∀ x ∈ rest, x.2 ≠ [])
    (hscan : extractBalancedJsonObjects (first ++ (rest.map fun x => x.2).flatten)
      = [first ++ (rest.map fun x => x.2).flatten])
    (hesc : ∀ k, k < rest.length →
      ((first ++ ((rest.take k).map fun x => x.2).flatten).foldl balancedStep
        { list := [], depth := 0, current := none, inString := false, escaped := false }).escaped
        = false) :
    extractBalancedJsonObjects (before ++ insertBreaks first rest ++ after)
      = [insertBreaks first rest] := by
  obtain ⟨e, he⟩ := scan_wrapped first rest hfirst hne hscan hesc
  unfold extractBalancedJsonObjects
  rw [List.foldl_append, List.foldl_append, scan_plain before hb _ rfl rfl, he,
    scan_plain after ha _ rfl rfl]

theorem stripCsi_clean (s : Str) (h : '\x1b' ∉ s) : ∀ fuel, stripCsi fuel s = s := by
  induction s with
  | nil => intro fuel; cases fuel <;> rfl
  | cons c cs ih =>
    intro fuel
    cases fuel with
    | zero => rfl
    | succ fuel =>
      have hc : c ≠ '\x1b' := fun hq => h (by rw [hq]; exact List.mem_cons_self _ _)
      unfold stripCsi
      rw [if_neg hc, ih fun hm => h (List.mem_cons_of_mem _ hm)]

theorem stripOsc_clean (s : Str) (h : '\x1b' ∉ s) : ∀ fuel, stripOsc fuel s = s := by
  induction s with
  | nil => intro fuel; cases fuel <;> rfl
  | cons c cs ih =>
    intro fuel
    cases fuel with
    | zero => rfl
    | succ fuel =>
      have hc : c ≠ '\x1b' := fun hq => h (by rw [hq]; exact List.mem_cons_self _ _)
      unfold stripOsc
      rw [if_neg hc, ih fun hm => h (List.mem_cons_of_mem _ hm)]

/-- A text without carriage return, escape and NUL characters is left as it is by
`normalizeInputText`. -/
theorem normalizeInputText_clean (t : Str)
    (h : ∀ c ∈ t, c ≠ '\r' ∧ c ≠ '\x1b' ∧ c ≠ '\x00') : normalizeInputText t = t := by
  unfold normalizeInputText
  have hmap : (t.map fun c => if c = '\r' then '\n' else c) = t := by
    conv_rhs => rw [← List.map_id t]
    apply List.map_congr_left
    intro c hc
    rw [if_neg (h c hc).1]
    rfl
  dsimp only
  rw [hmap, stripCsi_clean t (fun hm => (h _ hm).2.1 rfl),
    stripOsc_clean t (fun hm => (h _ hm).2.1 rfl)]
  exact filter_eq_self_of_not_mem t '\x00' fun hm => (h _ hm).2.2 rfl

theorem splitAtFirst_absent (c0 : Char) (t s : Str) (h : c0 ∉ s) :
    splitAtFirst (c0 :: t) s = none := by
  induction s with
  | nil => rfl
  | cons c cs ih =>
    have hc : c0 ≠ c := fun hq => h (by rw [hq]; exact List.mem_cons_self _ _)
    rw [splitAtFirst, if_neg, ih fun hm => h (List.mem_cons_of_mem _ hm)]
    · rfl
    · simp [List.isPrefixOf, hc]

theorem isPrefixOf_before (c0 : Char) (rest : Str) :
    ∀ (u body : Str), c0 ∉ u → u.isPrefixOf (body ++ c0 :: rest) = true →
      u.isPrefixOf body = true := by
  intro u
  induction u with
  | nil => intro body _ _; simp
  | cons x u ih =>
    intro body hu h
    cases body with
    | nil =>
      simp only [List.nil_append, List.isPrefixOf, Bool.and_eq_true, beq_iff_eq] at h
      exact absurd (List.mem_cons_self _ _) (h.1 ▸ hu)
    | cons b bs =>
      simp only [List.cons_append, List.isPrefixOf, Bool.and_eq_true, beq_iff_eq] at h ⊢
      exact ⟨h.1, ih bs (fun hm => hu (List.mem_cons_of_mem _ hm)) h.2⟩

/-- The first occurrence of a tag after a text that does not hold the tag: the tag starts
with a character that it does not hold a second time, so no occurrence overlaps it. -/
theorem splitAtFirst_after (c0 : Char) (t body tail : Str) (ht : c0 ∉ t)
    (h : splitAtFirst (c0 :: t) body = none) :
    splitAtFirst (c0 :: t) (body ++ (c0 :: t) ++ tail) = some (body, tail) := by
  induction body with
  | nil =>
    rw [List.nil_append, List.cons_append, splitAtFirst, if_pos]
    · simp
    · simp [List.isPrefixOf]
  | cons b bs ih =>
    rw [splitAtFirst] at h
    by_cases hp : (c0 :: t).isPrefixOf (b :: bs) = true
    · rw [if_pos hp] at h
      cases h
    · rw [if_neg hp] at h
      have hbs : splitAtFirst (c0 :: t) bs = none := by
        cases hs : splitAtFirst (c0 :: t) bs with
        | none => rfl
        | some r => rw [hs] at h; cases h
      rw [List.cons_append, List.cons_append, splitAtFirst, if_neg, ih hbs]
      · rfl
      · intro hq
        apply hp
        simp only [List.isPrefixOf, Bool.and_eq_true, beq_iff_eq] at hq ⊢
        refine ⟨hq.1, ?_⟩
        apply isPrefixOf_before c0 (t ++ tail) t bs ht
        simpa using hq.2

theorem extractTaggedLoop_absent (env : ParserEnv) (c0 : Char) (t closeTag s : Str)
    (h : c0 ∉ s) : ∀ fuel, extractTaggedLoop env (c0 :: t) closeTag fuel s = [] := by
  intro fuel
  cases fuel with
  | zero => rfl
  | succ fuel =>
    unfold extractTaggedLoop
    rw [splitAtFirst_absent c0 t s h]
    split_ifs <;> rfl

/-- The repair of `safeParseJson` on a wrapped text: the breaks, their indentation and the
white space that starts the segment after a break are removed. -/
theorem repairLineBreaks_wrapped (first : Str) (rest : List (Nat × Str))
    (hfirst : '\n' ∉ first ∧ '\r' ∉ first)
    (hrest : ∀ p ∈ rest, '\n' ∉ p.2 ∧ '\r' ∉ p.2) :
    repairLineBreaks (insertBreaks first rest)
      = trim (first ++ (rest.map fun p => trimStart p.2).flatten) := by
  unfold repairLineBreaks
  rw [filter_eq_self_of_not_mem]
  · unfold insertBreaks
    rw [removeBreaksAux_append _ _ hfirst.1,
      removeBreaksAux_pieces rest (fun p hp => (hrest p hp).1)]
  · unfold insertBreaks
    intro hm
    rcases List.mem_append.mp hm with hm | hm
    · exact hfirst.2 hm
    · rw [List.mem_flatten] at hm
      obtain ⟨l, hl, hxl⟩ := hm
      rw [List.mem_map] at hl
      obtain ⟨p, hp, rfl⟩ := hl
      rcases List.mem_cons.mp hxl with hx | hx
      · cases hx
      · rcases List.mem_append.mp hx with hx | hx
        · rw [List.mem_replicate] at hx
          exact absurd hx.2 (by decide)
        · exact (hrest p hp).2 hx

/-- What `safeParseJson` returns for the wrapped JSON text: the value of the text without
the breaks. -/
theorem safeParseJson_wrapped (env : ParserEnv) (first : Str) (rest : List (Nat × Str))
    (v : Json)
    (hfirst : '\n' ∉ first ∧ '\r' ∉ first)
    (hrest : ∀ p ∈ rest, ('\n' ∉ p.2 ∧ '\r' ∉ p.2) ∧ trimStart p.2 = p.2)
    (hW : trim (insertBreaks first rest) = insertBreaks first rest)
    (hJ : trim (first ++ (rest.map fun p => p.2).flatten)
      = first ++ (rest.map fun p => p.2).flatten)
    (hne : first ++ (rest.map fun p => p.2).flatten ≠ [])
    (hvalue : env.jsonParse (first ++ (rest.map fun p => p.2).flatten) = some v)
    (hparse : env.jsonParse (insertBreaks first rest) = none
      ∨ env.jsonParse (insertBreaks first rest) = some v) :
    safeParseJson env (insertBreaks first rest) = some v := by
  unfold safeParseJson
  dsimp only
  rw [hW]
  rcases hparse with hp | hp
  · rw [hp]
    dsimp only
    have hsame : (rest.map fun p => trimStart p.2) = rest.map fun p => p.2 :=
      List.map_congr_left fun p hp => (hrest p hp).2
    rw [repairLineBreaks_wrapped first rest hfirst (fun p hp => (hrest p hp).1), hsame, hJ,
      if_neg, hvalue]
    intro he
    exact hne (List.isEmpty_iff.mp he)
  · rw [hp]

theorem pickBestLoop_same (env : ParserEnv) (n : ScoredPlan) (l : List Json)
    (h : ∀ c ∈ l, normalizePlanCandidate env c = none ∨ normalizePlanCandidate env c = some n) :
    pickBestLoop env (some n) l = some n := by
  induction l with
  | nil => rfl
  | cons c rest ih =>
    unfold pickBestLoop
    have ih2 := ih fun x hx => h x (List.mem_cons_of_mem _ hx)
    rcases h c (List.mem_cons_self _ _) with hc | hc
    · rw [hc]
      exact ih2
    · rw [hc]
      dsimp only
      rw [if_neg (lt_irrefl _)]
      exact ih2

theorem pickBestLoop_only (env : ParserEnv) (n : ScoredPlan) (l : List Json)
    (h : ∀ c ∈ l, normalizePlanCandidate env c = none ∨ normalizePlanCandidate env c = some n)
    (hex : ∃ c ∈ l, normalizePlanCandidate env c = some n) :
    pickBestLoop env none l = some n := by
  induction l with
  | nil =>
    obtain ⟨c, hc, -⟩ := hex
    cases hc
  | cons c rest ih =>
    unfold pickBestLoop
    rcases h c (List.mem_cons_self _ _) with hc | hc
    · rw [hc]
      dsimp only
      apply ih (fun x hx => h x (List.mem_cons_of_mem _ hx))
      obtain ⟨d, hd, hd2⟩ := hex
      rcases List.mem_cons.mp hd with hd | hd
      · rw [hd, hc] at hd2
        cases hd2
      · exact ⟨d, hd, hd2⟩
    · rw [hc]
      exact pickBestLoop_same env n rest fun x hx => h x (List.mem_cons_of_mem _ hx)

theorem keepFirstPayload_fold (l : List Json) :
    ∀ kept : List Json,
      (∀ x ∈ kept, x ∈ l.foldl
        (fun kept v => if kept.any (fun p => Json.beq p v) then kept else kept ++ [v]) kept)
      ∧ ∀ x ∈ l.foldl
        (fun kept v => if kept.any (fun p => Json.beq p v) then kept else kept ++ [v]) kept,
          x ∈ kept ∨ x ∈ l := by
  induction l with
  | nil =>
    intro kept
    exact ⟨fun x hx => hx, fun x hx => Or.inl hx⟩
  | cons v rest ih =>
    intro kept
    rw [List.foldl_cons]
    obtain ⟨h1, h2⟩ := ih (if kept.any (fun p => Json.beq p v) then kept else kept ++ [v])
    constructor
    · intro x hx
      apply h1
      split_ifs
      · exact hx
      · exact List.mem_append_left _ hx
    · intro x hx
      rcases h2 x hx with hk | hr
      · split_ifs at hk
        · exact Or.inl hk
        · rcases List.mem_append.mp hk with hk | hk
          · exact Or.inl hk
          · rw [List.mem_singleton] at hk
            rw [hk]
            exact Or.inr (List.mem_cons_self _ _)
      · exact Or.inr (List.mem_cons_of_mem _ hr)

theorem keepFirstPayload_mem (l : List Json) (x : Json) (h : x ∈ keepFirstPayload l) :
    x ∈ l := by
  rcases (keepFirstPayload_fold l []).2 x h with h | h
  · cases h
  · exact h

theorem keepFirstPayload_head (v : Json) (l : List Json) : v ∈ keepFirstPayload (v :: l) := by
  unfold keepFirstPayload
  rw [List.foldl_cons]
  exact (keepFirstPayload_fold l _).1 v (by simp)

/-- A text that the scan returns as its one candidate starts and ends with a brace, so it
is not empty and `trim` leaves it as it is. -/
theorem trim_of_scanned (s : Str) (h : extractBalancedJsonObjects s = [s]) :
    s ≠ [] ∧ trim s = s := by
  obtain ⟨gaps, tl, -, -, hc⟩ := extract_weave s
  obtain ⟨h1, h2⟩ := hc s (by rw [h]; exact List.mem_singleton_self _)
  refine ⟨?_, trim_eq_self_of_ends s ?_ ?_⟩
  · intro hs
    rw [hs] at h1
    cases h1
  · intro c hc
    rw [h1] at hc
    injection hc with hc
    rw [← hc]
    decide
  · intro c hc
    rw [h2] at hc
    injection hc with hc
    rw [← hc]
    decide

theorem plain_of_space (c : Char) (h : isJsSpace c = true) :
    c ≠ '<' ∧ c ≠ '"' ∧ c ≠ '\x7b' ∧ c ≠ '\x7d' := by
  refine ⟨?_, ?_, ?_, ?_⟩ <;>
  · intro hq
    rw [hq] at h
    exact absurd h (by decide)

theorem planBlockAround_eq (lead body tail : Str) :
    planBlockAround lead body tail
      = lead ++ ('<' :: "task_plan_json>".toList)
          ++ (body ++ ('<' :: "/task_plan_json>".toList) ++ tail) := by
  unfold planBlockAround
  have e1 : "<task_plan_json>".toList = '<' :: "task_plan_json>".toList := by decide
  have e2 : "</task_plan_json>".toList = '<' :: "/task_plan_json>".toList := by decide
  rw [e1, e2]
  simp only [List.append_assoc]

/-- The payloads of the `task_plan_json` blocks of a response that holds one block between
texts without an opening angle bracket: the one payload of the block. -/
theorem extractAllTaggedJson_block (env : ParserEnv) (lead body tail : Str) (v : Json)
    (hclean : normalizeInputText (planBlockAround lead body tail)
      = planBlockAround lead body tail)
    (hlead : '<' ∉ lead) (htail : '<' ∉ tail)
    (hclose : splitAtFirst "</task_plan_json>".toList body = none)
    (hsafe : safeParseJson env (trim body) = some v) (hobject : isObject (some v) = true) :
    extractAllTaggedJson env (planBlockAround lead body tail) "task_plan_json" = [v] := by
  unfold extractAllTaggedJson
  dsimp only
  rw [hclean]
  have e1 : ('<' :: "task_plan_json".toList ++ ['>']) = '<' :: "task_plan_json>".toList := by
    decide
  have e2 : ('<' :: '/' :: "task_plan_json".toList ++ ['>'])
      = '<' :: "/task_plan_json>".toList := by
    decide
  have e3 : "</task_plan_json>".toList = '<' :: "/task_plan_json>".toList := by decide
  rw [e1, e2]
  rw [e3] at hclose
  generalize hfuel : (planBlockAround lead body tail).length = fuel
  cases fuel with
  | zero =>
    rw [planBlockAround_eq] at hfuel
    simp at hfuel
  | succ fuel =>
    unfold extractTaggedLoop
    rw [planBlockAround_eq]
    rw [if_neg (by simp),
      splitAtFirst_after '<' _ lead _ (by decide) (splitAtFirst_absent '<' _ lead hlead)]
    dsimp only
    rw [splitAtFirst_after '<' _ body tail (by decide) hclose]
    dsimp only
    rw [hsafe, if_pos hobject, extractTaggedLoop_absent env '<' _ _ tail htail]
    rfl

/-- C11 (as amended): plan extraction tolerates terminal line wrapping, except right before
white space and right after a backslash that starts an escape.  The response is prose
without angle brackets, quotation marks and braces, the opening tag, the JSON text between
white space, the closing tag and again such prose; it holds no carriage return, escape or
NUL character, the closing tag does not occur before the end of the block, and no fenced
block of it parses to a plan.  The JSON text `first ++ seg₁ ++ seg₂ ++ ...` is one that the
brace scan cuts out as one object and that `JSON.parse` reads as an object; a line feed
and some indentation blanks are inserted before every further segment, no segment is empty
or starts with white space, and at no break has the scan just read a backslash in a string
literal.  `JSON.parse` rejects the wrapped text (as it does when a break is in a string
value) or reads it as the same value (as it does when the breaks are between tokens).
Then `parseSupervisorPlanFromText` returns the plan of the value of the JSON text without
the breaks: it succeeds when that value holds a plan, and the instructions are those of the
original text. -/
theorem parseSupervisorPlanFromText_line_wrapped (env : ParserEnv)
    (lead pad1 first pad2 tail : Str) (rest : List (Nat × Str))
    (hclean : ∀ c ∈ lead ++ (pad1 ++ insertBreaks first rest ++ pad2) ++ tail,
      c ≠ '\r' ∧ c ≠ '\x1b' ∧ c ≠ '\x00')
    (hprose : ∀ c ∈ lead ++ tail, c ≠ '<' ∧ c ≠ '"' ∧ c ≠ '\x7b' ∧ c ≠ '\x7d')
    (hpad : ∀ c ∈ pad1 ++ pad2, isJsSpace c = true)
    (hfirst : first ≠ [] ∧ '\n' ∉ first)
    (hrest : ∀ p ∈ rest, '\n' ∉ p.2 ∧ p.2 ≠ [] ∧ trimStart p.2 = p.2)
    (hesc : ∀ k, k < rest.length →
      ((first ++ ((rest.take k).map fun p => p.2).flatten).foldl balancedStep
        { list := [], depth := 0, current := none, inString := false, escaped := false }).escaped
        = false)
    (hscan : extractBalancedJsonObjects (first ++ (rest.map fun p => p.2).flatten)
      = [first ++ (rest.map fun p => p.2).flatten])
    (hobject : isObject (env.jsonParse (first ++ (rest.map fun p => p.2).flatten)) = true)
    (hparse : env.jsonParse (insertBreaks first rest) = none
      ∨ env.jsonParse (insertBreaks first rest)
        = env.jsonParse (first ++ (rest.map fun p => p.2).flatten))
    (hclose : splitAtFirst "</task_plan_json>".toList (pad1 ++ insertBreaks first rest ++ pad2)
      = none)
    (hfence : ∀ raw ∈ extractJsonFromFencedBlocks
        (planBlockAround lead (pad1 ++ insertBreaks first rest ++ pad2) tail),
      ((safeParseJson env raw).bind (normalizePlanCandidate env)).isSome = false) :
    parseSupervisorPlanFromText env
        (planBlockAround lead (pad1 ++ insertBreaks first rest ++ pad2) tail)
      = ((env.jsonParse (first ++ (rest.map fun p => p.2).flatten)).bind
          (normalizePlanCandidate env)).map fun best =>
            { planSummary := best.planSummary, tasks := best.tasks } := by
  obtain ⟨v, hvalue⟩ : ∃ v, env.jsonParse (first ++ (rest.map fun p => p.2).flatten) = some v := by
    cases h : env.jsonParse (first ++ (rest.map fun p => p.2).flatten) with
    | none =>
      rw [h] at hobject
      exact absurd hobject (by decide)
    | some v => exact ⟨v, rfl⟩
  rw [hvalue] at hobject hparse ⊢
  rw [Option.some_bind]
  have hne : ∀ x ∈ rest, x.2 ≠ [] := fun x hx => (hrest x hx).2.1
  -- the scan cuts the wrapped text out as one candidate
  have hW : extractBalancedJsonObjects (insertBreaks first rest) = [insertBreaks first rest] := by
    have := extractBalancedJsonObjects_wrapped [] [] first rest (fun c hc => by cases hc)
      (fun c hc => by cases hc) hfirst.1 hne hscan hesc
    simpa using this
  obtain ⟨-, hWtrim⟩ := trim_of_scanned _ hW
  obtain ⟨hJne, hJtrim⟩ := trim_of_scanned _ hscan
  -- the wrapped text has no carriage return
  have hcr : ∀ c ∈ insertBreaks first rest, c ≠ '\r' := fun c hc =>
    (hclean c (by simp [hc])).1
  have hcr1 : '\r' ∉ first := fun hm =>
    hcr _ (by unfold insertBreaks; exact List.mem_append_left _ hm) rfl
  have hcr2 : ∀ p ∈ rest, '\r' ∉ p.2 := by
    intro p hp hm
    apply hcr '\r' _ rfl
    unfold insertBreaks
    apply List.mem_append_right
    rw [List.mem_flatten]
    exact ⟨_, List.mem_map_of_mem _ hp, by simp [hm]⟩
  have hsafe : safeParseJson env (insertBreaks first rest) = some v := by
    apply safeParseJson_wrapped env first rest v ⟨hfirst.2, hcr1⟩ ?_ hWtrim hJtrim hJne hvalue
      hparse
    intro p hp
    exact ⟨⟨(hrest p hp).1, hcr2 p hp⟩, (hrest p hp).2.2⟩
  -- the response is left as it is by the normalisation
  have hnorm : normalizeInputText
      (planBlockAround lead (pad1 ++ insertBreaks first rest ++ pad2) tail)
      = planBlockAround lead (pad1 ++ insertBreaks first rest ++ pad2) tail := by
    apply normalizeInputText_clean
    intro c hc
    unfold planBlockAround at hc
    simp only [List.mem_append] at hc hclean
    have htag1 : ∀ c ∈ "<task_plan_json>".toList, c ≠ '\r' ∧ c ≠ '\x1b' ∧ c ≠ '\x00' := by
      decide
    have htag2 : ∀ c ∈ "</task_plan_json>".toList, c ≠ '\r' ∧ c ≠ '\x1b' ∧ c ≠ '\x00' := by
      decide
    rcases hc with (((hc | hc) | hc) | hc) | hc
    · exact hclean c (Or.inl (Or.inl hc))
    · exact htag1 c hc
    · exact hclean c (Or.inl (Or.inr hc))
    · exact htag2 c hc
    · exact hclean c (Or.inr hc)
  have hbody : trim (pad1 ++ insertBreaks first rest ++ pad2) = insertBreaks first rest := by
    have hends := trim_of_scanned _ hW
    obtain ⟨gaps, tl, -, -, hc⟩ := extract_weave (insertBreaks first rest)
    obtain ⟨h1, h2⟩ := hc (insertBreaks first rest) (by rw [hW]; exact List.mem_singleton_self _)
    apply trim_padded pad1 _ pad2 (fun c hc => hpad c (List.mem_append_left _ hc))
      (fun c hc => hpad c (List.mem_append_right _ hc))
    · intro c hc
      rw [h1] at hc
      injection hc with hc
      rw [← hc]
      decide
    · intro c hc
      rw [h2] at hc
      injection hc with hc
      rw [← hc]
      decide
  have htagged : extractAllTaggedJson env
      (planBlockAround lead (pad1 ++ insertBreaks first rest ++ pad2) tail) "task_plan_json"
      = [v] :=
    extractAllTaggedJson_block env lead _ tail v hnorm
      (fun hm => (hprose '<' (List.mem_append_left _ hm)).1 rfl)
      (fun hm => (hprose '<' (List.mem_append_right _ hm)).1 rfl) hclose
      (by rw [hbody]; exact hsafe) hobject
  have hscanned : extractBalancedJsonObjects
      (planBlockAround lead (pad1 ++ insertBreaks first rest ++ pad2) tail)
      = [insertBreaks first rest] := by
    have e : planBlockAround lead (pad1 ++ insertBreaks first rest ++ pad2) tail
        = (lead ++ "<task_plan_json>".toList ++ pad1) ++ insertBreaks first rest
          ++ (pad2 ++ "</task_plan_json>".toList ++ tail) := by
      unfold planBlockAround
      simp only [List.append_assoc]
    rw [e]
    have htag1 : ∀ c ∈ "<task_plan_json>".toList, c ≠ '"' ∧ c ≠ '\x7b' ∧ c ≠ '\x7d' := by
      decide
    have htag2 : ∀ c ∈ "</task_plan_json>".toList, c ≠ '"' ∧ c ≠ '\x7b' ∧ c ≠ '\x7d' := by
      decide
    apply extractBalancedJsonObjects_wrapped _ _ first rest ?_ ?_ hfirst.1 hne hscan hesc
    · intro c hc
      simp only [List.mem_append] at hc
      rcases hc with (hc | hc) | hc
      · exact (hprose c (List.mem_append_left _ hc)).2
      · exact htag1 c hc
      · exact (plain_of_space c (hpad c (List.mem_append_left _ hc))).2
    · intro c hc
      simp only [List.mem_append] at hc
      rcases hc with (hc | hc) | hc
      · exact (plain_of_space c (hpad c (List.mem_append_right _ hc))).2
      · exact htag2 c hc
      · exact (hprose c (List.mem_append_right _ hc)).2
  -- every candidate is the value of the block or no plan
  unfold parseSupervisorPlanFromText pickBestPlanCandidate
  rw [collectJsonCandidates_gathered]
  have hmem : ∀ c ∈ gatheredInOrder env
      (planBlockAround lead (pad1 ++ insertBreaks first rest ++ pad2) tail),
      normalizePlanCandidate env c = none ∨ c = v := by
    intro c hc
    unfold gatheredInOrder at hc
    dsimp only at hc
    rw [hnorm, htagged, hscanned] at hc
    simp only [List.mem_append, List.mem_filter, List.mem_filterMap, List.mem_singleton] at hc
    rcases hc with (hc | hc) | hc
    · exact Or.inr hc.1
    · obtain ⟨⟨raw, hraw, hp⟩, -⟩ := hc
      left
      have := hfence raw hraw
      rw [hp] at this
      simpa using this
    · obtain ⟨⟨raw, hraw, hp⟩, -⟩ := hc
      right
      rw [hraw, hsafe] at hp
      injection hp with hp
      exact hp.symm
  have hhead : ∃ l, gatheredInOrder env
      (planBlockAround lead (pad1 ++ insertBreaks first rest ++ pad2) tail) = v :: l := by
    unfold gatheredInOrder
    dsimp only
    rw [hnorm, htagged, List.filter_cons, if_pos hobject]
    exact ⟨_, rfl⟩
  obtain ⟨l, hl⟩ := hhead
  have hv : v ∈ keepFirstPayload (gatheredInOrder env
      (planBlockAround lead (pad1 ++ insertBreaks first rest ++ pad2) tail)) := by
    rw [hl]
    exact keepFirstPayload_head v l
  have hall : ∀ c ∈ keepFirstPayload (gatheredInOrder env
      (planBlockAround lead (pad1 ++ insertBreaks first rest ++ pad2) tail)),
      normalizePlanCandidate env c = none ∨ c = v :=
    fun c hc => hmem c (keepFirstPayload_mem _ c hc)
  cases hn : normalizePlanCandidate env v with
  | none =>
    have hpick := pickBestLoop_none_of_all env _ (fun c hc => by
      rcases hall c hc with h | h
      · exact h
      · rw [h, hn])
    rw [hpick]
  | some n =>
    have hpick := pickBestLoop_only env n _ (fun c hc => by
      rcases hall c hc with h | h
      · exact Or.inl h
      · right
        rw [h, hn]) ⟨v, hv, hn⟩
    rw [hpick]

theorem parseSupervisorPlanFromText_line_wrapped_witness :
    parseSupervisorPlanFromText sampleParserEnv
        (planBlockAround "• ".toList
          ("\n".toList ++ insertBreaks wrappedFirst wrappedRest ++ "\n".toList) "\n".toList)
      = ((sampleParserEnv.jsonParse
            (wrappedFirst ++ (wrappedRest.map fun p => p.2).flatten)).bind
          (normalizePlanCandidate sampleParserEnv)).map (fun best =>
            { planSummary := best.planSummary, tasks := best.tasks })
      ∧ (parseSupervisorPlanFromText sampleParserEnv
          (planBlockAround "• ".toList
            ("\n".toList ++ insertBreaks wrappedFirst wrappedRest ++ "\n".toList)
            "\n".toList)).map (fun plan => plan.tasks.map fun t => t.instruction)
        = some ["run ```npm test``` in the repository".toList, "then report".toList] :=
  ⟨parseSupervisorPlanFromText_line_wrapped sampleParserEnv "• ".toList "\n".toList
      wrappedFirst "\n".toList "\n".toList wrappedRest (by decide!) (by decide!) (by decide!)
      (by decide!) (by decide!) (by decide!) (by decide!) (by decide!)
      (Or.inl (Option.isNone_iff_eq_none.mp (by decide!))) (by decide!) (by decide!),
    by decide!⟩

/-- C11, the claim as written fails in two ways.  The instruction `run tests` of a plan block
is wrapped right before its blank (a line feed and two indentation blanks are inserted); the
parser succeeds but returns the instruction `runtests`, the blank that followed the break
being removed with the indentation, while the block without the break gives `run tests`.
And an instruction with two escaped quotation marks around two closing braces is wrapped
between the backslash and the quotation mark of its first escape: the block itself is still read, but the brace scan now
takes the quotation mark for the end of the string literal and cuts out the member `backup`,
whose two tasks win over the one task of the plan; the instructions returned are `p` and
`q`, while the block without the break gives the original instruction. -/
theorem parseSupervisorPlanFromText_wrap_counterexample :
    ((parseSupervisorPlanFromText sampleParserEnv
        (planBlockHead ++ "\n  ".toList ++ planBlockTail)).map
        (fun plan => plan.tasks.map fun t => t.instruction) = some ["runtests".toList]
      ∧ (parseSupervisorPlanFromText sampleParserEnv (planBlockHead ++ planBlockTail)).map
        (fun plan => plan.tasks.map fun t => t.instruction) = some ["run tests".toList])
    ∧ ((parseSupervisorPlanFromText sampleParserEnv
        (escapedHead ++ "\n  ".toList ++ escapedTail)).map
        (fun plan => plan.tasks.map fun t => t.instruction) = some ["p".toList, "q".toList]
      ∧ (parseSupervisorPlanFromText sampleParserEnv (escapedHead ++ escapedTail)).map
        (fun plan => plan.tasks.map fun t => t.instruction)
          = some ["a\"\x7d\x7d\"b".toList]) := by
  decide!

end CodexSupervisor
